import Mathlib

/-!
# Splitwise: balance accounting and debt settlement

A shallow embedding of the C++ sources (`split_strategy.cpp`, `balance_sheet.cpp`,
`group.cpp`, `splitwise_manager.cpp`) and the properties proved about it.

Conventions of the embedding:

* `double` is embedded twice, a value being held as the rational number it stands for.
  The definitions named after the source alone (`EqualSplitStrategy.computeSplits`,
  `BalanceSheet.applyDelta`, `settleStep`, `SplitwiseManager.addExpense`) compute in exact
  arithmetic, with the literals `1e-6` and `1e-9` as the rationals `1/1000000` and
  `1/1000000000`: they carry the properties that no rounding touches, namely control flow,
  keys, identifiers, the notifier, and the scenarios whose values are exact in `double`.
  The definitions of the namespace `Double` are the same functions with every arithmetic
  operation rounded to the nearest IEEE 754 binary64 value (`binary64`): they carry the
  properties of the values computed.  Infinities and NaN are outside both.  The one
  infinite value the program uses, the default notification threshold, is `none` in an
  `Option ℚ`.
* `std::map<std::string, V>` is embedded as the list of its entries in iteration order
  (ascending keys), with operations that search by key and insert at the sorted position.
* `std::vector` is a `List`; a thrown exception is the `Except.error` of the result.
* `std::size_t` is a `Nat` reduced modulo `2 ^ 64`.
-/

namespace Splitwise

/-! ## Exceptions -/

/-- The exceptions the program throws, with their message. -/
inductive Error where
  | invalidArgument (what : String)
  | runtimeError (what : String)
  | outOfRange (what : String)
  deriving DecidableEq, Repr

deriving instance DecidableEq for Except

/-! ## `std::map<std::string, V>` -/

/-- An ordered map with string keys, as the list of its entries in iteration order. -/
abbrev StdMap (α : Type) := List (String × α)

namespace StdMap

variable {α : Type}

/-- Lookup by key (`find`): the first entry stored under `k`. -/
def find? : StdMap α → String → Option α
  | [], _ => none
  | (k', v) :: rest, k => if k' = k then some v else find? rest k

/-- Membership test by key (`count(k) != 0`). -/
def contains (m : StdMap α) (k : String) : Bool := (m.find? k).isSome

/-- Insertion of an absent key at its place in the ascending key order. -/
def insertNew : StdMap α → String → α → StdMap α
  | [], k, v => [(k, v)]
  | (k', v') :: rest, k, v =>
    if k < k' then (k, v) :: (k', v') :: rest else (k', v') :: insertNew rest k v

/-- Replacement of the value stored under a present key. -/
def modifyAt : StdMap α → String → (α → α) → StdMap α
  | [], _, _ => []
  | (k', v) :: rest, k, f =>
    if k' = k then (k', f v) :: rest else (k', v) :: modifyAt rest k f

/-- The call `emplace(k, v)`: inserts the entry unless the key is already present. -/
def emplace (m : StdMap α) (k : String) (v : α) : StdMap α :=
  if m.contains k then m else m.insertNew k v

/-- An update `m[k] = f(m[k])` through `operator[]`, which first inserts the
value-initialised `d` when the key is absent. -/
def alter (m : StdMap α) (k : String) (d : α) (f : α → α) : StdMap α :=
  if m.contains k then m.modifyAt k f else m.insertNew k (f d)

/-- The value read by `m[k]`: the stored one, or the value-initialised `d`. -/
def getD (m : StdMap α) (k : String) (d : α) : α := (m.find? k).getD d

/-- The keys in iteration order. -/
def keys (m : StdMap α) : List String := m.map Prod.fst

end StdMap

/-! ## `BalanceSheet` -/

/-- The type `BalanceSheet::BalanceMap`. -/
abbrev BalanceMap := StdMap ℚ

/-- The sum of all values of a balance map, as the tests accumulate it. -/
def BalanceMap.total (m : BalanceMap) : ℚ := (m.map Prod.snd).sum

/-- The tolerance `1e-9` below which `applyDelta` resets a balance to zero. -/
def SNAP : ℚ := 1 / 1000000000

/-- The constant `EPSILON = 1e-6` of `split_strategy.cpp` and `splitwise_manager.cpp`. -/
def EPSILON : ℚ := 1 / 1000000

/-- The class `BalanceSheet`. -/
structure BalanceSheet where
  balances_ : BalanceMap := []

namespace BalanceSheet

/-- One iteration of the loop of `applyDelta`:
`balances_[userId] += change; if (abs(balances_[userId]) < 1e-9) balances_[userId] = 0.0;`,
in exact arithmetic; on `double`s it is `Double.applyEntry`. -/
def applyEntry (b : BalanceMap) (userId : String) (change : ℚ) : BalanceMap :=
  let b1 := b.alter userId 0 (fun v => v + change)
  if |b1.getD userId 0| < SNAP then b1.alter userId 0 (fun _ => 0) else b1

/-- The method `BalanceSheet::applyDelta`, in exact arithmetic; on `double`s it is
`Double.applyDelta`. -/
def applyDelta (s : BalanceSheet) (delta : BalanceMap) : BalanceSheet :=
  { balances_ := delta.foldl (fun b e => applyEntry b e.1 e.2) s.balances_ }

/-- The method `BalanceSheet::clear`. -/
def clear (_s : BalanceSheet) : BalanceSheet := { balances_ := [] }

/-- The method `BalanceSheet::getBalances`. -/
def getBalances (s : BalanceSheet) : BalanceMap := s.balances_

end BalanceSheet

/-! ## Split strategies -/

/-- The struct `SplitInput`. -/
structure SplitInput where
  payerId : String := ""
  amount : ℚ := 0
  participantIds : List String := []
  exactShares : List ℚ := []
  percentShares : List ℚ := []
  deriving DecidableEq

/-- The call `std::accumulate(first, last, 0.0)`, in exact arithmetic; on `double`s it is
`Double.accumulate`. -/
def accumulate (xs : List ℚ) : ℚ := xs.foldl (fun acc x => acc + x) 0

/-- The method `EqualSplitStrategy::computeSplits`, in exact arithmetic; on `double`s it is
`Double.EqualSplitStrategy.computeSplits`. -/
def EqualSplitStrategy.computeSplits (input : SplitInput) : Except Error BalanceMap :=
  if input.participantIds.isEmpty then
    .error (.invalidArgument "Equal split requires at least one participant")
  else if input.amount < 0 then
    .error (.invalidArgument "Expense amount cannot be negative")
  else
    let share := input.amount / (input.participantIds.length : ℚ)
    let delta : BalanceMap := StdMap.alter [] input.payerId 0 (fun v => v + input.amount)
    .ok (input.participantIds.foldl (fun d participant => d.alter participant 0 (fun v => v - share))
      delta)

/-- The method `ExactSplitStrategy::computeSplits`, in exact arithmetic; on `double`s it is
`Double.ExactSplitStrategy.computeSplits`. -/
def ExactSplitStrategy.computeSplits (input : SplitInput) : Except Error BalanceMap :=
  if input.participantIds.length ≠ input.exactShares.length then
    .error (.invalidArgument "Exact split requires values for each participant")
  else
    let total := accumulate input.exactShares
    if |total - input.amount| > EPSILON then
      .error (.invalidArgument "Exact split shares must sum to the total amount")
    else
      let delta : BalanceMap := StdMap.alter [] input.payerId 0 (fun v => v + input.amount)
      .ok ((input.participantIds.zip input.exactShares).foldl
        (fun d e => d.alter e.1 0 (fun v => v - e.2)) delta)

/-- The method `PercentSplitStrategy::computeSplits`, in exact arithmetic; on `double`s it
is `Double.PercentSplitStrategy.computeSplits`. -/
def PercentSplitStrategy.computeSplits (input : SplitInput) : Except Error BalanceMap :=
  if input.participantIds.length ≠ input.percentShares.length then
    .error (.invalidArgument "Percent split requires percentages for each participant")
  else
    let totalPercent := accumulate input.percentShares
    if |totalPercent - 100| > EPSILON then
      .error (.invalidArgument "Percent split shares must sum to 100")
    else
      let delta : BalanceMap := StdMap.alter [] input.payerId 0 (fun v => v + input.amount)
      .ok ((input.participantIds.zip input.percentShares).foldl
        (fun d e => d.alter e.1 0 (fun v => v - input.amount * (e.2 / 100))) delta)

/-- The three implementations of the interface `SplitStrategy`. -/
inductive SplitStrategy where
  | equal
  | exact
  | percent
  deriving DecidableEq, Repr

/-- The virtual method `SplitStrategy::computeSplits`, in exact arithmetic; on `double`s it
is `Double.computeSplits`. -/
def SplitStrategy.computeSplits : SplitStrategy → SplitInput → Except Error BalanceMap
  | .equal, input => EqualSplitStrategy.computeSplits input
  | .exact, input => ExactSplitStrategy.computeSplits input
  | .percent, input => PercentSplitStrategy.computeSplits input

/-- The virtual method `SplitStrategy::name`. -/
def SplitStrategy.name : SplitStrategy → String
  | .equal => "equal"
  | .exact => "exact"
  | .percent => "percent"

/-! ## `SplitStrategyFactory` -/

/-- The function `std::tolower` in the default "C" locale, in which the program runs: the
letters `A` to `Z` go to `a` to `z` and every other character stays. -/
def tolower (c : Char) : Char :=
  if 'A' ≤ c ∧ c ≤ 'Z' then Char.ofNat (c.toNat + 32) else c

/-- The function `normalise` of `split_strategy_factory.cpp`. -/
def normalise (type : String) : String := String.mk (type.data.map tolower)

/-- The method `SplitStrategyFactory::create`. -/
def SplitStrategyFactory.create (type : String) : Except Error SplitStrategy :=
  let normalised := normalise type
  if normalised = "equal" then .ok .equal
  else if normalised = "exact" then .ok .exact
  else if normalised = "percent" then .ok .percent
  else .error (.invalidArgument ("Unknown split strategy type: " ++ type))

/-! ## Users, groups and expenses -/

/-- The class `User`. -/
structure User where
  id_ : String := ""
  name_ : String := ""
  deriving DecidableEq

/-- The class `Group`. -/
structure Group where
  id_ : String := ""
  name_ : String := ""
  memberIds_ : List String := []
  deriving DecidableEq

/-- The method `Group::hasMember`. -/
def Group.hasMember (g : Group) (userId : String) : Bool := g.memberIds_.contains userId

/-- The class `Expense`; every expense the manager stores carries a non-null strategy. -/
structure Expense where
  id_ : String
  groupId_ : String
  description_ : String
  input_ : SplitInput
  strategy_ : SplitStrategy
  deriving DecidableEq

/-- The struct `SettlementTransaction`. -/
structure SettlementTransaction where
  fromUserId : String
  toUserId : String
  amount : ℚ
  deriving DecidableEq

/-! ## `SplitwiseManager` -/

/-- The interface `INotifier`: an observer whose call may throw. -/
structure INotifier where
  notifyLargeExpense : Expense → ℚ → Except Error Unit

/-- The class `ConsoleNotifier`, which prints a line and returns. -/
def ConsoleNotifier : INotifier := { notifyLargeExpense := fun _ _ => .ok () }

/-- The class `SplitwiseManager`; a threshold of `none` is the default `+infinity`. -/
structure SplitwiseManager where
  users_ : StdMap User := []
  groups_ : StdMap Group := []
  expenses_ : StdMap Expense := []
  balanceSheet_ : BalanceSheet := {}
  notifier_ : Option INotifier := none
  notificationThreshold_ : Option ℚ := none
  counters_ : StdMap Nat := []

/-- What a call on the manager leaves behind: the value returned or the exception thrown,
the manager afterwards, and the calls made to the notifier. -/
structure Outcome (α : Type) where
  result : Except Error α
  state : SplitwiseManager
  notified : List (Expense × ℚ) := []

namespace SplitwiseManager

/-- The method `SplitwiseManager::generateId`:
`std::size_t count = ++counters_[prefix]; return prefix + std::to_string(count);`. -/
def generateId (m : SplitwiseManager) (pfx : String) : String × SplitwiseManager :=
  let counters := m.counters_.alter pfx 0 (fun c => (c + 1) % 2 ^ 64)
  (pfx ++ toString (counters.getD pfx 0), { m with counters_ := counters })

/-- The method `SplitwiseManager::addUser`. -/
def addUser (m : SplitwiseManager) (name : String) : Outcome String :=
  let (id, m1) := m.generateId "USR"
  let user : User := { id_ := id, name_ := name }
  { result := .ok id, state := { m1 with users_ := m1.users_.emplace id user } }

/-- The method `SplitwiseManager::addGroup`. -/
def addGroup (m : SplitwiseManager) (name : String) (memberIds : List String) : Outcome String :=
  match memberIds.find? (fun member => !m.users_.contains member) with
  | some member => { result := .error (.invalidArgument ("Unknown user id: " ++ member)), state := m }
  | none =>
    let (id, m1) := m.generateId "GRP"
    let group : Group := { id_ := id, name_ := name, memberIds_ := memberIds }
    { result := .ok id, state := { m1 with groups_ := m1.groups_.emplace id group } }

/-- The tail of `addExpense` once the delta is computed: the id, the stored expense, the
applied delta, and the notification. -/
def recordExpense (m : SplitwiseManager) (groupId description : String) (input : SplitInput)
    (strategy : SplitStrategy) (delta : BalanceMap) : Outcome String :=
  let (id, m1) := m.generateId "EXP"
  let expense : Expense := ⟨id, groupId, description, input, strategy⟩
  let m2 : SplitwiseManager := { m1 with expenses_ := m1.expenses_.emplace id expense }
  let m3 : SplitwiseManager := { m2 with balanceSheet_ := m2.balanceSheet_.applyDelta delta }
  match m3.notifier_, m3.notificationThreshold_ with
  | some notifier, some threshold =>
    if input.amount > threshold then
      match m3.expenses_.find? id with
      | none => { result := .error (.outOfRange "map::at"), state := m3 }
      | some stored =>
        match notifier.notifyLargeExpense stored threshold with
        | .error e => { result := .error e, state := m3, notified := [(stored, threshold)] }
        | .ok _ => { result := .ok id, state := m3, notified := [(stored, threshold)] }
    else { result := .ok id, state := m3 }
  | _, _ => { result := .ok id, state := m3 }

/-- The checks of `addExpense`, from the null test of the strategy pointer (`none`) to the
call `strategy->computeSplits(input)`: the exception thrown, or the strategy and its delta. -/
def checkExpense (m : SplitwiseManager) (groupId : String) (input : SplitInput)
    (strategy : Option SplitStrategy) : Except Error (SplitStrategy × BalanceMap) :=
  match strategy with
  | none => .error (.invalidArgument "Strategy must not be null")
  | some strat =>
    match m.groups_.find? groupId with
    | none => .error (.invalidArgument ("Unknown group id: " ++ groupId))
    | some group =>
      if input.participantIds.isEmpty then
        .error (.invalidArgument "Expense must include at least one participant")
      else if !group.hasMember input.payerId then
        .error (.invalidArgument "Payer must be part of the group")
      else if !input.participantIds.contains input.payerId then
        .error (.invalidArgument "Participants must include the payer")
      else
        match input.participantIds.find? (fun participant => !group.hasMember participant) with
        | some participant =>
          .error (.invalidArgument ("Participant not in group: " ++ participant))
        | none =>
          match strat.computeSplits input with
          | .error e => .error e
          | .ok delta => .ok (strat, delta)

/-- The method `SplitwiseManager::addExpense`: the checks, which leave the manager as it
is when one of them throws, and then the recording. -/
def addExpense (m : SplitwiseManager) (groupId description : String) (input : SplitInput)
    (strategy : Option SplitStrategy) : Outcome String :=
  match m.checkExpense groupId input strategy with
  | .error e => { result := .error e, state := m }
  | .ok (strat, delta) => m.recordExpense groupId description input strat delta

/-- The method `SplitwiseManager::getAllBalances`. -/
def getAllBalances (m : SplitwiseManager) : BalanceMap := m.balanceSheet_.getBalances

/-- The method `SplitwiseManager::getExpenses`. -/
def getExpenses (m : SplitwiseManager) : StdMap Expense := m.expenses_

/-- The method `SplitwiseManager::setNotifier`. -/
def setNotifier (m : SplitwiseManager) (notifier : Option INotifier) : SplitwiseManager :=
  { m with notifier_ := notifier }

/-- The method `SplitwiseManager::setNotificationThreshold`. -/
def setNotificationThreshold (m : SplitwiseManager) (threshold : Option ℚ) : SplitwiseManager :=
  { m with notificationThreshold_ := threshold }

/-- The loop of `recomputeBalances` over the entries of `expenses_` in iteration order; it
stops at the first strategy that throws. -/
def replay : List (String × Expense) → SplitwiseManager → Outcome Unit
  | [], m => { result := .ok (), state := m }
  | (_, expense) :: rest, m =>
    match expense.strategy_.computeSplits expense.input_ with
    | .error e => { result := .error e, state := m }
    | .ok delta => replay rest { m with balanceSheet_ := m.balanceSheet_.applyDelta delta }

/-- The method `SplitwiseManager::recomputeBalances`. -/
def recomputeBalances (m : SplitwiseManager) : Outcome Unit :=
  replay m.expenses_ { m with balanceSheet_ := m.balanceSheet_.clear }

/-- A call on the public interface of the manager. -/
inductive Call where
  | addUser (name : String)
  | addGroup (name : String) (memberIds : List String)
  | addExpense (groupId description : String) (input : SplitInput)
      (strategy : Option SplitStrategy)
  | setNotifier (notifier : Option INotifier)
  | setNotificationThreshold (threshold : Option ℚ)

/-- The manager after a call, whether the call returned or threw. -/
def exec (m : SplitwiseManager) : Call → SplitwiseManager
  | .addUser name => (m.addUser name).state
  | .addGroup name memberIds => (m.addGroup name memberIds).state
  | .addExpense groupId description input strategy =>
    (m.addExpense groupId description input strategy).state
  | .setNotifier notifier => m.setNotifier notifier
  | .setNotificationThreshold threshold => m.setNotificationThreshold threshold

/-- The manager after a sequence of calls. -/
def run (m : SplitwiseManager) (calls : List Call) : SplitwiseManager := calls.foldl exec m

/-- The delta a call applies to the balance sheet, if it applies one: that of an
`addExpense` call that passes the checks. -/
def appliedDelta (m : SplitwiseManager) : Call → Option BalanceMap
  | .addExpense groupId _ input strategy =>
    match m.checkExpense groupId input strategy with
    | .error _ => none
    | .ok (_, delta) => some delta
  | _ => none

end SplitwiseManager

/-! ## Greedy settlement -/

/-- The local struct `Entry` of `settleUpGreedy`. -/
structure Entry where
  userId : String
  amount : ℚ
  deriving DecidableEq

/-- The comparator `creditorCmp` of `settleUpGreedy`. -/
def creditorCmp (a b : Entry) : Bool := decide (a.amount < b.amount)

/-- The comparator `debtorCmp` of `settleUpGreedy`. -/
def debtorCmp (a b : Entry) : Bool := decide (a.amount > b.amount)

/-- The element `std::priority_queue::top` returns: one that the comparator puts before no
other element of the queue.  The queue is held as the list of its elements; among several
greatest elements, which the C++ standard leaves to the heap layout, the one nearest the
front of the list is taken. -/
def pqTop (cmp : Entry → Entry → Bool) : List Entry → Option Entry
  | [] => none
  | e :: rest =>
    match pqTop cmp rest with
    | none => some e
    | some best => if cmp e best then some best else some e

/-- The state of the loop of `settleUpGreedy`. -/
structure SettleState where
  creditorQueue : List Entry
  debtorQueue : List Entry
  result : List SettlementTransaction

/-- One iteration of the loop of `settleUpGreedy`, or `none` when the loop condition
`!creditorQueue.empty() && !debtorQueue.empty()` fails, in exact arithmetic; on `double`s it
is `Double.settleStep`. -/
def settleStep (s : SettleState) : Option SettleState :=
  match pqTop creditorCmp s.creditorQueue, pqTop debtorCmp s.debtorQueue with
  | some creditor, some debtor =>
    let creditorQueue := s.creditorQueue.erase creditor
    let debtorQueue := s.debtorQueue.erase debtor
    let settlement := min creditor.amount (-debtor.amount)
    let creditor1 : Entry := { creditor with amount := creditor.amount - settlement }
    let debtor1 : Entry := { debtor with amount := debtor.amount + settlement }
    some {
      creditorQueue :=
        if creditor1.amount > EPSILON then creditorQueue ++ [creditor1] else creditorQueue
      debtorQueue :=
        if debtor1.amount < -EPSILON then debtorQueue ++ [debtor1] else debtorQueue
      result := s.result ++ [⟨debtor.userId, creditor.userId, settlement⟩] }
  | _, _ => none

set_option linter.unusedVariables false in
/-- The loop of `settleUpGreedy`, run until its condition fails.  Every iteration removes an
entry from each queue and puts back at most one, so the recursion is well founded. -/
def settleLoop (s : SettleState) : List SettlementTransaction :=
  match h : settleStep s with
  | some next => settleLoop next
  | none => s.result
termination_by s.creditorQueue.length + s.debtorQueue.length
decreasing_by
  have top_mem : ∀ (cmp : Entry → Entry → Bool) (q : List Entry) (e : Entry),
      pqTop cmp q = some e → e ∈ q := by
    intro cmp q
    induction q with
    | nil => intro e he; simp [pqTop] at he
    | cons x rest ih =>
      intro e he
      unfold pqTop at he
      split at he
      · simp only [Option.some.injEq] at he
        simp [he]
      · next best hbest =>
        split at he
        · simp only [Option.some.injEq] at he
          exact List.mem_cons_of_mem _ (ih e (he ▸ hbest))
        · simp only [Option.some.injEq] at he
          simp [he]
  unfold settleStep at h
  split at h
  · next creditor debtor hc hd =>
    have hcm := top_mem _ _ _ hc
    have hdm := top_mem _ _ _ hd
    have hcl := List.length_erase_of_mem hcm
    have hdl := List.length_erase_of_mem hdm
    have hcpos := List.length_pos_of_mem hcm
    have hdpos := List.length_pos_of_mem hdm
    have heps : (0 : ℚ) < EPSILON := by norm_num [EPSILON]
    simp only [Option.some.injEq] at h
    subst h
    simp only
    by_cases h1 : creditor.amount - min creditor.amount (-debtor.amount) > EPSILON
    · have h2 : ¬ debtor.amount + min creditor.amount (-debtor.amount) < -EPSILON := by
        intro h2
        rcases min_choice creditor.amount (-debtor.amount) with hm | hm
        · rw [hm] at h1; linarith
        · rw [hm] at h2; linarith
      rw [if_pos h1, if_neg h2]
      simp only [List.length_append, List.length_singleton]
      omega
    · rw [if_neg h1]
      split
      · simp only [List.length_append, List.length_singleton]
        omega
      · omega
  · simp at h

/-- The first loop of `settleUpGreedy`, which fills the vectors `creditors` and `debtors`
from the balances in iteration order. -/
def partitionBalances : List (String × ℚ) → List Entry × List Entry
  | [] => ([], [])
  | (userId, balance) :: rest =>
    let (creditors, debtors) := partitionBalances rest
    if balance > EPSILON then (⟨userId, balance⟩ :: creditors, debtors)
    else if balance < -EPSILON then (creditors, ⟨userId, balance⟩ :: debtors)
    else (creditors, debtors)

/-- The method `SplitwiseManager::settleUpGreedy`. -/
def SplitwiseManager.settleUpGreedy (m : SplitwiseManager) : List SettlementTransaction :=
  let parts := partitionBalances m.balanceSheet_.getBalances
  settleLoop { creditorQueue := parts.1, debtorQueue := parts.2, result := [] }

/-! ## Measures on settlements -/

/-- The sum of the amounts of the transfers that leave user `u`. -/
def paidBy (u : String) (txs : List SettlementTransaction) : ℚ :=
  ((txs.filter (fun t => decide (t.fromUserId = u))).map (fun t => t.amount)).sum

/-- The sum of the amounts of the transfers that enter user `u`. -/
def receivedBy (u : String) (txs : List SettlementTransaction) : ℚ :=
  ((txs.filter (fun t => decide (t.toUserId = u))).map (fun t => t.amount)).sum

/-- The sum of `mag` over the entries of a queue that belong to user `u`. -/
def queued (mag : Entry → ℚ) (u : String) (q : List Entry) : ℚ :=
  ((q.filter (fun e => decide (e.userId = u))).map mag).sum

/-- The state of the settlement loop after at most `n` iterations: it stays as it is once
the loop condition fails. -/
def settleSteps : ℕ → SettleState → SettleState
  | 0, s => s
  | n + 1, s =>
    match settleStep s with
    | none => s
    | some next => settleSteps n next

/-- The balance received minus the balance paid by user `u` in a list of transfers. -/
def netReceived (u : String) (txs : List SettlementTransaction) : ℚ :=
  receivedBy u txs - paidBy u txs

/-- The balance of user `u` after the transfers `txs` are applied to the balances: the
payer of a transfer has its balance increased by the amount, the receiver decreased. -/
def balanceAfter (balances : BalanceMap) (txs : List SettlementTransaction) (u : String) : ℚ :=
  StdMap.getD balances u 0 + paidBy u txs - receivedBy u txs

/-- The sum of the balances of the creditors, those above `EPSILON`. -/
def totalCredit (balances : BalanceMap) : ℚ :=
  ((balances.filter (fun e => decide (e.2 > EPSILON))).map (fun e => e.2)).sum

/-- The sum of the magnitudes of the balances of the debtors, those below `-EPSILON`. -/
def totalDebt (balances : BalanceMap) : ℚ :=
  ((balances.filter (fun e => decide (e.2 < -EPSILON))).map (fun e => -e.2)).sum

/-! ## Call sequences on a balance sheet -/

/-- A call that changes a balance sheet: `applyDelta` or `clear`. -/
inductive SheetCall where
  | applyDelta (delta : BalanceMap)
  | clear

/-- The balance sheet after a call. -/
def BalanceSheet.exec (s : BalanceSheet) : SheetCall → BalanceSheet
  | .applyDelta delta => s.applyDelta delta
  | .clear => s.clear

/-- The balance sheet after a sequence of calls. -/
def BalanceSheet.run (s : BalanceSheet) (calls : List SheetCall) : BalanceSheet :=
  calls.foldl BalanceSheet.exec s

/-! ## The reset to zero of `applyDelta` -/

/-- The function `snap` of the specification: `0` when `|x| < 1e-9`, and `x` otherwise. -/
def snap (x : ℚ) : ℚ := if |x| < SNAP then 0 else x

/-! ## Acceptance of an expense, and the numbering of the expenses -/

/-- The conditions of `addExpense` on an expense with a non-null strategy: the group id
exists, there is a participant, the payer is a member of the group and a participant, every
participant is a member of the group, and the strategy computes the splits. -/
def SplitwiseManager.accepts (m : SplitwiseManager) (groupId : String) (input : SplitInput)
    (strategy : SplitStrategy) : Prop :=
  ∃ group, m.groups_.find? groupId = some group
    ∧ input.participantIds ≠ []
    ∧ group.hasMember input.payerId = true
    ∧ input.payerId ∈ input.participantIds
    ∧ (∀ participant ∈ input.participantIds, group.hasMember participant = true)
    ∧ ∃ delta, strategy.computeSplits input = .ok delta

/-- The expenses of a manager are numbered up to `n`: the counter of the prefix EXP is at
most `n`, and every key of the expense map is EXP followed by the numeral of a number up to
that counter. -/
def SplitwiseManager.Numbered (m : SplitwiseManager) (n : ℕ) : Prop :=
  m.counters_.getD "EXP" 0 ≤ n
  ∧ ∀ k, m.expenses_.contains k = true →
      ∃ j, j ≤ m.counters_.getD "EXP" 0 ∧ k = "EXP" ++ toString j

/-- The id an `addExpense` call returns, when the call is one and succeeds. -/
def SplitwiseManager.returnedId (m : SplitwiseManager) : SplitwiseManager.Call → Option String
  | .addExpense groupId description input strategy =>
    match (m.addExpense groupId description input strategy).result with
    | .ok id => some id
    | .error _ => none
  | _ => none

/-- The ids that the successful `addExpense` calls of a sequence of calls return, in the
order of the calls. -/
def SplitwiseManager.returnedIds : SplitwiseManager → List SplitwiseManager.Call → List String
  | _, [] => []
  | m, call :: rest => (m.returnedId call).toList ++ returnedIds (m.exec call) rest

/-- The ids that the calls of a sequence generate for an expense, in the order of the
calls: `addExpense` generates one when the call passes the checks. -/
def SplitwiseManager.recordedIds : SplitwiseManager → List SplitwiseManager.Call → List String
  | _, [] => []
  | m, call :: rest =>
    (if (m.appliedDelta call).isSome then [(m.generateId "EXP").1] else [])
      ++ recordedIds (m.exec call) rest

/-- The notifier of the manager, if one is set, never throws. -/
def SplitwiseManager.Quiet (m : SplitwiseManager) : Prop :=
  ∀ notifier, m.notifier_ = some notifier →
    ∀ expense threshold, notifier.notifyLargeExpense expense threshold = .ok ()

/-- The call does not set a notifier that throws. -/
def SplitwiseManager.Call.Quiet : SplitwiseManager.Call → Prop
  | .setNotifier (some notifier) =>
    ∀ expense threshold, notifier.notifyLargeExpense expense threshold = .ok ()
  | _ => True

/-- The manager has generated `c` expense ids and stores `c` expenses, under the ids EXP1
to EXP`c`. -/
def SplitwiseManager.Sequential (m : SplitwiseManager) (c : ℕ) : Prop :=
  m.counters_.getD "EXP" 0 = c
  ∧ m.expenses_.length = c
  ∧ ∀ k, k ∈ StdMap.keys m.expenses_
      ↔ k ∈ (List.range c).map (fun i => "EXP" ++ toString (i + 1))

/-- The value of a list of decimal digits, read after the value `acc` of the digits before
them. -/
def decodeDigits (cs : List Char) (acc : ℕ) : ℕ :=
  cs.foldl (fun a c => 10 * a + (c.toNat - 48)) acc

/-- A notifier that throws. -/
def failingNotifier : INotifier :=
  { notifyLargeExpense := fun _ _ => .error (.runtimeError "notifier failed") }

/-! ## The arithmetic of `double`

The definitions above compute in exact arithmetic.  The definitions of this part are the
same functions with every operation on a `double` rounded as the machine rounds it: to the
nearest value of the IEEE 754 binary64 format, a tie going to the even significand, each
operation on its own (no fused multiply-add, no extended precision).  A `double` is held as
the rational number it stands for.  Values beyond the largest finite `double` (overflow to
infinity) and NaN are outside this part: `binary64` rounds as if the exponent had no upper
limit. -/

/-- The integer part of the binary logarithm of `n`, by repeated halving; `fuel` bounds the
number of halvings. -/
def log2Fuel : ℕ → ℕ → ℕ
  | 0, _ => 0
  | fuel + 1, n => if n < 2 then 0 else log2Fuel fuel (n / 2) + 1

/-- The integer part of the binary logarithm of a positive natural number. -/
def ilog2 (n : ℕ) : ℕ := log2Fuel n n

/-- The power `2 ^ z` of an integer exponent, as a rational. -/
def pow2 (z : ℤ) : ℚ :=
  if 0 ≤ z then ((2 ^ z.toNat : ℕ) : ℚ) else 1 / ((2 ^ (-z).toNat : ℕ) : ℚ)

/-- The integer part of the binary logarithm of `n / d`. -/
def floorLog2 (n d : ℕ) : ℤ :=
  let l : ℤ := (ilog2 n : ℤ) - (ilog2 d : ℤ)
  if pow2 l * (d : ℚ) ≤ (n : ℚ) then l else l - 1

/-- Rounding to the nearest integer, a tie going to the even one. -/
def roundNearestEven (y : ℚ) : ℤ :=
  let f := ⌊y⌋
  let r := y - f
  if r < 1 / 2 then f else if 1 / 2 < r then f + 1 else if f % 2 = 0 then f else f + 1

/-- The value of the `double` nearest to `x`. -/
def binary64 (x : ℚ) : ℚ :=
  if x = 0 then 0
  else
    let e := max (floorLog2 x.num.natAbs x.den) (-1022)
    let q := pow2 (e - 52)
    let m := roundNearestEven (|x| / q)
    if 0 < x then m * q else -(m * q)

/-- The unit roundoff `2 ^ -53` of `double`. -/
def UNIT_ROUNDOFF : ℚ := 1 / 2 ^ 53

/-- Half the smallest positive `double`, `2 ^ -1075`: the most a rounding moves a value
below the normal range. -/
def HALF_DENORM_MIN : ℚ := 1 / 2 ^ 1075

namespace Double

/-- The sum `a + b` of two `double`s. -/
def add (a b : ℚ) : ℚ := binary64 (a + b)

/-- The difference `a - b` of two `double`s. -/
def sub (a b : ℚ) : ℚ := binary64 (a - b)

/-- The product `a * b` of two `double`s. -/
def mul (a b : ℚ) : ℚ := binary64 (a * b)

/-- The quotient `a / b` of two `double`s, for a divisor that is not zero. -/
def div (a b : ℚ) : ℚ := binary64 (a / b)

/-- The constant `EPSILON = 1e-6` of `split_strategy.cpp` and `splitwise_manager.cpp`: the
`double` nearest to 1e-6. -/
def EPSILON : ℚ := binary64 (1 / 1000000)

/-- The literal `1e-9` of `applyDelta`: the `double` nearest to 1e-9. -/
def SNAP : ℚ := binary64 (1 / 1000000000)

/-- The call `std::accumulate(first, last, 0.0)` on `double`s. -/
def accumulate (xs : List ℚ) : ℚ := xs.foldl (fun acc x => add acc x) 0

/-- The method `EqualSplitStrategy::computeSplits` on `double`s. -/
def EqualSplitStrategy.computeSplits (input : SplitInput) : Except Error BalanceMap :=
  if input.participantIds.isEmpty then
    .error (.invalidArgument "Equal split requires at least one participant")
  else if input.amount < 0 then
    .error (.invalidArgument "Expense amount cannot be negative")
  else
    let share := div input.amount (binary64 (input.participantIds.length : ℚ))
    let delta : BalanceMap := StdMap.alter [] input.payerId 0 (fun v => add v input.amount)
    .ok (input.participantIds.foldl
      (fun d participant => StdMap.alter d participant 0 (fun v => sub v share)) delta)

/-- The method `ExactSplitStrategy::computeSplits` on `double`s. -/
def ExactSplitStrategy.computeSplits (input : SplitInput) : Except Error BalanceMap :=
  if input.participantIds.length ≠ input.exactShares.length then
    .error (.invalidArgument "Exact split requires values for each participant")
  else
    let total := accumulate input.exactShares
    if |sub total input.amount| > EPSILON then
      .error (.invalidArgument "Exact split shares must sum to the total amount")
    else
      let delta : BalanceMap := StdMap.alter [] input.payerId 0 (fun v => add v input.amount)
      .ok ((input.participantIds.zip input.exactShares).foldl
        (fun d e => StdMap.alter d e.1 0 (fun v => sub v e.2)) delta)

/-- The method `PercentSplitStrategy::computeSplits` on `double`s. -/
def PercentSplitStrategy.computeSplits (input : SplitInput) : Except Error BalanceMap :=
  if input.participantIds.length ≠ input.percentShares.length then
    .error (.invalidArgument "Percent split requires percentages for each participant")
  else
    let totalPercent := accumulate input.percentShares
    if |sub totalPercent 100| > EPSILON then
      .error (.invalidArgument "Percent split shares must sum to 100")
    else
      let delta : BalanceMap := StdMap.alter [] input.payerId 0 (fun v => add v input.amount)
      .ok ((input.participantIds.zip input.percentShares).foldl
        (fun d e => StdMap.alter d e.1 0 (fun v => sub v (mul input.amount (div e.2 100))))
        delta)

/-- The virtual method `SplitStrategy::computeSplits` on `double`s. -/
def computeSplits : SplitStrategy → SplitInput → Except Error BalanceMap
  | .equal, input => EqualSplitStrategy.computeSplits input
  | .exact, input => ExactSplitStrategy.computeSplits input
  | .percent, input => PercentSplitStrategy.computeSplits input

/-- One iteration of the loop of `applyDelta` on `double`s:
`balances_[userId] += change; if (abs(balances_[userId]) < 1e-9) balances_[userId] = 0.0;`. -/
def applyEntry (b : BalanceMap) (userId : String) (change : ℚ) : BalanceMap :=
  let b1 := StdMap.alter b userId 0 (fun v => add v change)
  if |StdMap.getD b1 userId 0| < SNAP then StdMap.alter b1 userId 0 (fun _ => 0) else b1

/-- The method `BalanceSheet::applyDelta` on `double`s. -/
def applyDelta (s : BalanceSheet) (delta : BalanceMap) : BalanceSheet :=
  { balances_ := delta.foldl (fun b e => applyEntry b e.1 e.2) s.balances_ }

/-- The function `snap` of the specification with the tolerance of the code: `0` when `|x|`
is below the `double` nearest to 1e-9, and `x` otherwise. -/
def snap (x : ℚ) : ℚ := if |x| < SNAP then 0 else x

/-- The value left under an id of a delta by the loop `delta[id] -= share`: the shares are
subtracted one after the other, each difference rounded. -/
def debit (start : ℚ) (shares : List ℚ) : ℚ := shares.foldl (fun v share => sub v share) start

end Double

/-- The shares at the positions `i` with `participantIds[i] = u`, in the order of the
positions. -/
def sharesAt (u : String) (participantIds : List String) (shares : List ℚ) : List ℚ :=
  ((participantIds.zip shares).filter (fun e => decide (e.1 = u))).map (fun e => e.2)

/-- The sum of the magnitudes of the values of a balance map. -/
def BalanceMap.absTotal (m : BalanceMap) : ℚ := (m.map (fun e => |e.2|)).sum

/-- The bound on the rounding error of a loop of `n` rounded additions or subtractions on
values whose magnitudes sum to `w`:
`((1 + 2^-53)^n - 1) * w + n * 2^-1075 * (1 + 2^-53)^n`. -/
def loopError (n : ℕ) (w : ℚ) : ℚ :=
  ((1 + UNIT_ROUNDOFF) ^ n - 1) * w + n * HALF_DENORM_MIN * (1 + UNIT_ROUNDOFF) ^ n

/-- The shares that the loop of `computeSplits` subtracts, one for each participant id, as
the strategy on `double`s computes them: `amount / k` for Equal, the exact shares for
Exact, `amount * (p / 100.0)` for Percent. -/
def Double.debitedShares : SplitStrategy → SplitInput → List ℚ
  | .equal, input =>
    List.replicate input.participantIds.length
      (Double.div input.amount (binary64 (input.participantIds.length : ℚ)))
  | .exact, input => input.exactShares
  | .percent, input =>
    input.percentShares.map (fun p => Double.mul input.amount (Double.div p 100))

/-! ## Greedy settlement on `double`s -/

namespace Double

/-- One iteration of the loop of `settleUpGreedy` on `double`s, or `none` when the loop
condition fails: `std::min` and the negation are exact, `creditor.amount -= settlement` and
`debtor.amount += settlement` are rounded. -/
def settleStep (s : SettleState) : Option SettleState :=
  match pqTop creditorCmp s.creditorQueue, pqTop debtorCmp s.debtorQueue with
  | some creditor, some debtor =>
    let creditorQueue := s.creditorQueue.erase creditor
    let debtorQueue := s.debtorQueue.erase debtor
    let settlement := min creditor.amount (-debtor.amount)
    let creditor1 : Entry := { creditor with amount := sub creditor.amount settlement }
    let debtor1 : Entry := { debtor with amount := add debtor.amount settlement }
    some {
      creditorQueue :=
        if creditor1.amount > EPSILON then creditorQueue ++ [creditor1] else creditorQueue
      debtorQueue :=
        if debtor1.amount < -EPSILON then debtorQueue ++ [debtor1] else debtorQueue
      result := s.result ++ [⟨debtor.userId, creditor.userId, settlement⟩] }
  | _, _ => none

set_option linter.unusedVariables false in
/-- The loop of `settleUpGreedy` on `double`s, run until its condition fails.  The entry
that gives the settlement is reduced to exactly 0 and is not put back, so the recursion is
well founded. -/
def settleLoop (s : SettleState) : List SettlementTransaction :=
  match h : settleStep s with
  | some next => settleLoop next
  | none => s.result
termination_by s.creditorQueue.length + s.debtorQueue.length
decreasing_by
  have top_mem : ∀ (cmp : Entry → Entry → Bool) (q : List Entry) (e : Entry),
      pqTop cmp q = some e → e ∈ q := by
    intro cmp q
    induction q with
    | nil => intro e he; simp [pqTop] at he
    | cons x rest ih =>
      intro e he
      unfold pqTop at he
      split at he
      · simp only [Option.some.injEq] at he
        simp [he]
      · next best hbest =>
        split at he
        · simp only [Option.some.injEq] at he
          exact List.mem_cons_of_mem _ (ih e (he ▸ hbest))
        · simp only [Option.some.injEq] at he
          simp [he]
  unfold settleStep at h
  split at h
  · next creditor debtor hc hd =>
    have hcm := top_mem _ _ _ hc
    have hdm := top_mem _ _ _ hd
    have hcl := List.length_erase_of_mem hcm
    have hdl := List.length_erase_of_mem hdm
    have hcpos := List.length_pos_of_mem hcm
    have hdpos := List.length_pos_of_mem hdm
    have hE : EPSILON = 4722366482869645 / 4722366482869645213696 := by decide!
    have heps : (0 : ℚ) < EPSILON := by rw [hE]; norm_num
    have hz : binary64 0 = 0 := if_pos rfl
    simp only [Option.some.injEq] at h
    subst h
    simp only
    by_cases h1 : sub creditor.amount (min creditor.amount (-debtor.amount)) > EPSILON
    · have h2 : ¬ add debtor.amount (min creditor.amount (-debtor.amount)) < -EPSILON := by
        intro h2
        rcases min_choice creditor.amount (-debtor.amount) with hm | hm
        · rw [hm] at h1
          unfold sub at h1
          rw [sub_self, hz] at h1
          linarith
        · rw [hm] at h2
          unfold add at h2
          rw [add_neg_cancel, hz] at h2
          linarith
      rw [if_pos h1, if_neg h2]
      simp only [List.length_append, List.length_singleton]
      omega
    · rw [if_neg h1]
      split
      · simp only [List.length_append, List.length_singleton]
        omega
      · omega
  · simp at h

/-- The first loop of `settleUpGreedy` on `double`s, which fills the vectors `creditors` and
`debtors` from the balances in iteration order. -/
def partitionBalances : List (String × ℚ) → List Entry × List Entry
  | [] => ([], [])
  | (userId, balance) :: rest =>
    let (creditors, debtors) := partitionBalances rest
    if balance > EPSILON then (⟨userId, balance⟩ :: creditors, debtors)
    else if balance < -EPSILON then (creditors, ⟨userId, balance⟩ :: debtors)
    else (creditors, debtors)

/-- The method `SplitwiseManager::settleUpGreedy` on `double`s. -/
def settleUpGreedy (m : SplitwiseManager) : List SettlementTransaction :=
  let parts := partitionBalances m.balanceSheet_.getBalances
  settleLoop { creditorQueue := parts.1, debtorQueue := parts.2, result := [] }

/-- The invariant of one side (creditors, or debtors) of the settlement loop on `double`s,
for the initial queue `q0`, the current queue `q`, the totals `r` transferred so far and
the numbers `k` of transfers so far, with `mag` the magnitude of an entry on this side: a
user is queued at most once, every queued magnitude is above `EPSILON`, no total is
negative, a queued user's total and queued magnitude add up to the initial magnitude
within `loopError`, a user no longer queued has a total that is at most the initial
magnitude plus `loopError` and at least that magnitude less `EPSILON` and `loopError`, and
a user that was never queued has no transfer. -/
def SideInv (mag : Entry → ℚ) (q0 q : List Entry) (r : String → ℚ) (k : String → ℕ) : Prop :=
  (q.map (fun e => e.userId)).Nodup
  ∧ (∀ e ∈ q, mag e > EPSILON)
  ∧ (∀ u, 0 ≤ r u ∧ 0 ≤ queued mag u q0)
  ∧ (∀ u, u ∈ q.map (fun e => e.userId) →
      |r u + queued mag u q - queued mag u q0| ≤ loopError (k u) (queued mag u q0))
  ∧ (∀ u, u ∉ q.map (fun e => e.userId) →
      queued mag u q0 - EPSILON - loopError (k u) (queued mag u q0) ≤ r u
      ∧ r u ≤ queued mag u q0 + loopError (k u) (queued mag u q0))
  ∧ (∀ u, u ∈ q.map (fun e => e.userId) → u ∈ q0.map (fun e => e.userId))
  ∧ (∀ u, u ∉ q0.map (fun e => e.userId) → r u = 0 ∧ k u = 0)

/-- The sum of the balances of the creditors, those above `EPSILON`. -/
def totalCredit (balances : BalanceMap) : ℚ :=
  ((balances.filter (fun e => decide (e.2 > EPSILON))).map (fun e => e.2)).sum

/-- The sum of the magnitudes of the balances of the debtors, those below `-EPSILON`. -/
def totalDebt (balances : BalanceMap) : ℚ :=
  ((balances.filter (fun e => decide (e.2 < -EPSILON))).map (fun e => -e.2)).sum

end Double

/-- The number of the transfers that leave user `u`. -/
def paidCount (u : String) (txs : List SettlementTransaction) : ℕ :=
  (txs.filter (fun t => decide (t.fromUserId = u))).length

/-- The number of the transfers that enter user `u`. -/
def receivedCount (u : String) (txs : List SettlementTransaction) : ℕ :=
  (txs.filter (fun t => decide (t.toUserId = u))).length

/-- The invariant of the settlement loop on `double`s, for the initial queues `cs0` and
`ds0`: the invariant of the creditor side, whose magnitudes are the amounts, with the sums
and the numbers of the transfers received; that of the debtor side, whose magnitudes are
the negated amounts, with the sums and the numbers of the transfers paid; and, on either
side, the sum of the amounts transferred and of the magnitudes queued is within `loopError`
above the sum queued at the start. -/
def Double.SettleInv (cs0 ds0 : List Entry) (s : SettleState) : Prop :=
  Double.SideInv (fun e => e.amount) cs0 s.creditorQueue
      (fun u => receivedBy u s.result) (fun u => receivedCount u s.result)
  ∧ Double.SideInv (fun e => -e.amount) ds0 s.debtorQueue
      (fun u => paidBy u s.result) (fun u => paidCount u s.result)
  ∧ 0 ≤ (s.result.map (fun t => t.amount)).sum
  ∧ (s.result.map (fun t => t.amount)).sum + (s.creditorQueue.map (fun e => e.amount)).sum
      ≤ (cs0.map (fun e => e.amount)).sum
        + loopError s.result.length ((cs0.map (fun e => e.amount)).sum)
  ∧ (s.result.map (fun t => t.amount)).sum + (s.debtorQueue.map (fun e => -e.amount)).sum
      ≤ (ds0.map (fun e => -e.amount)).sum
        + loopError s.result.length ((ds0.map (fun e => -e.amount)).sum)

/-! ## `SplitwiseManager` on `double`s -/

namespace Double

/-- The tail of `addExpense` once the delta is computed, with `applyDelta` on `double`s. -/
def recordExpense (m : SplitwiseManager) (groupId description : String) (input : SplitInput)
    (strategy : SplitStrategy) (delta : BalanceMap) : Outcome String :=
  let (id, m1) := m.generateId "EXP"
  let expense : Expense := ⟨id, groupId, description, input, strategy⟩
  let m2 : SplitwiseManager := { m1 with expenses_ := m1.expenses_.emplace id expense }
  let m3 : SplitwiseManager := { m2 with balanceSheet_ := applyDelta m2.balanceSheet_ delta }
  match m3.notifier_, m3.notificationThreshold_ with
  | some notifier, some threshold =>
    if input.amount > threshold then
      match m3.expenses_.find? id with
      | none => { result := .error (.outOfRange "map::at"), state := m3 }
      | some stored =>
        match notifier.notifyLargeExpense stored threshold with
        | .error e => { result := .error e, state := m3, notified := [(stored, threshold)] }
        | .ok _ => { result := .ok id, state := m3, notified := [(stored, threshold)] }
    else { result := .ok id, state := m3 }
  | _, _ => { result := .ok id, state := m3 }

/-- The checks of `addExpense`, with the strategies on `double`s. -/
def checkExpense (m : SplitwiseManager) (groupId : String) (input : SplitInput)
    (strategy : Option SplitStrategy) : Except Error (SplitStrategy × BalanceMap) :=
  match strategy with
  | none => .error (.invalidArgument "Strategy must not be null")
  | some strat =>
    match m.groups_.find? groupId with
    | none => .error (.invalidArgument ("Unknown group id: " ++ groupId))
    | some group =>
      if input.participantIds.isEmpty then
        .error (.invalidArgument "Expense must include at least one participant")
      else if !group.hasMember input.payerId then
        .error (.invalidArgument "Payer must be part of the group")
      else if !input.participantIds.contains input.payerId then
        .error (.invalidArgument "Participants must include the payer")
      else
        match input.participantIds.find? (fun participant => !group.hasMember participant) with
        | some participant =>
          .error (.invalidArgument ("Participant not in group: " ++ participant))
        | none =>
          match computeSplits strat input with
          | .error e => .error e
          | .ok delta => .ok (strat, delta)

/-- The method `SplitwiseManager::addExpense` on `double`s. -/
def addExpense (m : SplitwiseManager) (groupId description : String) (input : SplitInput)
    (strategy : Option SplitStrategy) : Outcome String :=
  match checkExpense m groupId input strategy with
  | .error e => { result := .error e, state := m }
  | .ok (strat, delta) => recordExpense m groupId description input strat delta

/-- The manager after a call, whether the call returned or threw, on `double`s. -/
def exec (m : SplitwiseManager) : SplitwiseManager.Call → SplitwiseManager
  | .addUser name => (m.addUser name).state
  | .addGroup name memberIds => (m.addGroup name memberIds).state
  | .addExpense groupId description input strategy =>
    (addExpense m groupId description input strategy).state
  | .setNotifier notifier => m.setNotifier notifier
  | .setNotificationThreshold threshold => m.setNotificationThreshold threshold

/-- The manager after a sequence of calls, on `double`s. -/
def run (m : SplitwiseManager) (calls : List SplitwiseManager.Call) : SplitwiseManager :=
  calls.foldl exec m

/-- The loop of `recomputeBalances` over the entries of `expenses_` in iteration order, on
`double`s; it stops at the first strategy that throws. -/
def replay : List (String × Expense) → SplitwiseManager → Outcome Unit
  | [], m => { result := .ok (), state := m }
  | (_, expense) :: rest, m =>
    match computeSplits expense.strategy_ expense.input_ with
    | .error e => { result := .error e, state := m }
    | .ok delta => replay rest { m with balanceSheet_ := applyDelta m.balanceSheet_ delta }

/-- The method `SplitwiseManager::recomputeBalances` on `double`s. -/
def recomputeBalances (m : SplitwiseManager) : Outcome Unit :=
  replay m.expenses_ { m with balanceSheet_ := m.balanceSheet_.clear }

/-- The delta a call applies to the balance sheet, if it applies one: that of an
`addExpense` call that passes the checks. -/
def appliedDelta (m : SplitwiseManager) : SplitwiseManager.Call → Option BalanceMap
  | .addExpense groupId _ input strategy =>
    match checkExpense m groupId input strategy with
    | .error _ => none
    | .ok (_, delta) => some delta
  | _ => none

/-- The most that `balances_[userId] += change`, with its reset, can move the sum of the
balances away from the change: `1e-9` for the reset, and the rounding of the sum of the
balance and the change. -/
def entrySlack (b : BalanceMap) (userId : String) (change : ℚ) : ℚ :=
  1 / 1000000000 + (UNIT_ROUNDOFF * |StdMap.getD b userId 0 + change| + HALF_DENORM_MIN)

/-- The sum of `entrySlack` over the entries of a delta, each on the balances that the
entries before it leave. -/
def deltaSlack : BalanceMap → BalanceMap → ℚ
  | _, [] => 0
  | b, (userId, change) :: rest =>
    entrySlack b userId change + deltaSlack (applyEntry b userId change) rest

/-- The most a call can move the sum of all balances: the magnitude of the sum of the delta
it applies, and the `deltaSlack` of that delta on the balances of the manager. -/
def slack (m : SplitwiseManager) (call : SplitwiseManager.Call) : ℚ :=
  match appliedDelta m call with
  | none => 0
  | some delta => |delta.total| + deltaSlack m.balanceSheet_.balances_ delta

/-- The slack of a sequence of calls: the sum of the slack of each call, taken on the
manager the call finds. -/
def totalSlack : SplitwiseManager → List SplitwiseManager.Call → ℚ
  | _, [] => 0
  | m, call :: rest => slack m call + totalSlack (exec m call) rest

end Double

/-! ## Concrete call sequences used by the instances below -/

/-- The calls that create the users USR1, USR2, USR3 and the group GRP1 of all three. -/
def threeFriends : List SplitwiseManager.Call :=
  [.addUser "Alice", .addUser "Bob", .addUser "Carol",
   .addGroup "Friends" ["USR1", "USR2", "USR3"]]

/-- The input of `dinner`: 2 paid by USR1 and shared with USR3. -/
def dinnerInput : SplitInput :=
  { payerId := "USR1", amount := 2, participantIds := ["USR1", "USR3"] }

/-- An Equal split of 2 between USR1, who pays, and USR3. -/
def dinner : SplitwiseManager.Call := .addExpense "GRP1" "dinner" dinnerInput (some .equal)

/-- The input of `crumb`: 1e-9 paid by USR1 and shared with USR2. -/
def crumbInput : SplitInput :=
  { payerId := "USR1", amount := 1 / 1000000000, participantIds := ["USR1", "USR2"] }

/-- An Equal split of 1e-9 between USR1, who pays, and USR2: each share is 5e-10. -/
def crumb : SplitwiseManager.Call := .addExpense "GRP1" "crumb" crumbInput (some .equal)

/-- An Exact split of the negative amount -50 in the shares -25 and -25. -/
def refundExact : SplitInput :=
  { payerId := "USR1", amount := -50, participantIds := ["USR1", "USR2"],
    exactShares := [-25, -25] }

/-- A Percent split of the negative amount -200 in the percentages 40 and 60. -/
def refundPercent : SplitInput :=
  { payerId := "USR1", amount := -200, participantIds := ["USR1", "USR2"],
    percentShares := [40, 60] }

/-- The calls that create the users USR1, USR2 and the group GRP1 of both. -/
def twoFriends : List SplitwiseManager.Call :=
  [.addUser "Alice", .addUser "Bob", .addGroup "Trip" ["USR1", "USR2"]]

/-- The Exact split of the strategy tests: 50 in the shares 25 and 25. -/
def exactFifty : SplitInput :=
  { payerId := "payer", amount := 50, participantIds := ["payer", "friend"],
    exactShares := [25, 25] }

/-- The Percent split of the reconciliation test: 60 at 30, 30 and 40 percent, paid by B. -/
def percentSixty : SplitInput :=
  { payerId := "B", amount := 60, participantIds := ["A", "B", "C"],
    percentShares := [30, 30, 40] }

/-- An Exact split whose shares 30 and 10 do not sum to the amount 50. -/
def mismatchedExact : SplitInput :=
  { payerId := "USR1", amount := 50, participantIds := ["USR1", "USR2"],
    exactShares := [30, 10] }

/-- An Equal split of 10 between USR1, who pays, and USR2. -/
def taxiInput : SplitInput :=
  { payerId := "USR1", amount := 10, participantIds := ["USR1", "USR2"] }

/-- The balances of the reconciliation test after its three expenses. -/
def reconciled : SplitwiseManager :=
  { balanceSheet_ := { balances_ := [("A", 62), ("B", -18), ("C", -44)] } }

/-- Balances that sum to zero: two creditors, A and B, and three debtors, C, D and E. -/
def unevenBalances : BalanceMap := [("A", 5), ("B", 4), ("C", -4), ("D", -3), ("E", -2)]

/-- Three transfers that discharge `unevenBalances` exactly. -/
def threeTransfers : List SettlementTransaction :=
  [⟨"C", "B", 4⟩, ⟨"D", "A", 3⟩, ⟨"E", "A", 2⟩]

/-- The calls of the reconciliation test: the console notifier with the threshold 1000,
three users in one group, an Equal split of 120 paid by USR1, a Percent split of 60 at 30,
30 and 40 percent paid by USR2, and an Exact split of 45 in 20 and 25 between USR2 and
USR3, paid by USR3. -/
def reconciliationCalls : List SplitwiseManager.Call :=
  [.setNotifier (some ConsoleNotifier), .setNotificationThreshold (some 1000),
   .addUser "Alice", .addUser "Bob", .addUser "Carol",
   .addGroup "Friends" ["USR1", "USR2", "USR3"],
   .addExpense "GRP1" "Dinner"
     { payerId := "USR1", amount := 120, participantIds := ["USR1", "USR2", "USR3"] }
     (some .equal),
   .addExpense "GRP1" "Movie"
     { payerId := "USR2", amount := 60, participantIds := ["USR1", "USR2", "USR3"],
       percentShares := [30, 30, 40] }
     (some .percent),
   .addExpense "GRP1" "Taxi"
     { payerId := "USR3", amount := 45, participantIds := ["USR2", "USR3"],
       exactShares := [20, 25] }
     (some .exact)]

/-- An Equal split of 90 paid by P, who is not a participant, among a, listed twice, and
b. -/
def repeatedEqual : SplitInput :=
  { payerId := "P", amount := 90, participantIds := ["a", "a", "b"] }

/-- The calls that create two users in one group and set a notifier that throws, with the
threshold 0. -/
def failingSetup : List SplitwiseManager.Call :=
  twoFriends ++ [.setNotifier (some failingNotifier), .setNotificationThreshold (some 0)]

/-- The calls that create two users in one group and set the console notifier, with the
threshold 5. -/
def consoleSetup : List SplitwiseManager.Call :=
  twoFriends ++ [.setNotifier (some ConsoleNotifier), .setNotificationThreshold (some 5)]

/-- The balances of the reconciliation test after its three expenses, with one more user,
D, whose balance is zero. -/
def reconciledWithIdle : SplitwiseManager :=
  { balanceSheet_ := { balances_ := [("A", 62), ("B", -18), ("C", -44), ("D", 0)] } }

/-- The calls on a balance sheet that leave A at 5e-10 and then at 0, and B at 0 and then
at 1. -/
def residueCalls : List SheetCall :=
  [.applyDelta [("A", 1), ("B", 1 / 2000000000)],
   .applyDelta [("A", -1 + 1 / 2000000000), ("B", 1)]]

/-- The calls that record an expense while the notifier throws, remove the notifier and
record the same expense again. -/
def retryCalls : List SplitwiseManager.Call :=
  failingSetup ++
    [.addExpense "GRP1" "taxi" taxiInput (some .equal), .setNotifier none,
     .addExpense "GRP1" "taxi" taxiInput (some .equal)]

/-! ## Concrete inputs for the arithmetic of `double` -/

/-- An Equal split of 1e9 paid by USR1 among USR1, USR2 and USR3. -/
def billionAmongThree : SplitInput :=
  { payerId := "USR1", amount := 1000000000, participantIds := ["USR1", "USR2", "USR3"] }

/-- An Equal split of 100 paid by USR1 among USR1, USR2 and USR3. -/
def hundredAmongThree : SplitInput :=
  { payerId := "USR1", amount := 100, participantIds := ["USR1", "USR2", "USR3"] }

/-- An Equal split of 100 paid by P among seven participant ids, of which three are a. -/
def hundredAmongSeven : SplitInput :=
  { payerId := "P", amount := 100, participantIds := ["a", "a", "a", "b", "c", "d", "e"] }

/-- The `double` that the literal `1000000000.1` denotes. -/
def billionAndDime : ℚ := 8388608000838861 / 8388608

/-- The `double` that the literal `0.7` denotes. -/
def sevenTenths : ℚ := 3152519739159347 / 4503599627370496

/-- The `double` that the literal `999999999.4` denotes. -/
def billionLessSixTenths : ℚ := 8388607994966835 / 8388608

/-- An Exact split of 1000000000.1 paid by a, in the shares 0.7 for a and 999999999.4 for
b. -/
def dimeOverBillion : SplitInput :=
  { payerId := "a", amount := billionAndDime, participantIds := ["a", "b"],
    exactShares := [sevenTenths, billionLessSixTenths] }

/-- A Percent split of 50 paid by P1, at 55 percent for P1 and 45 percent for P2. -/
def fiftyAtFiftyFive : SplitInput :=
  { payerId := "P1", amount := 50, participantIds := ["P1", "P2"], percentShares := [55, 45] }

/-- The `double` that the literal `25.000001` denotes. -/
def twentyFiveAndAMillionth : ℚ := 7036874699241377 / 281474976710656

/-- An Exact split of 50 in the shares 25 and 25.000001. -/
def nearFifty : SplitInput :=
  { payerId := "payer", amount := 50, participantIds := ["payer", "friend"],
    exactShares := [25, twentyFiveAndAMillionth] }

/-- The `double` that the literal `1.000001` denotes. -/
def oneAndAMillionth : ℚ := 4503604130970123 / 4503599627370496

/-- An Exact split of 3 in the shares 1, 1 and 1.000001. -/
def nearThree : SplitInput :=
  { payerId := "a", amount := 3, participantIds := ["a", "b", "c"],
    exactShares := [1, 1, oneAndAMillionth] }

/-- An Exact split of 1e17 in the shares 1e17 and 1. -/
def absorbedExact : SplitInput :=
  { payerId := "a", amount := 100000000000000000, participantIds := ["a", "b"],
    exactShares := [100000000000000000, 1] }

/-- A Percent split of 1 at the percentages 50, 1e18, -1e18 and 100. -/
def absorbedPercent : SplitInput :=
  { payerId := "a", amount := 1, participantIds := ["a", "b", "c", "d"],
    percentShares := [50, 1000000000000000000, -1000000000000000000, 100] }

/-- An Equal split of 100 paid by A among A, B, C and D. -/
def hundredAmongFour : SplitInput :=
  { payerId := "A", amount := 100, participantIds := ["A", "B", "C", "D"] }

/-- An Exact split of 0 with the one share that is the `double` nearest to 1e-6. -/
def toleranceExact : SplitInput :=
  { payerId := "p", amount := 0, participantIds := ["p"], exactShares := [Double.EPSILON] }

/-- The Exact split of the strategy tests that is rejected: 50 in the shares 30 and 10. -/
def mismatchedFifty : SplitInput :=
  { payerId := "payer", amount := 50, participantIds := ["payer", "friend"],
    exactShares := [30, 10] }

/-- The Percent split of the strategy tests that is rejected: one percentage for two
participants. -/
def onePercentage : SplitInput :=
  { payerId := "payer", amount := 200, participantIds := ["payer", "friend"],
    percentShares := [30] }

/-- The delta that the `double`s nearest to -5.0000000005 and 1.000000001 and the value 0.5
form for A, B and C. -/
def residueDelta : BalanceMap :=
  [("A", binary64 (-(5 + 1 / 2000000000))), ("B", binary64 (1 + 1 / 1000000000)),
   ("C", 1 / 2)]

/-- The `double` that the literal `50.0000005` denotes. -/
def fiftyAndAHalfMillionth : ℚ := 879609311016893 / 17592186044416

/-- A Percent split of 1e9 paid by USR1, at 50 percent for USR1 and 50.0000005 percent for
USR2. -/
def skewedBillion : SplitInput :=
  { payerId := "USR1", amount := 1000000000, participantIds := ["USR1", "USR2"],
    percentShares := [50, fiftyAndAHalfMillionth] }

/-- The balances 225.44, 229.73, 118.17 and -490.93, as `double`s. -/
def overpaidBalances : SplitwiseManager :=
  { balanceSheet_ := { balances_ :=
      [("A", binary64 (22544 / 100)), ("B", binary64 (22973 / 100)),
       ("C", binary64 (11817 / 100)), ("D", binary64 (-(49093 / 100)))] } }

/-- The balances 14.930001, -5.87, -5.58, -3.48 and -0.11, as `double`s. -/
def shortBalances : SplitwiseManager :=
  { balanceSheet_ := { balances_ :=
      [("A", binary64 (14930001 / 1000000)), ("D0", binary64 (-(587 / 100))),
       ("D1", binary64 (-(558 / 100))), ("D2", binary64 (-(348 / 100))),
       ("D3", binary64 (-(11 / 100)))] } }

/-- The call that records an Equal split of 1e9 paid by USR1 among the three members of
GRP1. -/
def billionSplit : SplitwiseManager.Call :=
  .addExpense "GRP1" "rent" billionAmongThree (some .equal)

/-! ## Lemmas on `std::map` -/

namespace StdMap

variable {α : Type}

theorem contains_eq_false_iff (m : StdMap α) (k : String) :
    m.contains k = false ↔ m.find? k = none := by
  simp [contains]

theorem find?_insertNew (m : StdMap α) (k u : String) (v : α) (h : m.find? k = none) :
    (m.insertNew k v).find? u = if k = u then some v else m.find? u := by
  induction m with
  | nil => simp [insertNew, find?]
  | cons e rest ih =>
    obtain ⟨k1, v1⟩ := e
    simp only [find?] at h
    by_cases hk : k1 = k
    · simp [hk] at h
    · simp only [hk, if_false] at h
      simp only [insertNew]
      split
      · simp [find?]
      · simp only [find?, ih h]
        by_cases hu : k1 = u
        · have : ¬ k = u := fun hku => hk (hu.trans hku.symm)
          simp [hu, this]
        · simp [hu]

theorem find?_modifyAt (m : StdMap α) (k u : String) (f : α → α) :
    (m.modifyAt k f).find? u = if k = u then (m.find? k).map f else m.find? u := by
  induction m with
  | nil => simp [modifyAt, find?]
  | cons e rest ih =>
    obtain ⟨k1, v1⟩ := e
    simp only [modifyAt]
    by_cases hk : k1 = k
    · subst hk
      by_cases hu : k1 = u <;> simp [find?, hu]
    · simp only [hk, if_false, find?, ih]
      by_cases hu : k1 = u
      · have : ¬ k = u := fun hku => hk (hu.trans hku.symm)
        simp [hu, this]
      · simp [hu]

theorem find?_alter (m : StdMap α) (k u : String) (d : α) (f : α → α) :
    (m.alter k d f).find? u = if k = u then some (f (m.getD k d)) else m.find? u := by
  unfold alter
  by_cases hc : m.contains k = true
  · rw [if_pos hc, find?_modifyAt]
    have : ∃ v, m.find? k = some v := by
      simpa [contains, Option.isSome_iff_exists] using hc
    obtain ⟨v, hv⟩ := this
    simp [getD, hv]
  · have hn : m.find? k = none := (contains_eq_false_iff m k).1 (by simpa using hc)
    rw [if_neg hc, find?_insertNew _ _ _ _ hn]
    simp [getD, hn]

theorem getD_alter (m : StdMap α) (k u : String) (d : α) (f : α → α) :
    (m.alter k d f).getD u d = if k = u then f (m.getD k d) else m.getD u d := by
  unfold getD
  rw [find?_alter]
  by_cases h : k = u <;> simp [h, getD]

theorem contains_alter (m : StdMap α) (k u : String) (d : α) (f : α → α) :
    (m.alter k d f).contains u = (decide (k = u) || m.contains u) := by
  unfold contains
  rw [find?_alter]
  by_cases h : k = u <;> simp [h]

end StdMap

namespace BalanceMap

theorem total_insertNew (m : BalanceMap) (k : String) (v : ℚ) :
    total (StdMap.insertNew m k v) = total m + v := by
  induction m with
  | nil => simp [StdMap.insertNew, total]
  | cons e rest ih =>
    obtain ⟨k1, v1⟩ := e
    simp only [StdMap.insertNew]
    split
    · simp only [total, List.map_cons, List.sum_cons]; ring
    · simp only [total, List.map_cons, List.sum_cons] at ih ⊢
      rw [ih]; ring

theorem total_modifyAt (m : BalanceMap) (k : String) (f : ℚ → ℚ) (v : ℚ)
    (h : StdMap.find? m k = some v) :
    total (StdMap.modifyAt m k f) = total m - v + f v := by
  induction m with
  | nil => simp [StdMap.find?] at h
  | cons e rest ih =>
    obtain ⟨k1, v1⟩ := e
    simp only [StdMap.find?] at h
    simp only [StdMap.modifyAt]
    by_cases hk : k1 = k
    · simp only [hk, if_true, Option.some.injEq] at h
      subst h
      simp only [hk, if_true, total, List.map_cons, List.sum_cons]; ring
    · simp only [hk, if_false] at h
      simp only [hk, if_false, total, List.map_cons, List.sum_cons] at ih ⊢
      rw [ih h]; ring

theorem total_alter (m : BalanceMap) (k : String) (f : ℚ → ℚ) :
    total (StdMap.alter m k 0 f) = total m - StdMap.getD m k 0 + f (StdMap.getD m k 0) := by
  unfold StdMap.alter
  by_cases hc : StdMap.contains m k = true
  · have : ∃ v, StdMap.find? m k = some v := by
      simpa [StdMap.contains, Option.isSome_iff_exists] using hc
    obtain ⟨v, hv⟩ := this
    rw [if_pos hc, total_modifyAt m k f v hv]
    simp [StdMap.getD, hv]
  · have hn : StdMap.find? m k = none :=
      (StdMap.contains_eq_false_iff m k).1 (by simpa using hc)
    rw [if_neg hc, total_insertNew]
    simp [StdMap.getD, hn]

end BalanceMap

/-! ## Lemmas on the strategies -/

/-- The total of a delta after a loop of debits `delta[key e] -= g e`. -/
theorem total_foldl_debit {β : Type} (key : β → String) (g : β → ℚ) (es : List β)
    (d : BalanceMap) :
    BalanceMap.total (es.foldl (fun d e => StdMap.alter d (key e) 0 (fun v => v - g e)) d)
      = BalanceMap.total d - (es.map g).sum := by
  induction es generalizing d with
  | nil => simp
  | cons e rest ih =>
    simp only [List.foldl_cons, List.map_cons, List.sum_cons]
    rw [ih, BalanceMap.total_alter]
    ring

theorem total_payer_credit (payerId : String) (amount : ℚ) :
    BalanceMap.total (StdMap.alter [] payerId 0 (fun v => v + amount)) = amount := by
  rw [BalanceMap.total_alter]
  simp [BalanceMap.total, StdMap.getD, StdMap.find?]

theorem equal_computeSplits_ok (input : SplitInput) (delta : BalanceMap)
    (h : EqualSplitStrategy.computeSplits input = .ok delta) :
    input.participantIds ≠ [] ∧ 0 ≤ input.amount ∧
    delta = input.participantIds.foldl
      (fun d participant => StdMap.alter d participant 0
        (fun v => v - input.amount / (input.participantIds.length : ℚ)))
      (StdMap.alter [] input.payerId 0 (fun v => v + input.amount)) := by
  unfold EqualSplitStrategy.computeSplits at h
  split_ifs at h with h1 h2
  simp only [Except.ok.injEq] at h
  refine ⟨?_, not_lt.1 h2, h.symm⟩
  simpa using h1

theorem equal_total (input : SplitInput) (delta : BalanceMap)
    (h : EqualSplitStrategy.computeSplits input = .ok delta) : delta.total = 0 := by
  obtain ⟨hne, _, hd⟩ := equal_computeSplits_ok input delta h
  rw [hd]
  have := total_foldl_debit (fun p : String => p)
    (fun _ => input.amount / (input.participantIds.length : ℚ)) input.participantIds
    (StdMap.alter [] input.payerId 0 (fun v => v + input.amount))
  rw [this, total_payer_credit]
  have hlen : (input.participantIds.length : ℚ) ≠ 0 := by
    have : input.participantIds.length ≠ 0 := by simpa using hne
    exact_mod_cast this
  simp only [List.map_const', List.sum_replicate, nsmul_eq_mul]
  field_simp

theorem find?_of_contains {α : Type} (m : StdMap α) (u : String) (d : α)
    (h : m.contains u = true) : m.find? u = some (m.getD u d) := by
  obtain ⟨v, hv⟩ : ∃ v, m.find? u = some v := by
    simpa [StdMap.contains, Option.isSome_iff_exists] using h
  simp [StdMap.getD, hv]

theorem equal_computeSplits_error_iff (input : SplitInput) :
    (∃ what, EqualSplitStrategy.computeSplits input = .error (.invalidArgument what))
      ↔ (input.participantIds = [] ∨ input.amount < 0) := by
  unfold EqualSplitStrategy.computeSplits
  by_cases h1 : input.participantIds = []
  · simp [h1]
  · by_cases h2 : input.amount < 0
    · simp [h1, h2]
    · simp [h1, h2]

theorem equal_computeSplits_ok_iff (input : SplitInput) :
    (∃ delta, EqualSplitStrategy.computeSplits input = .ok delta)
      ↔ ¬ (input.participantIds = [] ∨ input.amount < 0) := by
  unfold EqualSplitStrategy.computeSplits
  by_cases h1 : input.participantIds = []
  · simp [h1]
  · by_cases h2 : input.amount < 0
    · simp [h1, h2]
    · simp [h1, h2]

/-! ## The validation of the Equal strategy: claim C9 -/

/-- C9: the Equal strategy fails, with an invalid-argument error, exactly when there is no
participant or the amount is negative, and succeeds otherwise; the amount 0 with at least
one participant succeeds, and a default-constructed `SplitInput` fails. -/
theorem equal_split_validation :
    (∀ input : SplitInput,
      ((∃ what, EqualSplitStrategy.computeSplits input = .error (.invalidArgument what))
        ↔ (input.participantIds = [] ∨ input.amount < 0))
      ∧ ((∃ delta, EqualSplitStrategy.computeSplits input = .ok delta)
        ↔ ¬ (input.participantIds = [] ∨ input.amount < 0)))
    ∧ (∀ input : SplitInput, input.amount = 0 → input.participantIds ≠ [] →
        ∃ delta, EqualSplitStrategy.computeSplits input = .ok delta)
    ∧ (∃ what, EqualSplitStrategy.computeSplits {} = .error (.invalidArgument what)) := by
  refine ⟨fun input => ⟨equal_computeSplits_error_iff input, equal_computeSplits_ok_iff input⟩,
    ?_, ?_⟩
  · intro input h0 hne
    refine (equal_computeSplits_ok_iff input).2 ?_
    rintro (h | h)
    · exact hne h
    · rw [h0] at h; exact lt_irrefl _ h
  · exact ⟨"Equal split requires at least one participant", by decide!⟩

/-! ## Lemmas on the balance sheet and the manager -/

namespace SplitwiseManager

theorem addUser_balanceSheet (m : SplitwiseManager) (name : String) :
    (m.addUser name).state.balanceSheet_ = m.balanceSheet_ := rfl

theorem addGroup_balanceSheet (m : SplitwiseManager) (name : String) (memberIds : List String) :
    (m.addGroup name memberIds).state.balanceSheet_ = m.balanceSheet_ := by
  unfold addGroup
  split <;> rfl

end SplitwiseManager

/-! ## Recomputing the balances: claims C3 and C4 -/

/-- C3, the failing input: nine Equal splits of 1e-9 between USR1 and USR2 (EXP1 to EXP9,
each reset to zero on both sides) and then an Equal split of 2 between USR1 and USR3
(EXP10) leave USR1 at 1; `recomputeBalances` replays EXP10 second, after which the eight
later credits of 5e-10 to USR1 are kept, and leaves USR1 at 1.000000004, more than 1e-9
away. -/
theorem recompute_differs_after_ten_expenses :
    (SplitwiseManager.run {} (threeFriends ++ List.replicate 9 crumb ++ [dinner])).getAllBalances
      = [("USR1", 1), ("USR2", 0), ("USR3", -1)]
    ∧ (SplitwiseManager.run {}
        (threeFriends ++ List.replicate 9 crumb ++ [dinner])).recomputeBalances.result = .ok ()
    ∧ (SplitwiseManager.run {}
        (threeFriends ++ List.replicate 9 crumb ++ [dinner])).recomputeBalances.state.getAllBalances
      = [("USR1", 1 + 8 / 2000000000), ("USR2", 0), ("USR3", -1)]
    ∧ |(1 + 8 / 2000000000 : ℚ) - 1| > 1 / 1000000000 := by
  decide!

/-- C4, the failing input: after ten successful `addExpense` calls, the tenth of which
returned EXP10, the expense map that `recomputeBalances` iterates holds EXP10 in second
place, before EXP2, so the deltas are replayed in the order 1, 10, 2, ..., 9. -/
theorem replay_order_after_ten_expenses :
    ((SplitwiseManager.run {} (threeFriends ++ List.replicate 9 crumb)).addExpense
        "GRP1" "dinner" dinnerInput (some .equal)).result = .ok "EXP10"
    ∧ (SplitwiseManager.run {}
        (threeFriends ++ List.replicate 9 crumb ++ [dinner])).getExpenses.map
          (fun e => (e.1, e.2.description_))
      = [("EXP1", "crumb"), ("EXP10", "dinner"), ("EXP2", "crumb"), ("EXP3", "crumb"),
         ("EXP4", "crumb"), ("EXP5", "crumb"), ("EXP6", "crumb"), ("EXP7", "crumb"),
         ("EXP8", "crumb"), ("EXP9", "crumb")] := by
  decide!

/-! ## Negative amounts: claim C10 -/

/-- C10, the failing inputs: `addExpense` records an Exact split of -50 in the shares -25
and -25, and a Percent split of -200 in the percentages 40 and 60, and applies their
deltas; only the Equal strategy rejects the negative amount. -/
theorem negative_amount_recorded :
    ((SplitwiseManager.run {} twoFriends).addExpense "GRP1" "refund" refundExact
        (some .exact)).result = .ok "EXP1"
    ∧ ((SplitwiseManager.run {} twoFriends).addExpense "GRP1" "refund" refundExact
        (some .exact)).state.getAllBalances = [("USR1", -25), ("USR2", 25)]
    ∧ ((SplitwiseManager.run {} twoFriends).addExpense "GRP1" "refund" refundPercent
        (some .percent)).result = .ok "EXP1"
    ∧ ((SplitwiseManager.run {} twoFriends).addExpense "GRP1" "refund" refundPercent
        (some .percent)).state.getAllBalances = [("USR1", -120), ("USR2", 120)]
    ∧ ((SplitwiseManager.run {} twoFriends).addExpense "GRP1" "refund" refundExact
        (some .equal)).result = .error (.invalidArgument "Expense amount cannot be negative") := by
  decide!

/-! ## Lemmas on the settlement loop -/

theorem pqTop_mem (cmp : Entry → Entry → Bool) (q : List Entry) (e : Entry)
    (h : pqTop cmp q = some e) : e ∈ q := by
  induction q generalizing e with
  | nil => simp [pqTop] at h
  | cons x rest ih =>
    unfold pqTop at h
    split at h
    · simp only [Option.some.injEq] at h
      simp [h]
    · next best hbest =>
      split at h
      · simp only [Option.some.injEq] at h
        exact List.mem_cons_of_mem _ (ih best hbest |> (h ▸ ·))
      · simp only [Option.some.injEq] at h
        simp [h]

theorem pqTop_eq_none (cmp : Entry → Entry → Bool) (q : List Entry)
    (h : pqTop cmp q = none) : q = [] := by
  cases q with
  | nil => rfl
  | cons x rest =>
    unfold pqTop at h
    split at h
    · simp at h
    · split at h <;> simp at h

theorem queued_nil (mag : Entry → ℚ) (u : String) : queued mag u [] = 0 := by
  simp [queued]

theorem queued_cons (mag : Entry → ℚ) (u : String) (x : Entry) (q : List Entry) :
    queued mag u (x :: q) = (if x.userId = u then mag x else 0) + queued mag u q := by
  unfold queued
  by_cases h : x.userId = u <;> simp [List.filter_cons, h]

theorem queued_append_singleton (mag : Entry → ℚ) (u : String) (x : Entry) (q : List Entry) :
    queued mag u (q ++ [x]) = queued mag u q + (if x.userId = u then mag x else 0) := by
  unfold queued
  by_cases h : x.userId = u <;> simp [List.filter_append, List.filter_cons, h]

theorem queued_of_not_mem (mag : Entry → ℚ) (u : String) (q : List Entry)
    (h : u ∉ q.map (fun e => e.userId)) : queued mag u q = 0 := by
  induction q with
  | nil => exact queued_nil mag u
  | cons x rest ih =>
    simp only [List.map_cons, List.mem_cons, not_or] at h
    rw [queued_cons, ih h.2, if_neg (fun hx => h.1 hx.symm)]
    simp

theorem queued_of_mem (mag : Entry → ℚ) (q : List Entry) (e : Entry)
    (hnd : (q.map (fun e => e.userId)).Nodup) (he : e ∈ q) :
    queued mag e.userId q = mag e := by
  induction q with
  | nil => simp at he
  | cons x rest ih =>
    simp only [List.map_cons, List.nodup_cons] at hnd
    rw [queued_cons]
    rcases List.mem_cons.1 he with h | h
    · subst h
      rw [if_pos rfl, queued_of_not_mem mag _ rest hnd.1]
      simp
    · have hne : ¬ x.userId = e.userId := by
        intro hx
        exact hnd.1 (hx ▸ List.mem_map_of_mem (fun e => e.userId) h)
      rw [if_neg hne, ih hnd.2 h]
      simp

theorem keys_erase_nodup (q : List Entry) (e : Entry)
    (hnd : (q.map (fun e => e.userId)).Nodup) :
    ((q.erase e).map (fun e => e.userId)).Nodup :=
  hnd.sublist ((List.erase_sublist e q).map _)

theorem mem_keys_erase (q : List Entry) (e : Entry) (u : String)
    (hnd : (q.map (fun e => e.userId)).Nodup) (he : e ∈ q) :
    u ∈ (q.erase e).map (fun e => e.userId)
      ↔ (u ∈ q.map (fun e => e.userId) ∧ u ≠ e.userId) := by
  induction q with
  | nil => simp at he
  | cons x rest ih =>
    simp only [List.map_cons, List.nodup_cons] at hnd
    by_cases hx : x = e
    · subst hx
      simp only [List.erase_cons_head, List.map_cons, List.mem_cons]
      constructor
      · intro hu
        exact ⟨Or.inr hu, fun h => hnd.1 (h ▸ hu)⟩
      · rintro ⟨h1 | h1, h2⟩
        · exact absurd h1 h2
        · exact h1
    · have he1 : e ∈ rest := by
        rcases List.mem_cons.1 he with h | h
        · exact absurd h.symm hx
        · exact h
      have hxe : (x == e) = false := by simpa using hx
      rw [List.erase_cons, hxe]
      simp only [Bool.false_eq_true, if_false, List.map_cons, List.mem_cons, ih hnd.2 he1]
      constructor
      · rintro (h | ⟨h1, h2⟩)
        · refine ⟨Or.inl h, ?_⟩
          intro hu
          exact hnd.1 (by rw [← h, hu]; exact List.mem_map_of_mem (fun e => e.userId) he1)
        · exact ⟨Or.inr h1, h2⟩
      · rintro ⟨h | h, h2⟩
        · exact Or.inl h
        · exact Or.inr ⟨h, h2⟩

theorem queued_erase (mag : Entry → ℚ) (q : List Entry) (e : Entry) (u : String)
    (hnd : (q.map (fun e => e.userId)).Nodup) (he : e ∈ q) :
    queued mag u (q.erase e) = if e.userId = u then 0 else queued mag u q := by
  by_cases hu : e.userId = u
  · rw [if_pos hu]
    apply queued_of_not_mem
    rw [mem_keys_erase q e u hnd he]
    rintro ⟨_, h⟩
    exact h hu.symm
  · rw [if_neg hu]
    induction q with
    | nil => simp at he
    | cons x rest ih =>
      simp only [List.map_cons, List.nodup_cons] at hnd
      by_cases hx : x = e
      · subst hx
        rw [List.erase_cons_head, queued_cons, if_neg hu]
        simp
      · have he1 : e ∈ rest := by
          rcases List.mem_cons.1 he with h | h
          · exact absurd h.symm hx
          · exact h
        have hxe : (x == e) = false := by simpa using hx
        rw [List.erase_cons, hxe]
        simp only [Bool.false_eq_true, if_false]
        rw [queued_cons, queued_cons, ih hnd.2 he1]

theorem receivedBy_append_singleton (u : String) (txs : List SettlementTransaction)
    (t : SettlementTransaction) :
    receivedBy u (txs ++ [t]) = receivedBy u txs + if t.toUserId = u then t.amount else 0 := by
  unfold receivedBy
  by_cases h : t.toUserId = u <;> simp [List.filter_append, List.filter_cons, h]

theorem paidBy_append_singleton (u : String) (txs : List SettlementTransaction)
    (t : SettlementTransaction) :
    paidBy u (txs ++ [t]) = paidBy u txs + if t.fromUserId = u then t.amount else 0 := by
  unfold paidBy
  by_cases h : t.fromUserId = u <;> simp [List.filter_append, List.filter_cons, h]

/-- The settlement loop ends, in a state where its condition fails, and any property the
iterations keep holds of that state. -/
theorem settleLoop_final (P : SettleState → Prop)
    (hstep : ∀ s next, P s → settleStep s = some next → P next) (s : SettleState) (hs : P s) :
    ∃ final, P final ∧ settleStep final = none ∧ settleLoop s = final.result := by
  induction s using settleLoop.induct with
  | case1 s next h ih =>
    obtain ⟨final, hP, hnone, heq⟩ := ih (hstep s next hs h)
    refine ⟨final, hP, hnone, ?_⟩
    rw [settleLoop]
    split
    · next n hn =>
      rw [h] at hn
      simp only [Option.some.injEq] at hn
      subst hn
      exact heq
    · next hn => rw [h] at hn; simp at hn
  | case2 s h =>
    refine ⟨s, hs, h, ?_⟩
    rw [settleLoop]
    split
    · next n hn => rw [h] at hn; simp at hn
    · rfl

theorem EPSILON_pos : (0 : ℚ) < EPSILON := by norm_num [EPSILON]

theorem partitionBalances_fst (b : List (String × ℚ)) :
    (partitionBalances b).1
      = (b.filter (fun e => decide (e.2 > EPSILON))).map (fun e => ⟨e.1, e.2⟩) := by
  induction b with
  | nil => rfl
  | cons x rest ih =>
    obtain ⟨u, bal⟩ := x
    simp only [partitionBalances]
    by_cases h1 : bal > EPSILON
    · simp [h1, List.filter_cons, ih]
    · by_cases h2 : bal < -EPSILON
      · simp [h1, h2, List.filter_cons, ih]
      · simp [h1, h2, List.filter_cons, ih]

theorem partitionBalances_snd (b : List (String × ℚ)) :
    (partitionBalances b).2
      = (b.filter (fun e => decide (e.2 < -EPSILON))).map (fun e => ⟨e.1, e.2⟩) := by
  induction b with
  | nil => rfl
  | cons x rest ih =>
    obtain ⟨u, bal⟩ := x
    simp only [partitionBalances]
    by_cases h1 : bal > EPSILON
    · have h2 : ¬ bal < -EPSILON := by
        have := EPSILON_pos
        intro h; linarith
      simp [h1, h2, List.filter_cons, ih]
    · by_cases h2 : bal < -EPSILON
      · simp [h1, h2, List.filter_cons, ih]
      · simp [h1, h2, List.filter_cons, ih]

/-- The entries of a balance map with distinct keys that pass a test form a queue with
distinct users, in which the user of a passing entry is queued with that entry's balance. -/
theorem filtered_entries (p : String × ℚ → Bool) (mag : Entry → ℚ) (b : List (String × ℚ))
    (hnd : (b.map Prod.fst).Nodup) :
    (((b.filter p).map (fun e => (⟨e.1, e.2⟩ : Entry))).map (fun e => e.userId)).Nodup
    ∧ (∀ e ∈ (b.filter p).map (fun e => (⟨e.1, e.2⟩ : Entry)), p (e.userId, e.amount) = true)
    ∧ (∀ u bal, (u, bal) ∈ b → p (u, bal) = true →
        queued mag u ((b.filter p).map (fun e => (⟨e.1, e.2⟩ : Entry))) = mag ⟨u, bal⟩) := by
  have hkeys : ((b.filter p).map (fun e => (⟨e.1, e.2⟩ : Entry))).map (fun e => e.userId)
      = (b.filter p).map Prod.fst := by
    rw [List.map_map]; rfl
  have hnd1 : (((b.filter p).map (fun e => (⟨e.1, e.2⟩ : Entry))).map
      (fun e => e.userId)).Nodup := by
    rw [hkeys]
    exact hnd.sublist ((List.filter_sublist b).map _)
  refine ⟨hnd1, ?_, ?_⟩
  · intro e he
    obtain ⟨x, hx, rfl⟩ := List.mem_map.1 he
    exact (List.mem_filter.1 hx).2
  · intro u bal hmem hp
    have : (⟨u, bal⟩ : Entry) ∈ (b.filter p).map (fun e => (⟨e.1, e.2⟩ : Entry)) :=
      List.mem_map.2 ⟨(u, bal), List.mem_filter.2 ⟨hmem, hp⟩, rfl⟩
    exact queued_of_mem mag _ ⟨u, bal⟩ hnd1 this

/-! ## Lemmas on `applyDelta` -/

theorem mem_keys_iff_contains {α : Type} (m : StdMap α) (u : String) :
    u ∈ m.keys ↔ m.contains u = true := by
  induction m with
  | nil => simp [StdMap.keys, StdMap.contains, StdMap.find?]
  | cons e rest ih =>
    obtain ⟨k, v⟩ := e
    simp only [StdMap.keys, StdMap.contains, StdMap.find?, List.map_cons, List.mem_cons] at ih ⊢
    by_cases h : k = u
    · simp [h]
    · have h1 : ¬ u = k := fun h2 => h h2.symm
      simp [h, h1, ih]

theorem find?_applyEntry (b : BalanceMap) (userId u : String) (change : ℚ) :
    StdMap.find? (BalanceSheet.applyEntry b userId change) u
      = if userId = u then some (snap (StdMap.getD b userId 0 + change))
        else StdMap.find? b u := by
  unfold BalanceSheet.applyEntry snap
  dsimp only
  rw [StdMap.getD_alter, if_pos rfl]
  split_ifs with h1 h2 h2
  · rw [StdMap.find?_alter, if_pos h2]
  · rw [StdMap.find?_alter, if_neg h2, StdMap.find?_alter, if_neg h2]
  · rw [StdMap.find?_alter, if_pos h2, StdMap.getD]
  · rw [StdMap.find?_alter, if_neg h2]

theorem find?_foldl_applyEntry_of_not_mem (delta : BalanceMap) (b : BalanceMap) (u : String)
    (h : u ∉ StdMap.keys delta) :
    StdMap.find? (delta.foldl (fun b e => BalanceSheet.applyEntry b e.1 e.2) b) u
      = StdMap.find? b u := by
  induction delta generalizing b with
  | nil => rfl
  | cons e rest ih =>
    simp only [StdMap.keys, List.map_cons, List.mem_cons, not_or] at h
    simp only [List.foldl_cons]
    rw [ih _ h.2, find?_applyEntry, if_neg (fun h1 => h.1 h1.symm)]

theorem contains_foldl_applyEntry (delta : BalanceMap) (b : BalanceMap) (u : String) :
    StdMap.contains (delta.foldl (fun b e => BalanceSheet.applyEntry b e.1 e.2) b) u
      = (StdMap.contains delta u || StdMap.contains b u) := by
  induction delta generalizing b with
  | nil => simp [StdMap.contains, StdMap.find?]
  | cons e rest ih =>
    obtain ⟨k, v⟩ := e
    simp only [List.foldl_cons]
    rw [ih]
    simp only [StdMap.contains, find?_applyEntry, StdMap.find?]
    by_cases h : k = u
    · simp [h]
    · simp [h]

/-! ## The frame of `applyDelta`: claim C18 -/

/-- C18: `applyDelta` removes no user and touches only the users of the delta: a user is
present afterwards exactly when it was present before or is a user of the delta, and a
user that is not in the delta keeps its entry as it was; an entry reset to zero stays. -/
theorem applyDelta_frame :
    (∀ (s : BalanceSheet) (delta : BalanceMap) (u : String),
      (u ∈ StdMap.keys (s.applyDelta delta).getBalances
        ↔ (u ∈ StdMap.keys s.getBalances ∨ u ∈ StdMap.keys delta))
      ∧ (u ∉ StdMap.keys delta →
          StdMap.find? (s.applyDelta delta).getBalances u = StdMap.find? s.getBalances u))
    ∧ (BalanceSheet.applyDelta { balances_ := [("A", 1), ("B", -1)] }
        [("A", -1), ("B", 1)]).getBalances = [("A", 0), ("B", 0)] := by
  refine ⟨fun s delta u => ⟨?_, ?_⟩, by decide!⟩
  · simp only [mem_keys_iff_contains, BalanceSheet.getBalances, BalanceSheet.applyDelta,
      contains_foldl_applyEntry, Bool.or_eq_true]
    exact or_comm
  · intro h
    exact find?_foldl_applyEntry_of_not_mem delta s.balances_ u h

/-! ## The entry under a key of a map -/

theorem find?_of_mem_keys {α : Type} (m : StdMap α) (u : String) (d : α)
    (h : u ∈ m.keys) : m.find? u = some (m.getD u d) :=
  find?_of_contains m u d ((mem_keys_iff_contains m u).1 h)

/-! ## Positive transfers: claim C13 -/

/-- One iteration of the settlement loop keeps every queued creditor above `EPSILON`, every
queued debtor below `-EPSILON` and every emitted amount above `EPSILON`. -/
theorem settleStep_amounts (s next : SettleState)
    (hc : ∀ e ∈ s.creditorQueue, e.amount > EPSILON)
    (hd : ∀ e ∈ s.debtorQueue, e.amount < -EPSILON)
    (hr : ∀ t ∈ s.result, t.amount > EPSILON)
    (h : settleStep s = some next) :
    (∀ e ∈ next.creditorQueue, e.amount > EPSILON)
    ∧ (∀ e ∈ next.debtorQueue, e.amount < -EPSILON)
    ∧ (∀ t ∈ next.result, t.amount > EPSILON) := by
  unfold settleStep at h
  split at h
  · next creditor debtor hct hdt =>
    have hcm := hc creditor (pqTop_mem _ _ _ hct)
    have hdm := hd debtor (pqTop_mem _ _ _ hdt)
    simp only [Option.some.injEq] at h
    subst h
    dsimp only
    refine ⟨?_, ?_, ?_⟩
    · intro e he
      split at he
      · next hk =>
        rcases List.mem_append.1 he with h1 | h1
        · exact hc e (List.mem_of_mem_erase h1)
        · rw [List.mem_singleton] at h1
          rw [h1]
          exact hk
      · exact hc e (List.mem_of_mem_erase he)
    · intro e he
      split at he
      · next hk =>
        rcases List.mem_append.1 he with h1 | h1
        · exact hd e (List.mem_of_mem_erase h1)
        · rw [List.mem_singleton] at h1
          rw [h1]
          exact hk
      · exact hd e (List.mem_of_mem_erase he)
    · intro t ht
      rcases List.mem_append.1 ht with h1 | h1
      · exact hr t h1
      · rw [List.mem_singleton] at h1
        rw [h1]
        show min creditor.amount (-debtor.amount) > EPSILON
        exact lt_min hcm (by linarith)
  · simp at h

/-- C13: every transaction that `settleUpGreedy` returns, for any balance map, has an
amount above 1e-6, hence above 0, and the total transferred is not negative. -/
theorem settlement_amounts_positive (m : SplitwiseManager) :
    (∀ t ∈ m.settleUpGreedy, t.amount > 1 / 1000000 ∧ t.amount > 0)
    ∧ 0 ≤ (m.settleUpGreedy.map (fun t => t.amount)).sum := by
  have heps : EPSILON = 1 / 1000000 := rfl
  have hc0 : ∀ e ∈ (partitionBalances m.getAllBalances).1, e.amount > EPSILON := by
    intro e he
    rw [partitionBalances_fst] at he
    obtain ⟨x, hx, rfl⟩ := List.mem_map.1 he
    simpa using (List.mem_filter.1 hx).2
  have hd0 : ∀ e ∈ (partitionBalances m.getAllBalances).2, e.amount < -EPSILON := by
    intro e he
    rw [partitionBalances_snd] at he
    obtain ⟨x, hx, rfl⟩ := List.mem_map.1 he
    simpa using (List.mem_filter.1 hx).2
  obtain ⟨final, hP, _, heq⟩ := settleLoop_final
    (fun s => (∀ e ∈ s.creditorQueue, e.amount > EPSILON)
      ∧ (∀ e ∈ s.debtorQueue, e.amount < -EPSILON)
      ∧ (∀ t ∈ s.result, t.amount > EPSILON))
    (fun s next hs h => settleStep_amounts s next hs.1 hs.2.1 hs.2.2 h)
    { creditorQueue := (partitionBalances m.getAllBalances).1
      debtorQueue := (partitionBalances m.getAllBalances).2
      result := [] }
    ⟨hc0, hd0, by simp⟩
  have hres : m.settleUpGreedy = final.result := heq
  have hall : ∀ t ∈ m.settleUpGreedy, t.amount > 1 / 1000000 ∧ t.amount > 0 := by
    intro t ht
    rw [hres] at ht
    have := hP.2.2 t ht
    rw [heps] at this
    exact ⟨this, by linarith⟩
  refine ⟨hall, ?_⟩
  apply List.sum_nonneg
  intro x hx
  obtain ⟨t, ht, rfl⟩ := List.mem_map.1 hx
  exact le_of_lt (hall t ht).2

/-! ## The strategy factory: claims C19 and C20 -/

/-- C19: `SplitStrategyFactory::create` succeeds exactly when the tag, with its letters `A`
to `Z` lowered, is "equal", "exact" or "percent", and then returns the Equal, Exact or
Percent strategy; every other tag fails with an invalid-argument error.  So "EQUAL" and
"Percent" are accepted, and "midpoint" and " equal " are rejected. -/
theorem factory_acceptance :
    (∀ tag : String,
      (SplitStrategyFactory.create tag = .ok .equal ↔ normalise tag = "equal")
      ∧ (SplitStrategyFactory.create tag = .ok .exact ↔ normalise tag = "exact")
      ∧ (SplitStrategyFactory.create tag = .ok .percent ↔ normalise tag = "percent")
      ∧ ((∃ strategy, SplitStrategyFactory.create tag = .ok strategy)
          ↔ (normalise tag = "equal" ∨ normalise tag = "exact" ∨ normalise tag = "percent"))
      ∧ ((∃ what, SplitStrategyFactory.create tag = .error (.invalidArgument what))
          ↔ ¬ (normalise tag = "equal" ∨ normalise tag = "exact"
                ∨ normalise tag = "percent")))
    ∧ (∀ tag : String, (normalise tag).data
        = tag.data.map (fun c => if 'A' ≤ c ∧ c ≤ 'Z' then Char.ofNat (c.toNat + 32) else c))
    ∧ SplitStrategyFactory.create "EQUAL" = .ok .equal
    ∧ SplitStrategyFactory.create "Percent" = .ok .percent
    ∧ SplitStrategyFactory.create "midpoint"
        = .error (.invalidArgument "Unknown split strategy type: midpoint")
    ∧ SplitStrategyFactory.create " equal "
        = .error (.invalidArgument "Unknown split strategy type:  equal ") := by
  refine ⟨fun tag => ?_, fun tag => rfl, by decide!, by decide!, by decide!, by decide!⟩
  unfold SplitStrategyFactory.create
  dsimp only
  by_cases h1 : normalise tag = "equal"
  · simp [h1]
  · by_cases h2 : normalise tag = "exact"
    · simp [h2]
    · by_cases h3 : normalise tag = "percent"
      · simp [h3]
      · simp [h1, h2, h3]

/-- C20: for each strategy, `create` applied to its name succeeds and returns that same
strategy, so the strategy created has the same name and computes the same splits. -/
theorem factory_name_round_trip (s : SplitStrategy) :
    SplitStrategyFactory.create s.name = .ok s
    ∧ ∀ created, SplitStrategyFactory.create s.name = .ok created →
        created.name = s.name
        ∧ ∀ input : SplitInput, created.computeSplits input = s.computeSplits input := by
  have h : SplitStrategyFactory.create s.name = .ok s := by
    cases s <;> decide!
  refine ⟨h, fun created hc => ?_⟩
  rw [h] at hc
  simp only [Except.ok.injEq] at hc
  subst hc
  exact ⟨rfl, fun _ => rfl⟩

/-! ## Lemmas on decimal numerals -/

theorem digitChar_decode (k : ℕ) (hk : k < 10) : (Nat.digitChar k).toNat - 48 = k := by
  interval_cases k <;> rfl

theorem decodeDigits_toDigitsCore (fuel n : ℕ) (ds : List Char) (h : n < fuel) :
    decodeDigits (Nat.toDigitsCore 10 fuel n ds) 0 = decodeDigits ds n := by
  induction fuel generalizing n ds with
  | zero => omega
  | succ fuel ih =>
    unfold Nat.toDigitsCore
    dsimp only
    have hd := digitChar_decode (n % 10) (Nat.mod_lt _ (by norm_num))
    split
    · next h0 =>
      have hn : n % 10 = n := by omega
      simp only [decodeDigits, List.foldl_cons, hd]
      rw [hn]
      simp
    · next h0 =>
      rw [ih (n / 10) _ (by omega)]
      simp only [decodeDigits, List.foldl_cons, hd]
      congr 1
      omega

theorem toString_nat_injective (a b : ℕ) (h : toString a = toString b) : a = b := by
  have h1 : Nat.toDigits 10 a = Nat.toDigits 10 b := by
    have := congrArg String.data h
    exact this
  have ha := decodeDigits_toDigitsCore (a + 1) a [] (by omega)
  have hb := decodeDigits_toDigitsCore (b + 1) b [] (by omega)
  have h2 : decodeDigits (Nat.toDigits 10 a) 0 = decodeDigits (Nat.toDigits 10 b) 0 := by
    rw [h1]
  unfold Nat.toDigits at h2
  rw [ha, hb] at h2
  simpa [decodeDigits] using h2

theorem expenseId_injective (pfx : String) (a b : ℕ)
    (h : pfx ++ toString a = pfx ++ toString b) : a = b := by
  apply toString_nat_injective
  have := congrArg String.data h
  simp only [String.data_append] at this
  have h2 := List.append_cancel_left this
  exact String.ext h2

/-! ## Lemmas on `addExpense` -/

theorem find?_emplace {α : Type} (m : StdMap α) (k u : String) (v : α) :
    (m.emplace k v).find? u
      = if k = u then some ((m.find? k).getD v) else m.find? u := by
  unfold StdMap.emplace
  by_cases hc : m.contains k = true
  · rw [if_pos hc]
    by_cases hu : k = u
    · subst hu
      rw [if_pos rfl, find?_of_contains m k v hc]
      rfl
    · rw [if_neg hu]
  · have hn : m.find? k = none := (StdMap.contains_eq_false_iff m k).1 (by simpa using hc)
    rw [if_neg hc, StdMap.find?_insertNew _ _ _ _ hn]
    by_cases hu : k = u
    · subst hu
      simp [hn]
    · simp [hu]

theorem contains_emplace {α : Type} (m : StdMap α) (k u : String) (v : α) :
    (m.emplace k v).contains u = (decide (k = u) || m.contains u) := by
  unfold StdMap.contains
  rw [find?_emplace]
  by_cases h : k = u <;> simp [h]

theorem length_insertNew {α : Type} (m : StdMap α) (k : String) (v : α) :
    (m.insertNew k v).length = m.length + 1 := by
  induction m with
  | nil => rfl
  | cons e rest ih =>
    obtain ⟨k1, v1⟩ := e
    simp only [StdMap.insertNew]
    split
    · rfl
    · simp [ih]

namespace SplitwiseManager

theorem checkExpense_of_conditions (m : SplitwiseManager) (groupId : String)
    (input : SplitInput) (strategy : SplitStrategy) (group : Group) (delta : BalanceMap)
    (hg : m.groups_.find? groupId = some group) (h1 : input.participantIds ≠ [])
    (h2 : group.hasMember input.payerId = true) (h3 : input.payerId ∈ input.participantIds)
    (hall : ∀ participant ∈ input.participantIds, group.hasMember participant = true)
    (hs : strategy.computeSplits input = .ok delta) :
    m.checkExpense groupId input (some strategy) = .ok (strategy, delta) := by
  have e1 : input.participantIds.isEmpty = false := by
    cases hp : input.participantIds with
    | nil => exact absurd hp h1
    | cons x rest => rfl
  have e2 : (!group.hasMember input.payerId) = false := by rw [h2]; rfl
  have e3 : (!input.participantIds.contains input.payerId) = false := by
    have : input.participantIds.contains input.payerId = true := by simpa using h3
    rw [this]; rfl
  have e4 : input.participantIds.find? (fun participant => !group.hasMember participant)
      = none := by
    rw [List.find?_eq_none]
    intro participant hp
    simp [hall participant hp]
  unfold checkExpense
  simp only [hg, e1, e2, e3, e4, hs, Bool.false_eq_true, if_false]

theorem conditions_of_checkExpense (m : SplitwiseManager) (groupId : String)
    (input : SplitInput) (strategy : Option SplitStrategy) (r : SplitStrategy × BalanceMap)
    (h : m.checkExpense groupId input strategy = .ok r) :
    strategy = some r.1 ∧ ∃ group, m.groups_.find? groupId = some group
      ∧ input.participantIds ≠ []
      ∧ group.hasMember input.payerId = true
      ∧ input.payerId ∈ input.participantIds
      ∧ (∀ participant ∈ input.participantIds, group.hasMember participant = true)
      ∧ r.1.computeSplits input = .ok r.2 := by
  unfold checkExpense at h
  split at h
  · simp at h
  · next strat =>
    split at h
    · simp at h
    · next group hg =>
      split at h
      · simp at h
      · next h1 =>
        split at h
        · simp at h
        · next h2 =>
          split at h
          · simp at h
          · next h3 =>
            split at h
            · simp at h
            · next hf =>
              split at h
              · simp at h
              · next delta hs =>
                simp only [Except.ok.injEq] at h
                subst h
                refine ⟨rfl, group, hg, ?_, ?_, ?_, ?_, hs⟩
                · intro hnil
                  rw [hnil] at h1
                  simp at h1
                · simpa using h2
                · simpa using h3
                · intro participant hp
                  have := List.find?_eq_none.1 hf participant hp
                  simpa using this

theorem checkExpense_ok_iff_accepts (m : SplitwiseManager) (groupId : String)
    (input : SplitInput) (strategy : SplitStrategy) :
    (∃ r, m.checkExpense groupId input (some strategy) = .ok r)
      ↔ m.accepts groupId input strategy := by
  constructor
  · rintro ⟨r, hr⟩
    obtain ⟨hs, group, hg, h1, h2, h3, hall, hd⟩ :=
      conditions_of_checkExpense m groupId input (some strategy) r hr
    simp only [Option.some.injEq] at hs
    rw [← hs] at hd
    exact ⟨group, hg, h1, h2, h3, hall, r.2, hd⟩
  · rintro ⟨group, hg, h1, h2, h3, hall, delta, hd⟩
    exact ⟨_, checkExpense_of_conditions m groupId input strategy group delta hg h1 h2 h3
      hall hd⟩

end SplitwiseManager

namespace SplitwiseManager

/-- The manager that `recordExpense` leaves, whatever the notifier does. -/
theorem recordExpense_state (m : SplitwiseManager) (groupId description : String)
    (input : SplitInput) (strategy : SplitStrategy) (delta : BalanceMap) :
    (m.recordExpense groupId description input strategy delta).state
      = { m with
          counters_ := (m.generateId "EXP").2.counters_
          expenses_ := m.expenses_.emplace (m.generateId "EXP").1
            ⟨(m.generateId "EXP").1, groupId, description, input, strategy⟩
          balanceSheet_ := m.balanceSheet_.applyDelta delta } := by
  unfold recordExpense generateId
  dsimp only
  split
  · split
    · split
      · rfl
      · split <;> rfl
    · rfl
  · rfl

/-- When `recordExpense` returns, it returns the generated id. -/
theorem recordExpense_result_ok (m : SplitwiseManager) (groupId description : String)
    (input : SplitInput) (strategy : SplitStrategy) (delta : BalanceMap) (id : String)
    (h : (m.recordExpense groupId description input strategy delta).result = .ok id) :
    id = (m.generateId "EXP").1 := by
  unfold recordExpense generateId at h
  dsimp only at h
  split at h
  · split at h
    · split at h
      · simp at h
      · split at h
        · simp at h
        · simp only [Except.ok.injEq] at h
          exact h.symm
    · simp only [Except.ok.injEq] at h
      exact h.symm
  · simp only [Except.ok.injEq] at h
    exact h.symm

/-- With a notifier that does not throw, `recordExpense` returns the generated id. -/
theorem recordExpense_result_of_quiet (m : SplitwiseManager) (groupId description : String)
    (input : SplitInput) (strategy : SplitStrategy) (delta : BalanceMap)
    (hquiet : ∀ notifier, m.notifier_ = some notifier →
      ∀ expense threshold, notifier.notifyLargeExpense expense threshold = .ok ()) :
    (m.recordExpense groupId description input strategy delta).result
      = .ok (m.generateId "EXP").1 := by
  unfold recordExpense generateId
  dsimp only
  split
  · next notifier threshold hn ht =>
    split
    · split
      · next hnone =>
        rw [find?_emplace, if_pos rfl] at hnone
        simp at hnone
      · next stored hstored =>
        rw [hquiet notifier hn stored threshold]
    · rfl
  · rfl

theorem addExpense_of_check_error (m : SplitwiseManager) (groupId description : String)
    (input : SplitInput) (strategy : Option SplitStrategy) (e : Error)
    (h : m.checkExpense groupId input strategy = .error e) :
    m.addExpense groupId description input strategy
      = { result := .error e, state := m, notified := [] } := by
  unfold addExpense
  rw [h]

theorem addExpense_of_check_ok (m : SplitwiseManager) (groupId description : String)
    (input : SplitInput) (strategy : Option SplitStrategy) (strat : SplitStrategy)
    (delta : BalanceMap) (h : m.checkExpense groupId input strategy = .ok (strat, delta)) :
    m.addExpense groupId description input strategy
      = m.recordExpense groupId description input strat delta := by
  unfold addExpense
  rw [h]

end SplitwiseManager

/-! ## Failure of `addExpense` in its checks: claim C15 -/

/-- C15: when `addExpense` fails in one of its checks, that is with a null strategy or with
a non-null strategy and a group id, a participant list, a payer or a split input that the
checks reject, it leaves the manager exactly as it was (balance sheet, expenses, users,
groups and id counters) and does not call the notifier. -/
theorem addExpense_failure_atomic (m : SplitwiseManager) (groupId description : String)
    (input : SplitInput) (strategy : Option SplitStrategy)
    (hfail : strategy = none
      ∨ ∃ strat, strategy = some strat ∧ ¬ m.accepts groupId input strat) :
    (∃ e, (m.addExpense groupId description input strategy).result = .error e)
    ∧ (m.addExpense groupId description input strategy).state = m
    ∧ (m.addExpense groupId description input strategy).notified = [] := by
  have hcheck : ∃ e, m.checkExpense groupId input strategy = .error e := by
    rcases hfail with h | ⟨strat, hs, hna⟩
    · subst h
      exact ⟨_, rfl⟩
    · subst hs
      cases hc : m.checkExpense groupId input (some strat) with
      | error e => exact ⟨e, rfl⟩
      | ok r =>
        exact absurd ((SplitwiseManager.checkExpense_ok_iff_accepts m groupId input strat).1
          ⟨r, hc⟩) hna
  obtain ⟨e, he⟩ := hcheck
  rw [SplitwiseManager.addExpense_of_check_error m _ _ _ _ e he]
  exact ⟨⟨e, rfl⟩, rfl, rfl⟩

/-- C15, instances: on the manager with two users in one group, an Exact split whose shares
30 and 10 do not sum to 50 is rejected, and so is a null strategy; both calls leave the
manager as it was. -/
theorem addExpense_failure_atomic_witness :
    (∃ strat, some SplitStrategy.exact = some strat
      ∧ ¬ (SplitwiseManager.run {} twoFriends).accepts "GRP1" mismatchedExact strat)
    ∧ ((∃ e, ((SplitwiseManager.run {} twoFriends).addExpense "GRP1" "taxi" mismatchedExact
          (some .exact)).result = .error e)
      ∧ ((SplitwiseManager.run {} twoFriends).addExpense "GRP1" "taxi" mismatchedExact
          (some .exact)).state = SplitwiseManager.run {} twoFriends
      ∧ ((SplitwiseManager.run {} twoFriends).addExpense "GRP1" "taxi" mismatchedExact
          (some .exact)).notified = [])
    ∧ ((∃ e, ((SplitwiseManager.run {} twoFriends).addExpense "GRP1" "taxi" taxiInput
          none).result = .error e)
      ∧ ((SplitwiseManager.run {} twoFriends).addExpense "GRP1" "taxi" taxiInput
          none).state = SplitwiseManager.run {} twoFriends
      ∧ ((SplitwiseManager.run {} twoFriends).addExpense "GRP1" "taxi" taxiInput
          none).notified = []) := by
  have hrej : ∃ strat, some SplitStrategy.exact = some strat
      ∧ ¬ (SplitwiseManager.run {} twoFriends).accepts "GRP1" mismatchedExact strat := by
    refine ⟨.exact, rfl, ?_⟩
    rintro ⟨_, _, _, _, _, _, delta, hd⟩
    have herr : SplitStrategy.computeSplits .exact mismatchedExact
        = .error (.invalidArgument "Exact split shares must sum to the total amount") := by
      decide!
    rw [herr] at hd
    simp at hd
  exact ⟨hrej,
    addExpense_failure_atomic _ "GRP1" "taxi" mismatchedExact (some .exact) (Or.inr hrej),
    addExpense_failure_atomic _ "GRP1" "taxi" taxiInput none (Or.inl rfl)⟩

/-! ## Lemmas on the numbering of the expenses -/

namespace SplitwiseManager

theorem generateId_fst (m : SplitwiseManager) (pfx : String) :
    (m.generateId pfx).1 = pfx ++ toString ((m.counters_.getD pfx 0 + 1) % 2 ^ 64) := by
  unfold generateId
  dsimp only
  rw [StdMap.getD_alter, if_pos rfl]

theorem generateId_counter (m : SplitwiseManager) (pfx u : String) :
    (m.generateId pfx).2.counters_.getD u 0
      = if pfx = u then (m.counters_.getD pfx 0 + 1) % 2 ^ 64 else m.counters_.getD u 0 := by
  unfold generateId
  dsimp only
  rw [StdMap.getD_alter]

theorem Numbered.mono (m m1 : SplitwiseManager) (n : ℕ) (h : m.Numbered n)
    (hc : m1.counters_.getD "EXP" 0 = m.counters_.getD "EXP" 0)
    (he : m1.expenses_ = m.expenses_) : m1.Numbered (n + 1) := by
  obtain ⟨h1, h2⟩ := h
  refine ⟨by rw [hc]; omega, fun k hk => ?_⟩
  rw [he] at hk
  rw [hc]
  exact h2 k hk

theorem Numbered.record (m : SplitwiseManager) (n : ℕ) (h : m.Numbered n)
    (hn : n + 1 < 2 ^ 64) (groupId description : String) (input : SplitInput)
    (strategy : SplitStrategy) (delta : BalanceMap) :
    (m.recordExpense groupId description input strategy delta).state.Numbered (n + 1) := by
  obtain ⟨h1, h2⟩ := h
  have hmod : (m.counters_.getD "EXP" 0 + 1) % 2 ^ 64 = m.counters_.getD "EXP" 0 + 1 :=
    Nat.mod_eq_of_lt (by omega)
  rw [recordExpense_state]
  unfold Numbered
  dsimp only
  rw [generateId_counter, if_pos rfl, hmod]
  refine ⟨by omega, fun k hk => ?_⟩
  rw [contains_emplace, Bool.or_eq_true, decide_eq_true_eq] at hk
  rcases hk with hk | hk
  · refine ⟨m.counters_.getD "EXP" 0 + 1, le_refl _, ?_⟩
    rw [← hk, generateId_fst, hmod]
  · obtain ⟨j, hj, hkj⟩ := h2 k hk
    exact ⟨j, by omega, hkj⟩

theorem Numbered.exec (m : SplitwiseManager) (n : ℕ) (h : m.Numbered n)
    (hn : n + 1 < 2 ^ 64) (call : Call) : (m.exec call).Numbered (n + 1) := by
  cases call with
  | addUser name =>
    refine Numbered.mono m _ n h ?_ rfl
    show (m.generateId "USR").2.counters_.getD "EXP" 0 = _
    rw [generateId_counter, if_neg (by decide)]
  | addGroup name memberIds =>
    unfold SplitwiseManager.exec addGroup
    dsimp only
    split
    · exact Numbered.mono m _ n h rfl rfl
    · refine Numbered.mono m _ n h ?_ rfl
      show (m.generateId "GRP").2.counters_.getD "EXP" 0 = _
      rw [generateId_counter, if_neg (by decide)]
  | setNotifier notifier => exact Numbered.mono m _ n h rfl rfl
  | setNotificationThreshold threshold => exact Numbered.mono m _ n h rfl rfl
  | addExpense groupId description input strategy =>
    unfold SplitwiseManager.exec
    dsimp only
    cases hc : m.checkExpense groupId input strategy with
    | error e =>
      rw [addExpense_of_check_error m _ _ _ _ e hc]
      exact Numbered.mono m _ n h rfl rfl
    | ok r =>
      obtain ⟨strat, delta⟩ := r
      rw [addExpense_of_check_ok m _ _ _ _ strat delta hc]
      exact Numbered.record m n h hn _ _ _ _ _

theorem Numbered.run (calls : List Call) (m : SplitwiseManager) (n : ℕ) (h : m.Numbered n)
    (hn : n + calls.length < 2 ^ 64) : (m.run calls).Numbered (n + calls.length) := by
  induction calls generalizing m n with
  | nil => exact h
  | cons call rest ih =>
    simp only [List.length_cons] at hn ⊢
    have h1 := Numbered.exec m n h (by omega) call
    have h2 := ih (m.exec call) (n + 1) h1 (by omega)
    have : n + (rest.length + 1) = n + 1 + rest.length := by omega
    rw [this]
    exact h2

theorem Numbered.fresh : Numbered {} 0 := by
  refine ⟨le_refl _, fun k hk => ?_⟩
  simp [StdMap.contains, StdMap.find?] at hk

end SplitwiseManager

/-! ## The postcondition of `addExpense`: claim C16 -/

/-- C16: on a manager reached from a fresh one by calls of the public interface (fewer
than 2^64 - 1 of them, so that the id counter has not wrapped), an `addExpense` that
succeeds returns an id that was not a key of the expense map; afterwards the expense map
holds, under that id, the given group id, description, input and strategy, holds every other
key as before and is one entry longer; the balance sheet is the old one after `applyDelta`
of the delta the strategy computes for the input; and users and groups are unchanged. -/
theorem addExpense_success_postcondition (calls : List SplitwiseManager.Call)
    (hlen : calls.length + 1 < 2 ^ 64) (groupId description : String) (input : SplitInput)
    (strategy : Option SplitStrategy) (id : String)
    (hok : ((SplitwiseManager.run {} calls).addExpense groupId description input
      strategy).result = .ok id) :
    StdMap.find? (SplitwiseManager.run {} calls).getExpenses id = none
    ∧ ∃ strat delta, strategy = some strat ∧ strat.computeSplits input = .ok delta
      ∧ StdMap.find? ((SplitwiseManager.run {} calls).addExpense groupId description input
          strategy).state.getExpenses id = some ⟨id, groupId, description, input, strat⟩
      ∧ (∀ k, k ≠ id →
          StdMap.find? ((SplitwiseManager.run {} calls).addExpense groupId description input
            strategy).state.getExpenses k
          = StdMap.find? (SplitwiseManager.run {} calls).getExpenses k)
      ∧ ((SplitwiseManager.run {} calls).addExpense groupId description input
          strategy).state.getExpenses.length
          = (SplitwiseManager.run {} calls).getExpenses.length + 1
      ∧ ((SplitwiseManager.run {} calls).addExpense groupId description input
          strategy).state.balanceSheet_
          = (SplitwiseManager.run {} calls).balanceSheet_.applyDelta delta
      ∧ ((SplitwiseManager.run {} calls).addExpense groupId description input
          strategy).state.users_ = (SplitwiseManager.run {} calls).users_
      ∧ ((SplitwiseManager.run {} calls).addExpense groupId description input
          strategy).state.groups_ = (SplitwiseManager.run {} calls).groups_ := by
  have hnum := SplitwiseManager.Numbered.run calls {} 0 SplitwiseManager.Numbered.fresh
    (by omega)
  rw [Nat.zero_add] at hnum
  generalize SplitwiseManager.run {} calls = m at hok hnum ⊢
  obtain ⟨hcount, hkeys⟩ := hnum
  cases hc : m.checkExpense groupId input strategy with
  | error e =>
    rw [SplitwiseManager.addExpense_of_check_error m _ _ _ _ e hc] at hok
    simp at hok
  | ok r =>
    obtain ⟨strat, delta⟩ := r
    obtain ⟨hs, _, _, _, _, _, _, hd⟩ :=
      SplitwiseManager.conditions_of_checkExpense m groupId input strategy _ hc
    rw [SplitwiseManager.addExpense_of_check_ok m _ _ _ _ strat delta hc] at hok ⊢
    have hid := SplitwiseManager.recordExpense_result_ok m _ _ _ _ _ id hok
    have hmod : (m.counters_.getD "EXP" 0 + 1) % 2 ^ 64 = m.counters_.getD "EXP" 0 + 1 :=
      Nat.mod_eq_of_lt (by omega)
    have hfresh : StdMap.find? m.expenses_ id = none := by
      cases hf : StdMap.find? m.expenses_ id with
      | none => rfl
      | some e =>
        have hcont : StdMap.contains m.expenses_ id = true := by
          simp [StdMap.contains, hf]
        obtain ⟨j, hj, hkj⟩ := hkeys id hcont
        rw [hid, SplitwiseManager.generateId_fst, hmod] at hkj
        have := expenseId_injective "EXP" _ _ hkj
        omega
    have hcont : StdMap.contains m.expenses_ id = false := by
      simp [StdMap.contains, hfresh]
    refine ⟨hfresh, strat, delta, hs, hd, ?_, ?_, ?_, ?_, ?_, ?_⟩
    · rw [SplitwiseManager.recordExpense_state]
      show StdMap.find? (StdMap.emplace m.expenses_ _ _) id = _
      rw [← hid, find?_emplace, if_pos rfl, hfresh]
      rfl
    · intro k hk
      rw [SplitwiseManager.recordExpense_state]
      show StdMap.find? (StdMap.emplace m.expenses_ _ _) k = _
      rw [← hid, find?_emplace, if_neg (fun h => hk h.symm)]
      rfl
    · rw [SplitwiseManager.recordExpense_state]
      show (StdMap.emplace m.expenses_ _ _).length = _
      rw [← hid]
      unfold StdMap.emplace
      rw [hcont]
      simp only [Bool.false_eq_true, if_false]
      rw [length_insertNew]
      rfl
    · rw [SplitwiseManager.recordExpense_state]
    · rw [SplitwiseManager.recordExpense_state]
    · rw [SplitwiseManager.recordExpense_state]

/-- C16, an instance: on the manager with two users in one group, the Equal split of 10
succeeds and returns EXP1, and the postcondition holds of it. -/
theorem addExpense_success_postcondition_witness :
    (twoFriends.length + 1 < 2 ^ 64
      ∧ ((SplitwiseManager.run {} twoFriends).addExpense "GRP1" "taxi" taxiInput
          (some .equal)).result = .ok "EXP1")
    ∧ (StdMap.find? (SplitwiseManager.run {} twoFriends).getExpenses "EXP1" = none
      ∧ ∃ strat delta, some SplitStrategy.equal = some strat
        ∧ strat.computeSplits taxiInput = .ok delta
        ∧ StdMap.find? ((SplitwiseManager.run {} twoFriends).addExpense "GRP1" "taxi"
            taxiInput (some .equal)).state.getExpenses "EXP1"
            = some ⟨"EXP1", "GRP1", "taxi", taxiInput, strat⟩
        ∧ (∀ k, k ≠ "EXP1" →
            StdMap.find? ((SplitwiseManager.run {} twoFriends).addExpense "GRP1" "taxi"
              taxiInput (some .equal)).state.getExpenses k
            = StdMap.find? (SplitwiseManager.run {} twoFriends).getExpenses k)
        ∧ ((SplitwiseManager.run {} twoFriends).addExpense "GRP1" "taxi" taxiInput
            (some .equal)).state.getExpenses.length
            = (SplitwiseManager.run {} twoFriends).getExpenses.length + 1
        ∧ ((SplitwiseManager.run {} twoFriends).addExpense "GRP1" "taxi" taxiInput
            (some .equal)).state.balanceSheet_
            = (SplitwiseManager.run {} twoFriends).balanceSheet_.applyDelta delta
        ∧ ((SplitwiseManager.run {} twoFriends).addExpense "GRP1" "taxi" taxiInput
            (some .equal)).state.users_ = (SplitwiseManager.run {} twoFriends).users_
        ∧ ((SplitwiseManager.run {} twoFriends).addExpense "GRP1" "taxi" taxiInput
            (some .equal)).state.groups_ = (SplitwiseManager.run {} twoFriends).groups_) :=
  ⟨⟨by decide, by decide!⟩,
   addExpense_success_postcondition twoFriends (by decide) "GRP1" "taxi" taxiInput
     (some .equal) "EXP1" (by decide!)⟩

/-! ## More lemmas on the settlement loop -/

/-- What an iteration of the settlement loop does, read off the two tops. -/
theorem settleStep_some (s next : SettleState) (h : settleStep s = some next) :
    ∃ creditor debtor, pqTop creditorCmp s.creditorQueue = some creditor
      ∧ pqTop debtorCmp s.debtorQueue = some debtor
      ∧ next.creditorQueue
          = (if creditor.amount - min creditor.amount (-debtor.amount) > EPSILON
            then s.creditorQueue.erase creditor
              ++ [⟨creditor.userId, creditor.amount - min creditor.amount (-debtor.amount)⟩]
            else s.creditorQueue.erase creditor)
      ∧ next.debtorQueue
          = (if debtor.amount + min creditor.amount (-debtor.amount) < -EPSILON
            then s.debtorQueue.erase debtor
              ++ [⟨debtor.userId, debtor.amount + min creditor.amount (-debtor.amount)⟩]
            else s.debtorQueue.erase debtor)
      ∧ next.result
          = s.result ++ [⟨debtor.userId, creditor.userId,
              min creditor.amount (-debtor.amount)⟩] := by
  unfold settleStep at h
  split at h
  · next creditor debtor hc hd =>
    simp only [Option.some.injEq] at h
    subst h
    exact ⟨creditor, debtor, hc, hd, rfl, rfl, rfl⟩
  · simp at h

theorem pqTop_isSome (cmp : Entry → Entry → Bool) (q : List Entry) (h : q ≠ []) :
    ∃ e, pqTop cmp q = some e := by
  cases hq : pqTop cmp q with
  | none => exact absurd (pqTop_eq_none cmp q hq) h
  | some e => exact ⟨e, rfl⟩

theorem settleStep_of_nonempty (s : SettleState) (hc : s.creditorQueue ≠ [])
    (hd : s.debtorQueue ≠ []) : ∃ next, settleStep s = some next := by
  obtain ⟨creditor, hct⟩ := pqTop_isSome creditorCmp _ hc
  obtain ⟨debtor, hdt⟩ := pqTop_isSome debtorCmp _ hd
  unfold settleStep
  rw [hct, hdt]
  exact ⟨_, rfl⟩

theorem settleStep_of_empty (s : SettleState)
    (h : s.creditorQueue = [] ∨ s.debtorQueue = []) : settleStep s = none := by
  cases hs : settleStep s with
  | none => rfl
  | some next =>
    obtain ⟨creditor, debtor, hc, hd, _⟩ := settleStep_some s next hs
    rcases h with h | h
    · rw [h] at hc; simp [pqTop] at hc
    · rw [h] at hd; simp [pqTop] at hd

theorem settleLoop_of_none (s : SettleState) (h : settleStep s = none) :
    settleLoop s = s.result := by
  rw [settleLoop]
  split
  · next n hn => rw [h] at hn; simp at hn
  · rfl

theorem settleLoop_of_some (s next : SettleState) (h : settleStep s = some next) :
    settleLoop s = settleLoop next := by
  rw [settleLoop]
  split
  · next n hn =>
    rw [h] at hn
    simp only [Option.some.injEq] at hn
    subst hn
    rfl
  · next hn => rw [h] at hn; simp at hn

/-- The settlement loop only appends to the result it starts from. -/
theorem settleLoop_prefix (s : SettleState) : ∃ rest, settleLoop s = s.result ++ rest := by
  obtain ⟨final, hP, _, heq⟩ := settleLoop_final (fun x => ∃ rest, x.result = s.result ++ rest)
    (fun x next hx h => by
      obtain ⟨rest, hrest⟩ := hx
      obtain ⟨creditor, debtor, _, _, _, _, hres⟩ := settleStep_some x next h
      exact ⟨rest ++ [⟨debtor.userId, creditor.userId,
        min creditor.amount (-debtor.amount)⟩], by rw [hres, hrest, List.append_assoc]⟩)
    s ⟨[], by simp⟩
  rw [heq]
  exact hP

/-- An iteration of the settlement loop shortens the two queues taken together. -/
theorem settleStep_measure (s next : SettleState) (h : settleStep s = some next) :
    next.creditorQueue.length + next.debtorQueue.length
      < s.creditorQueue.length + s.debtorQueue.length := by
  obtain ⟨creditor, debtor, hc, hd, hcq, hdq, _⟩ := settleStep_some s next h
  have hcm := pqTop_mem _ _ _ hc
  have hdm := pqTop_mem _ _ _ hd
  have hcl := List.length_erase_of_mem hcm
  have hdl := List.length_erase_of_mem hdm
  have hcpos := List.length_pos_of_mem hcm
  have hdpos := List.length_pos_of_mem hdm
  have heps := EPSILON_pos
  rw [hcq, hdq]
  by_cases h1 : creditor.amount - min creditor.amount (-debtor.amount) > EPSILON
  · have h2 : ¬ debtor.amount + min creditor.amount (-debtor.amount) < -EPSILON := by
      intro h2
      rcases min_choice creditor.amount (-debtor.amount) with hm | hm
      · rw [hm] at h1; linarith
      · rw [hm] at h2; linarith
    rw [if_pos h1, if_neg h2]
    simp only [List.length_append, List.length_singleton]
    omega
  · rw [if_neg h1]
    split
    · simp only [List.length_append, List.length_singleton]
      omega
    · omega

/-- The top of a queue ordered by a key is an element of greatest key. -/
theorem pqTop_max (key : Entry → ℚ) (cmp : Entry → Entry → Bool)
    (hcmp : ∀ a b, cmp a b = decide (key a < key b)) (q : List Entry) (e : Entry)
    (h : pqTop cmp q = some e) : ∀ x ∈ q, key x ≤ key e := by
  induction q generalizing e with
  | nil => simp [pqTop] at h
  | cons y rest ih =>
    unfold pqTop at h
    split at h
    · next hnone =>
      simp only [Option.some.injEq] at h
      have := pqTop_eq_none cmp rest hnone
      subst this
      subst h
      intro x hx
      simp only [List.mem_singleton] at hx
      rw [hx]
    · next best hbest =>
      have hb := ih best hbest
      split at h
      · next hlt =>
        simp only [Option.some.injEq] at h
        subst h
        rw [hcmp, decide_eq_true_eq] at hlt
        intro x hx
        rcases List.mem_cons.1 hx with h1 | h1
        · rw [h1]; exact le_of_lt hlt
        · exact hb x h1
      · next hnlt =>
        simp only [Option.some.injEq] at h
        subst h
        rw [hcmp, decide_eq_true_eq, not_lt] at hnlt
        intro x hx
        rcases List.mem_cons.1 hx with h1 | h1
        · rw [h1]
        · exact le_trans (hb x h1) hnlt

theorem mem_partition_fst (b : List (String × ℚ)) (e : Entry) :
    e ∈ (partitionBalances b).1 ↔ ((e.userId, e.amount) ∈ b ∧ e.amount > EPSILON) := by
  rw [partitionBalances_fst, List.mem_map]
  constructor
  · rintro ⟨x, hx, rfl⟩
    obtain ⟨h1, h2⟩ := List.mem_filter.1 hx
    exact ⟨h1, by simpa using h2⟩
  · rintro ⟨h1, h2⟩
    exact ⟨(e.userId, e.amount), List.mem_filter.2 ⟨h1, by simpa using h2⟩, rfl⟩

theorem mem_partition_snd (b : List (String × ℚ)) (e : Entry) :
    e ∈ (partitionBalances b).2 ↔ ((e.userId, e.amount) ∈ b ∧ e.amount < -EPSILON) := by
  rw [partitionBalances_snd, List.mem_map]
  constructor
  · rintro ⟨x, hx, rfl⟩
    obtain ⟨h1, h2⟩ := List.mem_filter.1 hx
    exact ⟨h1, by simpa using h2⟩
  · rintro ⟨h1, h2⟩
    exact ⟨(e.userId, e.amount), List.mem_filter.2 ⟨h1, by simpa using h2⟩, rfl⟩

/-! ## When the settlement is empty, and two scenarios: claims C21, C22 and C24 -/

theorem partition_fst_eq_nil (b : List (String × ℚ)) :
    (partitionBalances b).1 = [] ↔ ∀ e ∈ b, ¬ e.2 > EPSILON := by
  rw [List.eq_nil_iff_forall_not_mem]
  constructor
  · intro h e he hgt
    exact h ⟨e.1, e.2⟩ ((mem_partition_fst b ⟨e.1, e.2⟩).2 ⟨he, hgt⟩)
  · intro h e he
    obtain ⟨h1, h2⟩ := (mem_partition_fst b e).1 he
    exact h _ h1 h2

theorem partition_snd_eq_nil (b : List (String × ℚ)) :
    (partitionBalances b).2 = [] ↔ ∀ e ∈ b, ¬ e.2 < -EPSILON := by
  rw [List.eq_nil_iff_forall_not_mem]
  constructor
  · intro h e he hlt
    exact h ⟨e.1, e.2⟩ ((mem_partition_snd b ⟨e.1, e.2⟩).2 ⟨he, hlt⟩)
  · intro h e he
    obtain ⟨h1, h2⟩ := (mem_partition_snd b e).1 he
    exact h _ h1 h2

/-- The settlement of a balance map with a creditor and a debtor starts with the transfer
from the top debtor to the top creditor. -/
theorem settleUpGreedy_first (m : SplitwiseManager)
    (hc : (partitionBalances m.getAllBalances).1 ≠ [])
    (hd : (partitionBalances m.getAllBalances).2 ≠ []) :
    ∃ creditor debtor rest,
      pqTop creditorCmp (partitionBalances m.getAllBalances).1 = some creditor
      ∧ pqTop debtorCmp (partitionBalances m.getAllBalances).2 = some debtor
      ∧ m.settleUpGreedy
          = ⟨debtor.userId, creditor.userId, min creditor.amount (-debtor.amount)⟩ :: rest := by
  obtain ⟨next, hnext⟩ := settleStep_of_nonempty
    { creditorQueue := (partitionBalances m.getAllBalances).1
      debtorQueue := (partitionBalances m.getAllBalances).2
      result := [] } hc hd
  obtain ⟨creditor, debtor, hct, hdt, _, _, hres⟩ := settleStep_some _ next hnext
  obtain ⟨rest, hrest⟩ := settleLoop_prefix next
  refine ⟨creditor, debtor, rest, hct, hdt, ?_⟩
  have h1 : m.settleUpGreedy = settleLoop next := settleLoop_of_some _ next hnext
  rw [h1, hrest, hres]
  rfl

/-- C21: `settleUpGreedy` returns the empty list exactly when the balance map has no
creditor (balance above 1e-6) or no debtor (balance below -1e-6); so it is empty whenever
every balance is within 1e-6 of zero. -/
theorem settlement_empty_iff (m : SplitwiseManager) :
    (m.settleUpGreedy = []
      ↔ ((∀ e ∈ m.getAllBalances, ¬ e.2 > EPSILON)
          ∨ (∀ e ∈ m.getAllBalances, ¬ e.2 < -EPSILON)))
    ∧ ((∀ e ∈ m.getAllBalances, |e.2| ≤ EPSILON) → m.settleUpGreedy = []) := by
  have hiff : m.settleUpGreedy = []
      ↔ ((∀ e ∈ m.getAllBalances, ¬ e.2 > EPSILON)
          ∨ (∀ e ∈ m.getAllBalances, ¬ e.2 < -EPSILON)) := by
    rw [← partition_fst_eq_nil, ← partition_snd_eq_nil]
    constructor
    · intro hnil
      by_contra hne
      rw [not_or] at hne
      obtain ⟨_, _, rest, _, _, hfirst⟩ := settleUpGreedy_first m hne.1 hne.2
      rw [hfirst] at hnil
      simp at hnil
    · intro hempty
      exact settleLoop_of_none _ (settleStep_of_empty _ hempty)
  refine ⟨hiff, fun hall => hiff.2 (Or.inl ?_)⟩
  intro e he hgt
  have := hall e he
  rw [abs_le] at this
  linarith [this.2]

/-- C22: the greedy settlement is not minimal.  The balances A = 5, B = 4, C = -4, D = -3,
E = -2 sum to zero; `settleUpGreedy` emits four transfers for them, while the three
positive transfers C to B of 4, D to A of 3 and E to A of 2, each from a debtor to a
creditor, discharge every balance exactly. -/
theorem greedy_not_minimal :
    ∃ (balances : BalanceMap) (other : List SettlementTransaction),
      balances.total = 0
      ∧ (StdMap.keys balances).Nodup
      ∧ (SplitwiseManager.settleUpGreedy
          { balanceSheet_ := { balances_ := balances } }).length = 4
      ∧ other.length = 3
      ∧ other.length < (SplitwiseManager.settleUpGreedy
          { balanceSheet_ := { balances_ := balances } }).length
      ∧ (∀ t ∈ other, t.amount > 0
          ∧ StdMap.getD balances t.fromUserId 0 < -EPSILON
          ∧ StdMap.getD balances t.toUserId 0 > EPSILON)
      ∧ (∀ e ∈ balances, netReceived e.1 other = e.2)
      ∧ (∀ e ∈ balances, netReceived e.1 (SplitwiseManager.settleUpGreedy
          { balanceSheet_ := { balances_ := balances } }) = e.2) :=
  ⟨unevenBalances, threeTransfers, by decide!⟩

/-- C24: settling the balances A = 62, B = -18, C = -44 emits exactly the transfer of 44
from C to A followed by the transfer of 18 from B to A: B pays 18 in total, C pays 44 and
A receives 62. -/
theorem settlement_scenario :
    reconciled.settleUpGreedy = [⟨"C", "A", 44⟩, ⟨"B", "A", 18⟩]
    ∧ paidBy "B" reconciled.settleUpGreedy = 18
    ∧ paidBy "C" reconciled.settleUpGreedy = 44
    ∧ receivedBy "A" reconciled.settleUpGreedy = 62 := by
  decide!

/-! ## Largest first, direction and termination: claims C26, C27 and C28 -/

/-- C27: when the balance map has a creditor and a debtor, the first transaction of
`settleUpGreedy` is paid by a user whose balance is the minimum of the map, to a user whose
balance is the maximum of the map, and its amount is the smaller of that maximum and the
magnitude of that minimum. -/
theorem first_transfer_largest (m : SplitwiseManager)
    (hc : ∃ e ∈ m.getAllBalances, e.2 > EPSILON)
    (hd : ∃ e ∈ m.getAllBalances, e.2 < -EPSILON) :
    ∃ first rest balFrom balTo,
      m.settleUpGreedy = first :: rest
      ∧ (first.fromUserId, balFrom) ∈ m.getAllBalances
      ∧ (∀ e ∈ m.getAllBalances, balFrom ≤ e.2)
      ∧ (first.toUserId, balTo) ∈ m.getAllBalances
      ∧ (∀ e ∈ m.getAllBalances, e.2 ≤ balTo)
      ∧ first.amount = min balTo (-balFrom) := by
  have heps := EPSILON_pos
  have hcne : (partitionBalances m.getAllBalances).1 ≠ [] := by
    intro h
    obtain ⟨e, he, hgt⟩ := hc
    exact (partition_fst_eq_nil _).1 h e he hgt
  have hdne : (partitionBalances m.getAllBalances).2 ≠ [] := by
    intro h
    obtain ⟨e, he, hlt⟩ := hd
    exact (partition_snd_eq_nil _).1 h e he hlt
  obtain ⟨creditor, debtor, rest, hct, hdt, hfirst⟩ := settleUpGreedy_first m hcne hdne
  have hcmem := (mem_partition_fst _ creditor).1 (pqTop_mem _ _ _ hct)
  have hdmem := (mem_partition_snd _ debtor).1 (pqTop_mem _ _ _ hdt)
  have hcmax := pqTop_max (fun e => e.amount) creditorCmp (fun a b => rfl) _ creditor hct
  have hdmax := pqTop_max (fun e => -e.amount) debtorCmp
    (fun a b => by
      unfold debtorCmp
      congr 1
      exact propext
        ⟨fun h => by show -a.amount < -b.amount; linarith,
         fun h => by have h1 : -a.amount < -b.amount := h; linarith⟩) _ debtor hdt
  refine ⟨_, rest, debtor.amount, creditor.amount, hfirst, hdmem.1, ?_, hcmem.1, ?_, rfl⟩
  · intro e he
    by_cases hlt : e.2 < -EPSILON
    · have := hdmax ⟨e.1, e.2⟩ ((mem_partition_snd _ ⟨e.1, e.2⟩).2 ⟨he, hlt⟩)
      dsimp only at this
      linarith
    · linarith [hdmem.2]
  · intro e he
    by_cases hgt : e.2 > EPSILON
    · exact hcmax ⟨e.1, e.2⟩ ((mem_partition_fst _ ⟨e.1, e.2⟩).2 ⟨he, hgt⟩)
    · linarith [hcmem.2]

/-- C27, an instance: for the balances A = 62, B = -18, C = -44 the first transfer goes
from C, which holds the minimum, to A, which holds the maximum, and its amount is 44. -/
theorem first_transfer_largest_witness :
    ((∃ e ∈ reconciled.getAllBalances, e.2 > EPSILON)
      ∧ (∃ e ∈ reconciled.getAllBalances, e.2 < -EPSILON))
    ∧ (∃ first rest balFrom balTo,
        reconciled.settleUpGreedy = first :: rest
        ∧ (first.fromUserId, balFrom) ∈ reconciled.getAllBalances
        ∧ (∀ e ∈ reconciled.getAllBalances, balFrom ≤ e.2)
        ∧ (first.toUserId, balTo) ∈ reconciled.getAllBalances
        ∧ (∀ e ∈ reconciled.getAllBalances, e.2 ≤ balTo)
        ∧ first.amount = min balTo (-balFrom))
    ∧ reconciled.settleUpGreedy.head? = some ⟨"C", "A", 44⟩ :=
  ⟨⟨⟨("A", 62), by decide!, by decide!⟩, ⟨("B", -18), by decide!, by decide!⟩⟩,
   first_transfer_largest reconciled ⟨("A", 62), by decide!, by decide!⟩
     ⟨("B", -18), by decide!, by decide!⟩,
   by decide!⟩

theorem find?_of_mem_nodup {α : Type} (b : StdMap α) (u : String) (v : α)
    (hnd : (b.map Prod.fst).Nodup) (h : (u, v) ∈ b) : b.find? u = some v := by
  induction b with
  | nil => simp at h
  | cons e rest ih =>
    obtain ⟨k, w⟩ := e
    simp only [List.map_cons, List.nodup_cons] at hnd
    rcases List.mem_cons.1 h with h1 | h1
    · simp only [Prod.mk.injEq] at h1
      simp [StdMap.find?, h1.1, h1.2]
    · have hne : ¬ k = u := by
        intro hk
        exact hnd.1 (hk ▸ List.mem_map_of_mem Prod.fst h1)
      simp only [StdMap.find?, hne, if_false]
      exact ih hnd.2 h1

/-- One iteration of the settlement loop keeps the users of the creditor queue among the
users `cs`, those of the debtor queue among the users `ds`, and every transfer from a user
of `ds` to a user of `cs`. -/
theorem settleStep_users (cs ds : List String) (s next : SettleState)
    (hc : ∀ e ∈ s.creditorQueue, e.userId ∈ cs)
    (hd : ∀ e ∈ s.debtorQueue, e.userId ∈ ds)
    (hr : ∀ t ∈ s.result, t.fromUserId ∈ ds ∧ t.toUserId ∈ cs)
    (h : settleStep s = some next) :
    (∀ e ∈ next.creditorQueue, e.userId ∈ cs)
    ∧ (∀ e ∈ next.debtorQueue, e.userId ∈ ds)
    ∧ (∀ t ∈ next.result, t.fromUserId ∈ ds ∧ t.toUserId ∈ cs) := by
  obtain ⟨creditor, debtor, hct, hdt, hcq, hdq, hres⟩ := settleStep_some s next h
  have hcm := hc creditor (pqTop_mem _ _ _ hct)
  have hdm := hd debtor (pqTop_mem _ _ _ hdt)
  refine ⟨?_, ?_, ?_⟩
  · intro e he
    rw [hcq] at he
    split at he
    · rcases List.mem_append.1 he with h1 | h1
      · exact hc e (List.mem_of_mem_erase h1)
      · rw [List.mem_singleton] at h1
        rw [h1]
        exact hcm
    · exact hc e (List.mem_of_mem_erase he)
  · intro e he
    rw [hdq] at he
    split at he
    · rcases List.mem_append.1 he with h1 | h1
      · exact hd e (List.mem_of_mem_erase h1)
      · rw [List.mem_singleton] at h1
        rw [h1]
        exact hdm
    · exact hd e (List.mem_of_mem_erase he)
  · intro t ht
    rw [hres] at ht
    rcases List.mem_append.1 ht with h1 | h1
    · exact hr t h1
    · rw [List.mem_singleton] at h1
      rw [h1]
      exact ⟨hdm, hcm⟩

/-- Every transfer of `settleUpGreedy` goes from an entry of the balance map below
`-EPSILON` to an entry above `EPSILON`. -/
theorem settleUpGreedy_users (m : SplitwiseManager) (t : SettlementTransaction)
    (ht : t ∈ m.settleUpGreedy) :
    (∃ bal, (t.fromUserId, bal) ∈ m.getAllBalances ∧ bal < -EPSILON)
    ∧ (∃ bal, (t.toUserId, bal) ∈ m.getAllBalances ∧ bal > EPSILON) := by
  obtain ⟨final, hP, _, heq⟩ := settleLoop_final
    (fun s =>
      (∀ e ∈ s.creditorQueue,
        e.userId ∈ (partitionBalances m.getAllBalances).1.map (fun e => e.userId))
      ∧ (∀ e ∈ s.debtorQueue,
        e.userId ∈ (partitionBalances m.getAllBalances).2.map (fun e => e.userId))
      ∧ (∀ t ∈ s.result,
        t.fromUserId ∈ (partitionBalances m.getAllBalances).2.map (fun e => e.userId)
        ∧ t.toUserId ∈ (partitionBalances m.getAllBalances).1.map (fun e => e.userId)))
    (fun s next hs h => settleStep_users _ _ s next hs.1 hs.2.1 hs.2.2 h)
    { creditorQueue := (partitionBalances m.getAllBalances).1
      debtorQueue := (partitionBalances m.getAllBalances).2
      result := [] }
    ⟨fun e he => List.mem_map_of_mem (fun e => e.userId) he,
     fun e he => List.mem_map_of_mem (fun e => e.userId) he, by simp⟩
  have hres : m.settleUpGreedy = final.result := heq
  rw [hres] at ht
  obtain ⟨hfrom, hto⟩ := hP.2.2 t ht
  obtain ⟨d, hd, hdu⟩ := List.mem_map.1 hfrom
  obtain ⟨c, hc, hcu⟩ := List.mem_map.1 hto
  have hd1 := (mem_partition_snd _ d).1 hd
  have hc1 := (mem_partition_fst _ c).1 hc
  rw [hdu] at hd1
  rw [hcu] at hc1
  exact ⟨⟨d.amount, hd1⟩, ⟨c.amount, hc1⟩⟩

/-- C26: for a balance map, whose users are distinct, every transaction of `settleUpGreedy`
goes from a user whose balance is below -1e-6 to a user whose balance is above 1e-6; so
its two users differ, no user pays in one transaction and receives in another, and a user
whose balance is within 1e-6 of zero is in no transaction. -/
theorem settlement_direction (m : SplitwiseManager)
    (hkeys : (m.getAllBalances.map Prod.fst).Nodup) :
    (∀ t ∈ m.settleUpGreedy,
      (∃ bal, StdMap.find? m.getAllBalances t.fromUserId = some bal ∧ bal < -EPSILON)
      ∧ (∃ bal, StdMap.find? m.getAllBalances t.toUserId = some bal ∧ bal > EPSILON)
      ∧ t.fromUserId ≠ t.toUserId)
    ∧ (∀ t1 ∈ m.settleUpGreedy, ∀ t2 ∈ m.settleUpGreedy, t1.fromUserId ≠ t2.toUserId)
    ∧ (∀ u bal, StdMap.find? m.getAllBalances u = some bal → |bal| ≤ EPSILON →
        ∀ t ∈ m.settleUpGreedy, t.fromUserId ≠ u ∧ t.toUserId ≠ u) := by
  have heps := EPSILON_pos
  have hfrom : ∀ t ∈ m.settleUpGreedy,
      ∃ bal, StdMap.find? m.getAllBalances t.fromUserId = some bal ∧ bal < -EPSILON := by
    intro t ht
    obtain ⟨⟨bal, hmem, hlt⟩, _⟩ := settleUpGreedy_users m t ht
    exact ⟨bal, find?_of_mem_nodup _ _ _ hkeys hmem, hlt⟩
  have hto : ∀ t ∈ m.settleUpGreedy,
      ∃ bal, StdMap.find? m.getAllBalances t.toUserId = some bal ∧ bal > EPSILON := by
    intro t ht
    obtain ⟨_, ⟨bal, hmem, hgt⟩⟩ := settleUpGreedy_users m t ht
    exact ⟨bal, find?_of_mem_nodup _ _ _ hkeys hmem, hgt⟩
  have hcross : ∀ t1 ∈ m.settleUpGreedy, ∀ t2 ∈ m.settleUpGreedy,
      t1.fromUserId ≠ t2.toUserId := by
    intro t1 h1 t2 h2 heq
    obtain ⟨b1, hf1, hlt⟩ := hfrom t1 h1
    obtain ⟨b2, hf2, hgt⟩ := hto t2 h2
    rw [heq, hf2] at hf1
    simp only [Option.some.injEq] at hf1
    linarith
  refine ⟨fun t ht => ⟨hfrom t ht, hto t ht, hcross t ht t ht⟩, hcross, ?_⟩
  intro u bal hu hbal t ht
  rw [abs_le] at hbal
  constructor
  · intro heq
    obtain ⟨b1, hf1, hlt⟩ := hfrom t ht
    rw [heq, hu] at hf1
    simp only [Option.some.injEq] at hf1
    linarith [hbal.1]
  · intro heq
    obtain ⟨b2, hf2, hgt⟩ := hto t ht
    rw [heq, hu] at hf2
    simp only [Option.some.injEq] at hf2
    linarith [hbal.2]

/-- C26, an instance: the balances A = 62, B = -18, C = -44 have distinct users, and the
two transfers returned for them go from the debtors C and B to the creditor A. -/
theorem settlement_direction_witness :
    (reconciled.getAllBalances.map Prod.fst).Nodup
    ∧ ((∀ t ∈ reconciled.settleUpGreedy,
        (∃ bal, StdMap.find? reconciled.getAllBalances t.fromUserId = some bal
          ∧ bal < -EPSILON)
        ∧ (∃ bal, StdMap.find? reconciled.getAllBalances t.toUserId = some bal
          ∧ bal > EPSILON)
        ∧ t.fromUserId ≠ t.toUserId)
      ∧ (∀ t1 ∈ reconciled.settleUpGreedy, ∀ t2 ∈ reconciled.settleUpGreedy,
          t1.fromUserId ≠ t2.toUserId)
      ∧ (∀ u bal, StdMap.find? reconciled.getAllBalances u = some bal → |bal| ≤ EPSILON →
          ∀ t ∈ reconciled.settleUpGreedy, t.fromUserId ≠ u ∧ t.toUserId ≠ u)) :=
  ⟨by decide, settlement_direction reconciled (by decide)⟩

/-- The settlement loop reaches a state where its condition fails within as many
iterations as the two queues hold entries, and returns the result of that state. -/
theorem settleLoop_steps (s : SettleState) :
    ∃ n, n ≤ s.creditorQueue.length + s.debtorQueue.length
      ∧ settleStep (settleSteps n s) = none
      ∧ settleLoop s = (settleSteps n s).result := by
  induction s using settleLoop.induct with
  | case1 s next h ih =>
    obtain ⟨n, hn, hnone, heq⟩ := ih
    have hlt := settleStep_measure s next h
    refine ⟨n + 1, by omega, ?_, ?_⟩
    · simp only [settleSteps, h]
      exact hnone
    · simp only [settleSteps, h]
      rw [settleLoop_of_some s next h]
      exact heq
  | case2 s h =>
    exact ⟨0, Nat.zero_le _, h, settleLoop_of_none s h⟩

/-- C28: the loop of `settleUpGreedy` terminates and cannot fail.  In every iteration one
of the two entries taken from the queues is reduced to exactly 0 and is not put back, so
the two queues together lose an entry; hence, for every balance map, the loop condition
fails after at most as many iterations as there are creditors and debtors, and
`settleUpGreedy` returns the result reached then. -/
theorem settlement_terminates :
    (∀ s next, settleStep s = some next →
      ∃ creditor debtor, pqTop creditorCmp s.creditorQueue = some creditor
        ∧ pqTop debtorCmp s.debtorQueue = some debtor
        ∧ ((creditor.amount - min creditor.amount (-debtor.amount) = 0
              ∧ next.creditorQueue = s.creditorQueue.erase creditor)
            ∨ (debtor.amount + min creditor.amount (-debtor.amount) = 0
              ∧ next.debtorQueue = s.debtorQueue.erase debtor))
        ∧ next.creditorQueue.length + next.debtorQueue.length
            < s.creditorQueue.length + s.debtorQueue.length)
    ∧ (∀ m : SplitwiseManager,
      ∃ n, n ≤ (partitionBalances m.getAllBalances).1.length
              + (partitionBalances m.getAllBalances).2.length
        ∧ settleStep (settleSteps n
            { creditorQueue := (partitionBalances m.getAllBalances).1
              debtorQueue := (partitionBalances m.getAllBalances).2
              result := [] }) = none
        ∧ m.settleUpGreedy = (settleSteps n
            { creditorQueue := (partitionBalances m.getAllBalances).1
              debtorQueue := (partitionBalances m.getAllBalances).2
              result := [] }).result) := by
  have heps := EPSILON_pos
  refine ⟨fun s next h => ?_, fun m => settleLoop_steps
    { creditorQueue := (partitionBalances m.getAllBalances).1
      debtorQueue := (partitionBalances m.getAllBalances).2
      result := [] }⟩
  obtain ⟨creditor, debtor, hct, hdt, hcq, hdq, _⟩ := settleStep_some s next h
  refine ⟨creditor, debtor, hct, hdt, ?_, settleStep_measure s next h⟩
  rcases le_total creditor.amount (-debtor.amount) with hle | hle
  · left
    have hz : creditor.amount - min creditor.amount (-debtor.amount) = 0 := by
      rw [min_eq_left hle]; ring
    refine ⟨hz, ?_⟩
    rw [hcq, hz, if_neg (by linarith)]
  · right
    have hz : debtor.amount + min creditor.amount (-debtor.amount) = 0 := by
      rw [min_eq_right hle]; ring
    refine ⟨hz, ?_⟩
    rw [hdq, hz, if_neg (by linarith)]

/-! ## The three-expense scenario: claim C23 -/

/-- C23: on a fresh manager with three users in one group, an Equal split of 120 paid by
the first user among all three, a Percent split of 60 at 30, 30 and 40 percent paid by the
second, and an Exact split of 45 in 20 and 25 between the second and the third, paid by
the third, are all recorded and leave the balances exactly 62, -18 and -44, which sum
to 0. -/
theorem three_expense_scenario :
    (SplitwiseManager.run {} reconciliationCalls).getAllBalances
      = [("USR1", 62), ("USR2", -18), ("USR3", -44)]
    ∧ (SplitwiseManager.run {} reconciliationCalls).getAllBalances.total = 0
    ∧ StdMap.keys (SplitwiseManager.run {} reconciliationCalls).getExpenses
      = ["EXP1", "EXP2", "EXP3"]
    ∧ (SplitwiseManager.run {} reconciliationCalls).getExpenses.map
        (fun e => (e.2.description_, e.2.strategy_))
      = [("Dinner", .equal), ("Movie", .percent), ("Taxi", .exact)] := by
  decide!

/-! ## The call of the notifier: claims C25 and C30 -/

namespace SplitwiseManager

/-- On a manager whose expenses are numbered, the next expense id is not a key of the
expense map. -/
theorem Numbered.generateId_fresh (m : SplitwiseManager) (n : ℕ) (h : m.Numbered n)
    (hn : n + 1 < 2 ^ 64) : StdMap.find? m.expenses_ (m.generateId "EXP").1 = none := by
  obtain ⟨hcount, hkeys⟩ := h
  have hmod : (m.counters_.getD "EXP" 0 + 1) % 2 ^ 64 = m.counters_.getD "EXP" 0 + 1 :=
    Nat.mod_eq_of_lt (by omega)
  cases hf : StdMap.find? m.expenses_ (m.generateId "EXP").1 with
  | none => rfl
  | some e =>
    have hcont : StdMap.contains m.expenses_ (m.generateId "EXP").1 = true := by
      simp [StdMap.contains, hf]
    obtain ⟨j, hj, hkj⟩ := hkeys _ hcont
    rw [generateId_fst, hmod] at hkj
    have := expenseId_injective "EXP" _ _ hkj
    omega

/-- With a notifier and a threshold below the amount, `recordExpense` calls the notifier
once, with the expense found under the new id, and returns what that call returns. -/
theorem recordExpense_notify (m : SplitwiseManager) (groupId description : String)
    (input : SplitInput) (strategy : SplitStrategy) (delta : BalanceMap)
    (notifier : INotifier) (threshold : ℚ) (hn : m.notifier_ = some notifier)
    (ht : m.notificationThreshold_ = some threshold) (hgt : input.amount > threshold) :
    (m.recordExpense groupId description input strategy delta).notified
      = [((StdMap.find? m.expenses_ (m.generateId "EXP").1).getD
            ⟨(m.generateId "EXP").1, groupId, description, input, strategy⟩, threshold)]
    ∧ (m.recordExpense groupId description input strategy delta).result
      = Except.map (fun _ => (m.generateId "EXP").1)
          (notifier.notifyLargeExpense
            ((StdMap.find? m.expenses_ (m.generateId "EXP").1).getD
              ⟨(m.generateId "EXP").1, groupId, description, input, strategy⟩) threshold) := by
  unfold recordExpense generateId
  dsimp only
  split
  · next n t hn1 ht1 =>
    rw [hn] at hn1
    rw [ht] at ht1
    cases hn1
    cases ht1
    rw [if_pos hgt]
    split
    · next hnone =>
      rw [find?_emplace, if_pos rfl] at hnone
      simp at hnone
    · next stored hstored =>
      rw [find?_emplace, if_pos rfl] at hstored
      cases hstored
      split
      · next e hr =>
        rw [hr]
        exact ⟨rfl, rfl⟩
      · next u hr =>
        rw [hr]
        exact ⟨rfl, rfl⟩
  · next hne => exact (hne notifier threshold hn ht).elim

/-- Without a notifier, without a threshold, or with an amount that does not exceed the
threshold, `recordExpense` does not call the notifier and returns the new id. -/
theorem recordExpense_silent (m : SplitwiseManager) (groupId description : String)
    (input : SplitInput) (strategy : SplitStrategy) (delta : BalanceMap)
    (h : m.notifier_ = none ∨ m.notificationThreshold_ = none
      ∨ ∃ threshold, m.notificationThreshold_ = some threshold ∧ input.amount ≤ threshold) :
    (m.recordExpense groupId description input strategy delta).notified = []
    ∧ (m.recordExpense groupId description input strategy delta).result
      = .ok (m.generateId "EXP").1 := by
  unfold recordExpense generateId
  dsimp only
  split
  · next n t hn1 ht1 =>
    rcases h with h | h | ⟨threshold, h, hle⟩
    · rw [h] at hn1
      cases hn1
    · rw [h] at ht1
      cases ht1
    · rw [h] at ht1
      cases ht1
      rw [if_neg (not_lt.2 hle)]
      exact ⟨rfl, rfl⟩
  · exact ⟨rfl, rfl⟩

end SplitwiseManager

/-- C25 fails as stated: on the manager with two users in one group, a notifier that throws
and the threshold 0, the Equal split of 10 is stored and its delta applied, and the call
of `addExpense` does not return the new id: it fails with the exception of the notifier. -/
theorem notifier_failure_fails_recording :
    ((SplitwiseManager.run {} failingSetup).addExpense "GRP1" "taxi" taxiInput
        (some .equal)).result = .error (.runtimeError "notifier failed")
    ∧ StdMap.keys (SplitwiseManager.run {} failingSetup).getExpenses = []
    ∧ StdMap.keys ((SplitwiseManager.run {} failingSetup).addExpense "GRP1" "taxi" taxiInput
        (some .equal)).state.getExpenses = ["EXP1"]
    ∧ ((SplitwiseManager.run {} failingSetup).addExpense "GRP1" "taxi" taxiInput
        (some .equal)).state.getAllBalances = [("USR1", 5), ("USR2", -5)] := by
  decide!

/-- C25, as the code has it: if the checks of `addExpense` pass and the configured notifier
throws when it is called with the threshold, which the amount exceeds, then `addExpense`
fails with the exception of the notifier, and the stored expense and the applied delta
are kept: the expense map is the old one after `emplace` of the new expense under the new
id, which is a key of it, and the balance sheet is the old one after `applyDelta`. -/
theorem notifier_failure_keeps_record (m : SplitwiseManager) (groupId description : String)
    (input : SplitInput) (strategy : Option SplitStrategy) (strat : SplitStrategy)
    (delta : BalanceMap) (notifier : INotifier) (threshold : ℚ) (e : Error)
    (hcheck : m.checkExpense groupId input strategy = .ok (strat, delta))
    (hn : m.notifier_ = some notifier) (ht : m.notificationThreshold_ = some threshold)
    (hgt : input.amount > threshold)
    (hthrow : ∀ expense, notifier.notifyLargeExpense expense threshold = .error e) :
    (m.addExpense groupId description input strategy).result = .error e
    ∧ (m.addExpense groupId description input strategy).state.expenses_
      = m.expenses_.emplace (m.generateId "EXP").1
          ⟨(m.generateId "EXP").1, groupId, description, input, strat⟩
    ∧ StdMap.contains (m.addExpense groupId description input strategy).state.expenses_
        (m.generateId "EXP").1 = true
    ∧ (m.addExpense groupId description input strategy).state.balanceSheet_
      = m.balanceSheet_.applyDelta delta := by
  rw [SplitwiseManager.addExpense_of_check_ok m _ _ _ _ strat delta hcheck]
  obtain ⟨_, hres⟩ := SplitwiseManager.recordExpense_notify m groupId description input strat
    delta notifier threshold hn ht hgt
  rw [hthrow] at hres
  refine ⟨hres, ?_, ?_, ?_⟩
  · rw [SplitwiseManager.recordExpense_state]
  · rw [SplitwiseManager.recordExpense_state]
    show StdMap.contains (StdMap.emplace m.expenses_ _ _) _ = true
    rw [contains_emplace]
    simp
  · rw [SplitwiseManager.recordExpense_state]

/-- C25, an instance: with two users in one group, a notifier that throws and the threshold
0, the Equal split of 10 passes the checks, the call fails with the exception of the
notifier, and EXP1 is a key of the expense map afterwards. -/
theorem notifier_failure_keeps_record_witness :
    (SplitwiseManager.run {} failingSetup).checkExpense "GRP1" taxiInput (some .equal)
      = .ok (.equal, [("USR1", 5), ("USR2", -5)])
    ∧ taxiInput.amount > 0
    ∧ ((SplitwiseManager.run {} failingSetup).addExpense "GRP1" "taxi" taxiInput
        (some .equal)).result = .error (.runtimeError "notifier failed")
    ∧ ((SplitwiseManager.run {} failingSetup).addExpense "GRP1" "taxi" taxiInput
        (some .equal)).state.expenses_
      = (SplitwiseManager.run {} failingSetup).expenses_.emplace
          ((SplitwiseManager.run {} failingSetup).generateId "EXP").1
          ⟨((SplitwiseManager.run {} failingSetup).generateId "EXP").1, "GRP1", "taxi",
            taxiInput, .equal⟩
    ∧ StdMap.contains ((SplitwiseManager.run {} failingSetup).addExpense "GRP1" "taxi"
        taxiInput (some .equal)).state.expenses_
        ((SplitwiseManager.run {} failingSetup).generateId "EXP").1 = true
    ∧ ((SplitwiseManager.run {} failingSetup).addExpense "GRP1" "taxi" taxiInput
        (some .equal)).state.balanceSheet_
      = (SplitwiseManager.run {} failingSetup).balanceSheet_.applyDelta
          [("USR1", 5), ("USR2", -5)] :=
  ⟨by decide!, by decide!,
   notifier_failure_keeps_record (SplitwiseManager.run {} failingSetup) "GRP1" "taxi"
     taxiInput (some .equal) .equal [("USR1", 5), ("USR2", -5)] failingNotifier 0
     (.runtimeError "notifier failed") (by decide!) rfl rfl (by decide!) (fun _ => rfl)⟩

/-- C30 fails as stated: on the manager with two users in one group, a notifier that throws
and the threshold 0, the call of `addExpense` for the Equal split of 10 fails, and it has
called the notifier, once, with the stored expense EXP1 and the threshold 0. -/
theorem failed_addExpense_notifies :
    ((SplitwiseManager.run {} failingSetup).addExpense "GRP1" "taxi" taxiInput
        (some .equal)).result = .error (.runtimeError "notifier failed")
    ∧ ((SplitwiseManager.run {} failingSetup).addExpense "GRP1" "taxi" taxiInput
        (some .equal)).notified = [(⟨"EXP1", "GRP1", "taxi", taxiInput, .equal⟩, 0)] := by
  decide!

/-- C30, as the code has it: on a manager reached from a fresh one by calls of the public
interface (fewer than 2^64 - 1 of them), an `addExpense` that succeeds with a notifier set
and an amount strictly greater than the threshold has called the notifier exactly once,
with the newly stored expense and the threshold, and has not called it when no notifier is
set, when the threshold is the default infinity, or when the amount equals the threshold
or is below it; an `addExpense` that fails in its checks has not called it; and an
`addExpense` that fails has either not called it or called it once, under the same
condition on notifier and threshold, and fails with the exception of that call. -/
theorem notification_trigger (calls : List SplitwiseManager.Call)
    (hlen : calls.length + 1 < 2 ^ 64) (groupId description : String) (input : SplitInput)
    (strategy : Option SplitStrategy) :
    (∀ id, ((SplitwiseManager.run {} calls).addExpense groupId description input
        strategy).result = .ok id →
      ∃ strat, strategy = some strat
        ∧ (∀ notifier threshold,
            (SplitwiseManager.run {} calls).notifier_ = some notifier →
            (SplitwiseManager.run {} calls).notificationThreshold_ = some threshold →
            input.amount > threshold →
            ((SplitwiseManager.run {} calls).addExpense groupId description input
                strategy).notified
              = [(⟨id, groupId, description, input, strat⟩, threshold)]
            ∧ StdMap.find? ((SplitwiseManager.run {} calls).addExpense groupId description
                input strategy).state.getExpenses id
              = some ⟨id, groupId, description, input, strat⟩)
        ∧ ((SplitwiseManager.run {} calls).notifier_ = none →
            ((SplitwiseManager.run {} calls).addExpense groupId description input
                strategy).notified = [])
        ∧ ((SplitwiseManager.run {} calls).notificationThreshold_ = none →
            ((SplitwiseManager.run {} calls).addExpense groupId description input
                strategy).notified = [])
        ∧ (∀ threshold,
            (SplitwiseManager.run {} calls).notificationThreshold_ = some threshold →
            input.amount ≤ threshold →
            ((SplitwiseManager.run {} calls).addExpense groupId description input
                strategy).notified = []))
    ∧ (∀ e, (SplitwiseManager.run {} calls).checkExpense groupId input strategy = .error e →
        ((SplitwiseManager.run {} calls).addExpense groupId description input
            strategy).result = .error e
        ∧ ((SplitwiseManager.run {} calls).addExpense groupId description input
            strategy).notified = [])
    ∧ (∀ e, ((SplitwiseManager.run {} calls).addExpense groupId description input
        strategy).result = .error e →
        ((SplitwiseManager.run {} calls).addExpense groupId description input
            strategy).notified = []
        ∨ ∃ notifier threshold stored,
            (SplitwiseManager.run {} calls).notifier_ = some notifier
            ∧ (SplitwiseManager.run {} calls).notificationThreshold_ = some threshold
            ∧ input.amount > threshold
            ∧ ((SplitwiseManager.run {} calls).addExpense groupId description input
                strategy).notified = [(stored, threshold)]
            ∧ notifier.notifyLargeExpense stored threshold = .error e) := by
  have hnum := SplitwiseManager.Numbered.run calls {} 0 SplitwiseManager.Numbered.fresh
    (by omega)
  rw [Nat.zero_add] at hnum
  generalize SplitwiseManager.run {} calls = m at hnum ⊢
  have hfresh := SplitwiseManager.Numbered.generateId_fresh m _ hnum hlen
  rcases hc : m.checkExpense groupId input strategy with e1 | ⟨strat, delta⟩
  · rw [SplitwiseManager.addExpense_of_check_error m _ _ _ _ e1 hc]
    refine ⟨fun id hok => ?_, fun e he => ?_, fun e _ => Or.inl rfl⟩
    · simp at hok
    · cases he
      exact ⟨rfl, rfl⟩
  · obtain ⟨hs, _⟩ := SplitwiseManager.conditions_of_checkExpense m groupId input strategy _ hc
    rw [SplitwiseManager.addExpense_of_check_ok m _ _ _ _ strat delta hc]
    refine ⟨fun id hok => ?_, fun e he => ?_, fun e herr => ?_⟩
    · have hid := SplitwiseManager.recordExpense_result_ok m _ _ _ _ _ id hok
      refine ⟨strat, hs, fun notifier threshold hn ht hgt => ?_, fun hn => ?_, fun ht => ?_,
        fun threshold ht hle => ?_⟩
      · obtain ⟨hnot, _⟩ := SplitwiseManager.recordExpense_notify m groupId description input
          strat delta notifier threshold hn ht hgt
        rw [hfresh] at hnot
        refine ⟨?_, ?_⟩
        · rw [hnot, hid]
          rfl
        · rw [SplitwiseManager.recordExpense_state]
          show StdMap.find? (StdMap.emplace m.expenses_ _ _) id = _
          rw [hid, find?_emplace, if_pos rfl, hfresh]
          rfl
      · exact (SplitwiseManager.recordExpense_silent m _ _ _ _ _ (Or.inl hn)).1
      · exact (SplitwiseManager.recordExpense_silent m _ _ _ _ _ (Or.inr (Or.inl ht))).1
      · exact (SplitwiseManager.recordExpense_silent m _ _ _ _ _
          (Or.inr (Or.inr ⟨threshold, ht, hle⟩))).1
    · cases he
    · cases hn : m.notifier_ with
      | none => exact Or.inl (SplitwiseManager.recordExpense_silent m _ _ _ _ _ (Or.inl hn)).1
      | some notifier =>
        cases ht : m.notificationThreshold_ with
        | none =>
          exact Or.inl
            (SplitwiseManager.recordExpense_silent m _ _ _ _ _ (Or.inr (Or.inl ht))).1
        | some threshold =>
          by_cases hgt : input.amount > threshold
          · obtain ⟨hnot, hres⟩ := SplitwiseManager.recordExpense_notify m groupId description
              input strat delta notifier threshold hn ht hgt
            refine Or.inr ⟨notifier, threshold, _, rfl, rfl, hgt, hnot, ?_⟩
            rw [hres] at herr
            cases hr : notifier.notifyLargeExpense
                ((StdMap.find? m.expenses_ (m.generateId "EXP").1).getD
                  ⟨(m.generateId "EXP").1, groupId, description, input, strat⟩)
                threshold with
            | error e2 =>
              rw [hr] at herr
              exact congrArg _ (Except.error.inj herr)
            | ok u =>
              rw [hr] at herr
              cases herr
          · exact Or.inl (SplitwiseManager.recordExpense_silent m _ _ _ _ _
              (Or.inr (Or.inr ⟨threshold, ht, not_lt.1 hgt⟩))).1

/-- C30, an instance: with two users in one group, the console notifier and the threshold
5, the Equal split of 10 succeeds with the id EXP1 and calls the notifier once, with the
stored expense EXP1 and the threshold 5. -/
theorem notification_trigger_witness :
    (consoleSetup.length + 1 < 2 ^ 64
      ∧ ((SplitwiseManager.run {} consoleSetup).addExpense "GRP1" "taxi" taxiInput
          (some .equal)).result = .ok "EXP1"
      ∧ ((SplitwiseManager.run {} consoleSetup).addExpense "GRP1" "taxi" taxiInput
          (some .equal)).notified = [(⟨"EXP1", "GRP1", "taxi", taxiInput, .equal⟩, 5)])
    ∧ ∃ strat, some SplitStrategy.equal = some strat
        ∧ (∀ notifier threshold,
            (SplitwiseManager.run {} consoleSetup).notifier_ = some notifier →
            (SplitwiseManager.run {} consoleSetup).notificationThreshold_ = some threshold →
            taxiInput.amount > threshold →
            ((SplitwiseManager.run {} consoleSetup).addExpense "GRP1" "taxi" taxiInput
                (some .equal)).notified
              = [(⟨"EXP1", "GRP1", "taxi", taxiInput, strat⟩, threshold)]
            ∧ StdMap.find? ((SplitwiseManager.run {} consoleSetup).addExpense "GRP1" "taxi"
                taxiInput (some .equal)).state.getExpenses "EXP1"
              = some ⟨"EXP1", "GRP1", "taxi", taxiInput, strat⟩)
        ∧ ((SplitwiseManager.run {} consoleSetup).notifier_ = none →
            ((SplitwiseManager.run {} consoleSetup).addExpense "GRP1" "taxi" taxiInput
                (some .equal)).notified = [])
        ∧ ((SplitwiseManager.run {} consoleSetup).notificationThreshold_ = none →
            ((SplitwiseManager.run {} consoleSetup).addExpense "GRP1" "taxi" taxiInput
                (some .equal)).notified = [])
        ∧ (∀ threshold,
            (SplitwiseManager.run {} consoleSetup).notificationThreshold_ = some threshold →
            taxiInput.amount ≤ threshold →
            ((SplitwiseManager.run {} consoleSetup).addExpense "GRP1" "taxi" taxiInput
                (some .equal)).notified = []) :=
  ⟨⟨by decide, by decide!, by decide!⟩,
   (notification_trigger consoleSetup (by decide) "GRP1" "taxi" taxiInput (some .equal)).1
     "EXP1" (by decide!)⟩

/-! ## The sum of the Equal delta in exact arithmetic: claim C36 -/

/-- C36: for every input on which the Equal strategy succeeds, with or without repeated
participant ids and with or without the payer among the participants, the values of the
delta sum to exactly 0. -/
theorem equal_delta_sums_to_zero (input : SplitInput) (delta : BalanceMap)
    (h : EqualSplitStrategy.computeSplits input = .ok delta) : delta.total = 0 :=
  equal_total input delta h

/-- C36, an instance: 90 paid by P, who is not a participant, among a, listed twice, and b
gives the delta P = 90, a = -60, b = -30, whose values sum to 0. -/
theorem equal_delta_sums_to_zero_witness :
    EqualSplitStrategy.computeSplits repeatedEqual = .ok [("P", 90), ("a", -60), ("b", -30)]
    ∧ BalanceMap.total [("P", 90), ("a", -60), ("b", -30)] = 0 :=
  ⟨by decide!,
   equal_delta_sums_to_zero repeatedEqual [("P", 90), ("a", -60), ("b", -30)] (by decide!)⟩

/-! ## No residue below the tolerance: claim C35 -/

namespace StdMap

variable {α : Type}

theorem modifyAt_modifyAt (m : StdMap α) (k : String) (f g : α → α) :
    (m.modifyAt k f).modifyAt k g = m.modifyAt k (fun v => g (f v)) := by
  induction m with
  | nil => rfl
  | cons e rest ih =>
    obtain ⟨k1, v1⟩ := e
    by_cases hk : k1 = k
    · simp [modifyAt, hk]
    · simp [modifyAt, hk, ih]

theorem modifyAt_insertNew (m : StdMap α) (k : String) (v : α) (g : α → α)
    (h : m.find? k = none) : (m.insertNew k v).modifyAt k g = m.insertNew k (g v) := by
  induction m with
  | nil => simp [insertNew, modifyAt]
  | cons e rest ih =>
    obtain ⟨k1, v1⟩ := e
    simp only [find?] at h
    by_cases hk : k1 = k
    · simp [hk] at h
    · simp only [hk, if_false] at h
      simp only [insertNew]
      split
      · simp [modifyAt]
      · simp [modifyAt, hk, ih h]

theorem modifyAt_congr (m : StdMap α) (k : String) (f g : α → α)
    (h : ∀ v, m.find? k = some v → f v = g v) : m.modifyAt k f = m.modifyAt k g := by
  induction m with
  | nil => rfl
  | cons e rest ih =>
    obtain ⟨k1, v1⟩ := e
    by_cases hk : k1 = k
    · have := h v1 (by simp [find?, hk])
      simp [modifyAt, hk, this]
    · have hrest : ∀ v, find? rest k = some v → f v = g v := by
        intro v hv
        exact h v (by simp [find?, hk, hv])
      simp [modifyAt, hk, ih hrest]

theorem alter_alter (m : StdMap α) (k : String) (d : α) (f g : α → α) :
    (m.alter k d f).alter k d g = m.alter k d (fun v => g (f v)) := by
  have hc : (m.alter k d f).contains k = true := by
    rw [contains_alter]
    simp
  have houter : (m.alter k d f).alter k d g = (m.alter k d f).modifyAt k g := by
    unfold alter at hc ⊢
    rw [if_pos hc]
  rw [houter]
  unfold alter
  by_cases hm : m.contains k = true
  · rw [if_pos hm, if_pos hm, modifyAt_modifyAt]
  · have hn : m.find? k = none := (contains_eq_false_iff m k).1 (by simpa using hm)
    rw [if_neg hm, if_neg hm, modifyAt_insertNew _ _ _ _ hn]

theorem alter_congr (m : StdMap α) (k : String) (d : α) (f g : α → α)
    (h : f (m.getD k d) = g (m.getD k d)) : m.alter k d f = m.alter k d g := by
  unfold alter
  by_cases hm : m.contains k = true
  · rw [if_pos hm, if_pos hm]
    apply modifyAt_congr
    intro v hv
    simpa [getD, hv] using h
  · have hn : m.find? k = none := (contains_eq_false_iff m k).1 (by simpa using hm)
    rw [if_neg hm, if_neg hm]
    have : m.getD k d = d := by simp [getD, hn]
    rw [this] at h
    rw [h]

theorem mem_modifyAt (m : StdMap α) (k : String) (f : α → α) (e : String × α)
    (h : e ∈ m.modifyAt k f) : e ∈ m ∨ ∃ v, m.find? k = some v ∧ e = (k, f v) := by
  induction m with
  | nil => simp [modifyAt] at h
  | cons x rest ih =>
    obtain ⟨k1, v1⟩ := x
    by_cases hk : k1 = k
    · simp only [modifyAt, hk, if_true, List.mem_cons] at h
      rcases h with h | h
      · exact Or.inr ⟨v1, by simp [find?, hk], h⟩
      · exact Or.inl (List.mem_cons_of_mem _ h)
    · simp only [modifyAt, hk, if_false, List.mem_cons] at h
      rcases h with h | h
      · left
        rw [h]
        exact List.mem_cons_self _ _
      · rcases ih h with h1 | ⟨v, hv, h1⟩
        · exact Or.inl (List.mem_cons_of_mem _ h1)
        · exact Or.inr ⟨v, by simp [find?, hk, hv], h1⟩

theorem mem_insertNew (m : StdMap α) (k : String) (v : α) (e : String × α)
    (h : e ∈ m.insertNew k v) : e ∈ m ∨ e = (k, v) := by
  induction m with
  | nil =>
    simp only [insertNew, List.mem_singleton] at h
    exact Or.inr h
  | cons x rest ih =>
    obtain ⟨k1, v1⟩ := x
    simp only [insertNew] at h
    split at h
    · rcases List.mem_cons.1 h with h | h
      · exact Or.inr h
      · exact Or.inl h
    · rcases List.mem_cons.1 h with h | h
      · left
        rw [h]
        exact List.mem_cons_self _ _
      · rcases ih h with h1 | h1
        · exact Or.inl (List.mem_cons_of_mem _ h1)
        · exact Or.inr h1

/-- An entry of a map after `m[k] = f(m[k])` is an entry of the map before, or the entry
written under `k`. -/
theorem mem_alter (m : StdMap α) (k : String) (d : α) (f : α → α) (e : String × α)
    (h : e ∈ m.alter k d f) : e ∈ m ∨ e = (k, f (m.getD k d)) := by
  unfold alter at h
  by_cases hm : m.contains k = true
  · rw [if_pos hm] at h
    rcases mem_modifyAt m k f e h with h1 | ⟨v, hv, h1⟩
    · exact Or.inl h1
    · right
      rw [h1]
      simp [getD, hv]
  · have hn : m.find? k = none := (contains_eq_false_iff m k).1 (by simpa using hm)
    rw [if_neg hm] at h
    rcases mem_insertNew m k (f d) e h with h1 | h1
    · exact Or.inl h1
    · right
      rw [h1]
      simp [getD, hn]

end StdMap

/-- One iteration of the loop of `applyDelta` writes, under the user id, the sum of the
balance and the change after the reset to zero. -/
theorem applyEntry_eq_alter (b : BalanceMap) (userId : String) (change : ℚ) :
    BalanceSheet.applyEntry b userId change
      = StdMap.alter b userId 0 (fun v => snap (v + change)) := by
  unfold BalanceSheet.applyEntry
  dsimp only
  rw [StdMap.getD_alter, if_pos rfl]
  by_cases h : |StdMap.getD b userId 0 + change| < SNAP
  · rw [if_pos h, StdMap.alter_alter]
    apply StdMap.alter_congr
    show (0 : ℚ) = snap (StdMap.getD b userId 0 + change)
    unfold snap
    rw [if_pos h]
  · rw [if_neg h]
    apply StdMap.alter_congr
    show StdMap.getD b userId 0 + change = snap (StdMap.getD b userId 0 + change)
    unfold snap
    rw [if_neg h]

theorem snap_settled (x : ℚ) : snap x = 0 ∨ SNAP ≤ |snap x| := by
  unfold snap
  by_cases h : |x| < SNAP
  · rw [if_pos h]
    exact Or.inl rfl
  · rw [if_neg h]
    exact Or.inr (not_lt.1 h)

theorem applyEntry_settled (b : BalanceMap) (userId : String) (change : ℚ)
    (hb : ∀ e ∈ b, e.2 = 0 ∨ SNAP ≤ |e.2|) :
    ∀ e ∈ BalanceSheet.applyEntry b userId change, e.2 = 0 ∨ SNAP ≤ |e.2| := by
  intro e he
  rw [applyEntry_eq_alter] at he
  rcases StdMap.mem_alter b userId 0 _ e he with h | h
  · exact hb e h
  · rw [h]
    exact snap_settled _

theorem applyDelta_settled (s : BalanceSheet) (delta : BalanceMap)
    (hs : ∀ e ∈ s.balances_, e.2 = 0 ∨ SNAP ≤ |e.2|) :
    ∀ e ∈ (s.applyDelta delta).balances_, e.2 = 0 ∨ SNAP ≤ |e.2| := by
  unfold BalanceSheet.applyDelta
  dsimp only
  generalize s.balances_ = b at hs
  induction delta generalizing b with
  | nil => exact hs
  | cons x rest ih =>
    rw [List.foldl_cons]
    exact ih _ (applyEntry_settled b x.1 x.2 hs)

theorem run_settled (calls : List SheetCall) (s : BalanceSheet)
    (hs : ∀ e ∈ s.balances_, e.2 = 0 ∨ SNAP ≤ |e.2|) :
    ∀ e ∈ (s.run calls).balances_, e.2 = 0 ∨ SNAP ≤ |e.2| := by
  induction calls generalizing s with
  | nil => exact hs
  | cons call rest ih =>
    unfold BalanceSheet.run
    rw [List.foldl_cons]
    apply ih
    cases call with
    | applyDelta delta => exact applyDelta_settled s delta hs
    | clear =>
      intro e he
      simp [BalanceSheet.exec, BalanceSheet.clear] at he

/-- C35: in every balance sheet reached from the empty sheet by a sequence of `applyDelta`
and `clear` calls, every stored balance is 0 or has a magnitude of at least 1e-9. -/
theorem no_residue_below_tolerance (calls : List SheetCall) :
    ∀ e ∈ (BalanceSheet.run {} calls).getBalances, e.2 = 0 ∨ |e.2| ≥ 1 / 1000000000 := by
  intro e he
  have := run_settled calls {} (by intro e he; simp at he) e he
  exact this

/-- C35, an instance: after a delta that takes A to 1, and one that leaves A 5e-10 above
zero, the stored balance of A is 0. -/
theorem no_residue_below_tolerance_witness :
    (("A", 0) : String × ℚ) ∈ (BalanceSheet.run {} residueCalls).getBalances
    ∧ ((0 : ℚ) = 0 ∨ |(0 : ℚ)| ≥ 1 / 1000000000) :=
  ⟨by decide!, no_residue_below_tolerance residueCalls ("A", 0) (by decide!)⟩

/-! ## The number of the transfers: claim C33 -/

theorem mem_of_find? {α : Type} (b : StdMap α) (u : String) (v : α)
    (h : b.find? u = some v) : (u, v) ∈ b := by
  induction b with
  | nil => simp [StdMap.find?] at h
  | cons e rest ih =>
    obtain ⟨k1, v1⟩ := e
    simp only [StdMap.find?] at h
    by_cases hk : k1 = u
    · rw [if_pos hk] at h
      simp only [Option.some.injEq] at h
      rw [hk, h]
      exact List.mem_cons_self _ _
    · rw [if_neg hk] at h
      exact List.mem_cons_of_mem _ (ih h)

/-- One iteration adds one transaction, and runs only when the two queues together hold
at least two entries. -/
theorem settleStep_count (s next : SettleState) (h : settleStep s = some next) :
    next.result.length = s.result.length + 1
    ∧ 2 ≤ s.creditorQueue.length + s.debtorQueue.length := by
  obtain ⟨creditor, debtor, hc, hd, _, _, hres⟩ := settleStep_some s next h
  have hcpos := List.length_pos_of_mem (pqTop_mem _ _ _ hc)
  have hdpos := List.length_pos_of_mem (pqTop_mem _ _ _ hd)
  rw [hres, List.length_append, List.length_singleton]
  exact ⟨rfl, by omega⟩

/-- C33: for a balance map with `c >= 1` creditors (balance above 1e-6) and `d >= 1`
debtors (balance below -1e-6), `settleUpGreedy` returns at least one and at most
`c + d - 1` transactions. -/
theorem transaction_count_bound (m : SplitwiseManager)
    (hc : 1 ≤ (m.getAllBalances.filter (fun e => decide (e.2 > 1 / 1000000))).length)
    (hd : 1 ≤ (m.getAllBalances.filter (fun e => decide (e.2 < -(1 / 1000000)))).length) :
    1 ≤ m.settleUpGreedy.length
    ∧ m.settleUpGreedy.length
      ≤ (m.getAllBalances.filter (fun e => decide (e.2 > 1 / 1000000))).length
        + (m.getAllBalances.filter (fun e => decide (e.2 < -(1 / 1000000)))).length - 1 := by
  have hcl : (partitionBalances m.getAllBalances).1.length
      = (m.getAllBalances.filter (fun e => decide (e.2 > 1 / 1000000))).length := by
    rw [partitionBalances_fst, List.length_map]
    rfl
  have hdl : (partitionBalances m.getAllBalances).2.length
      = (m.getAllBalances.filter (fun e => decide (e.2 < -(1 / 1000000)))).length := by
    rw [partitionBalances_snd, List.length_map]
    rfl
  rw [← hcl] at hc
  rw [← hdl] at hd
  rw [← hcl, ← hdl]
  have hcne : (partitionBalances m.getAllBalances).1 ≠ [] := by
    intro h
    rw [h] at hc
    simp at hc
  have hdne : (partitionBalances m.getAllBalances).2 ≠ [] := by
    intro h
    rw [h] at hd
    simp at hd
  constructor
  · obtain ⟨_, _, rest, _, _, hfirst⟩ := settleUpGreedy_first m hcne hdne
    rw [hfirst, List.length_cons]
    omega
  · obtain ⟨final, hP, _, heq⟩ := settleLoop_final
      (fun s => s.result.length + (s.creditorQueue.length + s.debtorQueue.length)
          ≤ (partitionBalances m.getAllBalances).1.length
            + (partitionBalances m.getAllBalances).2.length
        ∧ s.result.length + 1
          ≤ (partitionBalances m.getAllBalances).1.length
            + (partitionBalances m.getAllBalances).2.length)
      (fun s next hs h => by
        obtain ⟨hlen, hq⟩ := settleStep_count s next h
        have hmeasure := settleStep_measure s next h
        rw [hlen]
        constructor
        · omega
        · omega)
      { creditorQueue := (partitionBalances m.getAllBalances).1
        debtorQueue := (partitionBalances m.getAllBalances).2
        result := [] }
      ⟨by simp, by simp only [List.length_nil]; omega⟩
    have hres : m.settleUpGreedy = final.result := heq
    rw [hres]
    omega

/-- C33, an instance: the balances A = 62, B = -18, C = -44 have one creditor and two
debtors, and the settlement has two transactions. -/
theorem transaction_count_bound_witness :
    (reconciled.getAllBalances.filter (fun e => decide (e.2 > 1 / 1000000))).length = 1
    ∧ (reconciled.getAllBalances.filter (fun e => decide (e.2 < -(1 / 1000000)))).length = 2
    ∧ reconciled.settleUpGreedy.length = 2
    ∧ 1 ≤ reconciled.settleUpGreedy.length
    ∧ reconciled.settleUpGreedy.length
      ≤ (reconciled.getAllBalances.filter (fun e => decide (e.2 > 1 / 1000000))).length
        + (reconciled.getAllBalances.filter (fun e => decide (e.2 < -(1 / 1000000)))).length
        - 1 :=
  ⟨by decide!, by decide!, by decide!,
   transaction_count_bound reconciled (by decide!) (by decide!)⟩

/-! ## Lemmas on the sequence of the expense ids -/

namespace SplitwiseManager

theorem sequential_fresh : Sequential {} 0 := by
  refine ⟨rfl, rfl, fun k => ?_⟩
  simp [StdMap.keys]

theorem sequential_of_eq (m m1 : SplitwiseManager) (c : ℕ) (h : m.Sequential c)
    (hc : m1.counters_.getD "EXP" 0 = m.counters_.getD "EXP" 0)
    (he : m1.expenses_ = m.expenses_) : m1.Sequential c := by
  unfold Sequential at h ⊢
  rw [hc, he]
  exact h

theorem sequential_record (m : SplitwiseManager) (c : ℕ) (h : m.Sequential c)
    (hc : c + 1 < 2 ^ 64) (groupId description : String) (input : SplitInput)
    (strat : SplitStrategy) (delta : BalanceMap) :
    (m.generateId "EXP").1 = "EXP" ++ toString (c + 1)
    ∧ (m.recordExpense groupId description input strat delta).state.Sequential (c + 1) := by
  obtain ⟨hcount, hlength, hkeys⟩ := h
  have hmod : (m.counters_.getD "EXP" 0 + 1) % 2 ^ 64 = c + 1 := by
    rw [hcount]
    exact Nat.mod_eq_of_lt hc
  have hid : (m.generateId "EXP").1 = "EXP" ++ toString (c + 1) := by
    rw [generateId_fst, hmod]
  have hnotin : (m.generateId "EXP").1 ∉ StdMap.keys m.expenses_ := by
    rw [hkeys, hid]
    intro hmem
    obtain ⟨i, hi, heq⟩ := List.mem_map.1 hmem
    have := expenseId_injective "EXP" _ _ heq
    rw [List.mem_range] at hi
    omega
  have hcont : m.expenses_.contains (m.generateId "EXP").1 = false := by
    cases hcb : m.expenses_.contains (m.generateId "EXP").1 with
    | false => rfl
    | true => exact absurd ((mem_keys_iff_contains _ _).2 hcb) hnotin
  refine ⟨hid, ?_⟩
  rw [recordExpense_state]
  refine ⟨?_, ?_, fun k => ?_⟩
  · show (m.generateId "EXP").2.counters_.getD "EXP" 0 = _
    rw [generateId_counter, if_pos rfl, hmod]
  · show (StdMap.emplace m.expenses_ _ _).length = _
    unfold StdMap.emplace
    rw [hcont]
    simp only [Bool.false_eq_true, if_false]
    rw [length_insertNew, hlength]
  · show k ∈ StdMap.keys (StdMap.emplace m.expenses_ _ _) ↔ _
    rw [mem_keys_iff_contains, contains_emplace, Bool.or_eq_true, decide_eq_true_eq,
      ← mem_keys_iff_contains, hkeys, List.range_succ, List.map_append, List.mem_append,
      hid]
    simp only [List.map_cons, List.map_nil, List.mem_singleton]
    constructor
    · rintro (h1 | h1)
      · exact Or.inr h1.symm
      · exact Or.inl h1
    · rintro (h1 | h1)
      · exact Or.inr h1
      · exact Or.inl h1.symm

/-- What one call does to the numbering: either it generates no expense id and returns
none, or it generates the next id, stores an expense under it and returns that id or
fails; with a notifier that does not throw it returns that id. -/
theorem sequential_step (m : SplitwiseManager) (c : ℕ) (h : m.Sequential c)
    (hc : c + 1 < 2 ^ 64) (call : Call) :
    ((m.appliedDelta call).isSome = false ∧ m.returnedId call = none
      ∧ (m.exec call).Sequential c)
    ∨ ((m.appliedDelta call).isSome = true
      ∧ (m.generateId "EXP").1 = "EXP" ++ toString (c + 1)
      ∧ (m.exec call).Sequential (c + 1)
      ∧ (m.returnedId call = none ∨ m.returnedId call = some ("EXP" ++ toString (c + 1)))
      ∧ (m.Quiet → m.returnedId call = some ("EXP" ++ toString (c + 1)))) := by
  cases call with
  | addUser name =>
    refine Or.inl ⟨rfl, rfl, sequential_of_eq m _ c h ?_ rfl⟩
    show (m.generateId "USR").2.counters_.getD "EXP" 0 = _
    rw [generateId_counter, if_neg (by decide)]
  | addGroup name memberIds =>
    refine Or.inl ⟨rfl, rfl, ?_⟩
    unfold SplitwiseManager.exec addGroup
    dsimp only
    split
    · exact h
    · refine sequential_of_eq m _ c h ?_ rfl
      show (m.generateId "GRP").2.counters_.getD "EXP" 0 = _
      rw [generateId_counter, if_neg (by decide)]
  | setNotifier notifier => exact Or.inl ⟨rfl, rfl, sequential_of_eq m _ c h rfl rfl⟩
  | setNotificationThreshold threshold =>
    exact Or.inl ⟨rfl, rfl, sequential_of_eq m _ c h rfl rfl⟩
  | addExpense groupId description input strategy =>
    cases hcheck : m.checkExpense groupId input strategy with
    | error e =>
      left
      refine ⟨?_, ?_, ?_⟩
      · simp only [appliedDelta, hcheck, Option.isSome_none]
      · simp only [returnedId, addExpense_of_check_error m _ _ _ _ e hcheck]
      · show (m.addExpense groupId description input strategy).state.Sequential c
        rw [addExpense_of_check_error m _ _ _ _ e hcheck]
        exact h
    | ok r =>
      obtain ⟨strat, delta⟩ := r
      right
      obtain ⟨hid, hseq⟩ := sequential_record m c h hc groupId description input strat delta
      have hadd := addExpense_of_check_ok m groupId description input strategy strat delta
        hcheck
      refine ⟨?_, hid, ?_, ?_, ?_⟩
      · simp only [appliedDelta, hcheck, Option.isSome_some]
      · show (m.addExpense groupId description input strategy).state.Sequential (c + 1)
        rw [hadd]
        exact hseq
      · simp only [returnedId, hadd]
        cases hr : (m.recordExpense groupId description input strat delta).result with
        | error e => exact Or.inl rfl
        | ok id =>
          right
          rw [recordExpense_result_ok m _ _ _ _ _ id hr, hid]
      · intro hquiet
        simp only [returnedId, hadd,
          recordExpense_result_of_quiet m groupId description input strat delta hquiet, hid]

theorem quiet_exec (m : SplitwiseManager) (call : Call) (h : m.Quiet) (hcall : call.Quiet) :
    (m.exec call).Quiet := by
  cases call with
  | addUser name => exact h
  | addGroup name memberIds =>
    unfold SplitwiseManager.exec addGroup
    dsimp only
    split
    · exact h
    · exact h
  | setNotifier notifier =>
    intro n hn
    have hn1 : notifier = some n := hn
    subst hn1
    exact hcall
  | setNotificationThreshold threshold => exact h
  | addExpense groupId description input strategy =>
    unfold SplitwiseManager.exec
    dsimp only
    cases hcheck : m.checkExpense groupId input strategy with
    | error e =>
      rw [addExpense_of_check_error m _ _ _ _ e hcheck]
      exact h
    | ok r =>
      obtain ⟨strat, delta⟩ := r
      rw [addExpense_of_check_ok m _ _ _ _ strat delta hcheck, recordExpense_state]
      exact h

/-- The numbering along a sequence of calls, from a manager that has generated `c` ids. -/
theorem sequential_run (calls : List Call) (m : SplitwiseManager) (c : ℕ)
    (h : m.Sequential c) (hc : c + calls.length < 2 ^ 64) :
    m.recordedIds calls
      = (List.range' c (m.recordedIds calls).length).map (fun i => "EXP" ++ toString (i + 1))
    ∧ (m.run calls).Sequential (c + (m.recordedIds calls).length)
    ∧ (m.returnedIds calls).Sublist (m.recordedIds calls)
    ∧ (m.Quiet → (∀ call ∈ calls, call.Quiet) → m.returnedIds calls = m.recordedIds calls) := by
  induction calls generalizing m c with
  | nil => exact ⟨rfl, h, List.Sublist.slnil, fun _ _ => rfl⟩
  | cons call rest ih =>
    simp only [List.length_cons] at hc
    simp only [recordedIds, returnedIds]
    rcases sequential_step m c h (by omega) call with ⟨hsome, hret, hseq⟩ |
      ⟨hsome, hid, hseq, hret, hquiet⟩
    · obtain ⟨h1, h2, h3, h4⟩ := ih (m.exec call) c hseq (by omega)
      rw [hsome, hret]
      simp only [Bool.false_eq_true, if_false, List.nil_append, Option.toList]
      refine ⟨h1, h2, h3, fun hq hcalls => ?_⟩
      exact h4 (quiet_exec m call hq (hcalls call (List.mem_cons_self _ _)))
        (fun x hx => hcalls x (List.mem_cons_of_mem _ hx))
    · obtain ⟨h1, h2, h3, h4⟩ := ih (m.exec call) (c + 1) hseq (by omega)
      rw [hsome, hid]
      simp only [if_true, List.singleton_append, List.length_cons]
      refine ⟨?_, ?_, ?_, fun hq hcalls => ?_⟩
      · rw [List.range'_succ, List.map_cons, ← h1]
      · have hrun : m.run (call :: rest) = (m.exec call).run rest := rfl
        have harith : c + ((recordedIds (m.exec call) rest).length + 1)
            = c + 1 + (recordedIds (m.exec call) rest).length := by omega
        rw [hrun, harith]
        exact h2
      · rcases hret with hret | hret
        · rw [hret]
          exact List.Sublist.cons _ h3
        · rw [hret]
          exact List.Sublist.cons₂ _ h3
      · rw [hquiet hq, h4 (quiet_exec m call hq (hcalls call (List.mem_cons_self _ _)))
          (fun x hx => hcalls x (List.mem_cons_of_mem _ hx))]
        rfl

end SplitwiseManager

/-! ## Lemmas on recomputing after a short history -/

namespace SplitwiseManager

end SplitwiseManager

/-! ## The numbering of the expense ids: claim C39 -/

/-- C39 fails as stated: with a notifier that throws and the threshold 0, the first
`addExpense` call fails and yet generates the id EXP1 and stores its expense; once the
notifier is removed, the first successful `addExpense` call returns EXP2, not EXP1. -/
theorem first_success_returns_second_id :
    ((SplitwiseManager.run {} failingSetup).addExpense "GRP1" "taxi" taxiInput
        (some .equal)).result = .error (.runtimeError "notifier failed")
    ∧ StdMap.getD ((SplitwiseManager.run {} failingSetup).addExpense "GRP1" "taxi" taxiInput
        (some .equal)).state.counters_ "EXP" 0 = 1
    ∧ SplitwiseManager.returnedIds {} retryCalls = ["EXP2"]
    ∧ StdMap.keys (SplitwiseManager.run {} retryCalls).getExpenses = ["EXP1", "EXP2"] := by
  decide!

/-- C39, as the code has it: on a fresh manager, for fewer than 2^64 calls, the k-th
`addExpense` call that passes the checks generates the id EXP followed by the numeral of
k, whether it then returns or fails in the notifier, and no other call generates an
expense id; the ids returned are among these, in the same order, and pairwise distinct;
every generated id is a new key of the expense map, which holds as many expenses as ids
were generated; and when no notifier that throws is set, the k-th successful `addExpense`
call returns EXP followed by the numeral of k. -/
theorem expense_ids_sequential (calls : List SplitwiseManager.Call)
    (hlen : calls.length < 2 ^ 64) :
    SplitwiseManager.recordedIds {} calls
      = (List.range (SplitwiseManager.recordedIds {} calls).length).map
          (fun i => "EXP" ++ toString (i + 1))
    ∧ (SplitwiseManager.returnedIds {} calls).Sublist (SplitwiseManager.recordedIds {} calls)
    ∧ (SplitwiseManager.returnedIds {} calls).Nodup
    ∧ StdMap.getD (SplitwiseManager.run {} calls).counters_ "EXP" 0
      = (SplitwiseManager.recordedIds {} calls).length
    ∧ (SplitwiseManager.run {} calls).getExpenses.length
      = (SplitwiseManager.recordedIds {} calls).length
    ∧ (∀ id, id ∈ StdMap.keys (SplitwiseManager.run {} calls).getExpenses
        ↔ id ∈ SplitwiseManager.recordedIds {} calls)
    ∧ ((∀ call ∈ calls, call.Quiet) →
        SplitwiseManager.returnedIds {} calls
          = (List.range (SplitwiseManager.returnedIds {} calls).length).map
              (fun i => "EXP" ++ toString (i + 1))) := by
  obtain ⟨h1, h2, h3, h4⟩ := SplitwiseManager.sequential_run calls {} 0
    SplitwiseManager.sequential_fresh (by omega)
  rw [Nat.zero_add] at h2
  rw [← List.range_eq_range'] at h1
  obtain ⟨hcount, hlength, hkeys⟩ := h2
  have hnodup : (SplitwiseManager.recordedIds {} calls).Nodup := by
    rw [h1]
    refine List.Nodup.map ?_ (List.nodup_range _)
    intro i j hij
    have := expenseId_injective "EXP" _ _ hij
    omega
  refine ⟨h1, h3, hnodup.sublist h3, hcount, hlength, fun id => ?_, fun hquiet => ?_⟩
  · exact (hkeys id).trans (by rw [← h1])
  · have heq := h4 (fun n hn => by cases hn) hquiet
    rw [heq]
    exact h1

/-- C39, an instance: the three `addExpense` calls of the reconciliation test return EXP1,
EXP2 and EXP3. -/
theorem expense_ids_sequential_witness :
    reconciliationCalls.length < 2 ^ 64
    ∧ SplitwiseManager.returnedIds {} reconciliationCalls = ["EXP1", "EXP2", "EXP3"]
    ∧ SplitwiseManager.recordedIds {} reconciliationCalls
      = (List.range (SplitwiseManager.recordedIds {} reconciliationCalls).length).map
          (fun i => "EXP" ++ toString (i + 1))
    ∧ (SplitwiseManager.returnedIds {} reconciliationCalls).Sublist
        (SplitwiseManager.recordedIds {} reconciliationCalls)
    ∧ (SplitwiseManager.returnedIds {} reconciliationCalls).Nodup
    ∧ StdMap.getD (SplitwiseManager.run {} reconciliationCalls).counters_ "EXP" 0
      = (SplitwiseManager.recordedIds {} reconciliationCalls).length
    ∧ (SplitwiseManager.run {} reconciliationCalls).getExpenses.length
      = (SplitwiseManager.recordedIds {} reconciliationCalls).length
    ∧ (∀ id, id ∈ StdMap.keys (SplitwiseManager.run {} reconciliationCalls).getExpenses
        ↔ id ∈ SplitwiseManager.recordedIds {} reconciliationCalls)
    ∧ ((∀ call ∈ reconciliationCalls, call.Quiet) →
        SplitwiseManager.returnedIds {} reconciliationCalls
          = (List.range (SplitwiseManager.returnedIds {} reconciliationCalls).length).map
              (fun i => "EXP" ++ toString (i + 1))) :=
  ⟨by decide, by decide!, expense_ids_sequential reconciliationCalls (by decide)⟩

/-! ## Lemmas on the arithmetic of `double` -/

theorem log2Fuel_spec (fuel n : ℕ) (hn : 1 ≤ n) (hf : n ≤ fuel) :
    2 ^ log2Fuel fuel n ≤ n ∧ n < 2 ^ (log2Fuel fuel n + 1) := by
  induction fuel generalizing n with
  | zero => omega
  | succ fuel ih =>
    unfold log2Fuel
    by_cases h2 : n < 2
    · rw [if_pos h2]
      simp only [pow_zero, zero_add, pow_one]
      omega
    · rw [if_neg h2]
      have hhalf := ih (n / 2) (by omega) (by omega)
      rw [pow_succ, pow_succ]
      obtain ⟨h3, h4⟩ := hhalf
      rw [pow_succ] at h4
      constructor
      · omega
      · omega

theorem ilog2_spec (n : ℕ) (hn : 1 ≤ n) : 2 ^ ilog2 n ≤ n ∧ n < 2 ^ (ilog2 n + 1) :=
  log2Fuel_spec n n hn (le_refl _)

theorem pow2_eq_zpow (z : ℤ) : pow2 z = (2 : ℚ) ^ z := by
  unfold pow2
  by_cases h : 0 ≤ z
  · rw [if_pos h]
    obtain ⟨n, rfl⟩ := Int.eq_ofNat_of_zero_le h
    simp
  · rw [if_neg h]
    push_neg at h
    obtain ⟨n, hn⟩ := Int.exists_eq_neg_ofNat (le_of_lt h)
    subst hn
    simp

theorem pow2_pos (z : ℤ) : 0 < pow2 z := by
  rw [pow2_eq_zpow]
  positivity

theorem pow2_add (a b : ℤ) : pow2 (a + b) = pow2 a * pow2 b := by
  rw [pow2_eq_zpow, pow2_eq_zpow, pow2_eq_zpow, zpow_add₀ (by norm_num)]

theorem pow2_sub (a b : ℤ) : pow2 (a - b) = pow2 a / pow2 b := by
  rw [pow2_eq_zpow, pow2_eq_zpow, pow2_eq_zpow, zpow_sub₀ (by norm_num)]

theorem pow2_le_pow2 (a b : ℤ) (h : a ≤ b) : pow2 a ≤ pow2 b := by
  rw [pow2_eq_zpow, pow2_eq_zpow]
  exact zpow_le_zpow_right₀ (by norm_num) h

theorem pow2_lt_pow2_iff (a b : ℤ) : pow2 a < pow2 b ↔ a < b := by
  rw [pow2_eq_zpow, pow2_eq_zpow]
  exact zpow_lt_zpow_iff_right₀ (by norm_num)

theorem pow2_natCast (n : ℕ) : pow2 (n : ℤ) = ((2 ^ n : ℕ) : ℚ) := by
  rw [pow2_eq_zpow]
  simp

theorem floorLog2_spec (n d : ℕ) (hn : 1 ≤ n) (hd : 1 ≤ d) :
    pow2 (floorLog2 n d) ≤ (n : ℚ) / d ∧ (n : ℚ) / d < pow2 (floorLog2 n d + 1) := by
  obtain ⟨hn1, hn2⟩ := ilog2_spec n hn
  obtain ⟨hd1, hd2⟩ := ilog2_spec d hd
  have hdpos : (0 : ℚ) < d := by exact_mod_cast hd
  have hn1q : pow2 (ilog2 n : ℤ) ≤ (n : ℚ) := by
    rw [pow2_natCast]
    exact_mod_cast hn1
  have hn2q : (n : ℚ) < pow2 ((ilog2 n : ℤ) + 1) := by
    have : ((ilog2 n : ℤ) + 1) = ((ilog2 n + 1 : ℕ) : ℤ) := by push_cast; ring
    rw [this, pow2_natCast]
    exact_mod_cast hn2
  have hd1q : pow2 (ilog2 d : ℤ) ≤ (d : ℚ) := by
    rw [pow2_natCast]
    exact_mod_cast hd1
  have hd2q : (d : ℚ) < pow2 ((ilog2 d : ℤ) + 1) := by
    have : ((ilog2 d : ℤ) + 1) = ((ilog2 d + 1 : ℕ) : ℤ) := by push_cast; ring
    rw [this, pow2_natCast]
    exact_mod_cast hd2
  unfold floorLog2
  dsimp only
  by_cases hc : pow2 ((ilog2 n : ℤ) - (ilog2 d : ℤ)) * (d : ℚ) ≤ (n : ℚ)
  · rw [if_pos hc]
    refine ⟨(le_div_iff₀ hdpos).2 hc, ?_⟩
    rw [div_lt_iff₀ hdpos]
    have h1 : pow2 ((ilog2 n : ℤ) - (ilog2 d : ℤ) + 1)
        = pow2 ((ilog2 n : ℤ) + 1) / pow2 (ilog2 d : ℤ) := by
      rw [← pow2_sub]
      congr 1
      ring
    rw [h1, div_mul_eq_mul_div, lt_div_iff₀ (pow2_pos _)]
    calc (n : ℚ) * pow2 (ilog2 d : ℤ) ≤ (n : ℚ) * d :=
          mul_le_mul_of_nonneg_left hd1q (by positivity)
      _ < pow2 ((ilog2 n : ℤ) + 1) * d := mul_lt_mul_of_pos_right hn2q hdpos
  · rw [if_neg hc]
    push_neg at hc
    constructor
    · rw [le_div_iff₀ hdpos]
      have h1 : pow2 ((ilog2 n : ℤ) - (ilog2 d : ℤ) - 1)
          = pow2 (ilog2 n : ℤ) / pow2 ((ilog2 d : ℤ) + 1) := by
        rw [← pow2_sub]
        congr 1
        ring
      rw [h1, div_mul_eq_mul_div, div_le_iff₀ (pow2_pos _)]
      calc pow2 (ilog2 n : ℤ) * (d : ℚ) ≤ (n : ℚ) * d :=
            mul_le_mul_of_nonneg_right hn1q (le_of_lt hdpos)
        _ ≤ (n : ℚ) * pow2 ((ilog2 d : ℤ) + 1) :=
            mul_le_mul_of_nonneg_left (le_of_lt hd2q) (by positivity)
    · rw [div_lt_iff₀ hdpos]
      have : (ilog2 n : ℤ) - (ilog2 d : ℤ) - 1 + 1 = (ilog2 n : ℤ) - (ilog2 d : ℤ) := by ring
      rw [this]
      exact hc

theorem abs_eq_natAbs_div (x : ℚ) : |x| = (x.num.natAbs : ℚ) / (x.den : ℚ) := by
  have h := Rat.num_div_den x
  have hden : (0 : ℚ) < x.den := by exact_mod_cast x.den_pos
  conv_lhs => rw [← h]
  rw [abs_div, abs_of_pos hden]
  congr 1
  rw [← Int.cast_abs, Int.abs_eq_natAbs, Int.cast_natCast]

/-- The binary exponent of a rational that is not zero brackets its magnitude. -/
theorem floorLog2_abs (x : ℚ) (hx : x ≠ 0) :
    pow2 (floorLog2 x.num.natAbs x.den) ≤ |x|
    ∧ |x| < pow2 (floorLog2 x.num.natAbs x.den + 1) := by
  rw [abs_eq_natAbs_div]
  apply floorLog2_spec
  · have : x.num ≠ 0 := Rat.num_ne_zero.2 hx
    have := Int.natAbs_pos.2 this
    omega
  · exact x.den_pos

theorem roundNearestEven_error (y : ℚ) : |(roundNearestEven y : ℚ) - y| ≤ 1 / 2 := by
  have h1 := Int.floor_le y
  have h2 := Int.lt_floor_add_one y
  unfold roundNearestEven
  dsimp only
  rw [abs_le]
  split_ifs with ha hb hc
  · constructor <;> linarith
  · push_cast
    constructor <;> linarith
  · constructor <;> linarith
  · push_cast
    constructor <;> linarith

theorem roundNearestEven_intCast (k : ℤ) : roundNearestEven (k : ℚ) = k := by
  unfold roundNearestEven
  dsimp only
  rw [Int.floor_intCast]
  simp

theorem roundNearestEven_nonneg (y : ℚ) (hy : 0 ≤ y) : 0 ≤ roundNearestEven y := by
  have h0 : 0 ≤ ⌊y⌋ := Int.floor_nonneg.2 hy
  unfold roundNearestEven
  dsimp only
  split_ifs <;> omega

theorem roundNearestEven_le (y : ℚ) (k : ℤ) (hy : y ≤ k) : roundNearestEven y ≤ k := by
  have h1 := Int.floor_le y
  have hfk : ⌊y⌋ ≤ k := Int.floor_le_floor hy |>.trans (by rw [Int.floor_intCast])
  unfold roundNearestEven
  dsimp only
  by_cases heq : ⌊y⌋ = k
  · have hyk : y = k := le_antisymm hy (by rw [← heq]; exact h1)
    have hr : y - (⌊y⌋ : ℚ) = 0 := by rw [heq, hyk]; ring
    rw [hr]
    norm_num
    omega
  · have : ⌊y⌋ + 1 ≤ k := by omega
    split_ifs <;> omega

theorem binary64_zero : binary64 0 = 0 := by
  unfold binary64
  rw [if_pos rfl]

theorem binary64_of_pos (x : ℚ) (hx : 0 < x) :
    binary64 x
      = (roundNearestEven
          (x / pow2 (max (floorLog2 x.num.natAbs x.den) (-1022) - 52)) : ℚ)
        * pow2 (max (floorLog2 x.num.natAbs x.den) (-1022) - 52) := by
  unfold binary64
  rw [if_neg (ne_of_gt hx)]
  dsimp only
  rw [if_pos hx, abs_of_pos hx]

theorem binary64_neg (x : ℚ) : binary64 (-x) = -binary64 x := by
  unfold binary64
  by_cases hx : x = 0
  · subst hx
    simp
  · have hnx : -x ≠ 0 := neg_ne_zero.2 hx
    rw [if_neg hx, if_neg hnx]
    dsimp only
    rw [Rat.neg_num, Rat.neg_den, Int.natAbs_neg, abs_neg]
    rcases lt_or_gt_of_ne hx with h | h
    · have h1 : 0 < -x := by linarith
      have h2 : ¬ 0 < x := by linarith
      rw [if_pos h1, if_neg h2, neg_neg]
    · have h1 : ¬ 0 < -x := by linarith
      rw [if_neg h1, if_pos h]

theorem binary64_nonneg (x : ℚ) (hx : 0 ≤ x) : 0 ≤ binary64 x := by
  rcases eq_or_lt_of_le hx with h | h
  · rw [← h, binary64_zero]
  · rw [binary64_of_pos x h]
    apply mul_nonneg
    · exact_mod_cast roundNearestEven_nonneg _ (div_nonneg hx (le_of_lt (pow2_pos _)))
    · exact le_of_lt (pow2_pos _)

theorem binary64_error_pos (x : ℚ) (hx : 0 < x) :
    |binary64 x - x| ≤ pow2 (max (floorLog2 x.num.natAbs x.den) (-1022) - 53) := by
  rw [binary64_of_pos x hx]
  have hq := pow2_pos (max (floorLog2 x.num.natAbs x.den) (-1022) - 52)
  have herr := roundNearestEven_error
    (x / pow2 (max (floorLog2 x.num.natAbs x.den) (-1022) - 52))
  have h53 : pow2 (max (floorLog2 x.num.natAbs x.den) (-1022) - 53)
      = pow2 (max (floorLog2 x.num.natAbs x.den) (-1022) - 52) / 2 := by
    have : max (floorLog2 x.num.natAbs x.den) (-1022) - 53
        = max (floorLog2 x.num.natAbs x.den) (-1022) - 52 - 1 := by ring
    rw [this, pow2_sub (max (floorLog2 x.num.natAbs x.den) (-1022) - 52) 1]
    congr 1
  rw [h53]
  generalize pow2 (max (floorLog2 x.num.natAbs x.den) (-1022) - 52) = q at hq herr ⊢
  generalize (roundNearestEven (x / q) : ℚ) = m at herr ⊢
  have hfac : m * q - x = (m - x / q) * q := by
    field_simp
  rw [hfac, abs_mul, abs_of_pos hq]
  calc |m - x / q| * q ≤ 1 / 2 * q := mul_le_mul_of_nonneg_right herr (le_of_lt hq)
    _ = q / 2 := by ring

/-- The rounding error of `binary64`: at most `2 ^ -53` of the magnitude, or `2 ^ -1075`
below the normal range. -/
theorem binary64_error (x : ℚ) :
    |binary64 x - x| ≤ UNIT_ROUNDOFF * |x| + HALF_DENORM_MIN := by
  have hu : (0 : ℚ) < UNIT_ROUNDOFF := by norm_num [UNIT_ROUNDOFF]
  have ht : (0 : ℚ) < HALF_DENORM_MIN := by norm_num [HALF_DENORM_MIN]
  have key : ∀ y : ℚ, 0 < y → |binary64 y - y| ≤ UNIT_ROUNDOFF * |y| + HALF_DENORM_MIN := by
    intro y hy
    have h1 := binary64_error_pos y hy
    obtain ⟨hlow, _⟩ := floorLog2_abs y (ne_of_gt hy)
    rw [abs_of_pos hy] at hlow ⊢
    rcases le_total (floorLog2 y.num.natAbs y.den) (-1022) with hle | hle
    · rw [max_eq_right hle] at h1
      have : pow2 (-1022 - 53) = HALF_DENORM_MIN := by
        rw [pow2_eq_zpow]
        norm_num [HALF_DENORM_MIN]
      rw [this] at h1
      have : 0 ≤ UNIT_ROUNDOFF * y := by positivity
      linarith
    · rw [max_eq_left hle] at h1
      have : pow2 (floorLog2 y.num.natAbs y.den - 53)
          = UNIT_ROUNDOFF * pow2 (floorLog2 y.num.natAbs y.den) := by
        rw [pow2_sub, pow2_eq_zpow 53]
        norm_num [UNIT_ROUNDOFF]
        ring
      rw [this] at h1
      have := mul_le_mul_of_nonneg_left hlow (le_of_lt hu)
      linarith
  rcases lt_trichotomy x 0 with h | h | h
  · have := key (-x) (by linarith)
    rw [binary64_neg, abs_neg] at this
    have h2 : |-binary64 x - -x| = |binary64 x - x| := by
      rw [← abs_neg]
      congr 1
      ring
    rw [h2] at this
    exact this
  · subst h
    rw [binary64_zero, sub_zero, abs_zero, mul_zero, zero_add]
    exact le_of_lt ht
  · exact key x h

/-- A value `m * 2 ^ j` with `m` of at most 53 bits and `j` not below the least exponent
is a `double`: rounding leaves it as it is. -/
theorem binary64_of_scaled (m : ℕ) (j : ℤ) (hm : m ≤ 2 ^ 53) (hj : -1074 ≤ j) :
    binary64 ((m : ℚ) * pow2 j) = (m : ℚ) * pow2 j := by
  rcases Nat.eq_zero_or_pos m with h0 | hpos
  · subst h0
    simp [binary64_zero]
  have hmq : (0 : ℚ) < m := by exact_mod_cast hpos
  have hz : 0 < (m : ℚ) * pow2 j := mul_pos hmq (pow2_pos j)
  rw [binary64_of_pos _ hz]
  obtain ⟨hlow, _⟩ := floorLog2_abs ((m : ℚ) * pow2 j) (ne_of_gt hz)
  rw [abs_of_pos hz] at hlow
  generalize floorLog2 ((m : ℚ) * pow2 j).num.natAbs ((m : ℚ) * pow2 j).den = e0 at hlow ⊢
  have hm53 : (m : ℚ) ≤ pow2 53 := by
    rw [pow2_eq_zpow]
    exact_mod_cast hm
  have he0 : e0 ≤ 53 + j := by
    by_contra hcon
    push_neg at hcon
    have h1 : pow2 (53 + j + 1) ≤ pow2 e0 := pow2_le_pow2 _ _ (by omega)
    have h2 : (m : ℚ) * pow2 j ≤ pow2 (53 + j) := by
      rw [pow2_add]
      exact mul_le_mul_of_nonneg_right hm53 (le_of_lt (pow2_pos j))
    have h3 : pow2 (53 + j) < pow2 (53 + j + 1) := (pow2_lt_pow2_iff _ _).2 (by omega)
    linarith
  have hint : ∃ k : ℤ, (m : ℚ) * pow2 j / pow2 (max e0 (-1022) - 52) = (k : ℚ) := by
    by_cases hcase : max e0 (-1022) - 52 ≤ j
    · refine ⟨(m : ℤ) * 2 ^ (j - (max e0 (-1022) - 52)).toNat, ?_⟩
      rw [mul_div_assoc, ← pow2_sub]
      have hnn : 0 ≤ j - (max e0 (-1022) - 52) := by omega
      obtain ⟨n, hn⟩ := Int.eq_ofNat_of_zero_le hnn
      rw [hn, pow2_natCast]
      push_cast
      rfl
    · push_neg at hcase
      have hmax : max e0 (-1022) = 53 + j := by
        rcases le_total e0 (-1022) with h | h
        · rw [max_eq_right h] at hcase
          omega
        · rw [max_eq_left h] at hcase ⊢
          omega
      have he0eq : e0 = 53 + j := by
        rcases le_total e0 (-1022) with h | h
        · rw [max_eq_right h] at hmax
          omega
        · rw [max_eq_left h] at hmax
          exact hmax
      have hmge : pow2 53 ≤ (m : ℚ) := by
        rw [he0eq, pow2_add] at hlow
        exact le_of_mul_le_mul_right hlow (pow2_pos j)
      have hmeq : (m : ℚ) = pow2 53 := le_antisymm hm53 hmge
      refine ⟨2 ^ 52, ?_⟩
      rw [hmax, hmeq, ← pow2_add, ← pow2_sub, pow2_eq_zpow]
      have : 53 + j - (53 + j - 52) = 52 := by ring
      rw [this]
      norm_num
  obtain ⟨k, hk⟩ := hint
  rw [hk, roundNearestEven_intCast, ← hk]
  field_simp [ne_of_gt (pow2_pos (max e0 (-1022) - 52))]

/-- Rounding a second time changes nothing: what `binary64` returns is a `double`. -/
theorem binary64_idem (x : ℚ) : binary64 (binary64 x) = binary64 x := by
  have key : ∀ y : ℚ, 0 < y → binary64 (binary64 y) = binary64 y := by
    intro y hy
    rw [binary64_of_pos y hy]
    obtain ⟨_, hup⟩ := floorLog2_abs y (ne_of_gt hy)
    rw [abs_of_pos hy] at hup
    generalize floorLog2 y.num.natAbs y.den = e0 at hup ⊢
    have hq := pow2_pos (max e0 (-1022) - 52)
    have hle : y / pow2 (max e0 (-1022) - 52) ≤ ((2 ^ 53 : ℤ) : ℚ) := by
      rw [div_le_iff₀ hq]
      have h1 : pow2 (e0 + 1) ≤ pow2 (max e0 (-1022) + 1) :=
        pow2_le_pow2 _ _ (by have := le_max_left e0 (-1022); omega)
      have h2 : ((2 ^ 53 : ℤ) : ℚ) * pow2 (max e0 (-1022) - 52)
          = pow2 (max e0 (-1022) + 1) := by
        have : max e0 (-1022) + 1 = 53 + (max e0 (-1022) - 52) := by ring
        rw [this, pow2_add, pow2_eq_zpow 53]
        norm_num
      rw [h2]
      linarith
    have hm := roundNearestEven_le _ _ hle
    have hnn := roundNearestEven_nonneg (y / pow2 (max e0 (-1022) - 52))
      (div_nonneg (le_of_lt hy) (le_of_lt hq))
    obtain ⟨n, hn⟩ := Int.eq_ofNat_of_zero_le hnn
    rw [hn] at hm ⊢
    have hn53 : n ≤ 2 ^ 53 := by exact_mod_cast hm
    have := binary64_of_scaled n (max e0 (-1022) - 52) hn53
      (by have := le_max_right e0 (-1022); omega)
    rw [Int.cast_natCast]
    exact this
  rcases lt_trichotomy x 0 with h | h | h
  · have := key (-x) (by linarith)
    rw [binary64_neg, binary64_neg] at this
    exact neg_injective this
  · subst h
    rw [binary64_zero, binary64_zero]
  · exact key x h

/-- A natural number of at most 53 bits is a `double`. -/
theorem binary64_natCast (n : ℕ) (hn : n ≤ 2 ^ 53) : binary64 (n : ℚ) = n := by
  have := binary64_of_scaled n 0 hn (by norm_num)
  have h0 : pow2 0 = 1 := by rw [pow2_eq_zpow]; norm_num
  rw [h0, mul_one] at this
  exact this

/-! ## The strategies on `double`s: claims C6 and C29 -/

/-- The value stored under `u` after a loop of updates `delta[key e] = f e (delta[key e])`:
the updates of the elements with key `u`, applied in order. -/
theorem getD_foldl_alter {β : Type} (key : β → String) (f : β → ℚ → ℚ) (es : List β)
    (d : BalanceMap) (u : String) :
    StdMap.getD (es.foldl (fun d e => StdMap.alter d (key e) 0 (f e)) d) u 0
      = (es.filter (fun e => decide (key e = u))).foldl (fun v e => f e v)
          (StdMap.getD d u 0) := by
  induction es generalizing d with
  | nil => rfl
  | cons e rest ih =>
    simp only [List.foldl_cons]
    rw [ih, StdMap.getD_alter]
    by_cases h : key e = u
    · simp [h, List.filter_cons]
    · simp [h, List.filter_cons]

/-- The keys after a loop of updates: those of the elements, and those present before. -/
theorem contains_foldl_alter {β : Type} (key : β → String) (f : β → ℚ → ℚ) (es : List β)
    (d : BalanceMap) (u : String) :
    StdMap.contains (es.foldl (fun d e => StdMap.alter d (key e) 0 (f e)) d) u
      = (es.any (fun e => decide (key e = u)) || StdMap.contains d u) := by
  induction es generalizing d with
  | nil => simp
  | cons e rest ih =>
    simp only [List.foldl_cons, List.any_cons]
    rw [ih, StdMap.contains_alter]
    cases decide (key e = u) <;> cases rest.any (fun e => decide (key e = u)) <;> simp

theorem double_equal_ok (input : SplitInput) (delta : BalanceMap)
    (h : Double.EqualSplitStrategy.computeSplits input = .ok delta) :
    input.participantIds ≠ [] ∧ 0 ≤ input.amount ∧
    delta = input.participantIds.foldl
      (fun d participant => StdMap.alter d participant 0
        (fun v => Double.sub v
          (Double.div input.amount (binary64 (input.participantIds.length : ℚ)))))
      (StdMap.alter [] input.payerId 0 (fun v => Double.add v input.amount)) := by
  unfold Double.EqualSplitStrategy.computeSplits at h
  split_ifs at h with h1 h2
  simp only [Except.ok.injEq] at h
  refine ⟨?_, not_lt.1 h2, h.symm⟩
  simpa using h1

theorem double_exact_ok (input : SplitInput) (delta : BalanceMap)
    (h : Double.ExactSplitStrategy.computeSplits input = .ok delta) :
    input.participantIds.length = input.exactShares.length ∧
    |Double.sub (Double.accumulate input.exactShares) input.amount| ≤ Double.EPSILON ∧
    delta = (input.participantIds.zip input.exactShares).foldl
      (fun d e => StdMap.alter d e.1 0 (fun v => Double.sub v e.2))
      (StdMap.alter [] input.payerId 0 (fun v => Double.add v input.amount)) := by
  unfold Double.ExactSplitStrategy.computeSplits at h
  by_cases h1 : input.participantIds.length = input.exactShares.length
  · by_cases h2 : |Double.sub (Double.accumulate input.exactShares) input.amount|
        > Double.EPSILON
    · simp [h1, h2] at h
    · simp only [h1, h2, ne_eq, not_true_eq_false, if_false, Except.ok.injEq] at h
      exact ⟨h1, not_lt.1 h2, h.symm⟩
  · simp [h1] at h

theorem double_percent_ok (input : SplitInput) (delta : BalanceMap)
    (h : Double.PercentSplitStrategy.computeSplits input = .ok delta) :
    input.participantIds.length = input.percentShares.length ∧
    |Double.sub (Double.accumulate input.percentShares) 100| ≤ Double.EPSILON ∧
    delta = (input.participantIds.zip input.percentShares).foldl
      (fun d e => StdMap.alter d e.1 0
        (fun v => Double.sub v (Double.mul input.amount (Double.div e.2 100))))
      (StdMap.alter [] input.payerId 0 (fun v => Double.add v input.amount)) := by
  unfold Double.PercentSplitStrategy.computeSplits at h
  by_cases h1 : input.participantIds.length = input.percentShares.length
  · by_cases h2 : |Double.sub (Double.accumulate input.percentShares) 100| > Double.EPSILON
    · simp [h1, h2] at h
    · simp only [h1, h2, ne_eq, not_true_eq_false, if_false, Except.ok.injEq] at h
      exact ⟨h1, not_lt.1 h2, h.symm⟩
  · simp [h1] at h

theorem double_exact_error_iff (input : SplitInput) :
    (∃ what, Double.ExactSplitStrategy.computeSplits input = .error (.invalidArgument what))
      ↔ (input.exactShares.length ≠ input.participantIds.length
          ∨ |Double.sub (Double.accumulate input.exactShares) input.amount|
              > Double.EPSILON) := by
  unfold Double.ExactSplitStrategy.computeSplits
  by_cases h1 : input.participantIds.length = input.exactShares.length
  · by_cases h2 : |Double.sub (Double.accumulate input.exactShares) input.amount|
        > Double.EPSILON
    · simp [h1, h2]
    · simp [h1, h2]
  · have h1b : ¬ input.exactShares.length = input.participantIds.length := fun h => h1 h.symm
    simp [h1, h1b]

theorem double_exact_ok_iff (input : SplitInput) :
    (∃ delta, Double.ExactSplitStrategy.computeSplits input = .ok delta)
      ↔ ¬ (input.exactShares.length ≠ input.participantIds.length
          ∨ |Double.sub (Double.accumulate input.exactShares) input.amount|
              > Double.EPSILON) := by
  unfold Double.ExactSplitStrategy.computeSplits
  by_cases h1 : input.participantIds.length = input.exactShares.length
  · by_cases h2 : |Double.sub (Double.accumulate input.exactShares) input.amount|
        > Double.EPSILON
    · simp [h1, h2]
    · simp [h1, h2]
  · have h1b : ¬ input.exactShares.length = input.participantIds.length := fun h => h1 h.symm
    simp [h1, h1b]

theorem double_percent_error_iff (input : SplitInput) :
    (∃ what, Double.PercentSplitStrategy.computeSplits input = .error (.invalidArgument what))
      ↔ (input.percentShares.length ≠ input.participantIds.length
          ∨ |Double.sub (Double.accumulate input.percentShares) 100| > Double.EPSILON) := by
  unfold Double.PercentSplitStrategy.computeSplits
  by_cases h1 : input.participantIds.length = input.percentShares.length
  · by_cases h2 : |Double.sub (Double.accumulate input.percentShares) 100| > Double.EPSILON
    · simp [h1, h2]
    · simp [h1, h2]
  · have h1b : ¬ input.percentShares.length = input.participantIds.length :=
      fun h => h1 h.symm
    simp [h1, h1b]

theorem double_percent_ok_iff (input : SplitInput) :
    (∃ delta, Double.PercentSplitStrategy.computeSplits input = .ok delta)
      ↔ ¬ (input.percentShares.length ≠ input.participantIds.length
          ∨ |Double.sub (Double.accumulate input.percentShares) 100| > Double.EPSILON) := by
  unfold Double.PercentSplitStrategy.computeSplits
  by_cases h1 : input.participantIds.length = input.percentShares.length
  · by_cases h2 : |Double.sub (Double.accumulate input.percentShares) 100| > Double.EPSILON
    · simp [h1, h2]
    · simp [h1, h2]
  · have h1b : ¬ input.percentShares.length = input.participantIds.length :=
      fun h => h1 h.symm
    simp [h1, h1b]

theorem double_add_zero (a : ℚ) : Double.add 0 a = binary64 a := by
  unfold Double.add
  rw [zero_add]

theorem double_sub_zero (a : ℚ) : Double.sub 0 (binary64 a) = -binary64 a := by
  unfold Double.sub
  rw [zero_sub, binary64_neg, binary64_idem]

/-- The keys and the entries of a delta built by crediting the payer and debiting, in
order, the share `g e` of every element `e` to the id `key e`. -/
theorem double_debit_loop {β : Type} (key : β → String) (g : β → ℚ) (es : List β)
    (payerId : String) (amount : ℚ) (u : String) :
    (u ∈ StdMap.keys (es.foldl
          (fun d e => StdMap.alter d (key e) 0 (fun v => Double.sub v (g e)))
          (StdMap.alter [] payerId 0 (fun v => Double.add v amount)))
      ↔ (u = payerId ∨ u ∈ es.map key))
    ∧ StdMap.getD (es.foldl
          (fun d e => StdMap.alter d (key e) 0 (fun v => Double.sub v (g e)))
          (StdMap.alter [] payerId 0 (fun v => Double.add v amount))) u 0
      = Double.debit (if u = payerId then binary64 amount else 0)
          ((es.filter (fun e => decide (key e = u))).map g) := by
  constructor
  · rw [mem_keys_iff_contains,
      contains_foldl_alter key (fun e v => Double.sub v (g e)), StdMap.contains_alter,
      Bool.or_eq_true, List.any_eq_true]
    simp only [StdMap.contains, StdMap.find?, Option.isSome_none, Bool.or_false,
      decide_eq_true_eq, List.mem_map]
    constructor
    · rintro (⟨e, he, heu⟩ | h1)
      · exact Or.inr ⟨e, he, heu⟩
      · exact Or.inl h1.symm
    · rintro (h1 | ⟨e, he, heu⟩)
      · exact Or.inr h1.symm
      · exact Or.inl ⟨e, he, heu⟩
  · rw [getD_foldl_alter key (fun e v => Double.sub v (g e)), StdMap.getD_alter]
    unfold Double.debit
    rw [List.foldl_map]
    congr 1
    by_cases hp : payerId = u
    · subst hp
      simp [StdMap.getD, StdMap.find?, double_add_zero]
    · have hp1 : ¬ u = payerId := fun h => hp h.symm
      simp [hp, hp1, StdMap.getD, StdMap.find?]

theorem map_const_filter (ps : List String) (u : String) (s : ℚ) :
    (ps.filter (fun p => decide (p = u))).map (fun _ => s) = List.replicate (ps.count u) s := by
  induction ps with
  | nil => rfl
  | cons p rest ih =>
    by_cases h : p = u
    · subst h
      simp only [List.filter_cons, decide_True, if_true, List.map_cons, ih,
        List.count_cons_self, List.replicate_succ]
    · have h1 : (p == u) = false := by simpa using h
      simp only [List.filter_cons, h, decide_False, Bool.false_eq_true, if_false, ih,
        List.count_cons, h1, add_zero]

theorem double_equal_succeeds (input : SplitInput) (hne : input.participantIds ≠ [])
    (hA : 0 ≤ input.amount) :
    ∃ delta, Double.EqualSplitStrategy.computeSplits input = .ok delta := by
  unfold Double.EqualSplitStrategy.computeSplits
  have h1 : input.participantIds.isEmpty = false := by
    cases hps : input.participantIds with
    | nil => exact absurd hps hne
    | cons p rest => rfl
  rw [h1, if_neg (by simp), if_neg (not_lt.2 hA)]
  exact ⟨_, rfl⟩

/-- The keys and the entries of the delta of the Equal strategy on `double`s. -/
theorem double_equal_entry (input : SplitInput) (delta : BalanceMap)
    (h : Double.EqualSplitStrategy.computeSplits input = .ok delta) (u : String) :
    (u ∈ StdMap.keys delta ↔ (u = input.payerId ∨ u ∈ input.participantIds))
    ∧ StdMap.getD delta u 0
      = Double.debit (if u = input.payerId then binary64 input.amount else 0)
          (List.replicate (input.participantIds.count u)
            (Double.div input.amount (binary64 (input.participantIds.length : ℚ)))) := by
  obtain ⟨_, _, hd⟩ := double_equal_ok input delta h
  have hloop := double_debit_loop (fun p : String => p)
    (fun _ => Double.div input.amount (binary64 (input.participantIds.length : ℚ)))
    input.participantIds input.payerId input.amount u
  rw [← hd, List.map_id', map_const_filter] at hloop
  exact hloop

/-- C29, as the code has it: when the Equal strategy succeeds on `k` participant ids, the
keys of the delta are exactly the payer and the participants, and each of them maps to
what is left of the amount, if it is the payer, or of 0 after the share is subtracted once
for each time the id is listed, where the share is the `double` nearest to `amount / k`
and each difference is rounded to a `double`. -/
theorem equal_split_delta_rounded (input : SplitInput) (delta : BalanceMap)
    (h : Double.EqualSplitStrategy.computeSplits input = .ok delta) (u : String) :
    (u ∈ StdMap.keys delta ↔ (u = input.payerId ∨ u ∈ input.participantIds))
    ∧ (u ∈ StdMap.keys delta →
        StdMap.find? delta u
          = some (Double.debit (if u = input.payerId then binary64 input.amount else 0)
              (List.replicate (input.participantIds.count u)
                (Double.div input.amount
                  (binary64 (input.participantIds.length : ℚ)))))) := by
  obtain ⟨hkeys, hval⟩ := double_equal_entry input delta h u
  refine ⟨hkeys, fun hu => ?_⟩
  rw [find?_of_mem_keys delta u 0 hu, hval]

/-- C29 fails as stated: for 100 paid by P among seven participant ids of which three are
a, the entry of a is -42.857142857142861 (three rounded subtractions of the `double`
nearest to 100/7), which is neither `-3 * 100 / 7` nor the `double` nearest to it. -/
theorem equal_split_delta_not_exact :
    Double.EqualSplitStrategy.computeSplits hundredAmongSeven
      = .ok [("P", 100), ("a", -(1507901660949943 / 35184372088832)),
          ("b", -(8042142191733029 / 562949953421312)),
          ("c", -(8042142191733029 / 562949953421312)),
          ("d", -(8042142191733029 / 562949953421312)),
          ("e", -(8042142191733029 / 562949953421312))]
    ∧ hundredAmongSeven.participantIds.count "a" = 3
    ∧ (-(1507901660949943 / 35184372088832) : ℚ)
        ≠ (if "a" = hundredAmongSeven.payerId then hundredAmongSeven.amount else 0)
          - (3 : ℚ) * hundredAmongSeven.amount / (7 : ℚ)
    ∧ (-(1507901660949943 / 35184372088832) : ℚ) ≠ binary64 (0 - 3 * 100 / 7) := by
  decide!

/-- C29, an instance: for 100 paid by P among seven participant ids of which three are a,
the entry of a is what three rounded subtractions of the share leave of 0, and the entry of
P, which is not a participant, is the amount. -/
theorem equal_split_delta_rounded_witness :
    Double.EqualSplitStrategy.computeSplits hundredAmongSeven
      = .ok [("P", 100), ("a", -(1507901660949943 / 35184372088832)),
          ("b", -(8042142191733029 / 562949953421312)),
          ("c", -(8042142191733029 / 562949953421312)),
          ("d", -(8042142191733029 / 562949953421312)),
          ("e", -(8042142191733029 / 562949953421312))]
    ∧ StdMap.find? [("P", (100 : ℚ)), ("a", -(1507901660949943 / 35184372088832)),
          ("b", -(8042142191733029 / 562949953421312)),
          ("c", -(8042142191733029 / 562949953421312)),
          ("d", -(8042142191733029 / 562949953421312)),
          ("e", -(8042142191733029 / 562949953421312))] "a"
        = some (Double.debit (if "a" = hundredAmongSeven.payerId
              then binary64 hundredAmongSeven.amount else 0)
            (List.replicate (hundredAmongSeven.participantIds.count "a")
              (Double.div hundredAmongSeven.amount
                (binary64 (hundredAmongSeven.participantIds.length : ℚ)))))
    ∧ Double.debit 0 (List.replicate 3 (Double.div 100 7))
        = -(1507901660949943 / 35184372088832) :=
  ⟨by decide!,
   (equal_split_delta_rounded hundredAmongSeven _ (by decide!) "a").2 (by decide),
   by decide!⟩

theorem debit_singleton (start share : ℚ) :
    Double.debit start [share] = Double.sub start share := rfl

theorem replicate_count_one (ps : List String) (u : String) (s : ℚ) (hnd : ps.Nodup)
    (hu : u ∈ ps) : List.replicate (ps.count u) s = [s] := by
  rw [List.count_eq_one_of_mem hnd hu]
  rfl

/-- The rounding errors of the two entries of an Equal split: of the share, and of the
payer's entry. -/
theorem equal_split_error (A k : ℚ) (hA : 0 ≤ A) (hk : 1 ≤ k) :
    |Double.sub A (Double.div A k) - (A - A / k)|
      ≤ 2 * UNIT_ROUNDOFF * A + 3 * HALF_DENORM_MIN
    ∧ |-(Double.div A k) - -(A / k)| ≤ UNIT_ROUNDOFF * (A / k) + HALF_DENORM_MIN := by
  have hu : (0 : ℚ) < UNIT_ROUNDOFF := by norm_num [UNIT_ROUNDOFF]
  have hu1 : UNIT_ROUNDOFF ≤ 1 := by norm_num [UNIT_ROUNDOFF]
  have ht : (0 : ℚ) < HALF_DENORM_MIN := by norm_num [HALF_DENORM_MIN]
  have hkpos : (0 : ℚ) < k := by linarith
  have hq0 : 0 ≤ A / k := div_nonneg hA (le_of_lt hkpos)
  have hqA : A / k ≤ A := div_le_self hA hk
  have e1 : |Double.div A k - A / k| ≤ UNIT_ROUNDOFF * (A / k) + HALF_DENORM_MIN := by
    have := binary64_error (A / k)
    rw [abs_of_nonneg hq0] at this
    exact this
  have e2 := binary64_error (A - Double.div A k)
  have hsnn : 0 ≤ Double.div A k := binary64_nonneg _ hq0
  have e1' := abs_le.1 e1
  have habs : |A - Double.div A k| ≤ A - A / k + (UNIT_ROUNDOFF * (A / k) + HALF_DENORM_MIN) := by
    rw [abs_le]
    constructor <;> linarith [e1'.1, e1'.2]
  have e2' : |Double.sub A (Double.div A k) - (A - Double.div A k)|
      ≤ UNIT_ROUNDOFF * (A - A / k + (UNIT_ROUNDOFF * (A / k) + HALF_DENORM_MIN))
        + HALF_DENORM_MIN := by
    have := mul_le_mul_of_nonneg_left habs (le_of_lt hu)
    unfold Double.sub
    linarith
  have e2'' := abs_le.1 e2'
  have huu : UNIT_ROUNDOFF * (UNIT_ROUNDOFF * (A / k)) ≤ UNIT_ROUNDOFF * A := by
    have h1 : UNIT_ROUNDOFF * (A / k) ≤ 1 * A :=
      mul_le_mul hu1 hqA hq0 (by norm_num)
    have := mul_le_mul_of_nonneg_left h1 (le_of_lt hu)
    linarith
  have hut : UNIT_ROUNDOFF * HALF_DENORM_MIN ≤ HALF_DENORM_MIN := by
    have := mul_le_mul_of_nonneg_right hu1 (le_of_lt ht)
    linarith
  constructor
  · rw [abs_le]
    constructor
    · nlinarith [e1'.1, e1'.2, e2''.1, e2''.2]
    · nlinarith [e1'.1, e1'.2, e2''.1, e2''.2]
  · have : -(Double.div A k) - -(A / k) = -(Double.div A k - A / k) := by ring
    rw [this, abs_neg]
    exact e1

/-- C6, as the code has it: for an amount `A >= 0` that is a `double` and `k >= 1` pairwise
distinct participants that include the payer, the Equal strategy succeeds, the payer's
entry of the delta is the `double` nearest to `A - s` and every other participant's entry
is `-s`, where `s` is the `double` nearest to `A / k`; the payer's entry is within
`2^-52 * A + 3 * 2^-1075` of `A - A / k` and the others are within
`2^-53 * A / k + 2^-1075` of `-A / k`, so all are within 1e-9 for amounts up to 1e6. -/
theorem equal_split_rounded (input : SplitInput) (hA : 0 ≤ input.amount)
    (hdouble : binary64 input.amount = input.amount)
    (hk : 1 ≤ input.participantIds.length) (hk53 : input.participantIds.length ≤ 2 ^ 53)
    (hnd : input.participantIds.Nodup) (hp : input.payerId ∈ input.participantIds) :
    ∃ delta, Double.EqualSplitStrategy.computeSplits input = .ok delta
      ∧ StdMap.find? delta input.payerId
          = some (Double.sub input.amount
              (Double.div input.amount (input.participantIds.length : ℚ)))
      ∧ (∀ p ∈ input.participantIds, p ≠ input.payerId →
          StdMap.find? delta p
            = some (-(Double.div input.amount (input.participantIds.length : ℚ))))
      ∧ |Double.sub input.amount (Double.div input.amount (input.participantIds.length : ℚ))
            - (input.amount - input.amount / (input.participantIds.length : ℚ))|
          ≤ 2 * UNIT_ROUNDOFF * input.amount + 3 * HALF_DENORM_MIN
      ∧ |-(Double.div input.amount (input.participantIds.length : ℚ))
            - -(input.amount / (input.participantIds.length : ℚ))|
          ≤ UNIT_ROUNDOFF * (input.amount / (input.participantIds.length : ℚ))
            + HALF_DENORM_MIN
      ∧ (input.amount ≤ 1000000 →
          |Double.sub input.amount
              (Double.div input.amount (input.participantIds.length : ℚ))
            - (input.amount - input.amount / (input.participantIds.length : ℚ))|
            ≤ 1 / 1000000000
          ∧ |-(Double.div input.amount (input.participantIds.length : ℚ))
              - -(input.amount / (input.participantIds.length : ℚ))| ≤ 1 / 1000000000) := by
  have hne : input.participantIds ≠ [] := by
    intro h; rw [h] at hk; simp at hk
  have hkq : (1 : ℚ) ≤ (input.participantIds.length : ℚ) := by exact_mod_cast hk
  obtain ⟨delta, hd⟩ := double_equal_succeeds input hne hA
  obtain ⟨herr1, herr2⟩ := equal_split_error input.amount _ hA hkq
  refine ⟨delta, hd, ?_, ?_, herr1, herr2, ?_⟩
  · obtain ⟨hkeys, hval⟩ := double_equal_entry input delta hd input.payerId
    rw [find?_of_mem_keys delta _ 0 (hkeys.2 (Or.inl rfl)), hval,
      replicate_count_one _ _ _ hnd hp, debit_singleton, if_pos rfl, hdouble,
      binary64_natCast _ hk53]
  · intro p hpm hpne
    obtain ⟨hkeys, hval⟩ := double_equal_entry input delta hd p
    rw [find?_of_mem_keys delta _ 0 (hkeys.2 (Or.inr hpm)), hval,
      replicate_count_one _ _ _ hnd hpm, debit_singleton, if_neg hpne,
      binary64_natCast _ hk53]
    unfold Double.div
    rw [double_sub_zero]
  · intro hsmall
    have hqA : input.amount / (input.participantIds.length : ℚ) ≤ input.amount :=
      div_le_self hA hkq
    have hu : UNIT_ROUNDOFF = 1 / 2 ^ 53 := rfl
    have ht : HALF_DENORM_MIN ≤ 1 / 2 ^ 53 := by norm_num [HALF_DENORM_MIN]
    rw [hu] at herr1 herr2
    constructor
    · refine le_trans herr1 ?_
      norm_num at ht ⊢
      linarith
    · refine le_trans herr2 ?_
      norm_num at ht ⊢
      linarith

/-- C6 fails as stated: for 1e9 paid by USR1 among USR1, USR2 and USR3 the payer's entry
is 666666666.66666675, which differs from `A - A / k` by more than 7e-8, and so by more
than 1e-9. -/
theorem equal_split_not_exact :
    0 ≤ billionAmongThree.amount
    ∧ 1 ≤ billionAmongThree.participantIds.length
    ∧ billionAmongThree.participantIds.Nodup
    ∧ billionAmongThree.payerId ∈ billionAmongThree.participantIds
    ∧ Double.EqualSplitStrategy.computeSplits billionAmongThree
      = .ok [("USR1", 2796202666666667 / 4194304), ("USR2", -(5592405333333333 / 16777216)),
          ("USR3", -(5592405333333333 / 16777216))]
    ∧ (2796202666666667 / 4194304 : ℚ)
        ≠ billionAmongThree.amount - billionAmongThree.amount / 3
    ∧ |(2796202666666667 / 4194304 : ℚ)
          - (billionAmongThree.amount - billionAmongThree.amount / 3)| > 7 / 100000000 := by
  decide!

/-- C6, an instance: 100 paid by A among A, B, C and D gives A the entry 75 and B the entry
-25, as the quotient and the difference are exact. -/
theorem equal_split_rounded_witness :
    (0 ≤ hundredAmongFour.amount
      ∧ binary64 hundredAmongFour.amount = hundredAmongFour.amount
      ∧ 1 ≤ hundredAmongFour.participantIds.length
      ∧ hundredAmongFour.participantIds.length ≤ 2 ^ 53
      ∧ hundredAmongFour.participantIds.Nodup
      ∧ hundredAmongFour.payerId ∈ hundredAmongFour.participantIds)
    ∧ Double.EqualSplitStrategy.computeSplits hundredAmongFour
      = .ok [("A", 75), ("B", -25), ("C", -25), ("D", -25)]
    ∧ Double.sub 100 (Double.div 100 4) = 75
    ∧ -(Double.div 100 4) = -25
    ∧ ∃ delta, Double.EqualSplitStrategy.computeSplits hundredAmongFour = .ok delta
      ∧ StdMap.find? delta hundredAmongFour.payerId
          = some (Double.sub hundredAmongFour.amount
              (Double.div hundredAmongFour.amount
                (hundredAmongFour.participantIds.length : ℚ)))
      ∧ (∀ p ∈ hundredAmongFour.participantIds, p ≠ hundredAmongFour.payerId →
          StdMap.find? delta p
            = some (-(Double.div hundredAmongFour.amount
                (hundredAmongFour.participantIds.length : ℚ))))
      ∧ |Double.sub hundredAmongFour.amount
              (Double.div hundredAmongFour.amount
                (hundredAmongFour.participantIds.length : ℚ))
            - (hundredAmongFour.amount
                - hundredAmongFour.amount / (hundredAmongFour.participantIds.length : ℚ))|
          ≤ 2 * UNIT_ROUNDOFF * hundredAmongFour.amount + 3 * HALF_DENORM_MIN
      ∧ |-(Double.div hundredAmongFour.amount (hundredAmongFour.participantIds.length : ℚ))
            - -(hundredAmongFour.amount / (hundredAmongFour.participantIds.length : ℚ))|
          ≤ UNIT_ROUNDOFF
              * (hundredAmongFour.amount / (hundredAmongFour.participantIds.length : ℚ))
            + HALF_DENORM_MIN
      ∧ (hundredAmongFour.amount ≤ 1000000 →
          |Double.sub hundredAmongFour.amount
              (Double.div hundredAmongFour.amount
                (hundredAmongFour.participantIds.length : ℚ))
            - (hundredAmongFour.amount
                - hundredAmongFour.amount / (hundredAmongFour.participantIds.length : ℚ))|
            ≤ 1 / 1000000000
          ∧ |-(Double.div hundredAmongFour.amount
                (hundredAmongFour.participantIds.length : ℚ))
              - -(hundredAmongFour.amount
                  / (hundredAmongFour.participantIds.length : ℚ))| ≤ 1 / 1000000000) :=
  ⟨⟨by decide!, by decide!, by decide, by decide, by decide, by decide⟩, by decide!,
   by decide!, by decide!,
   equal_split_rounded hundredAmongFour (by decide!) (by decide!) (by decide) (by decide)
     (by decide) (by decide)⟩

/-! ## The rounding error of a loop of subtractions -/

theorem double_sub_error (a b : ℚ) :
    |Double.sub a b - (a - b)| ≤ UNIT_ROUNDOFF * (|a| + |b|) + HALF_DENORM_MIN := by
  have hu : (0 : ℚ) < UNIT_ROUNDOFF := by norm_num [UNIT_ROUNDOFF]
  have h := binary64_error (a - b)
  have h1 : |a - b| ≤ |a| + |b| := abs_sub a b
  have := mul_le_mul_of_nonneg_left h1 (le_of_lt hu)
  unfold Double.sub
  linarith

/-- A loop of `n` rounded subtractions ends within
`((1 + 2^-53)^n - 1) * (|start| + sum |shares|) + n * 2^-1075 * (1 + 2^-53)^n` of the exact
difference. -/
theorem debit_error (start : ℚ) (shares : List ℚ) :
    |Double.debit start shares - (start - shares.sum)|
      ≤ ((1 + UNIT_ROUNDOFF) ^ shares.length - 1)
          * (|start| + (shares.map (fun c => |c|)).sum)
        + shares.length * HALF_DENORM_MIN * (1 + UNIT_ROUNDOFF) ^ shares.length := by
  have hu : (0 : ℚ) < UNIT_ROUNDOFF := by norm_num [UNIT_ROUNDOFF]
  have ht : (0 : ℚ) < HALF_DENORM_MIN := by norm_num [HALF_DENORM_MIN]
  induction shares generalizing start with
  | nil => simp [Double.debit]
  | cons c cs ih =>
    have hstep : Double.debit start (c :: cs) = Double.debit (Double.sub start c) cs := rfl
    rw [hstep]
    simp only [List.sum_cons, List.map_cons, List.length_cons]
    have hih := ih (Double.sub start c)
    have hr := double_sub_error start c
    have hS : 0 ≤ (cs.map (fun c => |c|)).sum :=
      List.sum_nonneg (fun x hx => by
        obtain ⟨y, _, rfl⟩ := List.mem_map.1 hx
        exact abs_nonneg y)
    have hP : 1 ≤ (1 + UNIT_ROUNDOFF) ^ cs.length := one_le_pow₀ (by linarith)
    rw [pow_succ]
    push_cast
    generalize (1 + UNIT_ROUNDOFF) ^ cs.length = P at hih hP ⊢
    generalize (cs.map (fun c => |c|)).sum = S at hih hS ⊢
    have hW : 0 ≤ |start| + |c| := by positivity
    generalize hWdef : |start| + |c| = W at hr hW ⊢
    have hv1 : |Double.sub start c| ≤ (1 + UNIT_ROUNDOFF) * W + HALF_DENORM_MIN := by
      have h1 : |Double.sub start c| ≤ |Double.sub start c - (start - c)| + |start - c| := by
        have := abs_add (Double.sub start c - (start - c)) (start - c)
        simpa using this
      have h2 : |start - c| ≤ W := by rw [← hWdef]; exact abs_sub start c
      linarith
    have htri : |Double.debit (Double.sub start c) cs - (start - (c + cs.sum))|
        ≤ |Double.debit (Double.sub start c) cs - (Double.sub start c - cs.sum)|
          + |Double.sub start c - (start - c)| := by
      have := abs_add (Double.debit (Double.sub start c) cs - (Double.sub start c - cs.sum))
        (Double.sub start c - (start - c))
      have heq : Double.debit (Double.sub start c) cs - (Double.sub start c - cs.sum)
          + (Double.sub start c - (start - c))
          = Double.debit (Double.sub start c) cs - (start - (c + cs.sum)) := by ring
      rw [heq] at this
      exact this
    have hmono : (P - 1) * (|Double.sub start c| + S)
        ≤ (P - 1) * ((1 + UNIT_ROUNDOFF) * W + HALF_DENORM_MIN + S) :=
      mul_le_mul_of_nonneg_left (by linarith) (by linarith)
    have hgoal : (P - 1) * ((1 + UNIT_ROUNDOFF) * W + HALF_DENORM_MIN + S)
          + (cs.length : ℚ) * HALF_DENORM_MIN * P + (UNIT_ROUNDOFF * W + HALF_DENORM_MIN)
        ≤ (P * (1 + UNIT_ROUNDOFF) - 1) * (W + S)
          + ((cs.length : ℚ) + 1) * HALF_DENORM_MIN * (P * (1 + UNIT_ROUNDOFF)) := by
      have hdiff : (P * (1 + UNIT_ROUNDOFF) - 1) * (W + S)
          + ((cs.length : ℚ) + 1) * HALF_DENORM_MIN * (P * (1 + UNIT_ROUNDOFF))
          - ((P - 1) * ((1 + UNIT_ROUNDOFF) * W + HALF_DENORM_MIN + S)
            + (cs.length : ℚ) * HALF_DENORM_MIN * P + (UNIT_ROUNDOFF * W + HALF_DENORM_MIN))
          = UNIT_ROUNDOFF * P * S
            + ((cs.length : ℚ) + 1) * UNIT_ROUNDOFF * P * HALF_DENORM_MIN := by ring
      have hnn : 0 ≤ UNIT_ROUNDOFF * P * S
          + ((cs.length : ℚ) + 1) * UNIT_ROUNDOFF * P * HALF_DENORM_MIN := by
        have hPpos : 0 ≤ P := by linarith
        have hn : (0 : ℚ) ≤ (cs.length : ℚ) + 1 := by positivity
        exact add_nonneg (mul_nonneg (mul_nonneg hu.le hPpos) hS)
          (mul_nonneg (mul_nonneg (mul_nonneg hn hu.le) hPpos) ht.le)
      linarith
    have hassoc : |start| + (|c| + S) = W + S := by rw [← hWdef]; ring
    rw [hassoc]
    linarith

/-! ## The deltas of the Exact and Percent strategies on `double`s: claims C11 and C12 -/

theorem double_zip_entry (g : ℚ → ℚ) (payerId : String) (amount : ℚ)
    (participantIds : List String) (shares : List ℚ)
    (hlen : participantIds.length = shares.length) (u : String) :
    (u ∈ StdMap.keys ((participantIds.zip shares).foldl
          (fun d e => StdMap.alter d e.1 0 (fun v => Double.sub v (g e.2)))
          (StdMap.alter [] payerId 0 (fun v => Double.add v amount)))
      ↔ (u = payerId ∨ u ∈ participantIds))
    ∧ StdMap.getD ((participantIds.zip shares).foldl
          (fun d e => StdMap.alter d e.1 0 (fun v => Double.sub v (g e.2)))
          (StdMap.alter [] payerId 0 (fun v => Double.add v amount))) u 0
      = Double.debit (if u = payerId then binary64 amount else 0)
          ((sharesAt u participantIds shares).map g) := by
  have hloop := double_debit_loop (fun e : String × ℚ => e.1) (fun e => g e.2)
    (participantIds.zip shares) payerId amount u
  rw [List.map_fst_zip _ _ (le_of_eq hlen)] at hloop
  refine ⟨hloop.1, ?_⟩
  rw [hloop.2]
  unfold sharesAt
  rw [List.map_map]
  rfl

/-- C11, as the code has it: when the Exact strategy succeeds, the keys of the delta are
exactly the payer and the participants, and each of them maps to what is left of the
amount, if it is the payer, or of 0 after the exact shares at the positions of the id are
subtracted one after the other, each difference rounded to a `double`; that is within
`((1 + 2^-53)^n - 1) * (|start| + sum |shares|) + n * 2^-1075 * (1 + 2^-53)^n` of the
start minus the sum of these `n` shares. -/
theorem exact_split_delta_rounded (input : SplitInput) (delta : BalanceMap)
    (h : Double.ExactSplitStrategy.computeSplits input = .ok delta) (u : String) :
    (u ∈ StdMap.keys delta ↔ (u = input.payerId ∨ u ∈ input.participantIds))
    ∧ (u ∈ StdMap.keys delta →
        StdMap.find? delta u
          = some (Double.debit (if u = input.payerId then binary64 input.amount else 0)
              (sharesAt u input.participantIds input.exactShares)))
    ∧ |Double.debit (if u = input.payerId then binary64 input.amount else 0)
          (sharesAt u input.participantIds input.exactShares)
        - ((if u = input.payerId then binary64 input.amount else 0)
          - (sharesAt u input.participantIds input.exactShares).sum)|
      ≤ ((1 + UNIT_ROUNDOFF) ^ (sharesAt u input.participantIds input.exactShares).length - 1)
          * (|if u = input.payerId then binary64 input.amount else 0|
            + ((sharesAt u input.participantIds input.exactShares).map (fun c => |c|)).sum)
        + (sharesAt u input.participantIds input.exactShares).length * HALF_DENORM_MIN
          * (1 + UNIT_ROUNDOFF) ^ (sharesAt u input.participantIds input.exactShares).length := by
  obtain ⟨hlen, _, hd⟩ := double_exact_ok input delta h
  obtain ⟨hkeys, hval⟩ := double_zip_entry (fun s => s) input.payerId input.amount
    input.participantIds input.exactShares hlen u
  rw [← hd] at hkeys hval
  rw [List.map_id'] at hval
  refine ⟨hkeys, fun hu => ?_, debit_error _ _⟩
  rw [find?_of_mem_keys delta u 0 hu, hval]

/-- C11 fails as stated: for the amount 1000000000.1 with the shares 0.7 for the payer a
and 999999999.4 for b, which pass the validation, the entry of a is 999999999.4, while the
amount minus the share of a is more than 4e-8 above it. -/
theorem exact_split_delta_not_exact :
    binary64 billionAndDime = billionAndDime
    ∧ binary64 sevenTenths = sevenTenths
    ∧ binary64 billionLessSixTenths = billionLessSixTenths
    ∧ Double.ExactSplitStrategy.computeSplits dimeOverBillion
      = .ok [("a", billionLessSixTenths), ("b", -billionLessSixTenths)]
    ∧ sharesAt "a" dimeOverBillion.participantIds dimeOverBillion.exactShares = [sevenTenths]
    ∧ billionLessSixTenths ≠ dimeOverBillion.amount - sevenTenths
    ∧ dimeOverBillion.amount - sevenTenths - billionLessSixTenths > 4 / 100000000 := by
  decide!

/-- C11, an instance: 50 in the shares 25 and 25 for payer and friend gives the payer the
entry 25 and the friend the entry -25. -/
theorem exact_split_delta_rounded_witness :
    Double.ExactSplitStrategy.computeSplits exactFifty
      = .ok [("friend", -25), ("payer", 25)]
    ∧ Double.debit (binary64 50) [25] = 25
    ∧ (("payer" ∈ StdMap.keys [("friend", (-25 : ℚ)), ("payer", 25)]
        ↔ ("payer" = exactFifty.payerId ∨ "payer" ∈ exactFifty.participantIds))
      ∧ ("payer" ∈ StdMap.keys [("friend", (-25 : ℚ)), ("payer", 25)] →
          StdMap.find? [("friend", (-25 : ℚ)), ("payer", 25)] "payer"
            = some (Double.debit
                (if "payer" = exactFifty.payerId then binary64 exactFifty.amount else 0)
                (sharesAt "payer" exactFifty.participantIds exactFifty.exactShares)))
      ∧ |Double.debit (if "payer" = exactFifty.payerId then binary64 exactFifty.amount else 0)
            (sharesAt "payer" exactFifty.participantIds exactFifty.exactShares)
          - ((if "payer" = exactFifty.payerId then binary64 exactFifty.amount else 0)
            - (sharesAt "payer" exactFifty.participantIds exactFifty.exactShares).sum)|
        ≤ ((1 + UNIT_ROUNDOFF)
              ^ (sharesAt "payer" exactFifty.participantIds exactFifty.exactShares).length - 1)
            * (|if "payer" = exactFifty.payerId then binary64 exactFifty.amount else 0|
              + ((sharesAt "payer" exactFifty.participantIds exactFifty.exactShares).map
                  (fun c => |c|)).sum)
          + (sharesAt "payer" exactFifty.participantIds exactFifty.exactShares).length
            * HALF_DENORM_MIN
            * (1 + UNIT_ROUNDOFF)
              ^ (sharesAt "payer" exactFifty.participantIds exactFifty.exactShares).length) :=
  ⟨by decide!, by decide!,
   exact_split_delta_rounded exactFifty [("friend", -25), ("payer", 25)] (by decide!)
     "payer"⟩

/-- The rounding error of one share of the Percent strategy. -/
theorem percent_share_error (A p : ℚ) :
    |Double.mul A (Double.div p 100) - A * p / 100|
      ≤ 3 * UNIT_ROUNDOFF * (|A| * |p| / 100) + (2 * |A| + 1) * HALF_DENORM_MIN := by
  have hu : (0 : ℚ) < UNIT_ROUNDOFF := by norm_num [UNIT_ROUNDOFF]
  have hu1 : UNIT_ROUNDOFF ≤ 1 := by norm_num [UNIT_ROUNDOFF]
  have ht : (0 : ℚ) < HALF_DENORM_MIN := by norm_num [HALF_DENORM_MIN]
  have hA := abs_nonneg A
  have hp := abs_nonneg p
  have e1 : |Double.div p 100 - p / 100| ≤ UNIT_ROUNDOFF * (|p| / 100) + HALF_DENORM_MIN := by
    have := binary64_error (p / 100)
    rw [abs_div, abs_of_pos (by norm_num : (0 : ℚ) < 100)] at this
    exact this
  have e2 : |Double.mul A (Double.div p 100) - A * Double.div p 100|
      ≤ UNIT_ROUNDOFF * (|A| * |Double.div p 100|) + HALF_DENORM_MIN := by
    have := binary64_error (A * Double.div p 100)
    rw [abs_mul] at this
    exact this
  have hd : |Double.div p 100| ≤ (1 + UNIT_ROUNDOFF) * (|p| / 100) + HALF_DENORM_MIN := by
    have h1 : |Double.div p 100| ≤ |Double.div p 100 - p / 100| + |p / 100| := by
      have := abs_add (Double.div p 100 - p / 100) (p / 100)
      simpa using this
    rw [abs_div, abs_of_pos (by norm_num : (0 : ℚ) < 100)] at h1
    linarith
  have e3 : |A * Double.div p 100 - A * p / 100|
      ≤ |A| * (UNIT_ROUNDOFF * (|p| / 100) + HALF_DENORM_MIN) := by
    have : A * Double.div p 100 - A * p / 100 = A * (Double.div p 100 - p / 100) := by ring
    rw [this, abs_mul]
    exact mul_le_mul_of_nonneg_left e1 hA
  have htri : |Double.mul A (Double.div p 100) - A * p / 100|
      ≤ |Double.mul A (Double.div p 100) - A * Double.div p 100|
        + |A * Double.div p 100 - A * p / 100| := by
    have := abs_add (Double.mul A (Double.div p 100) - A * Double.div p 100)
      (A * Double.div p 100 - A * p / 100)
    simpa using this
  have hAd : |A| * |Double.div p 100|
      ≤ |A| * ((1 + UNIT_ROUNDOFF) * (|p| / 100) + HALF_DENORM_MIN) :=
    mul_le_mul_of_nonneg_left hd hA
  have hAp : 0 ≤ |A| * |p| / 100 := by positivity
  have hsq : UNIT_ROUNDOFF * (UNIT_ROUNDOFF * (|A| * |p| / 100))
      ≤ UNIT_ROUNDOFF * (|A| * |p| / 100) := by
    have h1 : UNIT_ROUNDOFF * (|A| * |p| / 100) ≤ 1 * (|A| * |p| / 100) :=
      mul_le_mul_of_nonneg_right hu1 hAp
    have := mul_le_mul_of_nonneg_left h1 hu.le
    linarith
  have hut : UNIT_ROUNDOFF * (|A| * HALF_DENORM_MIN) ≤ |A| * HALF_DENORM_MIN := by
    have h1 : 0 ≤ |A| * HALF_DENORM_MIN := mul_nonneg hA ht.le
    have := mul_le_mul_of_nonneg_right hu1 h1
    linarith
  have hexp : UNIT_ROUNDOFF * (|A| * ((1 + UNIT_ROUNDOFF) * (|p| / 100) + HALF_DENORM_MIN))
      = UNIT_ROUNDOFF * (|A| * |p| / 100)
        + UNIT_ROUNDOFF * (UNIT_ROUNDOFF * (|A| * |p| / 100))
        + UNIT_ROUNDOFF * (|A| * HALF_DENORM_MIN) := by ring
  have hexp2 : |A| * (UNIT_ROUNDOFF * (|p| / 100) + HALF_DENORM_MIN)
      = UNIT_ROUNDOFF * (|A| * |p| / 100) + |A| * HALF_DENORM_MIN := by ring
  have := mul_le_mul_of_nonneg_left hAd hu.le
  linarith

/-- C12, as the code has it: when the Percent strategy succeeds, each key of the delta
maps to what is left of the amount, if it is the payer, or of 0 after the shares of the
percentages at the positions of the id are subtracted one after the other, each difference
rounded to a `double`; the share of a percentage `p` is the `double` nearest to
`amount * d` for `d` the `double` nearest to `p / 100`, which is within
`3 * 2^-53 * |amount| * |p| / 100 + (2 * |amount| + 1) * 2^-1075` of `amount * p / 100`. -/
theorem percent_split_delta_rounded (input : SplitInput) (delta : BalanceMap)
    (h : Double.PercentSplitStrategy.computeSplits input = .ok delta) (u : String) :
    (u ∈ StdMap.keys delta ↔ (u = input.payerId ∨ u ∈ input.participantIds))
    ∧ (u ∈ StdMap.keys delta →
        StdMap.find? delta u
          = some (Double.debit (if u = input.payerId then binary64 input.amount else 0)
              ((sharesAt u input.participantIds input.percentShares).map
                (fun p => Double.mul input.amount (Double.div p 100)))))
    ∧ (∀ p : ℚ, |Double.mul input.amount (Double.div p 100) - input.amount * p / 100|
        ≤ 3 * UNIT_ROUNDOFF * (|input.amount| * |p| / 100)
          + (2 * |input.amount| + 1) * HALF_DENORM_MIN) := by
  obtain ⟨hlen, _, hd⟩ := double_percent_ok input delta h
  obtain ⟨hkeys, hval⟩ := double_zip_entry
    (fun p => Double.mul input.amount (Double.div p 100)) input.payerId input.amount
    input.participantIds input.percentShares hlen u
  rw [← hd] at hkeys hval
  refine ⟨hkeys, fun hu => ?_, fun p => percent_share_error _ _⟩
  rw [find?_of_mem_keys delta u 0 hu, hval]

/-- C12 fails as stated: for 50 paid by P1 at 55 percent for P1 and 45 percent for P2 the
share of P1 is 27.500000000000004, the `double` nearest to 50 times the `double` nearest
to 0.55, and the entry of P1 is 22.499999999999996, not `50 - 50 * 55 / 100 = 22.5`. -/
theorem percent_split_delta_not_exact :
    Double.PercentSplitStrategy.computeSplits fiftyAtFiftyFive
      = .ok [("P1", 6333186975989759 / 281474976710656), ("P2", -(45 / 2))]
    ∧ sharesAt "P1" fiftyAtFiftyFive.participantIds fiftyAtFiftyFive.percentShares = [55]
    ∧ Double.mul 50 (Double.div 55 100) = 7740561859543041 / 281474976710656
    ∧ (7740561859543041 / 281474976710656 : ℚ) ≠ 50 * 55 / 100
    ∧ (6333186975989759 / 281474976710656 : ℚ)
        ≠ fiftyAtFiftyFive.amount - fiftyAtFiftyFive.amount * 55 / 100 := by
  decide!

/-- C12, an instance: 60 at 30, 30 and 40 percent for A, B and C, paid by B, gives B the
entry 42, A the entry -18 and C the entry -24. -/
theorem percent_split_delta_rounded_witness :
    Double.PercentSplitStrategy.computeSplits percentSixty
      = .ok [("A", -18), ("B", 42), ("C", -24)]
    ∧ Double.debit (binary64 60) [Double.mul 60 (Double.div 30 100)] = 42
    ∧ (("B" ∈ StdMap.keys [("A", (-18 : ℚ)), ("B", 42), ("C", -24)]
        ↔ ("B" = percentSixty.payerId ∨ "B" ∈ percentSixty.participantIds))
      ∧ ("B" ∈ StdMap.keys [("A", (-18 : ℚ)), ("B", 42), ("C", -24)] →
          StdMap.find? [("A", (-18 : ℚ)), ("B", 42), ("C", -24)] "B"
            = some (Double.debit
                (if "B" = percentSixty.payerId then binary64 percentSixty.amount else 0)
                ((sharesAt "B" percentSixty.participantIds percentSixty.percentShares).map
                  (fun p => Double.mul percentSixty.amount (Double.div p 100)))))
      ∧ (∀ p : ℚ,
          |Double.mul percentSixty.amount (Double.div p 100) - percentSixty.amount * p / 100|
            ≤ 3 * UNIT_ROUNDOFF * (|percentSixty.amount| * |p| / 100)
              + (2 * |percentSixty.amount| + 1) * HALF_DENORM_MIN)) :=
  ⟨by decide!, by decide!,
   percent_split_delta_rounded percentSixty [("A", -18), ("B", 42), ("C", -24)] (by decide!)
     "B"⟩

/-! ## The tolerances as `double`s -/

/-- A positive `double` is a whole multiple of the spacing of its binade. -/
theorem double_grid (z : ℚ) (hz : 0 < z) (hd : binary64 z = z) (e : ℤ) (he : -1022 ≤ e)
    (hlow : pow2 e ≤ z) (hup : z < pow2 (e + 1)) :
    ∃ k : ℤ, z = (k : ℚ) * pow2 (e - 52) := by
  obtain ⟨h1, h2⟩ := floorLog2_abs z (ne_of_gt hz)
  rw [abs_of_pos hz] at h1 h2
  have he0 : floorLog2 z.num.natAbs z.den = e := by
    have ha : floorLog2 z.num.natAbs z.den < e + 1 :=
      (pow2_lt_pow2_iff _ _).1 (lt_of_le_of_lt h1 hup)
    have hb : e < floorLog2 z.num.natAbs z.den + 1 :=
      (pow2_lt_pow2_iff _ _).1 (lt_of_le_of_lt hlow h2)
    omega
  have hform := binary64_of_pos z hz
  rw [he0, max_eq_left he, hd] at hform
  exact ⟨_, hform⟩

/-- No `double` lies between the `double` nearest to 1e-6 and 1e-6: a `double` exceeds
the one exactly when it exceeds the other. -/
theorem double_gt_epsilon_iff (y : ℚ) :
    |binary64 y| > Double.EPSILON ↔ |binary64 y| > 1 / 1000000 := by
  have hE : Double.EPSILON = 4722366482869645 / 4722366482869645213696 := by decide!
  have hlt : Double.EPSILON < 1 / 1000000 := by rw [hE]; norm_num
  constructor
  · intro h
    by_contra hcon
    push_neg at hcon
    have habs : |binary64 y| = binary64 |y| := by
      rcases le_total 0 y with h0 | h0
      · rw [abs_of_nonneg h0, abs_of_nonneg (binary64_nonneg y h0)]
      · have hneg : 0 ≤ binary64 (-y) := binary64_nonneg _ (by linarith)
        rw [binary64_neg] at hneg
        rw [abs_of_nonpos h0, abs_of_nonpos (by linarith), binary64_neg]
    rw [habs] at h hcon
    have hEpos : (0 : ℚ) < Double.EPSILON := by rw [hE]; norm_num
    have hz : 0 < binary64 |y| := lt_trans hEpos h
    have hp20 : pow2 (-20) = 1 / 1048576 := by rw [pow2_eq_zpow]; norm_num
    have hp19 : pow2 (-20 + 1) = 1 / 524288 := by rw [pow2_eq_zpow]; norm_num
    have hp72 : pow2 (-20 - 52) = 1 / 4722366482869645213696 := by
      rw [pow2_eq_zpow]; norm_num
    obtain ⟨k, hk⟩ := double_grid (binary64 |y|) hz (binary64_idem _) (-20) (by norm_num)
      (by rw [hp20]; rw [hE] at h; linarith [h, (by norm_num :
        (1 : ℚ) / 1048576 ≤ 4722366482869645 / 4722366482869645213696)])
      (by rw [hp19]; linarith [hcon, (by norm_num : (1 : ℚ) / 1000000 < 1 / 524288)])
    rw [hp72] at hk
    rw [hk, hE] at h
    rw [hk] at hcon
    have hk1 : (4722366482869645 : ℚ) < k := by
      have := h
      rw [gt_iff_lt, div_lt_iff₀ (by norm_num)] at this
      linarith
    have hk2 : (k : ℚ) ≤ 4722366482869645213696 / 1000000 := by
      have := hcon
      rw [mul_one_div, div_le_iff₀ (by norm_num)] at this
      linarith
    have hk3 : (4722366482869645 : ℤ) < k := by exact_mod_cast hk1
    have hk4 : (k : ℚ) < 4722366482869646 := by
      have : (4722366482869645213696 : ℚ) / 1000000 < 4722366482869646 := by norm_num
      linarith
    have hk5 : k < 4722366482869646 := by exact_mod_cast hk4
    omega
  · intro h
    exact lt_trans hlt h

/-- No `double` lies between 1e-9 and the `double` nearest to it: a `double` is below the
one exactly when it is below the other. -/
theorem double_lt_snap_iff (y : ℚ) :
    |binary64 y| < Double.SNAP ↔ |binary64 y| < 1 / 1000000000 := by
  have hS : Double.SNAP = 4835703278458517 / 4835703278458516698824704 := by decide!
  have hlt : (1 : ℚ) / 1000000000 < Double.SNAP := by rw [hS]; norm_num
  constructor
  · intro h
    by_contra hcon
    push_neg at hcon
    have habs : |binary64 y| = binary64 |y| := by
      rcases le_total 0 y with h0 | h0
      · rw [abs_of_nonneg h0, abs_of_nonneg (binary64_nonneg y h0)]
      · have hneg : 0 ≤ binary64 (-y) := binary64_nonneg _ (by linarith)
        rw [binary64_neg] at hneg
        rw [abs_of_nonpos h0, abs_of_nonpos (by linarith), binary64_neg]
    rw [habs] at h hcon
    have hz : 0 < binary64 |y| := lt_of_lt_of_le (by norm_num) hcon
    have hp30 : pow2 (-30) = 1 / 1073741824 := by rw [pow2_eq_zpow]; norm_num
    have hp29 : pow2 (-30 + 1) = 1 / 536870912 := by rw [pow2_eq_zpow]; norm_num
    have hp82 : pow2 (-30 - 52) = 1 / 4835703278458516698824704 := by
      rw [pow2_eq_zpow]; norm_num
    obtain ⟨k, hk⟩ := double_grid (binary64 |y|) hz (binary64_idem _) (-30) (by norm_num)
      (by rw [hp30]; linarith [hcon, (by norm_num : (1 : ℚ) / 1073741824 ≤ 1 / 1000000000)])
      (by rw [hp29]; rw [hS] at h; linarith [h, (by norm_num :
        (4835703278458517 : ℚ) / 4835703278458516698824704 < 1 / 536870912)])
    rw [hp82] at hk
    rw [hk, hS] at h
    rw [hk] at hcon
    have hk1 : (k : ℚ) < 4835703278458517 := by
      have := h
      rw [mul_one_div, div_lt_div_iff_of_pos_right (by norm_num)] at this
      exact this
    have hk2 : (4835703278458516698824704 : ℚ) / 1000000000 ≤ k := by
      have := hcon
      rw [mul_one_div, le_div_iff₀ (by norm_num)] at this
      rw [div_le_iff₀ (by norm_num)]
      linarith
    have hk3 : k < 4835703278458517 := by exact_mod_cast hk1
    have hk4 : (4835703278458516 : ℚ) < k := by
      have : (4835703278458516 : ℚ) < 4835703278458516698824704 / 1000000000 := by norm_num
      linarith
    have hk5 : (4835703278458516 : ℤ) < k := by exact_mod_cast hk4
    omega
  · intro h
    exact lt_trans h hlt

/-! ## The validation of the Exact and Percent strategies on `double`s: claims C7 and C8 -/

theorem double_sub_abs_gt_iff (a b : ℚ) :
    |Double.sub a b| > Double.EPSILON ↔ |Double.sub a b| > 1 / 1000000 :=
  double_gt_epsilon_iff (a - b)

/-- C7, as the code has it: the Exact strategy fails, with an invalid-argument error, if
and only if the number of exact shares differs from the number of participant ids or the
computed difference exceeds 1e-6 in magnitude, where the difference is the `double`
nearest to `total - amount` and `total` is the running sum of the shares, rounded to a
`double` after each addition; otherwise it succeeds.  A computed difference of 1e-6 at
most, such as the `double` nearest to 1e-6, is accepted, and the shares 30 and 10 for the
amount 50 are rejected. -/
theorem exact_validation_rounded :
    (∀ input : SplitInput,
      ((∃ what, Double.ExactSplitStrategy.computeSplits input = .error (.invalidArgument what))
        ↔ (input.exactShares.length ≠ input.participantIds.length
            ∨ |Double.sub (Double.accumulate input.exactShares) input.amount| > 1 / 1000000))
      ∧ ((∃ delta, Double.ExactSplitStrategy.computeSplits input = .ok delta)
        ↔ ¬ (input.exactShares.length ≠ input.participantIds.length
            ∨ |Double.sub (Double.accumulate input.exactShares) input.amount|
                > 1 / 1000000)))
    ∧ (|Double.sub (Double.accumulate toleranceExact.exactShares) toleranceExact.amount|
        = binary64 (1 / 1000000)
      ∧ ∃ delta, Double.ExactSplitStrategy.computeSplits toleranceExact = .ok delta)
    ∧ (∃ what, Double.ExactSplitStrategy.computeSplits mismatchedFifty
        = .error (.invalidArgument what)) := by
  refine ⟨fun input => ⟨?_, ?_⟩, ⟨by decide!, (double_exact_ok_iff _).2 (by decide!)⟩,
    (double_exact_error_iff _).2 (by decide!)⟩
  · rw [double_exact_error_iff, double_sub_abs_gt_iff]
  · rw [double_exact_ok_iff, double_sub_abs_gt_iff]

/-- C7 fails as stated, both ways.  The shares 25 and 25.000001 for the amount 50 are as
many as the participants and their sum differs from the amount by more than 1e-6, and the
Exact strategy succeeds: the running sum and the difference are rounded.  The shares 1, 1
and 1.000001 for the amount 3 sum to within 1e-6 of the amount, and the strategy fails. -/
theorem exact_validation_not_exact :
    (nearFifty.exactShares.length = nearFifty.participantIds.length
      ∧ binary64 twentyFiveAndAMillionth = twentyFiveAndAMillionth
      ∧ |nearFifty.exactShares.sum - nearFifty.amount| > 1 / 1000000
      ∧ Double.ExactSplitStrategy.computeSplits nearFifty
        = .ok [("friend", -twentyFiveAndAMillionth), ("payer", 25)])
    ∧ (nearThree.exactShares.length = nearThree.participantIds.length
      ∧ binary64 oneAndAMillionth = oneAndAMillionth
      ∧ |nearThree.exactShares.sum - nearThree.amount| ≤ 1 / 1000000
      ∧ Double.ExactSplitStrategy.computeSplits nearThree
        = .error (.invalidArgument "Exact split shares must sum to the total amount")) := by
  decide!

/-- C8, as the code has it: the Percent strategy fails, with an invalid-argument error, if
and only if the number of percentages differs from the number of participant ids or the
computed difference exceeds 1e-6 in magnitude, where the difference is the `double`
nearest to `total - 100` and `total` is the running sum of the percentages, rounded to a
`double` after each addition; every other input, whatever its amount, succeeds.  One
percentage for two participants is rejected. -/
theorem percent_validation_rounded :
    (∀ input : SplitInput,
      ((∃ what,
          Double.PercentSplitStrategy.computeSplits input = .error (.invalidArgument what))
        ↔ (input.percentShares.length ≠ input.participantIds.length
            ∨ |Double.sub (Double.accumulate input.percentShares) 100| > 1 / 1000000))
      ∧ ((∃ delta, Double.PercentSplitStrategy.computeSplits input = .ok delta)
        ↔ ¬ (input.percentShares.length ≠ input.participantIds.length
            ∨ |Double.sub (Double.accumulate input.percentShares) 100| > 1 / 1000000)))
    ∧ (∃ what, Double.PercentSplitStrategy.computeSplits onePercentage
        = .error (.invalidArgument what)) := by
  refine ⟨fun input => ⟨?_, ?_⟩, (double_percent_error_iff _).2 (by decide!)⟩
  · rw [double_percent_error_iff, double_sub_abs_gt_iff]
  · rw [double_percent_ok_iff, double_sub_abs_gt_iff]

/-- C8 fails as stated: the percentages 50, 1e18, -1e18 and 100 are as many as the
participants and sum to 150, and the Percent strategy succeeds: the running sum loses the
50 when 1e18 is added, and ends at 100. -/
theorem percent_validation_not_exact :
    absorbedPercent.percentShares.length = absorbedPercent.participantIds.length
    ∧ absorbedPercent.percentShares.sum = 150
    ∧ |absorbedPercent.percentShares.sum - 100| > 1 / 1000000
    ∧ Double.accumulate absorbedPercent.percentShares = 100
    ∧ Double.PercentSplitStrategy.computeSplits absorbedPercent
      = .ok [("a", 1 / 2), ("b", -10000000000000000), ("c", 10000000000000000),
          ("d", -1)] := by
  decide!

/-! ## `applyDelta` on `double`s: claim C17 -/

theorem double_find?_applyEntry (b : BalanceMap) (userId u : String) (change : ℚ) :
    StdMap.find? (Double.applyEntry b userId change) u
      = if userId = u then some (Double.snap (Double.add (StdMap.getD b userId 0) change))
        else StdMap.find? b u := by
  unfold Double.applyEntry Double.snap
  dsimp only
  rw [StdMap.getD_alter, if_pos rfl]
  split_ifs with h1 h2 h2
  · rw [StdMap.find?_alter, if_pos h2]
  · rw [StdMap.find?_alter, if_neg h2, StdMap.find?_alter, if_neg h2]
  · rw [StdMap.find?_alter, if_pos h2, StdMap.getD]
  · rw [StdMap.find?_alter, if_neg h2]

theorem double_getD_applyEntry_of_ne (b : BalanceMap) (userId u : String) (change : ℚ)
    (h : userId ≠ u) :
    StdMap.getD (Double.applyEntry b userId change) u 0 = StdMap.getD b u 0 := by
  unfold StdMap.getD
  rw [double_find?_applyEntry, if_neg h]

theorem double_find?_foldl_of_not_mem (delta : BalanceMap) (b : BalanceMap) (u : String)
    (h : u ∉ StdMap.keys delta) :
    StdMap.find? (delta.foldl (fun b e => Double.applyEntry b e.1 e.2) b) u
      = StdMap.find? b u := by
  induction delta generalizing b with
  | nil => rfl
  | cons e rest ih =>
    simp only [StdMap.keys, List.map_cons, List.mem_cons, not_or] at h
    simp only [List.foldl_cons]
    rw [ih _ h.2, double_find?_applyEntry, if_neg (fun h1 => h.1 h1.symm)]

theorem double_find?_foldl_of_mem (delta : BalanceMap) (b : BalanceMap) (u : String)
    (c : ℚ) (hnd : (StdMap.keys delta).Nodup) (h : (u, c) ∈ delta) :
    StdMap.find? (delta.foldl (fun b e => Double.applyEntry b e.1 e.2) b) u
      = some (Double.snap (Double.add (StdMap.getD b u 0) c)) := by
  induction delta generalizing b with
  | nil => simp at h
  | cons e rest ih =>
    simp only [StdMap.keys, List.map_cons, List.nodup_cons] at hnd
    simp only [List.foldl_cons]
    rcases List.mem_cons.1 h with h1 | h1
    · subst h1
      rw [double_find?_foldl_of_not_mem rest _ u hnd.1, double_find?_applyEntry, if_pos rfl]
    · have hne : e.1 ≠ u := by
        intro he
        exact hnd.1 (he ▸ List.mem_map_of_mem Prod.fst h1)
      rw [ih _ hnd.2 h1, double_getD_applyEntry_of_ne b e.1 u e.2 hne]

/-- C17, as the code has it: after `applyDelta`, every user `u` of the delta, whose keys
are distinct as in any map, holds `snap(old(u) + delta(u))` with the sum rounded to the
nearest `double`, where `old(u)` is `0` for a user not yet present and `snap` resets to `0`
what is below 1e-9 in magnitude: a rounded sum below 1e-9 in magnitude leaves 0, and any
other rounded sum, such as the `double` nearest to 1e-9, is kept. -/
theorem applyDelta_rounded (s : BalanceSheet) (delta : BalanceMap)
    (hkeys : (StdMap.keys delta).Nodup) (u : String) (c : ℚ) (hmem : (u, c) ∈ delta) :
    StdMap.find? (Double.applyDelta s delta).getBalances u
        = some (Double.snap (Double.add (StdMap.getD s.getBalances u 0) c))
    ∧ (|Double.add (StdMap.getD s.getBalances u 0) c| < 1 / 1000000000 →
        StdMap.find? (Double.applyDelta s delta).getBalances u = some 0)
    ∧ (¬ |Double.add (StdMap.getD s.getBalances u 0) c| < 1 / 1000000000 →
        StdMap.find? (Double.applyDelta s delta).getBalances u
          = some (Double.add (StdMap.getD s.getBalances u 0) c)) := by
  have h := double_find?_foldl_of_mem delta s.balances_ u c hkeys hmem
  have hiff : |Double.add (StdMap.getD s.balances_ u 0) c| < Double.SNAP
      ↔ |Double.add (StdMap.getD s.balances_ u 0) c| < 1 / 1000000000 :=
    double_lt_snap_iff _
  refine ⟨h, ?_, ?_⟩
  · intro hlt
    have hlt1 : |Double.add (StdMap.getD s.balances_ u 0) c| < Double.SNAP := hiff.2 hlt
    rw [show StdMap.find? (Double.applyDelta s delta).getBalances u = _ from h, Double.snap,
      if_pos hlt1]
  · intro hge
    have hge1 : ¬ |Double.add (StdMap.getD s.balances_ u 0) c| < Double.SNAP :=
      fun h1 => hge (hiff.1 h1)
    rw [show StdMap.find? (Double.applyDelta s delta).getBalances u = _ from h, Double.snap,
      if_neg hge1]
    rfl

/-- C17 fails as stated: on the sheet A = 1e16 the delta A: 1 leaves A at 1e16, the
`double` nearest to the sum, and not at `snap(1e16 + 1) = 1e16 + 1`. -/
theorem applyDelta_absorbs :
    StdMap.find? (Double.applyDelta { balances_ := [("A", 10000000000000000)] }
        [("A", 1)]).getBalances "A" = some 10000000000000000
    ∧ snap (StdMap.getD [("A", (10000000000000000 : ℚ))] "A" 0 + 1) = 10000000000000001
    ∧ (10000000000000000 : ℚ) ≠ snap (StdMap.getD [("A", (10000000000000000 : ℚ))] "A" 0 + 1)
        := by
  decide!

/-- C17, instances: on the sheet A = 5, B = -1, the delta of the `double`s nearest to
-5.0000000005 for A and to 1.000000001 for B, and of 0.5 for C, leaves A at 0 (the rounded
sum is about -5e-10), B at its rounded sum of about 1.00000008e-9, and the new user C at
0.5. -/
theorem applyDelta_rounded_witness :
    (StdMap.keys residueDelta).Nodup
    ∧ StdMap.find? (Double.applyDelta { balances_ := [("A", 5), ("B", -1)] }
        residueDelta).getBalances "A" = some 0
    ∧ StdMap.find? (Double.applyDelta { balances_ := [("A", 5), ("B", -1)] }
        residueDelta).getBalances "B" = some (281475 / 281474976710656)
    ∧ StdMap.find? (Double.applyDelta { balances_ := [("A", 5), ("B", -1)] }
        residueDelta).getBalances "C" = some (1 / 2) := by
  refine ⟨by decide!, ?_, ?_, ?_⟩
  · exact (applyDelta_rounded { balances_ := [("A", 5), ("B", -1)] } residueDelta
      (by decide!) "A" (binary64 (-(5 + 1 / 2000000000))) (by decide!)).2.1 (by decide!)
  · exact ((applyDelta_rounded { balances_ := [("A", 5), ("B", -1)] } residueDelta
      (by decide!) "B" (binary64 (1 + 1 / 1000000000)) (by decide!)).2.2
      (by decide!)).trans (by decide!)
  · exact ((applyDelta_rounded { balances_ := [("A", 5), ("B", -1)] } residueDelta
      (by decide!) "C" (1 / 2) (by decide!)).2.2 (by decide!)).trans (by decide!)

/-! ## Acceptance of `addExpense` and the notifier: claim C14 -/

/-- C14, as the code has it: for a non-null strategy, `addExpense` succeeds if and only if
the group id exists, there is a participant, the payer is a member of the group and a
participant, every participant is a member of the group, the strategy computes the splits,
and the notifier, if it is called, returns without throwing; it is called, with the stored
expense and the threshold, exactly when a notifier is set, a threshold is set and the
amount exceeds the threshold.  So a violation of one of the six conditions makes
`addExpense` fail, and the six conditions make it succeed whenever no notifier is called,
whatever the notifier that is set would do. -/
theorem addExpense_acceptance (m : SplitwiseManager) (groupId description : String)
    (input : SplitInput) (strategy : SplitStrategy) :
    ((∃ id, (m.addExpense groupId description input (some strategy)).result = .ok id)
      ↔ (m.accepts groupId input strategy
        ∧ ∀ notifier threshold, m.notifier_ = some notifier →
            m.notificationThreshold_ = some threshold → input.amount > threshold →
            notifier.notifyLargeExpense
              ((StdMap.find? m.expenses_ (m.generateId "EXP").1).getD
                ⟨(m.generateId "EXP").1, groupId, description, input, strategy⟩) threshold
              = .ok ()))
    ∧ (¬ m.accepts groupId input strategy →
        ∃ e, (m.addExpense groupId description input (some strategy)).result = .error e)
    ∧ ((m.notifier_ = none ∨ m.notificationThreshold_ = none
          ∨ ∃ threshold, m.notificationThreshold_ = some threshold
              ∧ input.amount ≤ threshold) →
        m.accepts groupId input strategy →
        ∃ id, (m.addExpense groupId description input (some strategy)).result = .ok id) := by
  have hacc := SplitwiseManager.checkExpense_ok_iff_accepts m groupId input strategy
  refine ⟨⟨?_, ?_⟩, ?_, ?_⟩
  · rintro ⟨id, hid⟩
    cases hc : m.checkExpense groupId input (some strategy) with
    | error e =>
      rw [SplitwiseManager.addExpense_of_check_error m _ _ _ _ e hc] at hid
      simp at hid
    | ok r =>
      refine ⟨hacc.1 ⟨r, hc⟩, ?_⟩
      intro notifier threshold hn ht hgt
      obtain ⟨strat, delta⟩ := r
      have hs : some strategy = some strat :=
        (SplitwiseManager.conditions_of_checkExpense m groupId input _ _ hc).1
      cases hs
      rw [SplitwiseManager.addExpense_of_check_ok m _ _ _ _ strategy delta hc,
        (SplitwiseManager.recordExpense_notify m groupId description input strategy delta
          notifier threshold hn ht hgt).2] at hid
      cases hcall : notifier.notifyLargeExpense
          ((StdMap.find? m.expenses_ (m.generateId "EXP").1).getD
            ⟨(m.generateId "EXP").1, groupId, description, input, strategy⟩) threshold with
      | error e =>
        rw [hcall] at hid
        simp [Except.map] at hid
      | ok u => rfl
  · rintro ⟨ha, hcall⟩
    obtain ⟨r, hr⟩ := hacc.2 ha
    obtain ⟨strat, delta⟩ := r
    have hs : some strategy = some strat :=
      (SplitwiseManager.conditions_of_checkExpense m groupId input _ _ hr).1
    cases hs
    rw [SplitwiseManager.addExpense_of_check_ok m _ _ _ _ strategy delta hr]
    by_cases hsilent : m.notifier_ = none ∨ m.notificationThreshold_ = none
        ∨ ∃ threshold, m.notificationThreshold_ = some threshold ∧ input.amount ≤ threshold
    · exact ⟨_, (SplitwiseManager.recordExpense_silent m groupId description input strategy
        delta hsilent).2⟩
    · push_neg at hsilent
      obtain ⟨h1, h2, h3⟩ := hsilent
      obtain ⟨notifier, hn⟩ := Option.ne_none_iff_exists'.1 h1
      obtain ⟨threshold, ht⟩ := Option.ne_none_iff_exists'.1 h2
      have hgt := h3 threshold ht
      rw [(SplitwiseManager.recordExpense_notify m groupId description input strategy delta
        notifier threshold hn ht hgt).2, hcall notifier threshold hn ht hgt]
      exact ⟨_, rfl⟩
  · intro hna
    cases hc : m.checkExpense groupId input (some strategy) with
    | error e =>
      exact ⟨e, by rw [SplitwiseManager.addExpense_of_check_error m _ _ _ _ e hc]⟩
    | ok r => exact absurd (hacc.1 ⟨r, hc⟩) hna
  · intro hsilent ha
    obtain ⟨r, hr⟩ := hacc.2 ha
    obtain ⟨strat, delta⟩ := r
    rw [SplitwiseManager.addExpense_of_check_ok m _ _ _ _ strat delta hr]
    exact ⟨_, (SplitwiseManager.recordExpense_silent m groupId description input strat
      delta hsilent).2⟩

/-- C14 fails as stated: with a notifier that throws and the threshold 0, an Equal split of
10 between the two members of the group passes every check of `addExpense`, and the call
fails all the same, with the exception of the notifier; with the same notifier and the
default threshold, under which no notifier is called, the call succeeds. -/
theorem addExpense_fails_when_notifier_throws :
    SplitwiseManager.accepts
        (SplitwiseManager.run {} (twoFriends ++
          [.setNotifier (some failingNotifier), .setNotificationThreshold (some 0)]))
        "GRP1" taxiInput .equal
    ∧ ((SplitwiseManager.run {} (twoFriends ++
          [.setNotifier (some failingNotifier), .setNotificationThreshold (some 0)])).addExpense
        "GRP1" "taxi" taxiInput (some .equal)).result
      = .error (.runtimeError "notifier failed")
    ∧ ((SplitwiseManager.run {} (twoFriends ++
          [.setNotifier (some failingNotifier)])).addExpense
        "GRP1" "taxi" taxiInput (some .equal)).result = .ok "EXP1" := by
  refine ⟨?_, by decide!, by decide!⟩
  refine ⟨⟨"GRP1", "Trip", ["USR1", "USR2"]⟩, by decide!, by decide, by decide, by decide,
    by decide, [("USR1", 5), ("USR2", -5)], by decide!⟩

/-! ## The sums of the deltas on `double`s: claims C5, C37 and C38 -/

theorem absTotal_nonneg (m : BalanceMap) : 0 ≤ m.absTotal :=
  List.sum_nonneg (fun x hx => by
    obtain ⟨y, _, rfl⟩ := List.mem_map.1 hx
    exact abs_nonneg _)

theorem absTotal_insertNew (m : BalanceMap) (k : String) (v : ℚ) :
    BalanceMap.absTotal (StdMap.insertNew m k v) = m.absTotal + |v| := by
  induction m with
  | nil => simp [StdMap.insertNew, BalanceMap.absTotal]
  | cons e rest ih =>
    obtain ⟨k1, v1⟩ := e
    simp only [StdMap.insertNew]
    split
    · simp only [BalanceMap.absTotal, List.map_cons, List.sum_cons]; ring
    · simp only [BalanceMap.absTotal, List.map_cons, List.sum_cons] at ih ⊢
      rw [ih]; ring

theorem absTotal_modifyAt (m : BalanceMap) (k : String) (f : ℚ → ℚ) (v : ℚ)
    (h : StdMap.find? m k = some v) :
    BalanceMap.absTotal (StdMap.modifyAt m k f) = m.absTotal - |v| + |f v| := by
  induction m with
  | nil => simp [StdMap.find?] at h
  | cons e rest ih =>
    obtain ⟨k1, v1⟩ := e
    simp only [StdMap.find?] at h
    simp only [StdMap.modifyAt]
    by_cases hk : k1 = k
    · simp only [hk, if_true, Option.some.injEq] at h
      subst h
      simp only [hk, if_true, BalanceMap.absTotal, List.map_cons, List.sum_cons]; ring
    · simp only [hk, if_false] at h
      simp only [hk, if_false, BalanceMap.absTotal, List.map_cons, List.sum_cons] at ih ⊢
      rw [ih h]; ring

theorem absTotal_alter (m : BalanceMap) (k : String) (f : ℚ → ℚ) :
    BalanceMap.absTotal (StdMap.alter m k 0 f)
      = m.absTotal - |StdMap.getD m k 0| + |f (StdMap.getD m k 0)| := by
  unfold StdMap.alter
  by_cases hc : StdMap.contains m k = true
  · have : ∃ v, StdMap.find? m k = some v := by
      simpa [StdMap.contains, Option.isSome_iff_exists] using hc
    obtain ⟨v, hv⟩ := this
    rw [if_pos hc, absTotal_modifyAt m k f v hv]
    simp [StdMap.getD, hv]
  · have hn : StdMap.find? m k = none :=
      (StdMap.contains_eq_false_iff m k).1 (by simpa using hc)
    rw [if_neg hc, absTotal_insertNew]
    simp [StdMap.getD, hn]

theorem abs_getD_le_absTotal (m : BalanceMap) (k : String) :
    |StdMap.getD m k 0| ≤ m.absTotal := by
  induction m with
  | nil => simp [StdMap.getD, StdMap.find?, BalanceMap.absTotal]
  | cons e rest ih =>
    obtain ⟨k1, v1⟩ := e
    have hrest := absTotal_nonneg rest
    simp only [StdMap.getD, StdMap.find?, BalanceMap.absTotal, List.map_cons,
      List.sum_cons] at ih hrest ⊢
    by_cases hk : k1 = k
    · simp only [hk, if_true, Option.getD_some]
      linarith
    · simp only [hk, if_false]
      have := abs_nonneg v1
      linarith

/-- One more rounded step within the bound `loopError`. -/
theorem budget_step (P S W V : ℚ) (n : ℕ) (hP : 1 ≤ P) (hS : 0 ≤ S)
    (hV : V ≤ (1 + UNIT_ROUNDOFF) * W + HALF_DENORM_MIN) :
    (P - 1) * (V + S) + (n : ℚ) * HALF_DENORM_MIN * P + (UNIT_ROUNDOFF * W + HALF_DENORM_MIN)
      ≤ (P * (1 + UNIT_ROUNDOFF) - 1) * (W + S)
        + ((n : ℚ) + 1) * HALF_DENORM_MIN * (P * (1 + UNIT_ROUNDOFF)) := by
  have hu : (0 : ℚ) < UNIT_ROUNDOFF := by norm_num [UNIT_ROUNDOFF]
  have ht : (0 : ℚ) < HALF_DENORM_MIN := by
    rw [HALF_DENORM_MIN]
    exact div_pos one_pos (pow_pos (by norm_num) _)
  have hmono : (P - 1) * (V + S)
      ≤ (P - 1) * ((1 + UNIT_ROUNDOFF) * W + HALF_DENORM_MIN + S) :=
    mul_le_mul_of_nonneg_left (by linarith) (by linarith)
  have hdiff : (P * (1 + UNIT_ROUNDOFF) - 1) * (W + S)
      + ((n : ℚ) + 1) * HALF_DENORM_MIN * (P * (1 + UNIT_ROUNDOFF))
      - ((P - 1) * ((1 + UNIT_ROUNDOFF) * W + HALF_DENORM_MIN + S)
        + (n : ℚ) * HALF_DENORM_MIN * P + (UNIT_ROUNDOFF * W + HALF_DENORM_MIN))
      = UNIT_ROUNDOFF * P * S
        + ((n : ℚ) + 1) * UNIT_ROUNDOFF * P * HALF_DENORM_MIN := by ring
  have hnn : 0 ≤ UNIT_ROUNDOFF * P * S
      + ((n : ℚ) + 1) * UNIT_ROUNDOFF * P * HALF_DENORM_MIN := by
    have hPpos : 0 ≤ P := by linarith
    have hn : (0 : ℚ) ≤ (n : ℚ) + 1 := by positivity
    exact add_nonneg (mul_nonneg (mul_nonneg hu.le hPpos) hS)
      (mul_nonneg (mul_nonneg (mul_nonneg hn hu.le) hPpos) ht.le)
  linarith

theorem sum_abs_nonneg (xs : List ℚ) : 0 ≤ (xs.map (fun c => |c|)).sum :=
  List.sum_nonneg (fun x hx => by
    obtain ⟨y, _, rfl⟩ := List.mem_map.1 hx
    exact abs_nonneg y)

/-- The total of a delta after a loop of rounded debits `delta[key e] -= g e` is within
`loopError` of the total before the loop minus the sum of the debits. -/
theorem double_total_error {β : Type} (key : β → String) (g : β → ℚ) (es : List β)
    (d : BalanceMap) :
    |BalanceMap.total (es.foldl
          (fun d e => StdMap.alter d (key e) 0 (fun v => Double.sub v (g e))) d)
        - (BalanceMap.total d - (es.map g).sum)|
      ≤ loopError es.length (d.absTotal + ((es.map g).map (fun c => |c|)).sum) := by
  unfold loopError
  induction es generalizing d with
  | nil => simp
  | cons e rest ih =>
    simp only [List.foldl_cons, List.map_cons, List.sum_cons, List.length_cons]
    have hih := ih (StdMap.alter d (key e) 0 (fun v => Double.sub v (g e)))
    rw [BalanceMap.total_alter, absTotal_alter] at hih
    have hr := double_sub_error (StdMap.getD d (key e) 0) (g e)
    have hv := abs_getD_le_absTotal d (key e)
    have hS := sum_abs_nonneg (rest.map g)
    have hP : 1 ≤ (1 + UNIT_ROUNDOFF) ^ rest.length :=
      one_le_pow₀ (by norm_num [UNIT_ROUNDOFF])
    have hu : (0 : ℚ) < UNIT_ROUNDOFF := by norm_num [UNIT_ROUNDOFF]
    rw [pow_succ]
    push_cast
    generalize (1 + UNIT_ROUNDOFF) ^ rest.length = P at hih hP ⊢
    generalize ((rest.map g).map (fun c => |c|)).sum = S at hih hS ⊢
    generalize (rest.map g).sum = R at hih ⊢
    generalize BalanceMap.total (rest.foldl
      (fun d e => StdMap.alter d (key e) 0 (fun v => Double.sub v (g e)))
      (StdMap.alter d (key e) 0 (fun v => Double.sub v (g e)))) = T at hih ⊢
    generalize StdMap.getD d (key e) 0 = v at hih hr hv ⊢
    generalize Double.sub v (g e) = w at hih hr ⊢
    generalize BalanceMap.total d = T0 at hih ⊢
    generalize d.absTotal = A0 at hih hv ⊢
    generalize g e = c at hih hr ⊢
    have hvn := abs_nonneg v
    have hw : |w| ≤ |v| + |c| + (UNIT_ROUNDOFF * (|v| + |c|) + HALF_DENORM_MIN) := by
      have h1 : |w| ≤ |w - (v - c)| + |v - c| := by
        have := abs_add (w - (v - c)) (v - c)
        simpa using this
      have h2 : |v - c| ≤ |v| + |c| := abs_sub v c
      linarith
    have hV : A0 - |v| + |w| ≤ (1 + UNIT_ROUNDOFF) * (A0 + |c|) + HALF_DENORM_MIN := by
      have h3 : UNIT_ROUNDOFF * |v| ≤ UNIT_ROUNDOFF * A0 :=
        mul_le_mul_of_nonneg_left hv hu.le
      nlinarith [abs_nonneg c]
    have hstep := budget_step P S (A0 + |c|) (A0 - |v| + |w|) rest.length hP hS hV
    have htri : |T - (T0 - (c + R))| ≤ |T - (T0 - v + w - R)| + |w - (v - c)| := by
      have := abs_add (T - (T0 - v + w - R)) (w - (v - c))
      have heq : T - (T0 - v + w - R) + (w - (v - c)) = T - (T0 - (c + R)) := by ring
      rw [heq] at this
      exact this
    have hr2 : |w - (v - c)| ≤ UNIT_ROUNDOFF * (A0 + |c|) + HALF_DENORM_MIN := by
      have h3 : UNIT_ROUNDOFF * |v| ≤ UNIT_ROUNDOFF * A0 :=
        mul_le_mul_of_nonneg_left hv hu.le
      linarith
    have hassoc : A0 + (|c| + S) = A0 + |c| + S := by ring
    rw [hassoc]
    linarith

theorem total_double_credit (payerId : String) (amount : ℚ) :
    BalanceMap.total (StdMap.alter [] payerId 0 (fun v => Double.add v amount))
        = binary64 amount
    ∧ BalanceMap.absTotal (StdMap.alter [] payerId 0 (fun v => Double.add v amount))
        = |binary64 amount| := by
  constructor
  · rw [BalanceMap.total_alter]
    simp [BalanceMap.total, StdMap.getD, StdMap.find?, Double.add]
  · rw [absTotal_alter]
    simp [BalanceMap.absTotal, StdMap.getD, StdMap.find?, Double.add]

theorem zip_map_snd (ids : List String) (g : ℚ → ℚ) (shares : List ℚ)
    (hlen : ids.length = shares.length) :
    (ids.zip shares).map (fun e => g e.2) = shares.map g
    ∧ (ids.zip shares).length = shares.length := by
  constructor
  · have h1 : (ids.zip shares).map (fun e => g e.2) = ((ids.zip shares).map Prod.snd).map g := by
      rw [List.map_map]
      rfl
    rw [h1, List.map_snd_zip _ _ (le_of_eq hlen.symm)]
  · rw [List.length_zip, hlen, min_self]

/-- The total of the delta of each strategy on `double`s: within `loopError` of the amount,
rounded, minus the sum of the shares debited. -/
theorem double_delta_total (s : SplitStrategy) (input : SplitInput) (delta : BalanceMap)
    (h : Double.computeSplits s input = .ok delta) :
    |delta.total - (binary64 input.amount - (Double.debitedShares s input).sum)|
      ≤ loopError (Double.debitedShares s input).length
          (|binary64 input.amount|
            + ((Double.debitedShares s input).map (fun c => |c|)).sum) := by
  cases s with
  | equal =>
    obtain ⟨_, _, hd⟩ := double_equal_ok input delta h
    have := double_total_error (fun p : String => p)
      (fun _ => Double.div input.amount (binary64 (input.participantIds.length : ℚ)))
      input.participantIds
      (StdMap.alter [] input.payerId 0 (fun v => Double.add v input.amount))
    rw [← hd, (total_double_credit _ _).1, (total_double_credit _ _).2,
      List.map_const'] at this
    simpa [Double.debitedShares] using this
  | exact =>
    obtain ⟨hlen, _, hd⟩ := double_exact_ok input delta h
    have := double_total_error (fun e : String × ℚ => e.1) (fun e => (fun x => x) e.2)
      (input.participantIds.zip input.exactShares)
      (StdMap.alter [] input.payerId 0 (fun v => Double.add v input.amount))
    rw [← hd, (total_double_credit _ _).1, (total_double_credit _ _).2,
      (zip_map_snd _ (fun x => x) _ hlen).1, (zip_map_snd _ (fun x => x) _ hlen).2,
      List.map_id'] at this
    exact this
  | percent =>
    obtain ⟨hlen, _, hd⟩ := double_percent_ok input delta h
    have := double_total_error (fun e : String × ℚ => e.1)
      (fun e => (fun p => Double.mul input.amount (Double.div p 100)) e.2)
      (input.participantIds.zip input.percentShares)
      (StdMap.alter [] input.payerId 0 (fun v => Double.add v input.amount))
    rw [← hd, (total_double_credit _ _).1, (total_double_credit _ _).2,
      (zip_map_snd _ (fun p => Double.mul input.amount (Double.div p 100)) _ hlen).1,
      (zip_map_snd _ (fun p => Double.mul input.amount (Double.div p 100)) _ hlen).2]
      at this
    simpa [Double.debitedShares] using this

theorem accumulate_eq_debit (xs : List ℚ) :
    Double.accumulate xs = Double.debit 0 (xs.map (fun x => -x)) := by
  have key : ∀ (ys : List ℚ) (a : ℚ),
      ys.foldl (fun acc x => Double.add acc x) a
        = (ys.map (fun x => -x)).foldl (fun v share => Double.sub v share) a := by
    intro ys
    induction ys with
    | nil => intro a; rfl
    | cons y rest ih =>
      intro a
      simp only [List.foldl_cons, List.map_cons]
      rw [ih]
      unfold Double.add Double.sub
      rw [sub_neg_eq_add]
  exact key xs 0

/-- The running sum of `std::accumulate` on `double`s is within `loopError` of the sum. -/
theorem accumulate_error (xs : List ℚ) :
    |Double.accumulate xs - xs.sum|
      ≤ loopError xs.length ((xs.map (fun c => |c|)).sum) := by
  have h1 : (xs.map (fun x => -x)).sum = -xs.sum := by
    induction xs with
    | nil => simp
    | cons y rest ih => simp only [List.map_cons, List.sum_cons, ih]; ring
  have h := debit_error 0 (xs.map (fun x => -x))
  rw [← accumulate_eq_debit] at h
  have h2 : ((xs.map (fun x => -x)).map (fun c => |c|)) = xs.map (fun c => |c|) := by
    rw [List.map_map]
    apply List.map_congr_left
    intro x _
    simp
  rw [h1, h2, List.length_map, abs_zero, zero_add, zero_sub, neg_neg] at h
  exact h

/-- What a computed difference within the tolerance says of the exact difference. -/
theorem within_tolerance (acc target : ℚ)
    (h : |Double.sub acc target| ≤ Double.EPSILON) :
    |Double.sub acc target| ≤ 1 / 1000000
    ∧ |acc - target| ≤ (1 + 2 * UNIT_ROUNDOFF) * (1 / 1000000 + HALF_DENORM_MIN) := by
  have hu : (0 : ℚ) < UNIT_ROUNDOFF := by norm_num [UNIT_ROUNDOFF]
  have hu2 : UNIT_ROUNDOFF ≤ 1 / 2 := by norm_num [UNIT_ROUNDOFF]
  have ht : (0 : ℚ) < HALF_DENORM_MIN := by
    rw [HALF_DENORM_MIN]
    exact div_pos one_pos (pow_pos (by norm_num) _)
  have h1 : |Double.sub acc target| ≤ 1 / 1000000 := by
    by_contra hcon
    exact absurd ((double_sub_abs_gt_iff acc target).2 (not_le.1 hcon)) (not_lt.2 h)
  refine ⟨h1, ?_⟩
  have hr := binary64_error (acc - target)
  have hx := abs_nonneg (acc - target)
  have h2 : |acc - target| ≤ |Double.sub acc target| + |Double.sub acc target - (acc - target)| := by
    have := abs_sub (Double.sub acc target) (Double.sub acc target - (acc - target))
    simpa using this
  have hr2 : |Double.sub acc target - (acc - target)|
      ≤ UNIT_ROUNDOFF * |acc - target| + HALF_DENORM_MIN := hr
  generalize |acc - target| = x at hx h2 hr2 ⊢
  generalize |Double.sub acc target| = y at h1 h2
  generalize |Double.sub acc target - (acc - target)| = z at h2 hr2
  generalize HALF_DENORM_MIN = t at ht hr2 ⊢
  have h3 : x ≤ 2 * (1 / 1000000 + t) := by nlinarith
  nlinarith

/-- C5, as the code has it: for each strategy and every input on which `computeSplits`
succeeds, the values of the delta sum to the amount credited to the payer minus the sum of
the shares debited, `amount / k` for Equal, the exact shares for Exact and
`amount * (p / 100)` for Percent, each computed in `double`s, up to the rounding of the `n`
subtractions of the loop: within
`((1 + 2^-53)^n - 1) * (|amount| + sum |share|) + n * 2^-1075 * (1 + 2^-53)^n` of it.
For an Equal split of a `double` amount `A` among `n <= 2^53` participant ids the sum is
within `(((1 + 2^-53)^n - 1) * (2 + 2^-53) + 2^-53) * A + 2 * n * 2^-1075 * (1 + 2^-53)^n`
of 0. -/
theorem delta_total_rounded (s : SplitStrategy) (input : SplitInput) (delta : BalanceMap)
    (h : Double.computeSplits s input = .ok delta) :
    |delta.total - (binary64 input.amount - (Double.debitedShares s input).sum)|
        ≤ loopError (Double.debitedShares s input).length
            (|binary64 input.amount|
              + ((Double.debitedShares s input).map (fun c => |c|)).sum)
    ∧ (s = .equal → binary64 input.amount = input.amount →
        input.participantIds.length ≤ 2 ^ 53 →
        |delta.total|
          ≤ (((1 + UNIT_ROUNDOFF) ^ input.participantIds.length - 1) * (2 + UNIT_ROUNDOFF)
              + UNIT_ROUNDOFF) * input.amount
            + 2 * input.participantIds.length * HALF_DENORM_MIN
              * (1 + UNIT_ROUNDOFF) ^ input.participantIds.length) := by
  have hmain := double_delta_total s input delta h
  refine ⟨hmain, ?_⟩
  intro hs hdouble hn
  subst hs
  obtain ⟨hne, hA, _⟩ := double_equal_ok input delta h
  have hu : (0 : ℚ) < UNIT_ROUNDOFF := by norm_num [UNIT_ROUNDOFF]
  have ht : (0 : ℚ) < HALF_DENORM_MIN := by
    rw [HALF_DENORM_MIN]
    exact div_pos one_pos (pow_pos (by norm_num) _)
  have hk : 0 < input.participantIds.length := List.length_pos.2 hne
  have hkq : (0 : ℚ) < (input.participantIds.length : ℚ) := by exact_mod_cast hk
  have hshare : Double.div input.amount (binary64 (input.participantIds.length : ℚ))
      = binary64 (input.amount / (input.participantIds.length : ℚ)) := by
    unfold Double.div
    rw [binary64_natCast _ hn]
  have hq := binary64_error (input.amount / (input.participantIds.length : ℚ))
  rw [abs_of_nonneg (div_nonneg hA hkq.le)] at hq
  unfold loopError at hmain
  simp only [Double.debitedShares, List.sum_replicate, List.map_replicate,
    List.length_replicate, nsmul_eq_mul, hshare, hdouble] at hmain
  rw [abs_of_nonneg hA] at hmain
  have hP : 1 ≤ (1 + UNIT_ROUNDOFF) ^ input.participantIds.length :=
    one_le_pow₀ (by linarith)
  generalize (1 + UNIT_ROUNDOFF) ^ input.participantIds.length = P at hmain hP ⊢
  generalize binary64 (input.amount / (input.participantIds.length : ℚ)) = q at hmain hq
  generalize (input.participantIds.length : ℚ) = n at hmain hq hkq ⊢
  generalize input.amount = A at hmain hq hA ⊢
  generalize delta.total = T at hmain ⊢
  generalize HALF_DENORM_MIN = t at hmain hq ht ⊢
  generalize UNIT_ROUNDOFF = u at hmain hq hu ⊢
  -- the shares sum to the amount up to one rounding
  have hdiv : n * (A / n) = A := by field_simp
  have hnq : |n * q - A| ≤ u * A + n * t := by
    have h1 : |n * q - A| = n * |q - A / n| := by
      have h0 : n * q - A = n * (q - A / n) := by rw [mul_sub, hdiv]
      rw [h0, abs_mul, abs_of_pos hkq]
    rw [h1]
    have := mul_le_mul_of_nonneg_left hq hkq.le
    have h2 : n * (u * (A / n) + t) = u * A + n * t := by
      rw [mul_add, mul_left_comm, hdiv]
    linarith
  have habsq : n * |q| ≤ (1 + u) * A + n * t := by
    have h1 : |q| ≤ |q - A / n| + A / n := by
      have := abs_add (q - A / n) (A / n)
      rw [abs_of_nonneg (div_nonneg hA hkq.le)] at this
      simpa using this
    have h2 : n * |q| ≤ n * (u * (A / n) + t + A / n) :=
      mul_le_mul_of_nonneg_left (by linarith) hkq.le
    have h3 : n * (u * (A / n) + t + A / n) = (1 + u) * A + n * t := by
      have : n * (u * (A / n) + t + A / n) = u * (n * (A / n)) + n * t + n * (A / n) := by ring
      rw [this, hdiv]
      ring
    linarith
  have htri : |T| ≤ |T - (A - n * q)| + |n * q - A| := by
    have := abs_add (T - (A - n * q)) (A - n * q)
    rw [abs_sub_comm A (n * q)] at this
    simpa using this
  have hmono : (P - 1) * (A + n * |q|) ≤ (P - 1) * (A + ((1 + u) * A + n * t)) :=
    mul_le_mul_of_nonneg_left (by linarith) (by linarith)
  have hfinal : (P - 1) * (A + ((1 + u) * A + n * t)) + n * t * P + (u * A + n * t)
      = ((P - 1) * (2 + u) + u) * A + 2 * n * t * P := by ring
  linarith

/-- C5 fails as stated: the Equal split of 100 among three participants, one of them the
payer, returns a delta whose values sum to -2^-46, not to 0: the share 100 / 3 is rounded,
and so is what is left of the amount after the share of the payer is subtracted. -/
theorem delta_total_not_zero :
    binary64 hundredAmongThree.amount = hundredAmongThree.amount
    ∧ Double.computeSplits .equal hundredAmongThree
      = .ok [("USR1", 2345624805922133 / 35184372088832),
          ("USR2", -(4691249611844267 / 140737488355328)),
          ("USR3", -(4691249611844267 / 140737488355328))]
    ∧ BalanceMap.total [("USR1", 2345624805922133 / 35184372088832),
          ("USR2", -(4691249611844267 / 140737488355328)),
          ("USR3", -(4691249611844267 / 140737488355328))] = -(1 / 70368744177664)
    ∧ BalanceMap.total [("USR1", 2345624805922133 / 35184372088832),
          ("USR2", -(4691249611844267 / 140737488355328)),
          ("USR3", -(4691249611844267 / 140737488355328))] ≠ 0 := by
  decide!

/-- C5, an instance: the Equal split of 100 among four participants, one of them the
payer, returns the delta 75, -25, -25, -25, whose values sum to 0. -/
theorem delta_total_rounded_witness :
    Double.computeSplits .equal hundredAmongFour
      = .ok [("A", 75), ("B", -25), ("C", -25), ("D", -25)]
    ∧ BalanceMap.total [("A", 75), ("B", -25), ("C", -25), ("D", -25)] = 0
    ∧ |BalanceMap.total [("A", 75), ("B", -25), ("C", -25), ("D", -25)]
          - (binary64 hundredAmongFour.amount
            - (Double.debitedShares .equal hundredAmongFour).sum)|
        ≤ loopError (Double.debitedShares .equal hundredAmongFour).length
            (|binary64 hundredAmongFour.amount|
              + ((Double.debitedShares .equal hundredAmongFour).map (fun c => |c|)).sum)
    ∧ (SplitStrategy.equal = .equal →
        binary64 hundredAmongFour.amount = hundredAmongFour.amount →
        hundredAmongFour.participantIds.length ≤ 2 ^ 53 →
        |BalanceMap.total [("A", 75), ("B", -25), ("C", -25), ("D", -25)]|
          ≤ (((1 + UNIT_ROUNDOFF) ^ hundredAmongFour.participantIds.length - 1)
                * (2 + UNIT_ROUNDOFF) + UNIT_ROUNDOFF) * hundredAmongFour.amount
            + 2 * hundredAmongFour.participantIds.length * HALF_DENORM_MIN
              * (1 + UNIT_ROUNDOFF) ^ hundredAmongFour.participantIds.length) :=
  ⟨by decide!, by decide!,
   delta_total_rounded .equal hundredAmongFour [("A", 75), ("B", -25), ("C", -25), ("D", -25)]
     (by decide!)⟩

/-- C37, as the code has it: for every input on which the Exact strategy succeeds, the
values of the delta sum to the amount minus the sum of the exact shares up to the rounding
of the `n` subtractions of the loop (within `loopError`); the difference that the
validation computes, between the running sum of the shares in `double`s and the amount, is
at most 1e-6 in magnitude; that running sum is within `loopError` of the sum of the shares;
so the values of the delta sum to at most
`(1 + 2^-52) * (1e-6 + 2^-1075) + 2^-53 * |amount| + 2^-1075` and the two `loopError`s in
magnitude. -/
theorem exact_residual_rounded (input : SplitInput) (delta : BalanceMap)
    (h : Double.ExactSplitStrategy.computeSplits input = .ok delta) :
    |delta.total - (binary64 input.amount - input.exactShares.sum)|
        ≤ loopError input.exactShares.length
            (|binary64 input.amount| + (input.exactShares.map (fun c => |c|)).sum)
    ∧ |Double.sub (Double.accumulate input.exactShares) input.amount| ≤ 1 / 1000000
    ∧ |Double.accumulate input.exactShares - input.exactShares.sum|
        ≤ loopError input.exactShares.length ((input.exactShares.map (fun c => |c|)).sum)
    ∧ |delta.total|
        ≤ (1 + 2 * UNIT_ROUNDOFF) * (1 / 1000000 + HALF_DENORM_MIN)
          + (UNIT_ROUNDOFF * |input.amount| + HALF_DENORM_MIN)
          + loopError input.exactShares.length
              (|binary64 input.amount| + (input.exactShares.map (fun c => |c|)).sum)
          + loopError input.exactShares.length
              ((input.exactShares.map (fun c => |c|)).sum) := by
  have h1 := double_delta_total .exact input delta h
  obtain ⟨_, hval, _⟩ := double_exact_ok input delta h
  obtain ⟨h2, h2b⟩ := within_tolerance _ _ hval
  have h3 := accumulate_error input.exactShares
  have h4 := binary64_error input.amount
  refine ⟨h1, h2, h3, ?_⟩
  simp only [Double.debitedShares] at h1
  have e1 := abs_le.1 h1
  have e2 := abs_le.1 h2b
  have e3 := abs_le.1 h3
  have e4 := abs_le.1 h4
  rw [abs_le]
  constructor <;> linarith [e1.1, e1.2, e2.1, e2.2, e3.1, e3.2, e4.1, e4.2]

/-- C37 fails as stated, in both halves.  The Exact split of 1e17 in the shares 1e17 and 1
succeeds, the running sum of the shares being 1e17, and its delta sums to -1; the split of
50 in the shares 25 and 25.000001 succeeds and its delta sums to the amount minus the sum
of the shares, which is more than 1e-6 in magnitude.  And the delta of the split of
1000000000.1 in the shares 0.7 and 999999999.4 sums to 0, which is not the amount minus the
sum of the shares. -/
theorem exact_residual_not_bounded :
    (Double.ExactSplitStrategy.computeSplits absorbedExact = .ok [("a", 0), ("b", -1)]
      ∧ Double.accumulate absorbedExact.exactShares = 100000000000000000
      ∧ BalanceMap.total [("a", 0), ("b", -1)] = -1
      ∧ ¬ |BalanceMap.total [("a", 0), ("b", -1)]| ≤ 1 / 1000000)
    ∧ (Double.ExactSplitStrategy.computeSplits nearFifty
        = .ok [("friend", -twentyFiveAndAMillionth), ("payer", 25)]
      ∧ BalanceMap.total [("friend", -twentyFiveAndAMillionth), ("payer", 25)]
        = nearFifty.amount - nearFifty.exactShares.sum
      ∧ ¬ |BalanceMap.total [("friend", -twentyFiveAndAMillionth), ("payer", 25)]|
          ≤ 1 / 1000000)
    ∧ (Double.ExactSplitStrategy.computeSplits dimeOverBillion
        = .ok [("a", billionLessSixTenths), ("b", -billionLessSixTenths)]
      ∧ BalanceMap.total [("a", billionLessSixTenths), ("b", -billionLessSixTenths)] = 0
      ∧ dimeOverBillion.amount - dimeOverBillion.exactShares.sum ≠ 0) := by
  decide!

/-- C37, an instance: 50 in the shares 25 and 25 gives the delta 25, -25, which sums to
0. -/
theorem exact_residual_rounded_witness :
    Double.ExactSplitStrategy.computeSplits exactFifty = .ok [("friend", -25), ("payer", 25)]
    ∧ BalanceMap.total [("friend", -25), ("payer", 25)] = 0
    ∧ |BalanceMap.total [("friend", -25), ("payer", 25)]
          - (binary64 exactFifty.amount - exactFifty.exactShares.sum)|
        ≤ loopError exactFifty.exactShares.length
            (|binary64 exactFifty.amount| + (exactFifty.exactShares.map (fun c => |c|)).sum)
    ∧ |Double.sub (Double.accumulate exactFifty.exactShares) exactFifty.amount| ≤ 1 / 1000000
    ∧ |Double.accumulate exactFifty.exactShares - exactFifty.exactShares.sum|
        ≤ loopError exactFifty.exactShares.length
            ((exactFifty.exactShares.map (fun c => |c|)).sum)
    ∧ |BalanceMap.total [("friend", -25), ("payer", 25)]|
        ≤ (1 + 2 * UNIT_ROUNDOFF) * (1 / 1000000 + HALF_DENORM_MIN)
          + (UNIT_ROUNDOFF * |exactFifty.amount| + HALF_DENORM_MIN)
          + loopError exactFifty.exactShares.length
              (|binary64 exactFifty.amount| + (exactFifty.exactShares.map (fun c => |c|)).sum)
          + loopError exactFifty.exactShares.length
              ((exactFifty.exactShares.map (fun c => |c|)).sum) :=
  ⟨by decide!, by decide!,
   exact_residual_rounded exactFifty [("friend", -25), ("payer", 25)] (by decide!)⟩

/-- The shares of the Percent strategy on `double`s sum to `amount * sum(p) / 100` up to
the rounding of the division and of the multiplication of each share. -/
theorem percent_shares_error (A : ℚ) (ps : List ℚ) :
    |(ps.map (fun p => Double.mul A (Double.div p 100))).sum - A * ps.sum / 100|
      ≤ 3 * UNIT_ROUNDOFF * (|A| * (ps.map (fun c => |c|)).sum / 100)
        + ps.length * ((2 * |A| + 1) * HALF_DENORM_MIN) := by
  induction ps with
  | nil => simp
  | cons p rest ih =>
    simp only [List.map_cons, List.sum_cons, List.length_cons]
    push_cast
    have hp := percent_share_error A p
    have htri : |Double.mul A (Double.div p 100)
          + (rest.map (fun p => Double.mul A (Double.div p 100))).sum
          - A * (p + rest.sum) / 100|
        ≤ |Double.mul A (Double.div p 100) - A * p / 100|
          + |(rest.map (fun p => Double.mul A (Double.div p 100))).sum
              - A * rest.sum / 100| := by
      have := abs_add (Double.mul A (Double.div p 100) - A * p / 100)
        ((rest.map (fun p => Double.mul A (Double.div p 100))).sum - A * rest.sum / 100)
      have heq : Double.mul A (Double.div p 100) - A * p / 100
          + ((rest.map (fun p => Double.mul A (Double.div p 100))).sum - A * rest.sum / 100)
          = Double.mul A (Double.div p 100)
            + (rest.map (fun p => Double.mul A (Double.div p 100))).sum
            - A * (p + rest.sum) / 100 := by ring
      rw [heq] at this
      exact this
    have hsplit : 3 * UNIT_ROUNDOFF * (|A| * (|p| + (rest.map (fun c => |c|)).sum) / 100)
          + ((rest.length : ℚ) + 1) * ((2 * |A| + 1) * HALF_DENORM_MIN)
        = (3 * UNIT_ROUNDOFF * (|A| * |p| / 100) + (2 * |A| + 1) * HALF_DENORM_MIN)
          + (3 * UNIT_ROUNDOFF * (|A| * (rest.map (fun c => |c|)).sum / 100)
            + (rest.length : ℚ) * ((2 * |A| + 1) * HALF_DENORM_MIN)) := by ring
    rw [hsplit]
    linarith

/-- C38, as the code has it: for every input on which the Percent strategy succeeds, the
values of the delta sum to the amount minus the sum of the shares `amount * (p / 100)`
computed in `double`s, up to the rounding of the `n` subtractions of the loop (within
`loopError`); these shares sum to `amount * sum(p) / 100` up to the two roundings of each
share; so the values of the delta sum to `amount * (100 - sum(percentShares)) / 100` up to
these roundings and that of the amount.  The difference that the validation computes,
between the running sum of the percentages in `double`s and 100, is at most 1e-6 in
magnitude, and that running sum is within `loopError` of the sum of the percentages; so
`|amount * (100 - sum(percentShares)) / 100|` is at most `|amount| / 100` times
`(1 + 2^-52) * (1e-6 + 2^-1075)` plus that `loopError`. -/
theorem percent_residual_rounded (input : SplitInput) (delta : BalanceMap)
    (h : Double.PercentSplitStrategy.computeSplits input = .ok delta) :
    |delta.total - (binary64 input.amount - (Double.debitedShares .percent input).sum)|
        ≤ loopError input.percentShares.length
            (|binary64 input.amount|
              + ((Double.debitedShares .percent input).map (fun c => |c|)).sum)
    ∧ |(Double.debitedShares .percent input).sum - input.amount * input.percentShares.sum / 100|
        ≤ 3 * UNIT_ROUNDOFF
            * (|input.amount| * (input.percentShares.map (fun c => |c|)).sum / 100)
          + input.percentShares.length * ((2 * |input.amount| + 1) * HALF_DENORM_MIN)
    ∧ |Double.sub (Double.accumulate input.percentShares) 100| ≤ 1 / 1000000
    ∧ |Double.accumulate input.percentShares - input.percentShares.sum|
        ≤ loopError input.percentShares.length
            ((input.percentShares.map (fun c => |c|)).sum)
    ∧ |delta.total - input.amount * (100 - input.percentShares.sum) / 100|
        ≤ (UNIT_ROUNDOFF * |input.amount| + HALF_DENORM_MIN)
          + loopError input.percentShares.length
              (|binary64 input.amount|
                + ((Double.debitedShares .percent input).map (fun c => |c|)).sum)
          + (3 * UNIT_ROUNDOFF
              * (|input.amount| * (input.percentShares.map (fun c => |c|)).sum / 100)
            + input.percentShares.length * ((2 * |input.amount| + 1) * HALF_DENORM_MIN))
    ∧ |input.amount * (100 - input.percentShares.sum) / 100|
        ≤ |input.amount| / 100
          * ((1 + 2 * UNIT_ROUNDOFF) * (1 / 1000000 + HALF_DENORM_MIN)
            + loopError input.percentShares.length
                ((input.percentShares.map (fun c => |c|)).sum)) := by
  have h1 := double_delta_total .percent input delta h
  have hl : (Double.debitedShares .percent input).length = input.percentShares.length := by
    simp [Double.debitedShares]
  rw [hl] at h1
  have h2 := percent_shares_error input.amount input.percentShares
  obtain ⟨_, hval, _⟩ := double_percent_ok input delta h
  obtain ⟨h3, h3b⟩ := within_tolerance _ _ hval
  have h4 := accumulate_error input.percentShares
  have h5 := binary64_error input.amount
  have hs : (Double.debitedShares .percent input).sum
      = (input.percentShares.map
          (fun p => Double.mul input.amount (Double.div p 100))).sum := rfl
  refine ⟨h1, by rw [hs]; exact h2, h3, h4, ?_, ?_⟩
  · rw [← hs] at h2
    have e1 := abs_le.1 h1
    have e2 := abs_le.1 h2
    have e5 := abs_le.1 h5
    rw [abs_le]
    constructor <;> linarith [e1.1, e1.2, e2.1, e2.2, e5.1, e5.2]
  · have hx : |100 - input.percentShares.sum|
        ≤ (1 + 2 * UNIT_ROUNDOFF) * (1 / 1000000 + HALF_DENORM_MIN)
          + loopError input.percentShares.length
              ((input.percentShares.map (fun c => |c|)).sum) := by
      have e3 := abs_le.1 h3b
      have e4 := abs_le.1 h4
      rw [abs_le]
      constructor <;> linarith [e3.1, e3.2, e4.1, e4.2]
    have habs : |input.amount * (100 - input.percentShares.sum) / 100|
        = |input.amount| / 100 * |100 - input.percentShares.sum| := by
      rw [abs_div, abs_mul, abs_of_pos (by norm_num : (0 : ℚ) < 100)]
      ring
    rw [habs]
    exact mul_le_mul_of_nonneg_left hx (div_nonneg (abs_nonneg _) (by norm_num))

/-- C38 fails as stated, in both halves.  The Percent split of 50 at 55 and 45 percent
returns a delta whose values sum to -2^-48, while `amount * (100 - sum(percentShares)) /
100` is 0.  And the split of 1 at the percentages 50, 1e18, -1e18 and 100 succeeds, the
running sum of the percentages being 100, and its delta sums to -0.5, far above
`|amount| * 1e-8`. -/
theorem percent_residual_not_bounded :
    (Double.PercentSplitStrategy.computeSplits fiftyAtFiftyFive
        = .ok [("P1", 6333186975989759 / 281474976710656), ("P2", -(45 / 2))]
      ∧ BalanceMap.total [("P1", 6333186975989759 / 281474976710656), ("P2", -(45 / 2))]
        = -(1 / 281474976710656)
      ∧ fiftyAtFiftyFive.amount * (100 - fiftyAtFiftyFive.percentShares.sum) / 100 = 0)
    ∧ (Double.PercentSplitStrategy.computeSplits absorbedPercent
        = .ok [("a", 1 / 2), ("b", -10000000000000000), ("c", 10000000000000000),
            ("d", -1)]
      ∧ BalanceMap.total [("a", 1 / 2), ("b", -10000000000000000),
            ("c", 10000000000000000), ("d", -1)] = -(1 / 2)
      ∧ ¬ |BalanceMap.total [("a", (1 : ℚ) / 2), ("b", -10000000000000000),
            ("c", 10000000000000000), ("d", -1)]|
          ≤ |absorbedPercent.amount| * (1 / 100000000)) := by
  decide!

/-- C38, an instance: the Percent split of 1e9 at 50 and 50.0000005 percent succeeds and
returns a delta whose values sum to about -5. -/
theorem percent_residual_rounded_witness :
    binary64 fiftyAndAHalfMillionth = fiftyAndAHalfMillionth
    ∧ Double.PercentSplitStrategy.computeSplits skewedBillion
      = .ok [("USR1", 500000000), ("USR2", -(8388608083886079 / 16777216))]
    ∧ BalanceMap.total [("USR1", 500000000), ("USR2", -(8388608083886079 / 16777216))]
      = -(83886079 / 16777216)
    ∧ (|BalanceMap.total [("USR1", 500000000), ("USR2", -(8388608083886079 / 16777216))]
          - (binary64 skewedBillion.amount
            - (Double.debitedShares .percent skewedBillion).sum)|
        ≤ loopError skewedBillion.percentShares.length
            (|binary64 skewedBillion.amount|
              + ((Double.debitedShares .percent skewedBillion).map (fun c => |c|)).sum)
    ∧ |(Double.debitedShares .percent skewedBillion).sum
          - skewedBillion.amount * skewedBillion.percentShares.sum / 100|
        ≤ 3 * UNIT_ROUNDOFF
            * (|skewedBillion.amount|
              * (skewedBillion.percentShares.map (fun c => |c|)).sum / 100)
          + skewedBillion.percentShares.length
            * ((2 * |skewedBillion.amount| + 1) * HALF_DENORM_MIN)
    ∧ |Double.sub (Double.accumulate skewedBillion.percentShares) 100| ≤ 1 / 1000000
    ∧ |Double.accumulate skewedBillion.percentShares - skewedBillion.percentShares.sum|
        ≤ loopError skewedBillion.percentShares.length
            ((skewedBillion.percentShares.map (fun c => |c|)).sum)
    ∧ |BalanceMap.total [("USR1", 500000000), ("USR2", -(8388608083886079 / 16777216))]
          - skewedBillion.amount * (100 - skewedBillion.percentShares.sum) / 100|
        ≤ (UNIT_ROUNDOFF * |skewedBillion.amount| + HALF_DENORM_MIN)
          + loopError skewedBillion.percentShares.length
              (|binary64 skewedBillion.amount|
                + ((Double.debitedShares .percent skewedBillion).map (fun c => |c|)).sum)
          + (3 * UNIT_ROUNDOFF
              * (|skewedBillion.amount|
                * (skewedBillion.percentShares.map (fun c => |c|)).sum / 100)
            + skewedBillion.percentShares.length
              * ((2 * |skewedBillion.amount| + 1) * HALF_DENORM_MIN))
    ∧ |skewedBillion.amount * (100 - skewedBillion.percentShares.sum) / 100|
        ≤ |skewedBillion.amount| / 100
          * ((1 + 2 * UNIT_ROUNDOFF) * (1 / 1000000 + HALF_DENORM_MIN)
            + loopError skewedBillion.percentShares.length
                ((skewedBillion.percentShares.map (fun c => |c|)).sum))) :=
  ⟨by decide!, by decide!, by decide!,
   percent_residual_rounded skewedBillion
     [("USR1", 500000000), ("USR2", -(8388608083886079 / 16777216))] (by decide!)⟩

/-! ## Lemmas on the settlement loop on `double`s -/

theorem double_EPSILON_eq : Double.EPSILON = 4722366482869645 / 4722366482869645213696 := by
  decide!

theorem double_EPSILON_pos : (0 : ℚ) < Double.EPSILON := by
  rw [double_EPSILON_eq]; norm_num

theorem double_EPSILON_lt : Double.EPSILON < 1 / 1000000 := by
  rw [double_EPSILON_eq]; norm_num

theorem HALF_DENORM_MIN_pos : (0 : ℚ) < HALF_DENORM_MIN := by
  rw [HALF_DENORM_MIN]
  exact div_pos one_pos (pow_pos (by norm_num) _)

theorem loopError_nonneg (n : ℕ) (c : ℚ) (hc : 0 ≤ c) : 0 ≤ loopError n c := by
  unfold loopError
  have hP : 1 ≤ (1 + UNIT_ROUNDOFF) ^ n := one_le_pow₀ (by norm_num [UNIT_ROUNDOFF])
  have ht := HALF_DENORM_MIN_pos
  have h1 : 0 ≤ ((1 + UNIT_ROUNDOFF) ^ n - 1) * c := mul_nonneg (by linarith) hc
  have h2 : 0 ≤ (n : ℚ) * HALF_DENORM_MIN * (1 + UNIT_ROUNDOFF) ^ n :=
    mul_nonneg (mul_nonneg (Nat.cast_nonneg n) ht.le) (by linarith)
  linarith

/-- One more rounded step on a value within `c + loopError n c`. -/
theorem loopError_succ (n : ℕ) (c : ℚ) :
    (1 + UNIT_ROUNDOFF) * (c + loopError n c) + HALF_DENORM_MIN
      ≤ c + loopError (n + 1) c := by
  unfold loopError
  have hP : 1 ≤ (1 + UNIT_ROUNDOFF) ^ n := one_le_pow₀ (by norm_num [UNIT_ROUNDOFF])
  have hu : (0 : ℚ) < UNIT_ROUNDOFF := by norm_num [UNIT_ROUNDOFF]
  have ht := HALF_DENORM_MIN_pos
  rw [pow_succ]
  push_cast
  generalize (1 + UNIT_ROUNDOFF) ^ n = P at hP ⊢
  generalize HALF_DENORM_MIN = t at ht ⊢
  generalize UNIT_ROUNDOFF = u at hu ⊢
  have hdiff : c + ((P * (1 + u) - 1) * c + ((n : ℚ) + 1) * t * (P * (1 + u)))
      - ((1 + u) * (c + ((P - 1) * c + (n : ℚ) * t * P)) + t)
      = t * (P * (1 + u) - 1) := by ring
  have hnn : 0 ≤ t * (P * (1 + u) - 1) := by
    have : 1 ≤ P * (1 + u) := by nlinarith
    exact mul_nonneg ht.le (by linarith)
  linarith

theorem receivedCount_append_singleton (u : String) (txs : List SettlementTransaction)
    (t : SettlementTransaction) :
    receivedCount u (txs ++ [t]) = receivedCount u txs + if t.toUserId = u then 1 else 0 := by
  unfold receivedCount
  by_cases h : t.toUserId = u <;> simp [List.filter_append, List.filter_cons, h]

theorem paidCount_append_singleton (u : String) (txs : List SettlementTransaction)
    (t : SettlementTransaction) :
    paidCount u (txs ++ [t]) = paidCount u txs + if t.fromUserId = u then 1 else 0 := by
  unfold paidCount
  by_cases h : t.fromUserId = u <;> simp [List.filter_append, List.filter_cons, h]

/-- One iteration keeps the invariant of a side of the settlement loop on `double`s. -/
theorem double_side_step (mag : Entry → ℚ) (q0 q : List Entry) (r r1 : String → ℚ)
    (k k1 : String → ℕ) (e e1 : Entry) (s : ℚ) (keep : Prop) [Decidable keep]
    (hinv : Double.SideInv mag q0 q r k) (he : e ∈ q) (hid : e1.userId = e.userId)
    (hmag : mag e1 = binary64 (mag e - s)) (hs0 : 0 ≤ s) (hs1 : s ≤ mag e)
    (hkeep : keep ↔ mag e1 > Double.EPSILON)
    (hr : ∀ u, r1 u = r u + if e.userId = u then s else 0)
    (hk : ∀ u, k1 u = k u + if e.userId = u then 1 else 0) :
    Double.SideInv mag q0 (if keep then q.erase e ++ [e1] else q.erase e) r1 k1 := by
  obtain ⟨hnd, hgt, hnn, hin, hout, hsub, hzero⟩ := hinv
  have hu := (by norm_num [UNIT_ROUNDOFF] : (0 : ℚ) < UNIT_ROUNDOFF)
  have hnd1 := keys_erase_nodup q e hnd
  have hnot : e.userId ∉ (q.erase e).map (fun e => e.userId) := by
    rw [mem_keys_erase q e e.userId hnd he]
    rintro ⟨_, h⟩
    exact h rfl
  have hkey : e.userId ∈ q.map (fun e => e.userId) :=
    List.mem_map_of_mem (fun e => e.userId) he
  have hsum := hin e.userId hkey
  rw [queued_of_mem mag q e hnd he] at hsum
  obtain ⟨hr0, hc0⟩ := hnn e.userId
  have hE0 := loopError_nonneg (k e.userId) _ hc0
  -- the step of the user of `e`
  have hm1 : 0 ≤ mag e1 := by
    rw [hmag]
    exact binary64_nonneg _ (by linarith)
  have hround : |mag e1 - (mag e - s)| ≤ UNIT_ROUNDOFF * (mag e - s) + HALF_DENORM_MIN := by
    have := binary64_error (mag e - s)
    rw [abs_of_nonneg (by linarith : 0 ≤ mag e - s)] at this
    rw [hmag]
    exact this
  have hmle : mag e ≤ queued mag e.userId q0 + loopError (k e.userId) (queued mag e.userId q0) := by
    have := (abs_le.1 hsum).2
    linarith
  have hstep : |r e.userId + s + mag e1 - queued mag e.userId q0|
      ≤ loopError (k e.userId + 1) (queued mag e.userId q0) := by
    have hsucc := loopError_succ (k e.userId) (queued mag e.userId q0)
    have h1 : UNIT_ROUNDOFF * (mag e - s)
        ≤ UNIT_ROUNDOFF * (queued mag e.userId q0
            + loopError (k e.userId) (queued mag e.userId q0)) :=
      mul_le_mul_of_nonneg_left (by linarith) hu.le
    have a1 := abs_le.1 hsum
    have a2 := abs_le.1 hround
    rw [abs_le]
    constructor <;> linarith [a1.1, a1.2, a2.1, a2.2]
  have hnn1 : ∀ u, 0 ≤ r1 u ∧ 0 ≤ queued mag u q0 := by
    intro u
    refine ⟨?_, (hnn u).2⟩
    rw [hr u]
    split
    · linarith [(hnn u).1]
    · linarith [(hnn u).1]
  have hzero1 : ∀ u, u ∉ q0.map (fun e => e.userId) → r1 u = 0 ∧ k1 u = 0 := by
    intro u hu0
    have hue : ¬ e.userId = u := fun h => hu0 (h ▸ hsub e.userId hkey)
    rw [hr u, hk u, if_neg hue, if_neg hue]
    simpa using hzero u hu0
  by_cases hkp : keep
  · rw [if_pos hkp]
    refine ⟨?_, ?_, hnn1, ?_, ?_, ?_, hzero1⟩
    · rw [List.map_append, List.map_singleton, hid]
      refine List.Nodup.append hnd1 (List.nodup_singleton _) ?_
      intro a ha hb
      rw [List.mem_singleton] at hb
      exact hnot (hb ▸ ha)
    · intro x hx
      rcases List.mem_append.1 hx with h | h
      · exact hgt x (List.mem_of_mem_erase h)
      · rw [List.mem_singleton] at h
        rw [h]
        exact hkeep.1 hkp
    · intro u hu1
      rw [queued_append_singleton, queued_erase mag q e u hnd he, hr u, hk u, hid]
      by_cases hue : e.userId = u
      · rw [if_pos hue, if_pos hue, if_pos hue, if_pos hue, ← hue]
        have : r e.userId + s + (0 + mag e1) - queued mag e.userId q0
            = r e.userId + s + mag e1 - queued mag e.userId q0 := by ring
        rw [this]
        exact hstep
      · rw [if_neg hue, if_neg hue, if_neg hue, if_neg hue]
        have hu2 : u ∈ q.map (fun e => e.userId) := by
          rw [List.map_append, List.map_singleton, List.mem_append, List.mem_singleton,
            hid] at hu1
          rcases hu1 with h | h
          · exact ((mem_keys_erase q e u hnd he).1 h).1
          · exact absurd h.symm hue
        have := hin u hu2
        simpa using this
    · intro u hu1
      rw [List.map_append, List.map_singleton, List.mem_append, List.mem_singleton, hid,
        not_or] at hu1
      have hue : ¬ e.userId = u := fun h => hu1.2 h.symm
      have hu2 : u ∉ q.map (fun e => e.userId) := by
        intro h
        exact hu1.1 ((mem_keys_erase q e u hnd he).2 ⟨h, hu1.2⟩)
      rw [hr u, hk u, if_neg hue, if_neg hue]
      simpa using hout u hu2
    · intro u hu1
      rw [List.map_append, List.map_singleton, List.mem_append, List.mem_singleton, hid] at hu1
      rcases hu1 with h | h
      · exact hsub u ((mem_keys_erase q e u hnd he).1 h).1
      · rw [h]
        exact hsub _ hkey
  · rw [if_neg hkp]
    have hle : mag e1 ≤ Double.EPSILON := not_lt.1 (fun h => hkp (hkeep.2 h))
    refine ⟨hnd1, fun x hx => hgt x (List.mem_of_mem_erase hx), hnn1, ?_, ?_, ?_, hzero1⟩
    · intro u hu1
      have hu2 := (mem_keys_erase q e u hnd he).1 hu1
      have hue : ¬ e.userId = u := fun h => hu2.2 h.symm
      rw [queued_erase mag q e u hnd he, hr u, hk u, if_neg hue, if_neg hue, if_neg hue]
      have := hin u hu2.1
      simpa using this
    · intro u hu1
      rw [hr u, hk u]
      by_cases hue : e.userId = u
      · rw [if_pos hue, if_pos hue, ← hue]
        have a := abs_le.1 hstep
        constructor <;> linarith [a.1, a.2]
      · rw [if_neg hue, if_neg hue]
        have hu2 : u ∉ q.map (fun e => e.userId) := by
          intro h
          exact hu1 ((mem_keys_erase q e u hnd he).2 ⟨h, fun h2 => hue h2.symm⟩)
        simpa using hout u hu2
    · intro u hu1
      exact hsub u ((mem_keys_erase q e u hnd he).1 hu1).1

/-- One iteration keeps, on either side, the sum of the amounts transferred and of the
magnitudes queued within `loopError` above the sum queued at the start. -/
theorem double_total_step (mag : Entry → ℚ) (q : List Entry) (e e1 : Entry) (s T C : ℚ)
    (n : ℕ) (keep : Prop) [Decidable keep] (he : e ∈ q)
    (hpos : ∀ x ∈ q, mag x > Double.EPSILON) (hmag : mag e1 = binary64 (mag e - s))
    (hs0 : 0 ≤ s) (hs1 : s ≤ mag e) (hT : 0 ≤ T)
    (hinv : T + (q.map mag).sum ≤ C + loopError n C) :
    T + s + ((if keep then q.erase e ++ [e1] else q.erase e).map mag).sum
      ≤ C + loopError (n + 1) C := by
  have hu := (by norm_num [UNIT_ROUNDOFF] : (0 : ℚ) < UNIT_ROUNDOFF)
  have heps := double_EPSILON_pos
  have hsum : mag e + ((q.erase e).map mag).sum = (q.map mag).sum :=
    List.sum_map_erase mag he
  have hrest : 0 ≤ ((q.erase e).map mag).sum := by
    apply List.sum_nonneg
    intro x hx
    obtain ⟨y, hy, rfl⟩ := List.mem_map.1 hx
    linarith [hpos y (List.mem_of_mem_erase hy)]
  have hm1 : 0 ≤ mag e1 := by
    rw [hmag]
    exact binary64_nonneg _ (by linarith)
  have hround : mag e1 ≤ (mag e - s) + (UNIT_ROUNDOFF * (mag e - s) + HALF_DENORM_MIN) := by
    have := binary64_error (mag e - s)
    rw [abs_of_nonneg (by linarith : 0 ≤ mag e - s), ← hmag] at this
    linarith [(abs_le.1 this).2]
  have hq : ((if keep then q.erase e ++ [e1] else q.erase e).map mag).sum
      ≤ ((q.erase e).map mag).sum + mag e1 := by
    split
    · simp
    · linarith
  have hsucc := loopError_succ n C
  have hme := hpos e he
  have h1 : UNIT_ROUNDOFF * (mag e - s) ≤ UNIT_ROUNDOFF * (T + (q.map mag).sum) := by
    apply mul_le_mul_of_nonneg_left _ hu.le
    linarith
  have h2 : UNIT_ROUNDOFF * (T + (q.map mag).sum) ≤ UNIT_ROUNDOFF * (C + loopError n C) :=
    mul_le_mul_of_nonneg_left hinv hu.le
  linarith

theorem double_settleStep_some (s next : SettleState) (h : Double.settleStep s = some next) :
    ∃ creditor debtor, pqTop creditorCmp s.creditorQueue = some creditor
      ∧ pqTop debtorCmp s.debtorQueue = some debtor
      ∧ next.creditorQueue
          = (if Double.sub creditor.amount (min creditor.amount (-debtor.amount))
                > Double.EPSILON
            then s.creditorQueue.erase creditor
              ++ [⟨creditor.userId,
                  Double.sub creditor.amount (min creditor.amount (-debtor.amount))⟩]
            else s.creditorQueue.erase creditor)
      ∧ next.debtorQueue
          = (if Double.add debtor.amount (min creditor.amount (-debtor.amount))
                < -Double.EPSILON
            then s.debtorQueue.erase debtor
              ++ [⟨debtor.userId,
                  Double.add debtor.amount (min creditor.amount (-debtor.amount))⟩]
            else s.debtorQueue.erase debtor)
      ∧ next.result
          = s.result ++ [⟨debtor.userId, creditor.userId,
              min creditor.amount (-debtor.amount)⟩] := by
  unfold Double.settleStep at h
  split at h
  · next creditor debtor hc hd =>
    simp only [Option.some.injEq] at h
    subst h
    exact ⟨creditor, debtor, hc, hd, rfl, rfl, rfl⟩
  · simp at h

/-- One iteration keeps the invariant of the settlement loop on `double`s. -/
theorem double_settleStep_inv (cs0 ds0 : List Entry) (s next : SettleState)
    (hinv : Double.SettleInv cs0 ds0 s) (h : Double.settleStep s = some next) :
    Double.SettleInv cs0 ds0 next := by
  obtain ⟨hc, hd, hT, hTc, hTd⟩ := hinv
  obtain ⟨creditor, debtor, hct, hdt, hcq, hdq, hres⟩ := double_settleStep_some s next h
  have hcm := pqTop_mem _ _ _ hct
  have hdm := pqTop_mem _ _ _ hdt
  have heps := double_EPSILON_pos
  have hcpos : creditor.amount > Double.EPSILON := hc.2.1 creditor hcm
  have hdpos : -debtor.amount > Double.EPSILON := hd.2.1 debtor hdm
  have hs0 : 0 ≤ min creditor.amount (-debtor.amount) := le_min (by linarith) (by linarith)
  have hdmag : -Double.add debtor.amount (min creditor.amount (-debtor.amount))
      = binary64 (-debtor.amount - min creditor.amount (-debtor.amount)) := by
    unfold Double.add
    rw [← binary64_neg]
    congr 1
    ring
  unfold Double.SettleInv
  rw [hres, hcq, hdq]
  refine ⟨?_, ?_, ?_, ?_, ?_⟩
  · refine double_side_step (fun e => e.amount) cs0 s.creditorQueue
      (fun u => receivedBy u s.result) _ (fun u => receivedCount u s.result) _ creditor _
      (min creditor.amount (-debtor.amount)) _ hc hcm rfl rfl hs0 (min_le_left _ _)
      Iff.rfl ?_ ?_
    · intro u
      rw [receivedBy_append_singleton]
    · intro u
      rw [receivedCount_append_singleton]
  · refine double_side_step (fun e => -e.amount) ds0 s.debtorQueue
      (fun u => paidBy u s.result) _ (fun u => paidCount u s.result) _ debtor _
      (min creditor.amount (-debtor.amount)) _ hd hdm rfl hdmag hs0 (min_le_right _ _)
      ?_ ?_ ?_
    · dsimp only
      constructor
      · intro h1; linarith
      · intro h1; linarith
    · intro u
      rw [paidBy_append_singleton]
    · intro u
      rw [paidCount_append_singleton]
  · simp only [List.map_append, List.sum_append, List.map_cons, List.map_nil, List.sum_cons,
      List.sum_nil, add_zero]
    linarith
  · have := double_total_step (fun e : Entry => e.amount) s.creditorQueue creditor
      ⟨creditor.userId, Double.sub creditor.amount (min creditor.amount (-debtor.amount))⟩
      (min creditor.amount (-debtor.amount)) ((s.result.map (fun t => t.amount)).sum)
      ((cs0.map (fun e : Entry => e.amount)).sum) s.result.length
      (Double.sub creditor.amount (min creditor.amount (-debtor.amount)) > Double.EPSILON)
      hcm hc.2.1 rfl hs0 (min_le_left _ _) hT hTc
    simp only [List.map_append, List.sum_append, List.map_cons, List.map_nil, List.sum_cons,
      List.sum_nil, add_zero, List.length_append, List.length_singleton] at this ⊢
    exact this
  · have := double_total_step (fun e : Entry => -e.amount) s.debtorQueue debtor
      ⟨debtor.userId, Double.add debtor.amount (min creditor.amount (-debtor.amount))⟩
      (min creditor.amount (-debtor.amount)) ((s.result.map (fun t => t.amount)).sum)
      ((ds0.map (fun e : Entry => -e.amount)).sum) s.result.length
      (Double.add debtor.amount (min creditor.amount (-debtor.amount)) < -Double.EPSILON)
      hdm hd.2.1 hdmag hs0 (min_le_right _ _) hT hTd
    simp only [List.map_append, List.sum_append, List.map_cons, List.map_nil, List.sum_cons,
      List.sum_nil, add_zero, List.length_append, List.length_singleton] at this ⊢
    exact this

/-- The settlement loop on `double`s ends, in a state where its condition fails, and any
property the iterations keep holds of that state. -/
theorem double_settleLoop_final (P : SettleState → Prop)
    (hstep : ∀ s next, P s → Double.settleStep s = some next → P next) (s : SettleState)
    (hs : P s) :
    ∃ final, P final ∧ Double.settleStep final = none
      ∧ Double.settleLoop s = final.result := by
  induction s using Double.settleLoop.induct with
  | case1 s next h ih =>
    obtain ⟨final, hP, hnone, heq⟩ := ih (hstep s next hs h)
    refine ⟨final, hP, hnone, ?_⟩
    rw [Double.settleLoop]
    split
    · next n hn =>
      rw [h] at hn
      simp only [Option.some.injEq] at hn
      subst hn
      exact heq
    · next hn => rw [h] at hn; simp at hn
  | case2 s h =>
    refine ⟨s, hs, h, ?_⟩
    rw [Double.settleLoop]
    split
    · next n hn => rw [h] at hn; simp at hn
    · rfl

theorem double_settleStep_eq_none (s : SettleState) (h : Double.settleStep s = none) :
    s.creditorQueue = [] ∨ s.debtorQueue = [] := by
  unfold Double.settleStep at h
  cases hc : pqTop creditorCmp s.creditorQueue with
  | none => exact Or.inl (pqTop_eq_none _ _ hc)
  | some creditor =>
    cases hd : pqTop debtorCmp s.debtorQueue with
    | none => exact Or.inr (pqTop_eq_none _ _ hd)
    | some debtor => simp [hc, hd] at h

theorem queued_nonneg (mag : Entry → ℚ) (u : String) (q : List Entry)
    (h : ∀ e ∈ q, mag e > Double.EPSILON) : 0 ≤ queued mag u q := by
  have heps := double_EPSILON_pos
  unfold queued
  apply List.sum_nonneg
  intro x hx
  obtain ⟨e, he, rfl⟩ := List.mem_map.1 hx
  linarith [h e (List.mem_filter.1 he).1]

theorem loopError_zero (c : ℚ) : loopError 0 c = 0 := by
  simp [loopError]

theorem double_side_init (mag : Entry → ℚ) (q0 : List Entry) (r : String → ℚ)
    (k : String → ℕ) (hnd : (q0.map (fun e => e.userId)).Nodup)
    (hgt : ∀ e ∈ q0, mag e > Double.EPSILON) (hr : ∀ u, r u = 0) (hk : ∀ u, k u = 0) :
    Double.SideInv mag q0 q0 r k := by
  have heps := double_EPSILON_pos
  refine ⟨hnd, hgt, fun u => ⟨by rw [hr u], queued_nonneg mag u q0 hgt⟩, ?_, ?_,
    fun u hu => hu, fun u _ => ⟨hr u, hk u⟩⟩
  · intro u _
    rw [hr u, hk u, loopError_zero]
    simp
  · intro u hu
    rw [hr u, hk u, loopError_zero, queued_of_not_mem mag u q0 hu]
    constructor <;> linarith

theorem double_partition_fst (b : List (String × ℚ)) :
    (Double.partitionBalances b).1
      = (b.filter (fun e => decide (e.2 > Double.EPSILON))).map (fun e => ⟨e.1, e.2⟩) := by
  induction b with
  | nil => rfl
  | cons x rest ih =>
    obtain ⟨u, bal⟩ := x
    simp only [Double.partitionBalances]
    by_cases h1 : bal > Double.EPSILON
    · simp [h1, List.filter_cons, ih]
    · by_cases h2 : bal < -Double.EPSILON
      · simp [h1, h2, List.filter_cons, ih]
      · simp [h1, h2, List.filter_cons, ih]

theorem double_partition_snd (b : List (String × ℚ)) :
    (Double.partitionBalances b).2
      = (b.filter (fun e => decide (e.2 < -Double.EPSILON))).map (fun e => ⟨e.1, e.2⟩) := by
  induction b with
  | nil => rfl
  | cons x rest ih =>
    obtain ⟨u, bal⟩ := x
    simp only [Double.partitionBalances]
    by_cases h1 : bal > Double.EPSILON
    · have h2 : ¬ bal < -Double.EPSILON := by
        have := double_EPSILON_pos
        intro h; linarith
      simp [h1, h2, List.filter_cons, ih]
    · by_cases h2 : bal < -Double.EPSILON
      · simp [h1, h2, List.filter_cons, ih]
      · simp [h1, h2, List.filter_cons, ih]

/-- The settlement loop on `double`s at its end, for the queues built from a balance map
with distinct keys: the invariant, and an empty queue on one side. -/
theorem double_settleUpGreedy_final (m : SplitwiseManager)
    (hkeys : (m.getAllBalances.map Prod.fst).Nodup) :
    ∃ final : SettleState,
      Double.SettleInv (Double.partitionBalances m.getAllBalances).1
        (Double.partitionBalances m.getAllBalances).2 final
      ∧ (final.creditorQueue = [] ∨ final.debtorQueue = [])
      ∧ Double.settleUpGreedy m = final.result := by
  have hc := filtered_entries (fun e => decide (e.2 > Double.EPSILON)) (fun e => e.amount)
    m.getAllBalances hkeys
  have hd := filtered_entries (fun e => decide (e.2 < -Double.EPSILON)) (fun e => -e.amount)
    m.getAllBalances hkeys
  rw [← double_partition_fst] at hc
  rw [← double_partition_snd] at hd
  have hinit : Double.SettleInv (Double.partitionBalances m.getAllBalances).1
      (Double.partitionBalances m.getAllBalances).2
      { creditorQueue := (Double.partitionBalances m.getAllBalances).1
        debtorQueue := (Double.partitionBalances m.getAllBalances).2
        result := [] } := by
    refine ⟨?_, ?_, ?_, ?_, ?_⟩
    · refine double_side_init _ _ _ _ hc.1 (fun e he => ?_) (fun u => by simp [receivedBy])
        (fun u => by simp [receivedCount])
      simpa using hc.2.1 e he
    · refine double_side_init _ _ _ _ hd.1 (fun e he => ?_) (fun u => by simp [paidBy])
        (fun u => by simp [paidCount])
      have := hd.2.1 e he
      simp only [decide_eq_true_eq] at this
      show -e.amount > Double.EPSILON
      linarith
    · simp
    · simp [loopError_zero]
    · simp [loopError_zero]
  obtain ⟨final, hP, hnone, heq⟩ := double_settleLoop_final
    (Double.SettleInv (Double.partitionBalances m.getAllBalances).1
      (Double.partitionBalances m.getAllBalances).2)
    (fun s next hs h => double_settleStep_inv _ _ s next hs h)
    { creditorQueue := (Double.partitionBalances m.getAllBalances).1
      debtorQueue := (Double.partitionBalances m.getAllBalances).2
      result := [] }
    hinit
  exact ⟨final, hP, double_settleStep_eq_none final hnone, heq⟩

theorem double_side_total_le (mag : Entry → ℚ) (q0 q : List Entry) (r : String → ℚ)
    (k : String → ℕ) (hinv : Double.SideInv mag q0 q r k) (u : String) :
    r u ≤ queued mag u q0 + loopError (k u) (queued mag u q0) := by
  obtain ⟨hnd, hgt, _, hin, hout, _, _⟩ := hinv
  by_cases hu : u ∈ q.map (fun e => e.userId)
  · obtain ⟨e, he, rfl⟩ := List.mem_map.1 hu
    have h1 := hin e.userId hu
    rw [queued_of_mem mag q e hnd he] at h1
    have h2 := hgt e he
    have := double_EPSILON_pos
    linarith [(abs_le.1 h1).2]
  · exact (hout u hu).2

theorem double_side_discharged (mag : Entry → ℚ) (q0 : List Entry) (r : String → ℚ)
    (k : String → ℕ) (hinv : Double.SideInv mag q0 [] r k) (u : String) :
    queued mag u q0 - Double.EPSILON - loopError (k u) (queued mag u q0) ≤ r u :=
  (hinv.2.2.2.2.1 u (by simp)).1

/-- The debt queued at the start for a user on `double`s: the magnitude of its balance when
that is below `-EPSILON`; otherwise nothing, and the user is not queued. -/
theorem double_queued_debtors (b : BalanceMap) (hnd : (b.map Prod.fst).Nodup) (u : String) :
    (StdMap.getD b u 0 < -Double.EPSILON →
      queued (fun e => -e.amount) u (Double.partitionBalances b).2 = -(StdMap.getD b u 0))
    ∧ (¬ StdMap.getD b u 0 < -Double.EPSILON →
      u ∉ (Double.partitionBalances b).2.map (fun e => e.userId)) := by
  have heps := double_EPSILON_pos
  have hdq := filtered_entries (fun e => decide (e.2 < -Double.EPSILON))
    (fun e => -e.amount) b hnd
  rw [← double_partition_snd] at hdq
  constructor
  · intro hlt
    cases hf : StdMap.find? b u with
    | none =>
      simp only [StdMap.getD, hf, Option.getD_none] at hlt
      linarith
    | some bal =>
      have hg : StdMap.getD b u 0 = bal := by simp [StdMap.getD, hf]
      rw [hg] at hlt ⊢
      exact hdq.2.2 u bal (mem_of_find? b u bal hf) (by simpa using hlt)
  · intro hlt hmem
    obtain ⟨e, he, heu⟩ := List.mem_map.1 hmem
    rw [double_partition_snd, List.mem_map] at he
    obtain ⟨x, hx, rfl⟩ := he
    obtain ⟨hb, hlt2⟩ := List.mem_filter.1 hx
    have hfind := find?_of_mem_nodup b x.1 x.2 hnd hb
    apply hlt
    rw [← heu]
    simp only [StdMap.getD, hfind, Option.getD_some]
    simpa using hlt2

/-- The credit queued at the start for a user on `double`s: its balance when that is above
`EPSILON`; otherwise nothing, and the user is not queued. -/
theorem double_queued_creditors (b : BalanceMap) (hnd : (b.map Prod.fst).Nodup) (u : String) :
    (StdMap.getD b u 0 > Double.EPSILON →
      queued (fun e => e.amount) u (Double.partitionBalances b).1 = StdMap.getD b u 0)
    ∧ (¬ StdMap.getD b u 0 > Double.EPSILON →
      u ∉ (Double.partitionBalances b).1.map (fun e => e.userId)) := by
  have heps := double_EPSILON_pos
  have hcq := filtered_entries (fun e => decide (e.2 > Double.EPSILON))
    (fun e => e.amount) b hnd
  rw [← double_partition_fst] at hcq
  constructor
  · intro hgt
    cases hf : StdMap.find? b u with
    | none =>
      simp only [StdMap.getD, hf, Option.getD_none] at hgt
      linarith
    | some bal =>
      have hg : StdMap.getD b u 0 = bal := by simp [StdMap.getD, hf]
      rw [hg] at hgt ⊢
      exact hcq.2.2 u bal (mem_of_find? b u bal hf) (by simpa using hgt)
  · intro hgt hmem
    obtain ⟨e, he, heu⟩ := List.mem_map.1 hmem
    rw [double_partition_fst, List.mem_map] at he
    obtain ⟨x, hx, rfl⟩ := he
    obtain ⟨hb, hgt2⟩ := List.mem_filter.1 hx
    have hfind := find?_of_mem_nodup b x.1 x.2 hnd hb
    apply hgt
    rw [← heu]
    simp only [StdMap.getD, hfind, Option.getD_some]
    simpa using hgt2

/-- What the invariant of the settlement loop on `double`s gives at the end, for a balance
map with distinct keys: one side is discharged up to `EPSILON` and the rounding; no user
receives more than its credit, or pays more than its debt, plus the rounding; a user that
is no creditor receives nothing, one that is no debtor pays nothing; and the total
transferred is at most the sum of the credits, and of the debts, plus the rounding. -/
theorem double_settlement_sides (m : SplitwiseManager)
    (hkeys : (m.getAllBalances.map Prod.fst).Nodup) :
    ((∀ u, StdMap.getD m.getAllBalances u 0 > Double.EPSILON →
        StdMap.getD m.getAllBalances u 0 - Double.EPSILON
            - loopError (receivedCount u (Double.settleUpGreedy m))
                (StdMap.getD m.getAllBalances u 0)
          ≤ receivedBy u (Double.settleUpGreedy m))
      ∨ (∀ u, StdMap.getD m.getAllBalances u 0 < -Double.EPSILON →
        -(StdMap.getD m.getAllBalances u 0) - Double.EPSILON
            - loopError (paidCount u (Double.settleUpGreedy m))
                (-(StdMap.getD m.getAllBalances u 0))
          ≤ paidBy u (Double.settleUpGreedy m)))
    ∧ (∀ u,
        (StdMap.getD m.getAllBalances u 0 > Double.EPSILON →
          receivedBy u (Double.settleUpGreedy m)
            ≤ StdMap.getD m.getAllBalances u 0
              + loopError (receivedCount u (Double.settleUpGreedy m))
                  (StdMap.getD m.getAllBalances u 0))
        ∧ (¬ StdMap.getD m.getAllBalances u 0 > Double.EPSILON →
          receivedBy u (Double.settleUpGreedy m) = 0
          ∧ receivedCount u (Double.settleUpGreedy m) = 0)
        ∧ (StdMap.getD m.getAllBalances u 0 < -Double.EPSILON →
          paidBy u (Double.settleUpGreedy m)
            ≤ -(StdMap.getD m.getAllBalances u 0)
              + loopError (paidCount u (Double.settleUpGreedy m))
                  (-(StdMap.getD m.getAllBalances u 0)))
        ∧ (¬ StdMap.getD m.getAllBalances u 0 < -Double.EPSILON →
          paidBy u (Double.settleUpGreedy m) = 0
          ∧ paidCount u (Double.settleUpGreedy m) = 0))
    ∧ ((Double.settleUpGreedy m).map (fun t => t.amount)).sum
        ≤ Double.totalCredit m.getAllBalances
          + loopError (Double.settleUpGreedy m).length (Double.totalCredit m.getAllBalances)
    ∧ ((Double.settleUpGreedy m).map (fun t => t.amount)).sum
        ≤ Double.totalDebt m.getAllBalances
          + loopError (Double.settleUpGreedy m).length (Double.totalDebt m.getAllBalances) := by
  obtain ⟨final, ⟨hc, hd, hT, hTc, hTd⟩, hempty, heq⟩ := double_settleUpGreedy_final m hkeys
  rw [heq]
  have heps := double_EPSILON_pos
  have hqc := double_queued_creditors m.getAllBalances hkeys
  have hqd := double_queued_debtors m.getAllBalances hkeys
  refine ⟨?_, ?_, ?_, ?_⟩
  · rcases hempty with h | h
    · left
      intro u hgt
      rw [h] at hc
      have h1 := double_side_discharged _ _ _ _ hc u
      rw [(hqc u).1 hgt] at h1
      exact h1
    · right
      intro u hlt
      rw [h] at hd
      have h1 := double_side_discharged _ _ _ _ hd u
      rw [(hqd u).1 hlt] at h1
      exact h1
  · intro u
    refine ⟨?_, ?_, ?_, ?_⟩
    · intro hgt
      have h1 := double_side_total_le _ _ _ _ _ hc u
      rw [(hqc u).1 hgt] at h1
      exact h1
    · intro hgt
      exact hc.2.2.2.2.2.2 u ((hqc u).2 hgt)
    · intro hlt
      have h1 := double_side_total_le _ _ _ _ _ hd u
      rw [(hqd u).1 hlt] at h1
      exact h1
    · intro hlt
      exact hd.2.2.2.2.2.2 u ((hqd u).2 hlt)
  · have hq : 0 ≤ (final.creditorQueue.map (fun e => e.amount)).sum := by
      apply List.sum_nonneg
      intro x hx
      obtain ⟨e, he, rfl⟩ := List.mem_map.1 hx
      have hmag : e.amount > Double.EPSILON := hc.2.1 e he
      linarith
    have hC : ((Double.partitionBalances m.getAllBalances).1.map (fun e => e.amount)).sum
        = Double.totalCredit m.getAllBalances := by
      rw [double_partition_fst, List.map_map]
      rfl
    rw [hC] at hTc
    linarith
  · have hq : 0 ≤ (final.debtorQueue.map (fun e => -e.amount)).sum := by
      apply List.sum_nonneg
      intro x hx
      obtain ⟨e, he, rfl⟩ := List.mem_map.1 hx
      have hmag : -e.amount > Double.EPSILON := hd.2.1 e he
      linarith
    have hD : ((Double.partitionBalances m.getAllBalances).2.map (fun e => -e.amount)).sum
        = Double.totalDebt m.getAllBalances := by
      rw [double_partition_snd, List.map_map]
      rfl
    rw [hD] at hTd
    linarith

/-! ## The settlement on `double`s: claims C2, C31 and C32 -/

/-- A `double` is above the `double` nearest to 1e-6 exactly when it is above 1e-6, and
below the negated one exactly when it is below -1e-6. -/
theorem double_threshold (x : ℚ) :
    (binary64 x > Double.EPSILON ↔ binary64 x > 1 / 1000000)
    ∧ (binary64 x < -Double.EPSILON ↔ binary64 x < -(1 / 1000000)) := by
  have heps := double_EPSILON_pos
  have hlt := double_EPSILON_lt
  have h := double_gt_epsilon_iff x
  constructor
  · constructor
    · intro hx
      have habs : |binary64 x| = binary64 x := abs_of_pos (by linarith)
      rw [habs] at h
      exact h.1 hx
    · intro hx
      exact lt_trans hlt hx
  · constructor
    · intro hx
      have habs : |binary64 x| = -binary64 x := abs_of_neg (by linarith)
      rw [habs] at h
      have := h.1 (by linarith)
      linarith
    · intro hx
      linarith

/-- C2, as the code has it: for a balance map with distinct users, the transfers that
`settleUpGreedy` returns make a debtor (balance below `-EPSILON`, the `double` nearest to
1e-6) pay at most its debt, and a creditor (balance above `EPSILON`) receive at most its
credit, plus the rounding of the remainders, `loopError k x` for a user of `k` transfers
and the debt or credit `x`; and they discharge one of the two sides up to `EPSILON` and
that rounding: either every debtor pays its debt less at most `EPSILON + loopError k x`,
or every creditor receives its credit less at most that.  `EPSILON` is below 1e-6, and a
`double` exceeds it exactly when it exceeds 1e-6. -/
theorem settlement_discharge_rounded (m : SplitwiseManager)
    (hkeys : (m.getAllBalances.map Prod.fst).Nodup) :
    (∀ u bal, (u, bal) ∈ m.getAllBalances → bal < -Double.EPSILON →
        paidBy u (Double.settleUpGreedy m)
          ≤ -bal + loopError (paidCount u (Double.settleUpGreedy m)) (-bal))
    ∧ (∀ u bal, (u, bal) ∈ m.getAllBalances → bal > Double.EPSILON →
        receivedBy u (Double.settleUpGreedy m)
          ≤ bal + loopError (receivedCount u (Double.settleUpGreedy m)) bal)
    ∧ ((∀ u bal, (u, bal) ∈ m.getAllBalances → bal < -Double.EPSILON →
          -bal - paidBy u (Double.settleUpGreedy m)
            ≤ Double.EPSILON + loopError (paidCount u (Double.settleUpGreedy m)) (-bal))
      ∨ (∀ u bal, (u, bal) ∈ m.getAllBalances → bal > Double.EPSILON →
          bal - receivedBy u (Double.settleUpGreedy m)
            ≤ Double.EPSILON + loopError (receivedCount u (Double.settleUpGreedy m)) bal))
    ∧ Double.EPSILON < 1 / 1000000
    ∧ (∀ x : ℚ, (binary64 x > Double.EPSILON ↔ binary64 x > 1 / 1000000)
        ∧ (binary64 x < -Double.EPSILON ↔ binary64 x < -(1 / 1000000))) := by
  obtain ⟨hdis, hside, _, _⟩ := double_settlement_sides m hkeys
  have hget : ∀ u bal, (u, bal) ∈ m.getAllBalances → StdMap.getD m.getAllBalances u 0 = bal := by
    intro u bal hmem
    simp [StdMap.getD, find?_of_mem_nodup _ _ _ hkeys hmem]
  refine ⟨?_, ?_, ?_, double_EPSILON_lt, double_threshold⟩
  · intro u bal hmem hbal
    have := (hside u).2.2.1 (by rw [hget u bal hmem]; exact hbal)
    rw [hget u bal hmem] at this
    exact this
  · intro u bal hmem hbal
    have := (hside u).1 (by rw [hget u bal hmem]; exact hbal)
    rw [hget u bal hmem] at this
    exact this
  · rcases hdis with h | h
    · right
      intro u bal hmem hbal
      have := h u (by rw [hget u bal hmem]; exact hbal)
      rw [hget u bal hmem] at this
      linarith
    · left
      intro u bal hmem hbal
      have := h u (by rw [hget u bal hmem]; exact hbal)
      rw [hget u bal hmem] at this
      linarith

/-- C2 fails as stated: the Percent split of 1e9 at 50 and 50.0000005 percent is accepted
and leaves, on an empty sheet, the balances USR1 = 500000000 and USR2 = -500000004.99999994;
`settleUpGreedy` returns the single transfer of 500000000 from USR2 to USR1, so the debtor
USR2 pays almost 5 less than its debt, which is more than 1e-6. -/
theorem settlement_leaves_debt_open :
    Double.PercentSplitStrategy.computeSplits skewedBillion
      = .ok [("USR1", 500000000), ("USR2", -(8388608083886079 / 16777216))]
    ∧ (Double.applyDelta {}
        [("USR1", 500000000), ("USR2", -(8388608083886079 / 16777216))]).getBalances
      = [("USR1", 500000000), ("USR2", -(8388608083886079 / 16777216))]
    ∧ Double.settleUpGreedy
        { balanceSheet_ := Double.applyDelta {}
            [("USR1", 500000000), ("USR2", -(8388608083886079 / 16777216))] }
      = [⟨"USR2", "USR1", 500000000⟩]
    ∧ (-(8388608083886079 / 16777216) : ℚ) < -(1 / 1000000)
    ∧ ¬ |paidBy "USR2" [⟨"USR2", "USR1", 500000000⟩] - 8388608083886079 / 16777216|
        ≤ 1 / 1000000 := by
  decide!

/-- C2, an instance: the balances A = 62, B = -18, C = -44 have distinct users; C pays 44
and B pays 18 to A. -/
theorem settlement_discharge_rounded_witness :
    (reconciled.getAllBalances.map Prod.fst).Nodup
    ∧ Double.settleUpGreedy reconciled = [⟨"C", "A", 44⟩, ⟨"B", "A", 18⟩]
    ∧ ((∀ u bal, (u, bal) ∈ reconciled.getAllBalances → bal < -Double.EPSILON →
          paidBy u (Double.settleUpGreedy reconciled)
            ≤ -bal + loopError (paidCount u (Double.settleUpGreedy reconciled)) (-bal))
      ∧ (∀ u bal, (u, bal) ∈ reconciled.getAllBalances → bal > Double.EPSILON →
          receivedBy u (Double.settleUpGreedy reconciled)
            ≤ bal + loopError (receivedCount u (Double.settleUpGreedy reconciled)) bal)
      ∧ ((∀ u bal, (u, bal) ∈ reconciled.getAllBalances → bal < -Double.EPSILON →
            -bal - paidBy u (Double.settleUpGreedy reconciled)
              ≤ Double.EPSILON
                + loopError (paidCount u (Double.settleUpGreedy reconciled)) (-bal))
        ∨ (∀ u bal, (u, bal) ∈ reconciled.getAllBalances → bal > Double.EPSILON →
            bal - receivedBy u (Double.settleUpGreedy reconciled)
              ≤ Double.EPSILON
                + loopError (receivedCount u (Double.settleUpGreedy reconciled)) bal))
      ∧ Double.EPSILON < 1 / 1000000
      ∧ (∀ x : ℚ, (binary64 x > Double.EPSILON ↔ binary64 x > 1 / 1000000)
          ∧ (binary64 x < -Double.EPSILON ↔ binary64 x < -(1 / 1000000)))) :=
  ⟨by decide, by decide!, settlement_discharge_rounded reconciled (by decide)⟩

/-- C31, as the code has it: for a balance map, whose users are distinct, and every user,
the transfers of `settleUpGreedy` that the user pays sum to at most `max(0, -balance)` and
those it receives sum to at most `max(0, balance)`, plus the rounding of the remainders:
`loopError k x` for `k` transfers and the bound `x`; a user whose balance is not below
`-EPSILON`, the `double` nearest to 1e-6, pays nothing, and one whose balance is not above
`EPSILON` receives nothing; and the total of the `n` transfers is at most the smaller of the
sum of the credits and the sum of the debts, each with its `loopError n`. -/
theorem settlement_overpay_bounded (m : SplitwiseManager)
    (hkeys : (m.getAllBalances.map Prod.fst).Nodup) :
    (∀ u, paidBy u (Double.settleUpGreedy m)
          ≤ max 0 (-(StdMap.getD m.getAllBalances u 0))
            + loopError (paidCount u (Double.settleUpGreedy m))
                (max 0 (-(StdMap.getD m.getAllBalances u 0)))
      ∧ receivedBy u (Double.settleUpGreedy m)
          ≤ max 0 (StdMap.getD m.getAllBalances u 0)
            + loopError (receivedCount u (Double.settleUpGreedy m))
                (max 0 (StdMap.getD m.getAllBalances u 0))
      ∧ (¬ StdMap.getD m.getAllBalances u 0 < -Double.EPSILON →
          paidBy u (Double.settleUpGreedy m) = 0)
      ∧ (¬ StdMap.getD m.getAllBalances u 0 > Double.EPSILON →
          receivedBy u (Double.settleUpGreedy m) = 0))
    ∧ ((Double.settleUpGreedy m).map (fun t => t.amount)).sum
        ≤ min (Double.totalCredit m.getAllBalances
              + loopError (Double.settleUpGreedy m).length
                  (Double.totalCredit m.getAllBalances))
            (Double.totalDebt m.getAllBalances
              + loopError (Double.settleUpGreedy m).length
                  (Double.totalDebt m.getAllBalances)) := by
  obtain ⟨_, hside, hTc, hTd⟩ := double_settlement_sides m hkeys
  have heps := double_EPSILON_pos
  refine ⟨fun u => ⟨?_, ?_, fun h => ((hside u).2.2.2 h).1, fun h => ((hside u).2.1 h).1⟩,
    le_min hTc hTd⟩
  · by_cases hlt : StdMap.getD m.getAllBalances u 0 < -Double.EPSILON
    · rw [max_eq_right (by linarith)]
      exact (hside u).2.2.1 hlt
    · obtain ⟨h1, h2⟩ := (hside u).2.2.2 hlt
      rw [h1, h2, loopError_zero, add_zero]
      exact le_max_left _ _
  · by_cases hgt : StdMap.getD m.getAllBalances u 0 > Double.EPSILON
    · rw [max_eq_right (by linarith)]
      exact (hside u).1 hgt
    · obtain ⟨h1, h2⟩ := (hside u).2.1 hgt
      rw [h1, h2, loopError_zero, add_zero]
      exact le_max_left _ _

/-- C31 fails as stated: for the balances A = 225.44, B = 229.73, C = 118.17 and
D = -490.93, `settleUpGreedy` makes D pay 229.73 to B, 225.44 to A and 35.76000000000005 to
C, which sum to 2^-45 more than the debt of D, and than the smaller of the sum of the
credits and the sum of the debts. -/
theorem settlement_overpays :
    Double.settleUpGreedy overpaidBalances
      = [⟨"D", "B", 8082905799967375 / 35184372088832⟩,
         ⟨"D", "A", 3965982421853143 / 17592186044416⟩,
         ⟨"D", "C", 629096572948317 / 17592186044416⟩]
    ∧ StdMap.getD overpaidBalances.getAllBalances "D" 0
      = -(8636531894785147 / 17592186044416)
    ∧ paidBy "D" (Double.settleUpGreedy overpaidBalances)
      = 8636531894785147 / 17592186044416 + 1 / 35184372088832
    ∧ ¬ paidBy "D" (Double.settleUpGreedy overpaidBalances)
        ≤ max 0 (-(StdMap.getD overpaidBalances.getAllBalances "D" 0))
    ∧ ¬ ((Double.settleUpGreedy overpaidBalances).map (fun t => t.amount)).sum
        ≤ min (totalCredit overpaidBalances.getAllBalances)
            (totalDebt overpaidBalances.getAllBalances) := by
  decide!

/-- C31, an instance: for the balances A = 62, B = -18, C = -44, whose users are distinct,
B pays 18, which is its debt, and A receives 62, which is its credit. -/
theorem settlement_overpay_bounded_witness :
    (reconciled.getAllBalances.map Prod.fst).Nodup
    ∧ paidBy "B" (Double.settleUpGreedy reconciled) = 18
    ∧ receivedBy "A" (Double.settleUpGreedy reconciled) = 62
    ∧ ((∀ u, paidBy u (Double.settleUpGreedy reconciled)
            ≤ max 0 (-(StdMap.getD reconciled.getAllBalances u 0))
              + loopError (paidCount u (Double.settleUpGreedy reconciled))
                  (max 0 (-(StdMap.getD reconciled.getAllBalances u 0)))
        ∧ receivedBy u (Double.settleUpGreedy reconciled)
            ≤ max 0 (StdMap.getD reconciled.getAllBalances u 0)
              + loopError (receivedCount u (Double.settleUpGreedy reconciled))
                  (max 0 (StdMap.getD reconciled.getAllBalances u 0))
        ∧ (¬ StdMap.getD reconciled.getAllBalances u 0 < -Double.EPSILON →
            paidBy u (Double.settleUpGreedy reconciled) = 0)
        ∧ (¬ StdMap.getD reconciled.getAllBalances u 0 > Double.EPSILON →
            receivedBy u (Double.settleUpGreedy reconciled) = 0))
      ∧ ((Double.settleUpGreedy reconciled).map (fun t => t.amount)).sum
          ≤ min (Double.totalCredit reconciled.getAllBalances
                + loopError (Double.settleUpGreedy reconciled).length
                    (Double.totalCredit reconciled.getAllBalances))
              (Double.totalDebt reconciled.getAllBalances
                + loopError (Double.settleUpGreedy reconciled).length
                    (Double.totalDebt reconciled.getAllBalances))) :=
  ⟨by decide, by decide!, by decide!, settlement_overpay_bounded reconciled (by decide)⟩

/-- C32, as the code has it: for a balance map, whose users are distinct, after the
transfers of `settleUpGreedy` are applied, with the balance of the payer increased and that
of the receiver decreased by the amount, one side is closed up to `EPSILON`, the `double`
nearest to 1e-6, and the rounding of the remainders: either no user has a balance above
`EPSILON + loopError k |balance|`, or none has one below the negation of that, where `k` is
the number of the transfers of the user and `balance` its balance before the transfers. -/
theorem settlement_sides_rounded (m : SplitwiseManager)
    (hkeys : (m.getAllBalances.map Prod.fst).Nodup) :
    (¬ ∃ u v,
        balanceAfter m.getAllBalances (Double.settleUpGreedy m) u
          > Double.EPSILON
            + loopError (paidCount u (Double.settleUpGreedy m)
                + receivedCount u (Double.settleUpGreedy m))
              |StdMap.getD m.getAllBalances u 0|
        ∧ balanceAfter m.getAllBalances (Double.settleUpGreedy m) v
          < -(Double.EPSILON
            + loopError (paidCount v (Double.settleUpGreedy m)
                + receivedCount v (Double.settleUpGreedy m))
              |StdMap.getD m.getAllBalances v 0|))
    ∧ ((∀ u, balanceAfter m.getAllBalances (Double.settleUpGreedy m) u
          ≤ Double.EPSILON
            + loopError (paidCount u (Double.settleUpGreedy m)
                + receivedCount u (Double.settleUpGreedy m))
              |StdMap.getD m.getAllBalances u 0|)
      ∨ (∀ u, -(Double.EPSILON
            + loopError (paidCount u (Double.settleUpGreedy m)
                + receivedCount u (Double.settleUpGreedy m))
              |StdMap.getD m.getAllBalances u 0|)
          ≤ balanceAfter m.getAllBalances (Double.settleUpGreedy m) u))
    ∧ Double.EPSILON < 1 / 1000000 := by
  obtain ⟨hdis, hside, _, _⟩ := double_settlement_sides m hkeys
  have heps := double_EPSILON_pos
  have hcases : (∀ u, balanceAfter m.getAllBalances (Double.settleUpGreedy m) u
          ≤ Double.EPSILON
            + loopError (paidCount u (Double.settleUpGreedy m)
                + receivedCount u (Double.settleUpGreedy m))
              |StdMap.getD m.getAllBalances u 0|)
      ∨ (∀ u, -(Double.EPSILON
            + loopError (paidCount u (Double.settleUpGreedy m)
                + receivedCount u (Double.settleUpGreedy m))
              |StdMap.getD m.getAllBalances u 0|)
          ≤ balanceAfter m.getAllBalances (Double.settleUpGreedy m) u) := by
    rcases hdis with h | h
    · left
      intro u
      obtain ⟨hr1, hr0, hp1, hp0⟩ := hside u
      unfold balanceAfter
      by_cases hgt : StdMap.getD m.getAllBalances u 0 > Double.EPSILON
      · have hnlt : ¬ StdMap.getD m.getAllBalances u 0 < -Double.EPSILON := by
          intro hlt; linarith
        obtain ⟨hp, hpc⟩ := hp0 hnlt
        have := h u hgt
        rw [hp, hpc, Nat.zero_add, abs_of_pos (by linarith)]
        linarith
      · obtain ⟨hr, hrc⟩ := hr0 hgt
        rw [hr, hrc, Nat.add_zero]
        by_cases hlt : StdMap.getD m.getAllBalances u 0 < -Double.EPSILON
        · have := hp1 hlt
          rw [abs_of_neg (by linarith)]
          linarith
        · obtain ⟨hp, hpc⟩ := hp0 hlt
          rw [hp, hpc, loopError_zero]
          linarith [not_lt.1 hgt]
    · right
      intro u
      obtain ⟨hr1, hr0, hp1, hp0⟩ := hside u
      unfold balanceAfter
      by_cases hlt : StdMap.getD m.getAllBalances u 0 < -Double.EPSILON
      · have hngt : ¬ StdMap.getD m.getAllBalances u 0 > Double.EPSILON := by
          intro hgt; linarith
        obtain ⟨hr, hrc⟩ := hr0 hngt
        have := h u hlt
        rw [hr, hrc, Nat.add_zero, abs_of_neg (by linarith)]
        linarith
      · obtain ⟨hp, hpc⟩ := hp0 hlt
        rw [hp, hpc, Nat.zero_add]
        by_cases hgt : StdMap.getD m.getAllBalances u 0 > Double.EPSILON
        · have := hr1 hgt
          rw [abs_of_pos (by linarith)]
          linarith
        · obtain ⟨hr, hrc⟩ := hr0 hgt
          rw [hr, hrc, loopError_zero]
          linarith [not_lt.1 hlt]
  refine ⟨?_, hcases, double_EPSILON_lt⟩
  rintro ⟨u, v, hu, hv⟩
  rcases hcases with h | h
  · linarith [h u]
  · linarith [h v]

/-- C32 fails as stated: for the balances A = 14.930001, D0 = -5.87, D1 = -5.58,
D2 = -3.48 and D3 = -0.11, `settleUpGreedy` makes D0, D1 and D2 pay their debts to A and
stops, the remainder it holds for A being rounded to no more than 1e-6; after the
transfers A is left with a balance of about 1.0000000006e-6, above 1e-6, while D3 is left
with -0.11, below -1e-6. -/
theorem settlement_both_sides_open :
    (shortBalances.getAllBalances.map Prod.fst).Nodup
    ∧ Double.settleUpGreedy shortBalances
      = [⟨"D0", "A", 6609032453166203 / 1125899906842624⟩,
         ⟨"D1", "A", 3141260740090921 / 562949953421312⟩,
         ⟨"D2", "A", 7836263351624663 / 2251799813685248⟩]
    ∧ balanceAfter shortBalances.getAllBalances (Double.settleUpGreedy shortBalances) "A"
      = 2251799815 / 2251799813685248
    ∧ balanceAfter shortBalances.getAllBalances (Double.settleUpGreedy shortBalances) "A"
      > 1 / 1000000
    ∧ balanceAfter shortBalances.getAllBalances (Double.settleUpGreedy shortBalances) "D3"
      < -(1 / 1000000) := by
  decide!

/-- C32, an instance: for the balances A = 62, B = -18, C = -44 and D = 0, whose users are
distinct, every balance is 0 after the transfers. -/
theorem settlement_sides_rounded_witness :
    (reconciledWithIdle.getAllBalances.map Prod.fst).Nodup
    ∧ (["A", "B", "C", "D"].map
        (balanceAfter reconciledWithIdle.getAllBalances
          (Double.settleUpGreedy reconciledWithIdle)))
      = [0, 0, 0, 0]
    ∧ ((¬ ∃ u v,
          balanceAfter reconciledWithIdle.getAllBalances
              (Double.settleUpGreedy reconciledWithIdle) u
            > Double.EPSILON
              + loopError (paidCount u (Double.settleUpGreedy reconciledWithIdle)
                  + receivedCount u (Double.settleUpGreedy reconciledWithIdle))
                |StdMap.getD reconciledWithIdle.getAllBalances u 0|
          ∧ balanceAfter reconciledWithIdle.getAllBalances
              (Double.settleUpGreedy reconciledWithIdle) v
            < -(Double.EPSILON
              + loopError (paidCount v (Double.settleUpGreedy reconciledWithIdle)
                  + receivedCount v (Double.settleUpGreedy reconciledWithIdle))
                |StdMap.getD reconciledWithIdle.getAllBalances v 0|))
      ∧ ((∀ u, balanceAfter reconciledWithIdle.getAllBalances
              (Double.settleUpGreedy reconciledWithIdle) u
            ≤ Double.EPSILON
              + loopError (paidCount u (Double.settleUpGreedy reconciledWithIdle)
                  + receivedCount u (Double.settleUpGreedy reconciledWithIdle))
                |StdMap.getD reconciledWithIdle.getAllBalances u 0|)
        ∨ (∀ u, -(Double.EPSILON
              + loopError (paidCount u (Double.settleUpGreedy reconciledWithIdle)
                  + receivedCount u (Double.settleUpGreedy reconciledWithIdle))
                |StdMap.getD reconciledWithIdle.getAllBalances u 0|)
            ≤ balanceAfter reconciledWithIdle.getAllBalances
                (Double.settleUpGreedy reconciledWithIdle) u))
      ∧ Double.EPSILON < 1 / 1000000) :=
  ⟨by decide, by decide!, settlement_sides_rounded reconciledWithIdle (by decide)⟩

/-! ## The zero-sum invariant on `double`s: claim C1 -/

theorem double_applyEntry_total (b : BalanceMap) (userId : String) (change : ℚ) :
    |BalanceMap.total (Double.applyEntry b userId change) - (BalanceMap.total b + change)|
      ≤ Double.entrySlack b userId change := by
  have hround := binary64_error (StdMap.getD b userId 0 + change)
  have hiff := double_lt_snap_iff (StdMap.getD b userId 0 + change)
  have hnn : 0 ≤ UNIT_ROUNDOFF * |StdMap.getD b userId 0 + change| + HALF_DENORM_MIN :=
    le_trans (abs_nonneg _) hround
  unfold Double.applyEntry Double.entrySlack
  dsimp only
  rw [StdMap.getD_alter, if_pos rfl]
  unfold Double.add
  split_ifs with h
  · rw [BalanceMap.total_alter, BalanceMap.total_alter, StdMap.getD_alter, if_pos rfl]
    have h1 := hiff.1 h
    have heq : BalanceMap.total b - StdMap.getD b userId 0
          + binary64 (StdMap.getD b userId 0 + change)
          - binary64 (StdMap.getD b userId 0 + change) + 0 - (BalanceMap.total b + change)
        = -(StdMap.getD b userId 0 + change) := by ring
    rw [heq, abs_neg]
    have htri : |StdMap.getD b userId 0 + change|
        ≤ |binary64 (StdMap.getD b userId 0 + change)|
          + |binary64 (StdMap.getD b userId 0 + change)
              - (StdMap.getD b userId 0 + change)| := by
      have := abs_sub (binary64 (StdMap.getD b userId 0 + change))
        (binary64 (StdMap.getD b userId 0 + change) - (StdMap.getD b userId 0 + change))
      simpa using this
    linarith
  · rw [BalanceMap.total_alter]
    have heq : BalanceMap.total b - StdMap.getD b userId 0
          + binary64 (StdMap.getD b userId 0 + change) - (BalanceMap.total b + change)
        = binary64 (StdMap.getD b userId 0 + change) - (StdMap.getD b userId 0 + change) := by
      ring
    rw [heq]
    linarith

theorem double_applyDelta_total (s : BalanceSheet) (delta : BalanceMap) :
    |BalanceMap.total (Double.applyDelta s delta).balances_
        - (BalanceMap.total s.balances_ + BalanceMap.total delta)|
      ≤ Double.deltaSlack s.balances_ delta := by
  obtain ⟨b⟩ := s
  unfold Double.applyDelta
  dsimp only
  induction delta generalizing b with
  | nil => simp [BalanceMap.total, Double.deltaSlack]
  | cons e rest ih =>
    obtain ⟨u, c⟩ := e
    have h1 := double_applyEntry_total b u c
    have h2 := ih (Double.applyEntry b u c)
    simp only [List.foldl_cons, Double.deltaSlack]
    have ht : BalanceMap.total ((u, c) :: rest) = c + BalanceMap.total rest := by
      simp [BalanceMap.total]
    rw [ht]
    rw [abs_le] at h1 h2 ⊢
    constructor <;> linarith [h1.1, h1.2, h2.1, h2.2]

theorem double_recordExpense_balanceSheet (m : SplitwiseManager)
    (groupId description : String) (input : SplitInput) (strategy : SplitStrategy)
    (delta : BalanceMap) :
    (Double.recordExpense m groupId description input strategy delta).state.balanceSheet_
      = Double.applyDelta m.balanceSheet_ delta := by
  unfold Double.recordExpense SplitwiseManager.generateId
  dsimp only
  split
  · split
    · split
      · rfl
      · split <;> rfl
    · rfl
  · rfl

theorem double_exec_total_le (m : SplitwiseManager) (call : SplitwiseManager.Call) :
    |(Double.exec m call).getAllBalances.total|
      ≤ |m.getAllBalances.total| + Double.slack m call := by
  cases call with
  | addUser name =>
    simp [Double.exec, Double.slack, Double.appliedDelta, SplitwiseManager.getAllBalances,
      SplitwiseManager.addUser_balanceSheet]
  | addGroup name memberIds =>
    simp [Double.exec, Double.slack, Double.appliedDelta, SplitwiseManager.getAllBalances,
      SplitwiseManager.addGroup_balanceSheet]
  | setNotifier notifier =>
    simp [Double.exec, Double.slack, Double.appliedDelta, SplitwiseManager.getAllBalances,
      SplitwiseManager.setNotifier]
  | setNotificationThreshold threshold =>
    simp [Double.exec, Double.slack, Double.appliedDelta, SplitwiseManager.getAllBalances,
      SplitwiseManager.setNotificationThreshold]
  | addExpense groupId description input strategy =>
    unfold Double.exec Double.slack Double.appliedDelta Double.addExpense
    dsimp only
    cases hc : Double.checkExpense m groupId input strategy with
    | error e => simp
    | ok p =>
      obtain ⟨strat, delta⟩ := p
      dsimp only
      unfold SplitwiseManager.getAllBalances BalanceSheet.getBalances
      rw [double_recordExpense_balanceSheet]
      have h := double_applyDelta_total m.balanceSheet_ delta
      rw [abs_le] at h
      have h1 := abs_add (BalanceMap.total m.balanceSheet_.balances_) (BalanceMap.total delta)
      have h2 := neg_abs_le (BalanceMap.total m.balanceSheet_.balances_ + BalanceMap.total delta)
      have h3 := le_abs_self (BalanceMap.total m.balanceSheet_.balances_ + BalanceMap.total delta)
      rw [abs_le]
      constructor <;> linarith [h.1, h.2]

theorem double_run_total_le (m : SplitwiseManager) (calls : List SplitwiseManager.Call) :
    |(Double.run m calls).getAllBalances.total|
      ≤ |m.getAllBalances.total| + Double.totalSlack m calls := by
  induction calls generalizing m with
  | nil => simp [Double.run, Double.totalSlack]
  | cons call rest ih =>
    have h1 := double_exec_total_le m call
    have h2 := ih (Double.exec m call)
    simp only [Double.run, List.foldl_cons, Double.totalSlack] at h2 ⊢
    linarith

theorem double_appliedDelta_computed (m : SplitwiseManager) (call : SplitwiseManager.Call)
    (delta : BalanceMap) (h : Double.appliedDelta m call = some delta) :
    ∃ strat input, Double.computeSplits strat input = .ok delta := by
  cases call with
  | addExpense groupId description input strategy =>
    unfold Double.appliedDelta at h
    dsimp only at h
    cases hc : Double.checkExpense m groupId input strategy with
    | error e => rw [hc] at h; simp at h
    | ok p =>
      obtain ⟨strat, d⟩ := p
      rw [hc] at h
      simp only [Option.some.injEq] at h
      subst h
      unfold Double.checkExpense at hc
      split at hc
      · simp at hc
      · next strat0 =>
        split at hc
        · simp at hc
        · split_ifs at hc
          split at hc
          · simp at hc
          · split at hc
            · simp at hc
            · next delta0 hd =>
              simp only [Except.ok.injEq, Prod.mk.injEq] at hc
              obtain ⟨h1, h2⟩ := hc
              subst h1 h2
              exact ⟨_, _, hd⟩
  | addUser name => simp [Double.appliedDelta] at h
  | addGroup name memberIds => simp [Double.appliedDelta] at h
  | setNotifier notifier => simp [Double.appliedDelta] at h
  | setNotificationThreshold threshold => simp [Double.appliedDelta] at h

/-- C1, as the code has it: after any sequence of calls on a fresh manager the sum of all
balances is within the slack of the sequence of 0, where each `addExpense` that passes the
checks adds to the slack the magnitude of the sum of its delta and, for each entry of its
delta, `1e-9` (a balance below `1e-9` is reset to zero) and the rounding of the addition
to the balance, `2^-53 * |balance + change| + 2^-1075`.  The delta is that of a strategy,
and its sum is within `loopError` of the amount less the shares debited. -/
theorem balances_total_rounded (calls : List SplitwiseManager.Call) :
    |(Double.run {} calls).getAllBalances.total| ≤ Double.totalSlack {} calls
    ∧ (∀ (m : SplitwiseManager) (call : SplitwiseManager.Call) (delta : BalanceMap),
        Double.appliedDelta m call = some delta →
        ∃ strat input, Double.computeSplits strat input = .ok delta
          ∧ |delta.total - (binary64 input.amount - (Double.debitedShares strat input).sum)|
            ≤ loopError (Double.debitedShares strat input).length
                (|binary64 input.amount|
                  + ((Double.debitedShares strat input).map (fun c => |c|)).sum)) := by
  constructor
  · have h := double_run_total_le {} calls
    have h0 : |(SplitwiseManager.getAllBalances {}).total| = 0 := by
      simp [SplitwiseManager.getAllBalances, BalanceSheet.getBalances, BalanceMap.total]
    linarith
  · intro m call delta h
    obtain ⟨strat, input, hd⟩ := double_appliedDelta_computed m call delta h
    exact ⟨strat, input, hd, double_delta_total strat input delta hd⟩

/-- C1 fails as stated: on a fresh manager with three users in one group, six Equal splits
of 1e9 paid by USR1 among the three all succeed, and leave balances that sum to 3 * 2^-21,
about 1.43e-6, which is more than 1e-6: the share 1e9 / 3 is rounded, and so are the
additions to the balances. -/
theorem balances_total_drifts :
    (Double.addExpense (Double.run {} (threeFriends ++ List.replicate 5 billionSplit))
        "GRP1" "rent" billionAmongThree (some .equal)).result = .ok "EXP6"
    ∧ (Double.run {} (threeFriends ++ List.replicate 6 billionSplit)).getExpenses.length = 6
    ∧ (Double.run {} (threeFriends ++ List.replicate 6 billionSplit)).getAllBalances
      = [("USR1", 4194304000000001 / 1048576), ("USR2", -(8388607999999999 / 4194304)),
         ("USR3", -(8388607999999999 / 4194304))]
    ∧ BalanceMap.total [("USR1", 4194304000000001 / 1048576),
        ("USR2", -(8388607999999999 / 4194304)), ("USR3", -(8388607999999999 / 4194304))]
      = 3 / 2097152
    ∧ ¬ |BalanceMap.total [("USR1", (4194304000000001 : ℚ) / 1048576),
        ("USR2", -(8388607999999999 / 4194304)), ("USR3", -(8388607999999999 / 4194304))]|
        ≤ 1 / 1000000 := by
  decide!

/-! ## Recomputing after a short history: claim C34 -/

end Splitwise
